import Mathlib

/-!
# Ordered key-value collections: tree, array and hash table backings

A verification development for `avl_collection.h`, `rbt_collection.h`,
`bst_collection.h`, `array_list.h`, `array_list_collection.h`,
`bin_search_collection.h` and `hash_table_collection.h`.

* The AVL tree is built by functions that take a subtree root and hand the new
  subtree root back to the caller, so its embedding is an inductive tree whose
  `nil` constructor is the null pointer.  A dereference of a null pointer is
  undefined behaviour in the source; here it is the result `none`.
* The red-black tree uses parent pointers and in-place mutation, so its
  embedding is a store of cells addressed by natural numbers.
* The plain binary search tree is extended at a null pointer by `add`, and its
  `remove` helper hands the new subtree root back to the caller, so its
  embedding is an inductive tree as well.
* The array list is the list of the cells of its array, a cell being `none`
  until it is assigned, with the fields `capacity` and `length`.  A read of a
  cell outside the array or of a cell that was never assigned is the result
  `none`, and so is a write outside the array.  Loops are functions with a
  count of the rounds left.
* The sorted array collection and the plain array collection hold an array list
  of pairs; the hash table is the list of its chains, and its operations take
  the hash function as a parameter.

Keys are drawn from a linear order (the template parameter `K` with its
comparison operators), values from any type.  `size_t` is taken to be 64 bits,
`int` to be 32 bits; a step of an `int` counter past its greatest value is
undefined behaviour in the source and the result `none` here.
-/

set_option autoImplicit false
set_option linter.unusedSectionVars false

/-! ## Definitions -/

/-- One more than the largest `size_t` value. -/
def SIZE_T_MOD : Nat := 2 ^ 64

/-- The `++` of a `size_t` counter. -/
def size_t_incr (n : Nat) : Nat := (n + 1) % SIZE_T_MOD

/-- The `--` of a `size_t` counter (wraps around at zero). -/
def size_t_decr (n : Nat) : Nat := (n + SIZE_T_MOD - 1) % SIZE_T_MOD

namespace AVLCollection

/-- The `Node*` of `AVLCollection`: `nil` is `nullptr`, `node` a pointer to a
live node with its five fields. -/
inductive Node (K V : Type) where
  | nil : Node K V
  | node (key : K) (value : V) (height : Int) (left right : Node K V) : Node K V
  deriving Repr, DecidableEq

namespace Node

variable {K V : Type}

/-- The read `p->height`; `none` when `p` is null. -/
def height? : Node K V → Option Int
  | nil => none
  | node _ _ h _ _ => some h

/-- The update `p->height += d`; `none` when `p` is null. -/
def add_height (d : Int) : Node K V → Option (Node K V)
  | nil => none
  | node k v h l r => some (node k v (h + d) l r)

/-- The update `p->left->height += d`. -/
def add_left_height (d : Int) : Node K V → Option (Node K V)
  | nil => none
  | node k v h l r => (add_height d l).map fun l1 => node k v h l1 r

/-- The update `p->right->height += d`. -/
def add_right_height (d : Int) : Node K V → Option (Node K V)
  | nil => none
  | node k v h l r => (add_height d r).map fun r1 => node k v h l r1

/-- Source `rotate_right(k2)`: `k1 = k2->left; k2->left = k1->right;
k1->right = k2; return k1`. -/
def rotate_right : Node K V → Option (Node K V)
  | node key2 v2 h2 (node key1 v1 h1 a b) c => some (node key1 v1 h1 a (node key2 v2 h2 b c))
  | _ => none

/-- Source `rotate_left(k2)`: `k1 = k2->right; k2->right = k1->left;
k1->left = k2; return k1`. -/
def rotate_left : Node K V → Option (Node K V)
  | node key2 v2 h2 a (node key1 v1 h1 b c) => some (node key1 v1 h1 (node key2 v2 h2 a b) c)
  | _ => none

/-- The left-left branch of `rebalance`: one right rotation, then
`subtree_root->right->height -= 2`. -/
def single_right (subtree_root : Node K V) : Option (Node K V) := do
  let s ← rotate_right subtree_root
  add_right_height (-2) s

/-- The right-right branch of `rebalance`: one left rotation, then
`subtree_root->left->height -= 2`. -/
def single_left (subtree_root : Node K V) : Option (Node K V) := do
  let s ← rotate_left subtree_root
  add_left_height (-2) s

/-- The left-right branch of `rebalance`: `subtree_root->left = rotate_left(lptr)`,
`subtree_root = rotate_right(subtree_root)`, then the three height updates. -/
def double_left_right : Node K V → Option (Node K V)
  | nil => none
  | node k v h lptr rptr => do
    let l1 ← rotate_left lptr
    let s ← rotate_right (node k v h l1 rptr)
    let s ← add_height 1 s
    let s ← add_left_height (-1) s
    add_right_height (-2) s

/-- The right-left branch of `rebalance`: `subtree_root->right = rotate_right(rptr)`,
`subtree_root = rotate_left(subtree_root)`, then the three height updates. -/
def double_right_left : Node K V → Option (Node K V)
  | nil => none
  | node k v h lptr rptr => do
    let r1 ← rotate_right rptr
    let s ← rotate_left (node k v h lptr r1)
    let s ← add_height 1 s
    let s ← add_right_height (-1) s
    add_left_height (-2) s

/-- Source `rebalance(subtree_root)`.  The three outer branches are the three
arms of the `if / else if / else if` chain on `lptr` and `rptr`; the reads
`lptr->left->height` and the like are `height?`, so a null grandchild there
gives `none`. -/
def rebalance (subtree_root : Node K V) : Option (Node K V) :=
  match subtree_root with
  | nil => some nil
  | node _ _ _ (node _ _ lh ll lr) nil =>
    -- left child but no right child
    if lh > 1 then
      match ll, lr with
      | node _ _ _ _ _, nil => single_right subtree_root
      | nil, node _ _ _ _ _ => double_left_right subtree_root
      | _, _ => some subtree_root
    else some subtree_root
  | node _ _ _ nil (node _ _ rh rl rr) =>
    -- right child but no left child
    if rh > 1 then
      match rl, rr with
      | node _ _ _ _ _, nil => double_right_left subtree_root
      | nil, node _ _ _ _ _ => single_left subtree_root
      | _, _ => some subtree_root
    else some subtree_root
  | node _ _ _ (node _ _ lh ll lr) (node _ _ rh rl rr) =>
    -- both children
    if lh - rh > 1 then do
      let a ← height? ll
      let b ← height? lr
      if a - b > 0 then single_right subtree_root
      else if a - b < 0 then double_left_right subtree_root
      else some subtree_root
    else if lh - rh < -1 then do
      let a ← height? rl
      let b ← height? rr
      if a - b > 0 then double_right_left subtree_root
      else if a - b < 0 then single_left subtree_root
      else some subtree_root
    else some subtree_root
  | node _ _ _ nil nil => some subtree_root

/-- The block "adjust (calculate) heights" of the `add` helper: the new value of
`subtree_root->height`.  With no child the field keeps its value `h`. -/
def add_adjusted_height (h : Int) : Node K V → Node K V → Int
  | node _ _ lh _ _, nil => lh + 1
  | nil, node _ _ rh _ _ => rh + 1
  | node _ _ lh _ _, node _ _ rh _ _ => if lh > rh then lh + 1 else rh + 1
  | nil, nil => h

/-- The block "adjust (calculate) heights" of the `remove` helper: as in `add`,
with the final `else` that stores 1. -/
def remove_adjusted_height : Node K V → Node K V → Int
  | node _ _ lh _ _, nil => lh + 1
  | nil, node _ _ rh _ _ => rh + 1
  | node _ _ lh _ _, node _ _ rh _ _ => if lh > rh then lh + 1 else rh + 1
  | nil, nil => 1

variable [LinearOrder K]

/-- Source helper `add(subtree_root, key, val)`. -/
def add : Node K V → K → V → Option (Node K V)
  | nil, key, val => rebalance (node key val 1 nil nil)
  | node k v h l r, key, val =>
    if key ≤ k then do
      let l1 ← add l key val
      rebalance (node k v (add_adjusted_height h l1 r) l1 r)
    else do
      let r1 ← add r key val
      rebalance (node k v (add_adjusted_height h l r1) l r1)

/-- The tail of the `remove` helper: recompute the height of `subtree_root`
from its children, then `return rebalance(subtree_root)`. -/
def remove_finish : Node K V → Option (Node K V)
  | nil => none
  | node k v _ l r => rebalance (node k v (remove_adjusted_height l r) l r)

/-- The loop `while(successor->left) successor = successor->left` of the
`remove` helper, started at a node with key `k` and value `v`: the key and
value of the leftmost node. -/
def leftmost (k : K) (v : V) : Node K V → K × V
  | nil => (k, v)
  | node k1 v1 _ l _ => leftmost k1 v1 l

/-- Source helper `remove(subtree_root, key)`. -/
def remove : Node K V → K → Option (Node K V)
  | nil, _ => some nil
  | node k v h l r, key =>
    if key < k then do
      let l1 ← remove l key
      remove_finish (node k v h l1 r)
    else if key > k then do
      let r1 ← remove r key
      remove_finish (node k v h l r1)
    else
      match l, r with
      | nil, nil => some nil
      | node lk lv lh ll lr, nil => remove_finish (node lk lv lh ll lr)
      | nil, node rk rv rh rl rr => remove_finish (node rk rv rh rl rr)
      | node lk lv lh ll lr, node sk sv _ nil sr => do
        -- special case: the successor is the right child
        let r1 ← remove sr sk
        remove_finish (node sk sv h (node lk lv lh ll lr) r1)
      | node lk lv lh ll lr, node sk sv sh (node ak av ah al ar) sr => do
        -- normal case: the successor is the leftmost node of the right subtree
        let s := leftmost ak av al
        let r1 ← remove (node sk sv sh (node ak av ah al ar) sr) s.1
        remove_finish (node s.1 s.2 h (node lk lv lh ll lr) r1)

/-- Source helper `keys(subtree_root, all_keys)`: in-order traversal appending
to the list `all_keys`. -/
def keys : Node K V → List K → List K
  | nil, all_keys => all_keys
  | node k _ _ l r, all_keys => keys r (keys l all_keys ++ [k])

/-- Number of nodes of a subtree. -/
def count : Node K V → Nat
  | nil => 0
  | node _ _ _ l r => count l + 1 + count r

/-- The actual height of a subtree: 0 for the null pointer, otherwise one more
than the larger of the heights of the two children. -/
def tree_height : Node K V → Nat
  | nil => 0
  | node _ _ _ l r => max (tree_height l) (tree_height r) + 1

/-- Every node satisfies `|height(left) - height(right)| ≤ 1`, with the actual
subtree heights. -/
def Balanced : Node K V → Prop
  | nil => True
  | node _ _ _ l r =>
    Int.natAbs ((tree_height l : Int) - (tree_height r : Int)) ≤ 1 ∧ Balanced l ∧ Balanced r

/-- `Balanced` can be computed. -/
instance Balanced.instDecidable : (t : Node K V) → Decidable (Balanced t)
  | nil => isTrue trivial
  | node _ _ _ l r =>
    let _ := Balanced.instDecidable l
    let _ := Balanced.instDecidable r
    inferInstanceAs (Decidable
      (Int.natAbs ((tree_height l : Int) - (tree_height r : Int)) ≤ 1 ∧ Balanced l ∧ Balanced r))

/-- Every node's `height` field holds the actual height of its subtree. -/
def HeightsExact : Node K V → Prop
  | nil => True
  | node _ _ h l r =>
    h = ((max (tree_height l) (tree_height r) + 1 : Nat) : Int) ∧ HeightsExact l ∧ HeightsExact r

/-- `HeightsExact` can be computed. -/
instance HeightsExact.instDecidable : (t : Node K V) → Decidable (HeightsExact t)
  | nil => isTrue trivial
  | node _ _ h l r =>
    let _ := HeightsExact.instDecidable l
    let _ := HeightsExact.instDecidable r
    inferInstanceAs (Decidable
      (h = ((max (tree_height l) (tree_height r) + 1 : Nat) : Int) ∧ HeightsExact l ∧ HeightsExact r))

/-- A subtree whose height has just grown by an insertion: a single node, or a
node whose two children have different heights. -/
def Grown : Node K V → Prop
  | nil => False
  | node _ _ _ l r => tree_height l ≠ tree_height r ∨ (l = nil ∧ r = nil)

end Node

end AVLCollection

/-- The class `AVLCollection<K,V>`: the root pointer and the node counter. -/
structure AVLCollection (K V : Type) where
  root : AVLCollection.Node K V
  node_count : Nat
  deriving Repr, DecidableEq

namespace AVLCollection

variable {K V : Type}

/-- The constructor `AVLCollection()`. -/
def empty : AVLCollection K V := ⟨Node.nil, 0⟩

/-- Source `size()`. -/
def size (c : AVLCollection K V) : Nat := c.node_count

/-- Source `keys(all_keys)`. -/
def keys (c : AVLCollection K V) (all_keys : List K) : List K :=
  Node.keys c.root all_keys

/-- Source `sort(all_keys_sorted)`, which calls `keys`. -/
def sort (c : AVLCollection K V) (all_keys_sorted : List K) : List K :=
  c.keys all_keys_sorted

variable [LinearOrder K]

/-- Source `add(key, val)`: `root = add(root, key, val); ++node_count`. -/
def add (c : AVLCollection K V) (key : K) (val : V) : Option (AVLCollection K V) := do
  let r ← Node.add c.root key val
  pure ⟨r, size_t_incr c.node_count⟩

/-- Source `remove(key)`: `root = remove(root, key); --node_count`. -/
def remove (c : AVLCollection K V) (key : K) : Option (AVLCollection K V) := do
  let r ← Node.remove c.root key
  pure ⟨r, size_t_decr c.node_count⟩

/-- The collection after `add` calls for the listed pairs, in order, on the
empty collection. -/
def add_all (kvs : List (K × V)) : Option (AVLCollection K V) :=
  kvs.foldlM (fun c kv => c.add kv.1 kv.2) empty

end AVLCollection

namespace RBTCollection

/-- The enumeration `color_t`. -/
inductive color_t where
  | RED : color_t
  | BLACK : color_t
  deriving Repr, DecidableEq

/-- A `Node*`: `none` is `nullptr`, `some a` the address `a`. -/
abbrev Ptr := Option Nat

/-- The `struct Node` of `RBTCollection`.  The fields `key` and `value` are
`none` as long as nothing has been stored in them (the sentinel of `remove`
never gets a key or a value). -/
structure Node (K V : Type) where
  key : Option K
  value : Option V
  left : Ptr
  right : Ptr
  parent : Ptr
  color : color_t
  deriving Repr, DecidableEq

end RBTCollection

/-- The class `RBTCollection<K,V>` together with the store its pointers refer
to.  `mem a` is the node at address `a`, or `none` when nothing is allocated
there (never allocated, or deleted); `next` is the address `new` hands out next,
so a deleted address is never reused. -/
structure RBTCollection (K V : Type) where
  mem : Nat → Option (RBTCollection.Node K V)
  next : Nat
  root : RBTCollection.Ptr
  node_count : Nat

namespace RBTCollection

variable {K V : Type}

/-- The constructor `RBTCollection()`. -/
def empty : RBTCollection K V := ⟨fun _ => none, 0, none, 0⟩

/-- The dereference `*p`: `none` for the null pointer and for an address that
holds no node. -/
def deref (c : RBTCollection K V) (p : Ptr) : Option (Node K V) := p.bind c.mem

/-- The read `p->key`. -/
def key (c : RBTCollection K V) (p : Ptr) : Option K := (c.deref p).bind Node.key

/-- The read `p->value`. -/
def value (c : RBTCollection K V) (p : Ptr) : Option V := (c.deref p).bind Node.value

/-- The read `p->left`. -/
def left (c : RBTCollection K V) (p : Ptr) : Option Ptr := (c.deref p).map Node.left

/-- The read `p->right`. -/
def right (c : RBTCollection K V) (p : Ptr) : Option Ptr := (c.deref p).map Node.right

/-- The read `p->parent`. -/
def parent (c : RBTCollection K V) (p : Ptr) : Option Ptr := (c.deref p).map Node.parent

/-- The read `p->color`. -/
def color (c : RBTCollection K V) (p : Ptr) : Option color_t := (c.deref p).map Node.color

/-- The store with the node at address `a` replaced by `n`. -/
def store (c : RBTCollection K V) (a : Nat) (n : Node K V) : RBTCollection K V :=
  { c with mem := fun b => if b = a then some n else c.mem b }

/-- The write `*p = f(*p)` of one field. -/
def modify (c : RBTCollection K V) (p : Ptr) (f : Node K V → Node K V) :
    Option (RBTCollection K V) :=
  match p with
  | none => none
  | some a => (c.mem a).map fun n => c.store a (f n)

/-- The write `p->key = k`. -/
def set_key (c : RBTCollection K V) (p : Ptr) (k : K) : Option (RBTCollection K V) :=
  c.modify p fun n => { n with key := some k }

/-- The write `p->value = v`. -/
def set_value (c : RBTCollection K V) (p : Ptr) (v : V) : Option (RBTCollection K V) :=
  c.modify p fun n => { n with value := some v }

/-- The write `p->left = q`. -/
def set_left (c : RBTCollection K V) (p q : Ptr) : Option (RBTCollection K V) :=
  c.modify p fun n => { n with left := q }

/-- The write `p->right = q`. -/
def set_right (c : RBTCollection K V) (p q : Ptr) : Option (RBTCollection K V) :=
  c.modify p fun n => { n with right := q }

/-- The write `p->parent = q`. -/
def set_parent (c : RBTCollection K V) (p q : Ptr) : Option (RBTCollection K V) :=
  c.modify p fun n => { n with parent := q }

/-- The write `p->color = col`. -/
def set_color (c : RBTCollection K V) (p : Ptr) (col : color_t) : Option (RBTCollection K V) :=
  c.modify p fun n => { n with color := col }

/-- The statement `delete p`. -/
def delete (c : RBTCollection K V) (p : Ptr) : Option (RBTCollection K V) :=
  match p with
  | none => some c
  | some a => (c.mem a).map fun _ => { c with mem := fun b => if b = a then none else c.mem b }

/-- The statements `if(!k2->parent) root = k1; else{ if(k2 == k2->parent->right)
k2->parent->right = k1; else k2->parent->left = k1; }` of both rotations. -/
def relink (c : RBTCollection K V) (k2 k1 : Ptr) : Option (RBTCollection K V) := do
  let k2p ← c.parent k2
  if k2p.isNone then pure { c with root := k1 }
  else do
    let k2pr ← c.right k2p
    if k2 = k2pr then c.set_right k2p k1 else c.set_left k2p k1

/-- The statement `if(q) q->parent = p` of both rotations. -/
def set_parent_if_present (c : RBTCollection K V) (q p : Ptr) : Option (RBTCollection K V) :=
  if q.isSome then c.set_parent q p else pure c

/-- Source `rotate_right(k2)`. -/
def rotate_right (c : RBTCollection K V) (k2 : Ptr) : Option (RBTCollection K V) := do
  let k1 ← c.left k2
  let k1r ← c.right k1
  let c ← c.set_left k2 k1r
  let k2l ← c.left k2
  let c ← c.set_parent_if_present k2l k2
  let c ← c.set_right k1 k2
  let k2p ← c.parent k2
  let c ← c.set_parent k1 k2p
  let c ← c.relink k2 k1
  c.set_parent k2 k1

/-- Source `rotate_left(k2)`. -/
def rotate_left (c : RBTCollection K V) (k2 : Ptr) : Option (RBTCollection K V) := do
  let k1 ← c.right k2
  let k1l ← c.left k1
  let c ← c.set_right k2 k1l
  let k2r ← c.right k2
  let c ← c.set_parent_if_present k2r k2
  let c ← c.set_left k1 k2
  let k2p ← c.parent k2
  let c ← c.set_parent k1 k2p
  let c ← c.relink k2 k1
  c.set_parent k2 k1

/-- The condition of "case 1 - color flip" in `add_rebalance`:
`lptr && rptr && x->color == BLACK && lptr->color == RED && rptr->color == RED`,
evaluated left to right. -/
def flip_condition (c : RBTCollection K V) (x lptr rptr : Ptr) : Option Bool :=
  if lptr.isSome then
    if rptr.isSome then do
      let xc ← c.color x
      if xc = color_t.BLACK then do
        let lc ← c.color lptr
        if lc = color_t.RED then do
          let rc ← c.color rptr
          pure (decide (rc = color_t.RED))
        else pure false
      else pure false
    else pure false
  else pure false

/-- The condition `p && p->color == RED && x->color == RED` of `add_rebalance`. -/
def red_red_condition (c : RBTCollection K V) (x p : Ptr) : Option Bool :=
  if p.isSome then do
    let pc ← c.color p
    if pc = color_t.RED then do
      let xc ← c.color x
      pure (decide (xc = color_t.RED))
    else pure false
  else pure false

/-- The body of `if(p && p->color == RED && x->color == RED)` in
`add_rebalance`. -/
def add_rotations (c : RBTCollection K V) (x p : Ptr) : Option (RBTCollection K V) := do
  let g ← c.parent p
  let in_right ← (if g.isSome then do
    let gr ← c.right g
    pure (decide (p = gr)) else pure false)
  if in_right then do
    -- right cases
    let pl ← c.left p
    if x = pl then do
      let c ← c.rotate_right p
      let c ← c.rotate_left g
      let c ← c.set_color x color_t.BLACK
      c.set_color g color_t.RED
    else do
      let pr ← c.right p
      if x = pr then do
        let c ← c.rotate_left g
        let c ← c.set_color p color_t.BLACK
        c.set_color g color_t.RED
      else pure c
  else do
    let in_left ← (if g.isSome then do
      let gl ← c.left g
      pure (decide (p = gl)) else pure false)
    if in_left then do
      -- left cases
      let pl ← c.left p
      if x = pl then do
        let c ← c.rotate_right g
        let c ← c.set_color p color_t.BLACK
        c.set_color g color_t.RED
      else do
        let pr ← c.right p
        if x = pr then do
          let c ← c.rotate_left p
          let c ← c.rotate_right g
          let c ← c.set_color x color_t.BLACK
          c.set_color g color_t.RED
        else pure c
    else pure c

/-- The statement "case 1 - color flip" of `add_rebalance`. -/
def color_flip (c : RBTCollection K V) (x lptr rptr : Ptr) : Option (RBTCollection K V) := do
  let flip ← c.flip_condition x lptr rptr
  if flip then do
    let c ← c.set_color x color_t.RED
    let c ← c.set_color lptr color_t.BLACK
    c.set_color rptr color_t.BLACK
  else pure c

/-- The statement `if(p && p->color == RED && x->color == RED){ ... }` of
`add_rebalance`. -/
def red_red_fix (c : RBTCollection K V) (x p : Ptr) : Option (RBTCollection K V) := do
  let rr ← c.red_red_condition x p
  if rr then c.add_rotations x p else pure c

/-- Source `add_rebalance(x)`. -/
def add_rebalance (c : RBTCollection K V) (x : Ptr) : Option (RBTCollection K V) :=
  if x.isNone then some c
  else do
    let p ← c.parent x
    let lptr ← c.left x
    let rptr ← c.right x
    let c ← c.color_flip x lptr rptr
    c.red_red_fix x p

variable [LinearOrder K]

/-- The loop `while(x)` of `add`, run for at most `fuel` rounds: the store and
the pointer `p` when the loop is left, `none` when `fuel` rounds do not suffice. -/
def add_loop (a_key : K) : Nat → RBTCollection K V → Ptr → Ptr → Option (RBTCollection K V × Ptr)
  | _, c, none, p => some (c, p)
  | 0, _, some _, _ => none
  | fuel + 1, c, some x, _ => do
    let c ← c.add_rebalance (some x)
    let k ← c.key (some x)
    let x1 ← if a_key ≤ k then c.left (some x) else c.right (some x)
    add_loop a_key fuel c x1 (some x)

/-- The part "add the new node at the correct location in the tree" of `add`,
for the new node `n` and the pointer `p` left by the loop. -/
def link (c : RBTCollection K V) (a_key : K) (p n : Ptr) : Option (RBTCollection K V) :=
  if p.isNone then pure { c with root := n }
  else do
    let pk ← c.key p
    if a_key ≤ pk then do
      let c ← c.set_left p n
      let c ← c.set_parent n p
      c.add_rebalance n
    else do
      let c ← c.set_right p n
      let c ← c.set_parent n p
      c.add_rebalance n

/-- Source `add(a_key, a_val)`.  The loop gets `2 * (number of addresses handed
out) + 2` rounds. -/
def add (c : RBTCollection K V) (a_key : K) (a_val : V) : Option (RBTCollection K V) := do
  -- Node* n = new Node, with its six fields set
  let n : Ptr := some c.next
  let c : RBTCollection K V :=
    { c.store c.next ⟨some a_key, some a_val, none, none, none, color_t.RED⟩
      with next := c.next + 1 }
  let cp ← add_loop a_key (2 * c.next + 2) c c.root none
  let c ← cp.1.link a_key cp.2 n
  let c ← c.set_color c.root color_t.BLACK
  pure { c with node_count := size_t_incr c.node_count }

/-- The collection after `add` calls for the listed pairs, in order, on the
empty collection. -/
def add_all (kvs : List (K × V)) : Option (RBTCollection K V) :=
  kvs.foldlM (fun c kv => c.add kv.1 kv.2) empty

end RBTCollection

namespace RBTCollection

variable {K V : Type}

/-- The test `q && q->color == RED`. -/
def is_red (c : RBTCollection K V) (q : Ptr) : Option Bool :=
  if q.isSome then (c.color q).map fun col => decide (col = color_t.RED) else some false

/-- The test `!q || q->color == BLACK`. -/
def is_null_or_black (c : RBTCollection K V) (q : Ptr) : Option Bool :=
  if q.isNone then some true else (c.color q).map fun col => decide (col = color_t.BLACK)

/-- The operator `||`: the right operand is evaluated only when the left one
is false. -/
def or_else (a b : Option Bool) : Option Bool :=
  a.bind fun x => if x then some true else b

/-- The operator `&&`: the right operand is evaluated only when the left one
is true. -/
def and_then (a b : Option Bool) : Option Bool :=
  a.bind fun x => if x then b else some false

/-- The branch "case 3 & 4 - rotations" of `remove_rebalance`. -/
def remove_rotations (c : RBTCollection K V) (x p t : Ptr) : Option (RBTCollection K V) := do
  let tl ← c.left t
  let tl_red ← c.is_red tl
  if tl_red then do
    let r := tl
    let pl ← c.left p
    if t = pl then do
      -- case 3 - t has an outside RED child
      let c ← c.rotate_right p
      let c ← c.set_color t color_t.RED
      let c ← c.set_color r color_t.BLACK
      let c ← c.set_color x color_t.RED
      c.set_color p color_t.BLACK
    else do
      let pr ← c.right p
      if t = pr then do
        -- case 4 - t has an inside RED child
        let c ← c.rotate_right t
        let c ← c.rotate_left p
        let c ← c.set_color p color_t.BLACK
        c.set_color x color_t.RED
      else pure c
  else do
    let tr ← c.right t
    let tr_red ← c.is_red tr
    if tr_red then do
      let r := tr
      let pl ← c.left p
      if t = pl then do
        -- case 4 - t has an inside RED child
        let c ← c.rotate_left t
        let c ← c.rotate_right p
        let c ← c.set_color p color_t.BLACK
        c.set_color x color_t.RED
      else do
        let pr ← c.right p
        if t = pr then do
          -- case 3 - t has an outside RED child
          let c ← c.rotate_left p
          let c ← c.set_color t color_t.RED
          let c ← c.set_color r color_t.BLACK
          let c ← c.set_color x color_t.RED
          c.set_color p color_t.BLACK
        else pure c
    else pure c

/-- The statements `Node* t = p; if(x == p->left) t = p->right;
if(x == p->right) t = p->left;` of `remove_rebalance`. -/
def sibling (c : RBTCollection K V) (x p : Ptr) : Option Ptr := do
  let pl ← c.left p
  let t ← if x = pl then c.right p else pure p
  let pr ← c.right p
  if x = pr then c.left p else pure t

/-- The branch "case 1 - x has non-nav RED child" of `remove_rebalance`. -/
def remove_case1 (c : RBTCollection K V) (x lptr rptr : Ptr) (going_right : Bool) :
    Option (RBTCollection K V) := do
  let l_red ← c.is_red lptr
  if l_red = true ∧ going_right = true then do
    let c ← c.rotate_right x
    let c ← c.set_color x color_t.RED
    c.set_color lptr color_t.BLACK
  else do
    let r_red ← c.is_red rptr
    if r_red = true ∧ going_right = false then do
      let c ← c.rotate_left x
      let c ← c.set_color x color_t.RED
      c.set_color rptr color_t.BLACK
    else pure c

/-- The condition of "case 2 - color flip" in `remove_rebalance`:
`t && (!t->left || t->left->color == BLACK) && (!t->right || t->right->color == BLACK)`. -/
def flip_condition2 (c : RBTCollection K V) (t : Ptr) : Option Bool :=
  and_then (some t.isSome)
    (and_then ((c.left t).bind c.is_null_or_black) ((c.right t).bind c.is_null_or_black))

/-- The condition of "case 3 & 4 - rotations" in `remove_rebalance`:
`t && ((t->left && t->left->color == RED) || (t->right && t->right->color == RED))`. -/
def rotation_condition (c : RBTCollection K V) (t : Ptr) : Option Bool :=
  and_then (some t.isSome) (or_else ((c.left t).bind c.is_red) ((c.right t).bind c.is_red))

/-- Source `remove_rebalance(x, going_right)`. -/
def remove_rebalance (c : RBTCollection K V) (x : Ptr) (going_right : Bool) :
    Option (RBTCollection K V) := do
  let xc ← c.color x
  if xc = color_t.RED then pure c
  else do
    let p ← c.parent x
    let t ← c.sibling x p
    let lptr ← c.left x
    let rptr ← c.right x
    let has_red ← or_else (c.is_red lptr) (c.is_red rptr)
    if has_red then c.remove_case1 x lptr rptr going_right
    else do
      let flip ← c.flip_condition2 t
      if flip then do
        -- case 2 - color flip
        let c ← c.set_color p color_t.BLACK
        let c ← c.set_color x color_t.RED
        c.set_color t color_t.RED
      else do
        let rot ← c.rotation_condition t
        if rot then c.remove_rotations x p t else pure c

/-- The statements `if(x == p->left) p->left = q; if(x == p->right) p->right = q;`
of `remove`. -/
def replace_child (c : RBTCollection K V) (p x q : Ptr) : Option (RBTCollection K V) := do
  let pl ← c.left p
  let c ← if x = pl then c.set_left p q else pure c
  let pr ← c.right p
  if x = pr then c.set_right p q else pure c

/-- The loop `while(s->left){ s = s->left; remove_rebalance(s,false); }` of
`remove`, run for at most `fuel` rounds. -/
def successor_loop : Nat → RBTCollection K V → Ptr → Option (RBTCollection K V × Ptr)
  | 0, _, _ => none
  | fuel + 1, c, s => do
    let sl ← c.left s
    if sl.isSome then do
      let c ← c.remove_rebalance sl false
      successor_loop fuel c sl
    else pure (c, s)

variable [LinearOrder K]

/-- The loop `while(x && !found)` of `remove`, run for at most `fuel` rounds:
the store, `x` and `found` when the loop is left. -/
def remove_loop (a_key : K) :
    Nat → RBTCollection K V → Ptr → Option (RBTCollection K V × Ptr × Bool)
  | _, c, none => some (c, none, false)
  | 0, _, some _ => none
  | fuel + 1, c, some x => do
    let k ← c.key (some x)
    if a_key < k then do
      let c ← c.remove_rebalance (some x) false
      let x1 ← c.left (some x)
      remove_loop a_key fuel c x1
    else if a_key > k then do
      let c ← c.remove_rebalance (some x) true
      let x1 ← c.right (some x)
      remove_loop a_key fuel c x1
    else do
      let xl ← c.left (some x)
      let c ← c.remove_rebalance (some x) xl.isSome
      pure (c, some x, true)

/-- The branch "case 1 - 0 or 1 children" of `remove`. -/
def remove_few_children (c : RBTCollection K V) (x p xl xr : Ptr) :
    Option (RBTCollection K V) :=
  if xl.isSome then do
    let tmp := xl
    let c ← c.set_parent tmp p
    let c ← c.replace_child p x tmp
    c.delete x
  else if xr.isSome then do
    let tmp := xr
    let c ← c.set_parent tmp p
    let c ← c.replace_child p x tmp
    c.delete x
  else do
    let c ← c.replace_child p x none
    c.delete x

/-- The branch "special case - successor is the node to the right of x" of
`remove`. -/
def remove_successor_right (c : RBTCollection K V) (x s : Ptr) : Option (RBTCollection K V) := do
  let sk ← c.key s
  let c ← c.set_key x sk
  let sv ← c.value s
  let c ← c.set_value x sv
  let tmp ← c.right x
  let c ← c.set_left tmp none
  c.delete s

/-- The last branch of `remove`: walk to the leftmost node below `s`, copy its
pair into `x` and unlink it. -/
def remove_successor_below (c : RBTCollection K V) (x s : Ptr) : Option (RBTCollection K V) := do
  let (c, s) ← successor_loop (2 * c.next + 2) c s
  let sk ← c.key s
  let c ← c.set_key x sk
  let sv ← c.value s
  let c ← c.set_value x sv
  let s_p ← c.parent s
  let sr ← c.right s
  if sr.isSome then do
    let tmp := sr
    let c ← c.set_left s_p tmp
    let c ← c.set_parent tmp s_p
    c.delete s
  else do
    let c ← c.set_left s_p none
    c.delete s

/-- The part "delete cases" of `remove`, for the node `x` that holds the key. -/
def remove_found (c : RBTCollection K V) (x : Ptr) : Option (RBTCollection K V) := do
  let p ← c.parent x
  let xl ← c.left x
  let xr ← c.right x
  if xl.isNone ∨ xr.isNone then c.remove_few_children x p xl xr
  else do
    -- case 2 - 2 children
    let s := xr
    let c ← c.remove_rebalance s false
    let sl ← c.left s
    if sl.isNone then c.remove_successor_right x s else c.remove_successor_below x s

/-- Source `remove(a_key)`. -/
def remove (c : RBTCollection K V) (a_key : K) : Option (RBTCollection K V) := do
  -- create sentinel Node
  let sentinel : Ptr := some c.next
  let c : RBTCollection K V :=
    { c.store c.next ⟨none, none, none, c.root, none, color_t.RED⟩ with next := c.next + 1 }
  let c ← c.set_parent c.root sentinel
  -- iteratively find the node to delete
  let (c, x, found) ← remove_loop a_key (2 * c.next + 2) c c.root
  if !found then pure c
  else do
    let c ← c.remove_found x
    -- clean up
    let r ← c.right sentinel
    let c : RBTCollection K V := { c with root := r }
    let c ←
      if c.root.isSome then do
        let c ← c.set_parent c.root none
        c.set_color c.root color_t.BLACK
      else pure c
    let c ← c.delete sentinel
    pure { c with node_count := size_t_decr c.node_count }

/-- A subtree read off the store: `nil` for the null pointer, `node` for a live
node with its address, key, value, color and the two subtrees below it. -/
inductive Tree (K V : Type) where
  | nil : Tree K V
  | node (addr : Nat) (key : K) (value : V) (color : color_t) (left right : Tree K V) : Tree K V
  deriving Repr, DecidableEq

/-- The subtree below the pointer `p`, followed for at most `fuel` levels;
`none` when a dangling pointer or a node without key is met on the way, or when
`fuel` levels do not reach the end. -/
def subtree (c : RBTCollection K V) : Nat → Ptr → Option (Tree K V)
  | _, none => some Tree.nil
  | 0, some _ => none
  | fuel + 1, some a => do
    let n ← c.mem a
    let k ← n.key
    let v ← n.value
    let l ← subtree c fuel n.left
    let r ← subtree c fuel n.right
    pure (Tree.node a k v n.color l r)

namespace Tree

/-- Source helper `keys(subtree_root, all_keys)`. -/
def keys : Tree K V → List K → List K
  | nil, all_keys => all_keys
  | node _ k _ _ l r, all_keys => keys r (keys l all_keys ++ [k])

/-- Source helper `black_node_height(subtree_root)`. -/
def black_node_height : Tree K V → Nat
  | nil => 1
  | node _ _ _ col l r =>
    let hl := black_node_height l
    let hr := black_node_height r
    let h := if hl > hr then hl else hr
    if col = color_t.BLACK then 1 + h else h

/-- The color read `q ? q->color : BLACK` of `valid_rbt`. -/
def color_or_black : Tree K V → color_t
  | nil => color_t.BLACK
  | node _ _ _ col _ _ => col

/-- Source helper `valid_rbt(subtree_root)`. -/
def valid_rbt : Tree K V → Bool
  | nil => true
  | node _ _ _ rc l r =>
    let lcc := color_or_black l
    let rcc := color_or_black r
    let lbh := black_node_height l
    let rbh := black_node_height r
    let lv := valid_rbt l
    let rv := valid_rbt r
    decide (lbh = rbh) && (decide (rc ≠ color_t.RED) || (decide (lcc ≠ color_t.RED) && decide (rcc ≠ color_t.RED)))
      && lv && rv

/-- Source helper `height(subtree_root)`. -/
def height : Tree K V → Nat
  | nil => 0
  | node _ _ _ _ l r =>
    let left_height := height l
    let right_height := height r
    if left_height > right_height then left_height + 1 else right_height + 1

end Tree

/-- Source `size()`. -/
def size (c : RBTCollection K V) : Nat := c.node_count

/-- Source `keys(all_keys)`: the traversal of the tree below `root`. -/
def keys (c : RBTCollection K V) (all_keys : List K) : Option (List K) :=
  (c.subtree c.next c.root).map fun t => t.keys all_keys

/-- Source `sort(all_keys_sorted)`, which calls `keys`. -/
def sort (c : RBTCollection K V) (all_keys_sorted : List K) : Option (List K) :=
  c.keys all_keys_sorted

/-- Source `valid_rbt()`: `!root or (root->color == BLACK and valid_rbt(root))`. -/
def valid_rbt (c : RBTCollection K V) : Option Bool :=
  if c.root.isNone then some true
  else do
    let rc ← c.color c.root
    if rc = color_t.BLACK then (c.subtree c.next c.root).map fun t => t.valid_rbt
    else pure false

end RBTCollection

namespace RBTCollection

variable {K V : Type}

namespace Tree

/-- The pointer to the root of a subtree. -/
def ptr : Tree K V → Ptr
  | nil => none
  | node a _ _ _ _ _ => some a

/-- The addresses of the nodes of a subtree. -/
def addrs : Tree K V → List Nat
  | nil => []
  | node a _ _ _ l r => a :: (addrs l ++ addrs r)

/-- The subtree with its root painted `col`. -/
def paint (col : color_t) : Tree K V → Tree K V
  | nil => nil
  | node a k v _ l r => node a k v col l r

/-- The effect of "case 1 - color flip" of `add_rebalance` on the subtree below
`x`: a BLACK root with two RED children becomes RED with two BLACK children. -/
def flip : Tree K V → Tree K V
  | node a k v color_t.BLACK (node la lk lv color_t.RED ll lr) (node ra rk rv color_t.RED rl rr) =>
    node a k v color_t.RED (node la lk lv color_t.BLACK ll lr) (node ra rk rv color_t.BLACK rl rr)
  | t => t

end Tree

/-- The path from a node up to the root: for every ancestor its address, key,
value, color and the subtree on the other side.  `left` means that the path
comes up from the left child, `right` that it comes up from the right child. -/
inductive Path (K V : Type) where
  | top : Path K V
  | left (addr : Nat) (key : K) (value : V) (color : color_t) (up : Path K V)
      (right : Tree K V) : Path K V
  | right (addr : Nat) (key : K) (value : V) (color : color_t) (left : Tree K V)
      (up : Path K V) : Path K V
  deriving Repr

namespace Path

/-- The tree obtained by hanging the subtree `t` at the lower end of the path. -/
def plug : Path K V → Tree K V → Tree K V
  | top, t => t
  | left a k v col up r, t => plug up (Tree.node a k v col t r)
  | right a k v col l up, t => plug up (Tree.node a k v col l t)

/-- The pointer to the lowest node of the path (the parent of what hangs below). -/
def ptr : Path K V → Ptr
  | top => none
  | left a _ _ _ _ _ => some a
  | right a _ _ _ _ _ => some a

/-- The addresses of the nodes on the path and in the subtrees beside it. -/
def addrs : Path K V → List Nat
  | top => []
  | left a _ _ _ up r => a :: (r.addrs ++ addrs up)
  | right a _ _ _ l up => a :: (l.addrs ++ addrs up)

/-- The effect of the rotations of `add_rebalance` for a RED node `x` (the root
of `t`) at the lower end of the path whose parent is RED as well. -/
def rotate : Path K V → Tree K V → Path K V × Tree K V
  | left p pk pv color_t.RED (right g gk gv _ gl up2) sib, Tree.node x k v color_t.RED l r =>
    -- p == g->right, x == p->left: rotate_right(p); rotate_left(g)
    (up2, Tree.node x k v color_t.BLACK (Tree.node g gk gv color_t.RED gl l)
      (Tree.node p pk pv color_t.RED r sib))
  | right p pk pv color_t.RED sib (right g gk gv _ gl up2), Tree.node x k v color_t.RED l r =>
    -- p == g->right, x == p->right: rotate_left(g)
    (right p pk pv color_t.BLACK (Tree.node g gk gv color_t.RED gl sib) up2,
      Tree.node x k v color_t.RED l r)
  | left p pk pv color_t.RED (left g gk gv _ up2 gs) sib, Tree.node x k v color_t.RED l r =>
    -- p == g->left, x == p->left: rotate_right(g)
    (left p pk pv color_t.BLACK up2 (Tree.node g gk gv color_t.RED sib gs),
      Tree.node x k v color_t.RED l r)
  | right p pk pv color_t.RED sib (left g gk gv _ up2 gs), Tree.node x k v color_t.RED l r =>
    -- p == g->left, x == p->right: rotate_left(p); rotate_right(g)
    (up2, Tree.node x k v color_t.BLACK (Tree.node p pk pv color_t.RED sib l)
      (Tree.node g gk gv color_t.RED r gs))
  | path, t => (path, t)

/-- The effect of `add_rebalance(x)` on the path above `x` and the subtree
below `x`. -/
def rebalance (path : Path K V) (t : Tree K V) : Path K V × Tree K V :=
  rotate path t.flip

variable [LinearOrder K]

/-- The effect of the loop `while(x)` of `add`: the path to the place where the
new node is linked. -/
def descend (a_key : K) : Nat → Path K V → Tree K V → Option (Path K V)
  | _, path, Tree.nil => some path
  | 0, _, Tree.node _ _ _ _ _ _ => none
  | fuel + 1, path, Tree.node x k v col l r =>
    match rebalance path (Tree.node x k v col l r) with
    | (path1, Tree.node x1 k1 v1 col1 l1 r1) =>
      if a_key ≤ k1 then descend a_key fuel (left x1 k1 v1 col1 path1 r1) l1
      else descend a_key fuel (right x1 k1 v1 col1 l1 path1) r1
    | (_, Tree.nil) => none

end Path

namespace Tree

variable [LinearOrder K]

/-- The effect of `add(a_key, a_val)` on the tree below `root`, with `n` the
address of the new node and `fuel` the number of rounds of the loop. -/
def add (t : Tree K V) (fuel n : Nat) (a_key : K) (a_val : V) : Option (Tree K V) :=
  (Path.descend a_key fuel Path.top t).map fun path =>
    match path with
    | Path.top => node n a_key a_val color_t.BLACK nil nil
    | path =>
      let pt := Path.rebalance path (node n a_key a_val color_t.RED nil nil)
      (pt.1.plug pt.2).paint color_t.BLACK

end Tree

end RBTCollection

namespace RBTCollection

variable {K V : Type}

/-- The store `mem` holds the subtree `t` below a node whose address is `par`:
every node of `t` sits at its address with its key, value and color, its child
pointers point to the roots of its subtrees and its parent pointer to the node
above it. -/
def Rep (mem : Nat → Option (Node K V)) : Ptr → Tree K V → Prop
  | _, Tree.nil => True
  | par, Tree.node a k v col l r =>
    mem a = some ⟨some k, some v, l.ptr, r.ptr, par, col⟩ ∧ Rep mem (some a) l ∧ Rep mem (some a) r

/-- The store `mem` holds the nodes of the path and the subtrees beside it, the
lowest node of the path having `hole` as the child pointer on the side the path
comes up from. -/
def RepPath (mem : Nat → Option (Node K V)) : Path K V → Ptr → Prop
  | Path.top, _ => True
  | Path.left a k v col up r, hole =>
    mem a = some ⟨some k, some v, hole, r.ptr, up.ptr, col⟩ ∧ Rep mem (some a) r ∧
      RepPath mem up (some a)
  | Path.right a k v col l up, hole =>
    mem a = some ⟨some k, some v, l.ptr, hole, up.ptr, col⟩ ∧ Rep mem (some a) l ∧
      RepPath mem up (some a)

/-- The pointer to the root of the tree `path.plug t`, given the pointer `hole`
to the root of `t`. -/
def Path.root_ptr : Path K V → Ptr → Ptr
  | Path.top, hole => hole
  | Path.left a _ _ _ up _, _ => Path.root_ptr up (some a)
  | Path.right a _ _ _ _ up, _ => Path.root_ptr up (some a)

/-- The collection `c` holds the tree `path.plug t`: `root` points to its root
and the store holds its nodes. -/
structure Holds (c : RBTCollection K V) (path : Path K V) (t : Tree K V) : Prop where
  root : c.root = path.root_ptr t.ptr
  rpath : RepPath c.mem path t.ptr
  rtree : Rep c.mem path.ptr t

/-- The collection `c1` differs from `c` only in `root` and in the nodes at the
addresses in `touched`. -/
structure Frame (c c1 : RBTCollection K V) (touched : List Nat) : Prop where
  next : c1.next = c.next
  count : c1.node_count = c.node_count
  mem : ∀ b, b ∉ touched → c1.mem b = c.mem b

/-- Every step of the path went to the side that the comparison of `a_key` with
the key of the node asks for: left when `a_key ≤ key`, right otherwise. -/
def Path.Routed [LinearOrder K] (a_key : K) : Path K V → Prop
  | Path.top => True
  | Path.left _ k _ _ up _ => a_key ≤ k ∧ Path.Routed a_key up
  | Path.right _ k _ _ _ up => ¬ a_key ≤ k ∧ Path.Routed a_key up

/-- Starting from the collection `c` and touching only the nodes at the
addresses `addrs`, the collection `c1` has been reached, which holds the tree
`path.plug t` made of exactly these nodes. -/
structure Reached (c : RBTCollection K V) (addrs : List Nat) (c1 : RBTCollection K V)
    (path : Path K V) (t : Tree K V) : Prop where
  holds : Holds c1 path t
  perm : (path.addrs ++ t.addrs).Perm addrs
  nodup : addrs.Nodup
  frame : Frame c c1 addrs

end RBTCollection

namespace RBTCollection

variable {K V : Type}

namespace Path

/-- The keys that come before the subtree at the lower end of the path in the
in-order traversal of the whole tree. -/
def keys_before : Path K V → List K
  | top => []
  | left _ _ _ _ up _ => keys_before up
  | right _ k _ _ l up => keys_before up ++ (l.keys [] ++ [k])

/-- The keys that come after the subtree at the lower end of the path in the
in-order traversal of the whole tree. -/
def keys_after : Path K V → List K
  | top => []
  | left _ k _ _ up r => k :: r.keys [] ++ keys_after up
  | right _ _ _ _ _ up => keys_after up

/-- The lowest node of the path is RED. -/
def parent_red : Path K V → Bool
  | top => false
  | left _ _ _ col _ _ => decide (col = color_t.RED)
  | right _ _ _ col _ _ => decide (col = color_t.RED)

end Path

/-- The number of nodes that the search for `a_key` visits in the subtree. -/
def Tree.search_depth [LinearOrder K] (a_key : K) : Tree K V → Nat
  | Tree.nil => 0
  | Tree.node _ k _ _ l r =>
    (if a_key ≤ k then Tree.search_depth a_key l else Tree.search_depth a_key r) + 1

end RBTCollection

namespace RBTCollection

variable {K V : Type}

/-- A BLACK node whose children are not both RED: `add_rebalance` neither flips
nor rotates at such a node. -/
def Tree.Good : Tree K V → Prop
  | Tree.nil => False
  | Tree.node _ _ _ col l r =>
    col = color_t.BLACK ∧ ¬ (l.color_or_black = color_t.RED ∧ r.color_or_black = color_t.RED)

/-- The child that the search for `a_key` enters next. -/
def Tree.key_child [LinearOrder K] (a_key : K) : Tree K V → Tree K V
  | Tree.nil => Tree.nil
  | Tree.node _ k _ _ l r => if a_key ≤ k then l else r

namespace Path

/-- The red-black constraints on the nodes of the path and the subtrees beside
it, for a subtree of black height `h` and root color `hc` at the lower end. -/
def Valid : Path K V → Nat → color_t → Prop
  | top, _, _ => True
  | left _ _ _ col up r, h, hc =>
    r.black_node_height = h ∧ r.valid_rbt = true ∧
      (col = color_t.RED → hc ≠ color_t.RED ∧ r.color_or_black ≠ color_t.RED) ∧
      Valid up (if col = color_t.BLACK then 1 + h else h) col
  | right _ _ _ col l up, h, hc =>
    l.black_node_height = h ∧ l.valid_rbt = true ∧
      (col = color_t.RED → hc ≠ color_t.RED ∧ l.color_or_black ≠ color_t.RED) ∧
      Valid up (if col = color_t.BLACK then 1 + h else h) col

/-- The lowest node of the path has a sibling that is not RED. -/
def sibling_ok : Path K V → Prop
  | top => False
  | left _ _ _ _ up _ =>
    match up with
    | top => False
    | left _ _ _ _ _ s => s.color_or_black ≠ color_t.RED
    | right _ _ _ _ s _ => s.color_or_black ≠ color_t.RED
  | right _ _ _ _ _ up =>
    match up with
    | top => False
    | left _ _ _ _ _ s => s.color_or_black ≠ color_t.RED
    | right _ _ _ _ s _ => s.color_or_black ≠ color_t.RED

/-- The subtree beside the lower end of the path is not RED. -/
def beside_ok : Path K V → Prop
  | top => False
  | left _ _ _ _ _ r => r.color_or_black ≠ color_t.RED
  | right _ _ _ _ l _ => l.color_or_black ≠ color_t.RED

/-- What holds whenever the loop of `add` is about to look at the node `x`, the
root of `t`: the whole tree satisfies the red-black constraints apart from the
color of its root, the path is routed by `a_key`, and wherever a color flip at
or below `x` would put a RED node under a RED parent, a rotation can repair it. -/
def Inv [LinearOrder K] (a_key : K) (path : Path K V) (t : Tree K V) : Prop :=
  t.valid_rbt = true ∧ Valid path t.black_node_height t.color_or_black ∧ Routed a_key path ∧
    (path.parent_red = true → path.sibling_ok ∨ t.Good) ∧
    (t.color_or_black = color_t.RED → path.beside_ok ∨ (t.key_child a_key).Good)

end Path

end RBTCollection

namespace RBTCollection

variable {K V : Type}

/-- The collection holds the tree `T`, made of distinct nodes at allocated
addresses. -/
structure Stored (c : RBTCollection K V) (T : Tree K V) : Prop where
  holds : Holds c Path.top T
  nodup : T.addrs.Nodup
  bound : ∀ a ∈ T.addrs, a < c.next

end RBTCollection

namespace AVLCollection

variable {K V : Type}

namespace Node

variable [LinearOrder K]

/-- The loop `while(cur)` of `find(search_key, return_val)`, started at `cur`:
the returned flag together with the content of `return_val` afterwards. -/
def find (search_key : K) (return_val : V) : Node K V → Bool × V
  | nil => (false, return_val)
  | node k v _ l r =>
    if search_key = k then (true, v)
    else if search_key < k then find search_key return_val l
    else find search_key return_val r

/-- Source helper `find(subtree_root, k1, k2, keys)` of the range lookup; the
list is the content of `keys`, to which `keys.add` appends. -/
def find_range : Node K V → K → K → List K → List K
  | nil, _, _, keys => keys
  | node k _ _ l r, k1, k2, keys =>
    if k < k1 then find_range r k1 k2 keys
    else if k1 ≤ k ∧ k ≤ k2 then find_range l k1 k2 (find_range r k1 k2 (keys ++ [k]))
    else find_range l k1 k2 keys

end Node

/-- Source `height()`: `root->height` converted to `size_t` when `size() > 0`,
else 0; `none` when `root` is null although `size() > 0`. -/
def height (c : AVLCollection K V) : Option Nat :=
  if c.size > 0 then c.root.height?.map fun h => (h % (SIZE_T_MOD : Int)).toNat
  else some 0

variable [LinearOrder K]

/-- Source `find(search_key, return_val)`: the returned flag together with the
content of `return_val` afterwards. -/
def find (c : AVLCollection K V) (search_key : K) (return_val : V) : Bool × V :=
  if c.node_count = 0 then (false, return_val)
  else c.root.find search_key return_val

/-- Source `find(k1, k2, keys)`, the range lookup. -/
def find_range (c : AVLCollection K V) (k1 k2 : K) (keys : List K) : List K :=
  c.root.find_range k1 k2 keys

end AVLCollection

namespace RBTCollection

variable {K V : Type}

/-- Source `height()`: 0 when `size() == 0`, else `height(root)`. -/
def height (c : RBTCollection K V) : Option Nat :=
  if c.size = 0 then some 0
  else (c.subtree c.next c.root).map fun t => t.height

variable [LinearOrder K]

/-- The loop `while(cur)` of `find(search_key, return_val)`, run for at most
`fuel` rounds from `cur`: the returned flag together with the content of
`return_val` afterwards. -/
def find_loop (c : RBTCollection K V) (search_key : K) (return_val : V) :
    Nat → Ptr → Option (Bool × V)
  | _, none => some (false, return_val)
  | 0, some _ => none
  | fuel + 1, some a => do
    let k ← c.key (some a)
    if search_key = k then do
      let v ← c.value (some a)
      pure (true, v)
    else if search_key < k then do
      let l ← c.left (some a)
      find_loop c search_key return_val fuel l
    else do
      let r ← c.right (some a)
      find_loop c search_key return_val fuel r

/-- Source `find(search_key, return_val)`.  The loop gets as many rounds as
addresses have been handed out. -/
def find (c : RBTCollection K V) (search_key : K) (return_val : V) : Option (Bool × V) :=
  if c.node_count = 0 then some (false, return_val)
  else c.find_loop search_key return_val c.next c.root

/-- Source helper `find(subtree_root, k1, k2, keys)` of the range lookup,
followed for at most `fuel` levels. -/
def find_range_below (c : RBTCollection K V) (k1 k2 : K) : Nat → Ptr → List K → Option (List K)
  | _, none, keys => some keys
  | 0, some _, _ => none
  | fuel + 1, some a, keys => do
    let k ← c.key (some a)
    if k < k1 then do
      let r ← c.right (some a)
      find_range_below c k1 k2 fuel r keys
    else if k1 ≤ k ∧ k ≤ k2 then do
      let r ← c.right (some a)
      let keys ← find_range_below c k1 k2 fuel r (keys ++ [k])
      let l ← c.left (some a)
      find_range_below c k1 k2 fuel l keys
    else do
      let l ← c.left (some a)
      find_range_below c k1 k2 fuel l keys

/-- Source `find(k1, k2, keys)`, the range lookup. -/
def find_range (c : RBTCollection K V) (k1 k2 : K) (keys : List K) : Option (List K) :=
  c.find_range_below k1 k2 c.next c.root keys

namespace Tree

/-- The point lookup on the snapshot of a tree. -/
def find (search_key : K) (return_val : V) : Tree K V → Bool × V
  | nil => (false, return_val)
  | node _ k v _ l r =>
    if search_key = k then (true, v)
    else if search_key < k then find search_key return_val l
    else find search_key return_val r

/-- The range lookup on the snapshot of a tree. -/
def find_range : Tree K V → K → K → List K → List K
  | nil, _, _, keys => keys
  | node _ k _ _ l r, k1, k2, keys =>
    if k < k1 then find_range r k1 k2 keys
    else if k1 ≤ k ∧ k ≤ k2 then find_range l k1 k2 (find_range r k1 k2 (keys ++ [k]))
    else find_range l k1 k2 keys

end Tree

end RBTCollection

namespace RBTCollection

variable {K V : Type}

namespace Tree

/-- The root of the subtree is a RED node. -/
def is_red : Tree K V → Bool
  | nil => false
  | node _ _ _ col _ _ => decide (col = color_t.RED)

/-- The invariant "the root (if any) is BLACK". -/
def root_is_black : Tree K V → Bool
  | nil => true
  | node _ _ _ col _ _ => decide (col = color_t.BLACK)

/-- The invariant "no RED node has a RED child". -/
def no_red_red : Tree K V → Bool
  | nil => true
  | node _ _ _ col l r =>
    (decide (col ≠ color_t.RED) || (!is_red l && !is_red r)) && no_red_red l && no_red_red r

/-- The number of BLACK nodes on each path from the root of the subtree down to
an empty-leaf boundary, one entry per path. -/
def black_counts : Tree K V → List Nat
  | nil => [0]
  | node _ _ _ col l r =>
    (black_counts l ++ black_counts r).map fun n => if col = color_t.BLACK then n + 1 else n

/-- The invariant "every path from a node to any descendant empty-leaf boundary
passes through the same number of BLACK nodes", for every node of the subtree. -/
def black_uniform : Tree K V → Bool
  | nil => true
  | node a k v col l r =>
    ((black_counts (node a k v col l r)).all fun m =>
      (black_counts (node a k v col l r)).all fun n => decide (m = n)) &&
    black_uniform l && black_uniform r

end Tree

end RBTCollection

namespace BSTCollection

/-- The `Node*` of `BSTCollection`: `nil` is `nullptr`, `node` a pointer to a
live node with its four fields. -/
inductive Node (K V : Type) where
  | nil : Node K V
  | node (key : K) (value : V) (left right : Node K V) : Node K V
  deriving Repr, DecidableEq

namespace Node

variable {K V : Type}

/-- Source helper `keys(subtree_root, all_keys)`. -/
def keys : Node K V → List K → List K
  | nil, all_keys => all_keys
  | node k _ l r, all_keys => keys r (keys l all_keys ++ [k])

/-- Source helper `height(subtree_root)`. -/
def height : Node K V → Nat
  | nil => 0
  | node _ _ l r =>
    let left_height := height l
    let right_height := height r
    if left_height > right_height then left_height + 1 else right_height + 1

/-- The loop `while(cur)` of `add` followed by the link of the new node `tmp`
below `prev`, as the subtree that `cur` points to afterwards (`tmp` itself where
the loop met the null pointer). -/
def add [LinearOrder K] (key : K) (val : V) : Node K V → Node K V
  | nil => node key val nil nil
  | node k v l r =>
    if key ≤ k then node k v (add key val l) r
    else node k v l (add key val r)

end Node

end BSTCollection

/-- The class `BSTCollection<K,V>`: the root pointer and the node counter. -/
structure BSTCollection (K V : Type) where
  root : BSTCollection.Node K V
  node_count : Nat
  deriving Repr, DecidableEq

namespace BSTCollection

variable {K V : Type}

/-- The constructor `BSTCollection()`. -/
def empty : BSTCollection K V := ⟨Node.nil, 0⟩

/-- Source `size()`. -/
def size (c : BSTCollection K V) : Nat := c.node_count

/-- Source `height()`. -/
def height (c : BSTCollection K V) : Nat := c.root.height

/-- Source `keys(all_keys)`. -/
def keys (c : BSTCollection K V) (all_keys : List K) : List K :=
  c.root.keys all_keys

variable [LinearOrder K]

/-- Source `add(key, val)`.  With `node_count == 0` the new node becomes the
root.  Otherwise the loop starts at `root`; with a null `root` it is not entered
and the link reads the uninitialised `prev`: `none`. -/
def add (c : BSTCollection K V) (key : K) (val : V) : Option (BSTCollection K V) :=
  if c.node_count = 0 then
    some ⟨Node.node key val Node.nil Node.nil, size_t_incr c.node_count⟩
  else
    match c.root with
    | Node.nil => none
    | Node.node k v l r => some ⟨Node.add key val (Node.node k v l r), size_t_incr c.node_count⟩

/-- The collection after `add` calls for the listed pairs, in order, on the
empty collection. -/
def add_all (kvs : List (K × V)) : Option (BSTCollection K V) :=
  kvs.foldlM (fun c kv => c.add kv.1 kv.2) empty

end BSTCollection

namespace BSTCollection

variable {K V : Type}

/-- The tree in which every node has only a right child, holding the listed
pairs from the root downwards. -/
def Node.right_spine : List (K × V) → Node K V
  | [] => Node.nil
  | kv :: rest => Node.node kv.1 kv.2 Node.nil (Node.right_spine rest)

end BSTCollection

/-! ### The order invariant of the two trees -/

namespace AVLCollection.Node

variable {K V : Type} [LinearOrder K]

/-- The order invariant "for every node, all keys in `left` are ≤ node.key, all
keys in `right` are > node.key". -/
def bst_order : Node K V → Bool
  | nil => true
  | node k _ _ l r =>
    (keys l []).all (fun a => decide (a ≤ k)) && (keys r []).all (fun b => decide (k < b)) &&
      bst_order l && bst_order r

/-- The order invariant with ties allowed on both sides: for every node, all
keys in `left` are ≤ node.key and all keys in `right` are ≥ node.key. -/
def bst_order_ties : Node K V → Bool
  | nil => true
  | node k _ _ l r =>
    (keys l []).all (fun a => decide (a ≤ k)) && (keys r []).all (fun b => decide (k ≤ b)) &&
      bst_order_ties l && bst_order_ties r

end AVLCollection.Node

namespace RBTCollection.Tree

variable {K V : Type} [LinearOrder K]

/-- The order invariant "for every node, all keys in `left` are ≤ node.key, all
keys in `right` are > node.key". -/
def bst_order : Tree K V → Bool
  | nil => true
  | node _ k _ _ l r =>
    (keys l []).all (fun a => decide (a ≤ k)) && (keys r []).all (fun b => decide (k < b)) &&
      bst_order l && bst_order r

/-- The order invariant with ties allowed on both sides: for every node, all
keys in `left` are ≤ node.key and all keys in `right` are ≥ node.key. -/
def bst_order_ties : Tree K V → Bool
  | nil => true
  | node _ k _ _ l r =>
    (keys l []).all (fun a => decide (a ≤ k)) && (keys r []).all (fun b => decide (k ≤ b)) &&
      bst_order_ties l && bst_order_ties r

end RBTCollection.Tree

/-! ### Copies of the two trees: `operator=` and the copy constructor -/

namespace AVLCollection

variable {K V : Type}

namespace Node

/-- The write `p->left = q`; `none` when `p` is null. -/
def set_left (q : Node K V) : Node K V → Option (Node K V)
  | nil => none
  | node k v h _ r => some (node k v h q r)

/-- The write `p->right = q`; `none` when `p` is null. -/
def set_right (q : Node K V) : Node K V → Option (Node K V)
  | nil => none
  | node k v h l _ => some (node k v h l q)

/-- Source helper `make_empty(subtree_root)`, as the value of `node_count`
after the nodes of the subtree have been deleted. -/
def make_empty : Node K V → Nat → Nat
  | nil, node_count => node_count
  | node _ _ _ l r, node_count => size_t_decr (make_empty r (make_empty l node_count))

/-- The node `tmp` that `copy` makes for a child of `rhs_subtree_root`: key and
value of the child, `left` and `right` null.  The `height` field is not
assigned; `junk` is what the cell obtained from `new Node` happens to hold. -/
def copy_tmp (junk : Int) : Node K V → Node K V
  | nil => nil
  | node k v _ _ _ => node k v junk nil nil

/-- Source helper `copy(lhs_subtree_root, rhs_subtree_root)`: the node that
`lhs_subtree_root` points to and the value of `node_count` afterwards. -/
def copy (junk : Int) : Node K V → Node K V → Nat → Option (Node K V × Nat)
  | lhs, nil, node_count => some (lhs, node_count)
  | lhs, node _ _ _ rl rr, node_count => do
    let (lhs, node_count) ←
      match rl with
      | nil => some (lhs, node_count)
      | node lk lv lh ll lr => do
        let sub ← copy junk (copy_tmp junk (node lk lv lh ll lr)) rl (size_t_incr node_count)
        let lhs ← set_left sub.1 lhs
        pure (lhs, sub.2)
    match rr with
    | nil => some (lhs, node_count)
    | node rk rv rh rl1 rr1 => do
      let sub ← copy junk (copy_tmp junk (node rk rv rh rl1 rr1)) rr (size_t_incr node_count)
      let lhs ← set_right sub.1 lhs
      pure (lhs, sub.2)

end Node

/-- Source `operator=` for two distinct objects.  When `rhs.root` is null,
`root` is left pointing to a new node none of whose fields is assigned, which is
no tree: `none`. -/
def assign (junk : Int) (lhs rhs : AVLCollection K V) : Option (AVLCollection K V) :=
  let node_count := Node.make_empty lhs.root lhs.node_count
  match rhs.root with
  | Node.nil => none
  | Node.node k v _ _ _ => do
    let res ← Node.copy junk (Node.node k v junk Node.nil Node.nil) rhs.root
      (size_t_incr node_count)
    pure ⟨res.1, res.2⟩

/-- The copy constructor: `node_count(0), root(nullptr)`, then `*this = rhs`. -/
def copy_construct (junk : Int) (rhs : AVLCollection K V) : Option (AVLCollection K V) :=
  assign junk ⟨Node.nil, 0⟩ rhs

end AVLCollection

namespace RBTCollection

variable {K V : Type}

/-- Source helper `make_empty(subtree_root)`: its body is commented out. -/
def make_empty (c : RBTCollection K V) (_subtree_root : Ptr) : RBTCollection K V := c

/-- The allocation `new Node`: the next free address, whose cell holds `junk`
until its fields are assigned. -/
def new_node (junk : Node K V) (c : RBTCollection K V) : RBTCollection K V × Ptr :=
  ({ c.store c.next junk with next := c.next + 1 }, some c.next)

/-- The part of `copy` for one child `rc` of `rhs_subtree_root`, before the
recursive call: `tmp = new Node` with key and value of the child and null
`left` and `right`; the store and `tmp`. -/
def copy_child (junk : Node K V) (rhs lhs : RBTCollection K V) (rc : Ptr) :
    Option (RBTCollection K V × Ptr) := do
  let k ← rhs.key rc
  let v ← rhs.value rc
  let (lhs, tmp) := new_node junk lhs
  let lhs ← lhs.set_key tmp k
  let lhs ← lhs.set_value tmp v
  let lhs ← lhs.set_left tmp none
  let lhs ← lhs.set_right tmp none
  pure (lhs, tmp)

/-- Source helper `copy(lhs_subtree_root, rhs_subtree_root)`, followed for at
most `fuel` levels; `rhs` is the collection that is read, `lhs` the one that is
written. -/
def copy (junk : Node K V) (rhs : RBTCollection K V) :
    Nat → RBTCollection K V → Ptr → Ptr → Option (RBTCollection K V)
  | _, lhs, _, none => some lhs
  | 0, _, _, some _ => none
  | fuel + 1, lhs, lp, some r => do
    let rl ← rhs.left (some r)
    let lhs ←
      if rl.isSome then do
        let (lhs, tmp) ← copy_child junk rhs lhs rl
        let lhs ← lhs.set_left lp tmp
        let lhs := { lhs with node_count := size_t_incr lhs.node_count }
        let ll ← lhs.left lp
        copy junk rhs fuel lhs ll rl
      else pure lhs
    let rr ← rhs.right (some r)
    if rr.isSome then do
      let (lhs, tmp) ← copy_child junk rhs lhs rr
      let lhs ← lhs.set_right lp tmp
      let lhs := { lhs with node_count := size_t_incr lhs.node_count }
      let lr ← lhs.right lp
      copy junk rhs fuel lhs lr rr
    else pure lhs

/-- Source `operator=` for two distinct objects. -/
def assign (junk : Node K V) (lhs rhs : RBTCollection K V) : Option (RBTCollection K V) := do
  let lhs := lhs.make_empty lhs.root
  let (lhs, root) := new_node junk { lhs with root := none }
  let lhs := { lhs with root := root }
  if rhs.root.isSome then do
    let k ← rhs.key rhs.root
    let v ← rhs.value rhs.root
    let lhs ← lhs.set_key root k
    let lhs ← lhs.set_value root v
    let lhs ← lhs.set_left root none
    let lhs ← lhs.set_right root none
    let lhs := { lhs with node_count := size_t_incr lhs.node_count }
    copy junk rhs (rhs.next + 1) lhs root rhs.root
  else pure lhs

end RBTCollection

/-! ### The array list of `array_list.h` -/

/-- The greatest value of the type `int` (32 bits), the type of the loop
counters of `array_list.h` and of the collections built on it. -/
def INT_MAX : Nat := 2 ^ 31 - 1

/-- The step `++i` of an `int` counter that is not negative; `none` when the
counter is `INT_MAX`, where the step overflows. -/
def int_incr (i : Nat) : Option Nat := if i < INT_MAX then some (i + 1) else none

/-- The initialisation `int i = n` with a `size_t` value `n`; `none` when `n` is
not a value of `int`. -/
def int_of_size_t (n : Nat) : Option Nat := if n ≤ INT_MAX then some n else none

/-- The class `ArrayList<T>`: the cells of the array `items` (`none` for a cell
that has not been assigned since its allocation), and the fields `capacity`
and `length`. -/
structure ArrayList (T : Type) where
  items : List (Option T)
  capacity : Nat
  length : Nat
  deriving Repr, DecidableEq

namespace ArrayList

variable {T : Type}

/-- The constructor `ArrayList()`: ten cells, no item. -/
def empty : ArrayList T := ⟨List.replicate 10 none, 10, 0⟩

/-- The read `items[i]`; `none` outside the array and for a cell that has not
been assigned. -/
def read (a : ArrayList T) (i : Nat) : Option T := (a.items[i]?).join

/-- The write `items[i] = x`; `none` outside the array. -/
def write (a : ArrayList T) (i : Nat) (x : T) : Option (ArrayList T) :=
  if i < a.items.length then some { a with items := a.items.set i (some x) } else none

/-- Source `size()`. -/
def size (a : ArrayList T) : Nat := a.length

/-- The loop `for(int i = 0; i < length; i++) tmp[i] = items[i]` of `resize`,
with `n` rounds left. -/
def resize_loop (a : ArrayList T) : Nat → Nat → ArrayList T → Option (ArrayList T)
  | 0, _, tmp => some tmp
  | n + 1, i, tmp => do
    let x ← a.read i
    let tmp ← tmp.write i x
    let i ← int_incr i
    resize_loop a n i tmp

/-- Source `resize()`: a new array of twice the capacity with the items copied. -/
def resize (a : ArrayList T) : Option (ArrayList T) :=
  let capacity := (a.capacity * 2) % SIZE_T_MOD
  resize_loop a a.length 0 ⟨List.replicate capacity none, capacity, a.length⟩

/-- Source `add(item)`, which appends. -/
def add (a : ArrayList T) (item : T) : Option (ArrayList T) :=
  (if a.length = a.capacity then a.resize else some a).bind fun a =>
    (a.write a.length item).map fun a => { a with length := size_t_incr a.length }

/-- The loop `for(int i = length; i > index; --i) items[i] = items[i-1]` of
`add(index, item)`, with `n` rounds left. -/
def shift_right : Nat → Nat → ArrayList T → Option (ArrayList T)
  | 0, _, a => some a
  | n + 1, i, a => do
    let x ← a.read (i - 1)
    let a ← a.write i x
    shift_right n (i - 1) a

/-- Source `add(index, item)`: the returned flag and the list afterwards. -/
def add_at (a : ArrayList T) (index : Nat) (item : T) : Option (Bool × ArrayList T) :=
  if index > a.length then some (false, a)
  else if index = a.length then (a.add item).map fun a => (true, a)
  else
    (if size_t_incr a.length > a.capacity then a.resize else some a).bind fun a =>
      (int_of_size_t a.length).bind fun i =>
        (shift_right (a.length - index) i a).bind fun a =>
          (a.write index item).map fun a => (true, { a with length := size_t_incr a.length })

/-- Source `get(index, return_item)`: the returned flag and the content of
`return_item` afterwards. -/
def get (a : ArrayList T) (index : Nat) (return_item : T) : Option (Bool × T) :=
  if index ≥ a.length then some (false, return_item)
  else (a.read index).map fun x => (true, x)

/-- The items of the list, in order: the assigned cells among the first
`length` cells. -/
def to_list (a : ArrayList T) : List T := (a.items.take a.length).reduceOption

/-- The list made by `add` calls for the listed items, in order, on the empty
list. -/
def add_all (l : List T) : Option (ArrayList T) :=
  l.foldlM (fun a x => a.add x) empty

variable [LinearOrder T]

/-- The loop `for(int j = 0; j < sorted; ++j)` of `selection_sort`, with `n`
rounds left: `largest` and `index` afterwards. -/
def selection_sort_scan (a : ArrayList T) : Nat → Nat → T → Nat → Option (T × Nat)
  | 0, _, largest, index => some (largest, index)
  | n + 1, j, largest, index => do
    let x ← a.read j
    let j1 ← int_incr j
    if x > largest then selection_sort_scan a n j1 x j
    else selection_sort_scan a n j1 largest index

/-- The loop `for(int i = length-1; i > 1; --i)` of `selection_sort`, with `n`
rounds left. -/
def selection_sort_loop : Nat → Nat → Nat → ArrayList T → Option (ArrayList T)
  | 0, _, _, a => some a
  | n + 1, i, sorted, a => do
    let largest ← a.read 0
    let (largest, index) ← selection_sort_scan a sorted 0 largest 0
    let x ← a.read i
    let a ← a.write index x
    let a ← a.write i largest
    selection_sort_loop n (i - 1) (sorted - 1) a

/-- Source `selection_sort()`.  The loop runs for `i = length-1, ..., 2`; on the
empty list `i` starts below zero and the loop is not entered. -/
def selection_sort (a : ArrayList T) : Option (ArrayList T) :=
  (int_of_size_t a.length).bind fun sorted =>
    selection_sort_loop (sorted - 2) (sorted - 1) sorted a

/-- The loop `for(int j = 0; j < sorted; ++j)` of `insertion_sort`, with `n`
rounds left: the list and `val` afterwards. -/
def insertion_sort_scan (i : Nat) : Nat → Nat → T → ArrayList T → Option (ArrayList T × T)
  | 0, _, val, a => some (a, val)
  | n + 1, j, val, a => do
    let x ← a.read j
    if val < x then do
      let a ← a.write i x
      let a ← a.write j val
      let val ← a.read i
      let j ← int_incr j
      insertion_sort_scan i n j val a
    else do
      let j ← int_incr j
      insertion_sort_scan i n j val a

/-- The loop `for(int i = 1; i < length; ++i)` of `insertion_sort`, with `n`
rounds left. -/
def insertion_sort_loop : Nat → Nat → Nat → ArrayList T → Option (ArrayList T)
  | 0, _, _, a => some a
  | n + 1, i, sorted, a => do
    let val ← a.read i
    let (a, _) ← insertion_sort_scan i sorted 0 val a
    let sorted ← int_incr sorted
    let i ← int_incr i
    insertion_sort_loop n i sorted a

/-- Source `insertion_sort()`. -/
def insertion_sort (a : ArrayList T) : Option (ArrayList T) :=
  insertion_sort_loop (a.length - 1) 1 1 a

/-- The three `while` loops of the merge step of `merge_sort(start, end)`, with
`n` rounds left; `tmp` is the filled part of the temporary array, whose length
is the `int` counter `i`. -/
def merge_loop (a : ArrayList T) (mid finish : Nat) : Nat → Nat → Nat → List T → Option (List T)
  | 0, first1, first2, tmp => if first1 ≤ mid ∨ first2 ≤ finish then none else some tmp
  | n + 1, first1, first2, tmp =>
    if first1 ≤ mid ∧ first2 ≤ finish then do
      let x1 ← a.read first1
      let x2 ← a.read first2
      let _ ← int_incr tmp.length
      if x1 < x2 then merge_loop a mid finish n (size_t_incr first1) first2 (tmp ++ [x1])
      else merge_loop a mid finish n first1 (size_t_incr first2) (tmp ++ [x2])
    else if first1 ≤ mid then do
      let x1 ← a.read first1
      let _ ← int_incr tmp.length
      merge_loop a mid finish n (size_t_incr first1) first2 (tmp ++ [x1])
    else if first2 ≤ finish then do
      let x2 ← a.read first2
      let _ ← int_incr tmp.length
      merge_loop a mid finish n first1 (size_t_incr first2) (tmp ++ [x2])
    else some tmp

/-- The loop `for(int j = 0; j <= end-start; ++j) items[j+start] = tmp[j]` of
`merge_sort(start, end)`. -/
def merge_copy_back (start : Nat) : List T → Nat → ArrayList T → Option (ArrayList T)
  | [], _, a => some a
  | x :: tmp, j, a => do
    let a ← a.write (j + start) x
    let j ← int_incr j
    merge_copy_back start tmp j a

/-- Source helper `merge_sort(start, end)`, with `fuel` levels of recursion
left. -/
def merge_sort_range : Nat → ArrayList T → Nat → Nat → Option (ArrayList T)
  | 0, a, start, finish => if start < finish then none else some a
  | fuel + 1, a, start, finish =>
    if start < finish then do
      let mid := ((finish + start) % SIZE_T_MOD) / 2
      let a ← merge_sort_range fuel a start mid
      let a ← merge_sort_range fuel a (mid + 1) finish
      let tmp ← merge_loop a mid finish (finish - start + 1) start (mid + 1) []
      merge_copy_back start tmp 0 a
    else some a

/-- Source `merge_sort()`: `merge_sort(0, length-1)` with the bound computed in
`size_t`.  Every level of the recursion halves `end - start`, which is below
`2^64`, so 65 levels suffice. -/
def merge_sort (a : ArrayList T) : Option (ArrayList T) :=
  merge_sort_range 65 a 0 (size_t_decr a.length)

/-- The loop `for(int i = start+1; i <= end; ++i)` of `quick_sort(start, end)`,
with `n` rounds left: the list and `last_p1` afterwards. -/
def quick_sort_partition (pivot : T) : Nat → Nat → ArrayList T → Nat → Option (ArrayList T × Nat)
  | 0, _, a, last_p1 => some (a, last_p1)
  | n + 1, i, a, last_p1 => do
    let x ← a.read i
    if x < pivot then do
      let last_p1 := last_p1 + 1
      let tmp ← a.read last_p1
      let a ← a.write last_p1 x
      let a ← a.write i tmp
      let i ← int_incr i
      quick_sort_partition pivot n i a last_p1
    else do
      let i ← int_incr i
      quick_sort_partition pivot n i a last_p1

/-- Source helper `quick_sort(start, end)`, with `fuel` levels of recursion
left. -/
def quick_sort_range : Nat → ArrayList T → Nat → Nat → Option (ArrayList T)
  | 0, a, start, finish => if start < finish then none else some a
  | fuel + 1, a, start, finish =>
    if start < finish then do
      let pivot ← a.read start
      let i ← int_of_size_t (start + 1)
      let (a, last_p1) ← quick_sort_partition pivot (finish - start) i a start
      let x ← a.read last_p1
      let a ← a.write start x
      let a ← a.write last_p1 pivot
      let a ← if last_p1 > start then quick_sort_range fuel a start (last_p1 - 1) else pure a
      if last_p1 < finish then quick_sort_range fuel a (last_p1 + 1) finish else pure a
    else some a

/-- Source `quick_sort()`.  A level of the recursion works on a range with fewer
items than its caller, so `length` levels suffice. -/
def quick_sort (a : ArrayList T) : Option (ArrayList T) :=
  if a.length > 1 then quick_sort_range a.length a 0 (a.length - 1) else some a

/-- Source `sort()`, which calls `quick_sort()`. -/
def sort (a : ArrayList T) : Option (ArrayList T) := a.quick_sort

end ArrayList

namespace ArrayList

variable {T : Type}

/-- The array list holds exactly the items `l`: its first `length` cells are
assigned and hold the items of `l`, and the array has `capacity > 0` cells. -/
structure Holds (a : ArrayList T) (l : List T) : Prop where
  length : a.length = l.length
  cells : ∀ i, i < l.length → a.read i = l[i]?
  room : l.length ≤ a.items.length
  alloc : a.items.length = a.capacity
  cap : 0 < a.capacity

/-- The items at the positions `s, ..., e` of `l` are in non-decreasing order. -/
def SortedOn [LinearOrder T] (l : List T) (s e : Nat) : Prop :=
  ∀ i j x y, s ≤ i → i ≤ j → j ≤ e → l[i]? = some x → l[j]? = some y → x ≤ y

/-- Every item at a position `s, ..., e` of `l1` stands at one of these
positions in `l`. -/
def RangeFrom (l l1 : List T) (s e : Nat) : Prop :=
  ∀ i x, s ≤ i → i ≤ e → l1[i]? = some x → ∃ j, s ≤ j ∧ j ≤ e ∧ l[j]? = some x

/-- The lists agree outside the positions `s, ..., e`. -/
def SameOutside (l l1 : List T) (s e : Nat) : Prop :=
  ∀ i, i < s ∨ e < i → l1[i]? = l[i]?

end ArrayList

namespace ArrayList

variable {T : Type}

/-- The list `l1` comes from `l` by rearranging the items at the positions
`s, ..., e` among themselves. -/
structure Within (l l1 : List T) (s e : Nat) : Prop where
  perm : l1.Perm l
  length : l1.length = l.length
  outside : SameOutside l l1 s e
  inside : RangeFrom l l1 s e

end ArrayList

/-! ### The collections built on the array list, and the hash table -/

/-- The class `BinSearchCollection<K,V>`: the list `kv_list` of pairs. -/
structure BinSearchCollection (K V : Type) where
  kv_list : ArrayList (K × V)
  deriving Repr, DecidableEq

namespace BinSearchCollection

variable {K V : Type}

/-- The collection right after its construction. -/
def empty : BinSearchCollection K V := ⟨ArrayList.empty⟩

/-- Source `size()`. -/
def size (c : BinSearchCollection K V) : Nat := c.kv_list.size

variable [LinearOrder K] [Inhabited K] [Inhabited V]

/-- The loop `while(start <= end)` of `binsearch`, with `fuel` rounds left: the
returned flag and `index`.  A pair declared as `std::pair<K,V> mid_pair;` starts
as the default pair. -/
def binsearch_loop (c : BinSearchCollection K V) (key : K) :
    Nat → Nat → Nat → Nat → Option (Bool × Nat)
  | 0, start, finish, mid => if start ≤ finish then none else some (false, mid)
  | fuel + 1, start, finish, mid =>
    if start ≤ finish then
      (c.kv_list.get (((finish + start) % SIZE_T_MOD) / 2) default).bind fun g =>
        if key = g.2.1 then some (true, ((finish + start) % SIZE_T_MOD) / 2)
        else if key < g.2.1 ∧ ((finish + start) % SIZE_T_MOD) / 2 = 0 then
          some (false, ((finish + start) % SIZE_T_MOD) / 2)
        else
          binsearch_loop c key fuel
            (if key > g.2.1 then ((finish + start) % SIZE_T_MOD) / 2 + 1 else start)
            (if key < g.2.1 then ((finish + start) % SIZE_T_MOD) / 2 - 1 else finish)
            (((finish + start) % SIZE_T_MOD) / 2)
    else some (false, mid)

/-- Source `binsearch(key, index)`: the returned flag and `index`.  The range
shrinks in every round, so `size()` rounds suffice; `mid` is assigned in the
first round, which is always entered. -/
def binsearch (c : BinSearchCollection K V) (key : K) : Option (Bool × Nat) :=
  if c.size > 0 then c.binsearch_loop key c.size 0 (c.size - 1) 0
  else some (false, 0)

/-- Source `add(key, val)`. -/
def add (c : BinSearchCollection K V) (key : K) (val : V) : Option (BinSearchCollection K V) :=
  (c.binsearch key).bind fun r =>
    if c.size = 0 then (c.kv_list.add (key, val)).map fun l => ⟨l⟩
    else
      (c.kv_list.get r.2 default).bind fun g =>
        if g.2.1 > key then (c.kv_list.add_at r.2 (key, val)).map fun res => ⟨res.2⟩
        else (c.kv_list.add_at (r.2 + 1) (key, val)).map fun res => ⟨res.2⟩

/-- Source `find(search_key, return_val)`: the returned flag and the content of
`return_val` afterwards. -/
def find (c : BinSearchCollection K V) (search_key : K) (return_val : V) : Option (Bool × V) :=
  (c.binsearch search_key).bind fun r =>
    if r.1 then (c.kv_list.get r.2 default).map fun g => (true, g.2.2)
    else some (false, return_val)

/-- The loop `while(item.first <= k2 && index < size())` of the range lookup,
with `fuel` rounds left. -/
def find_range_loop (c : BinSearchCollection K V) (k2 : K) :
    Nat → Nat → K × V → ArrayList K → Option (ArrayList K)
  | 0, index, item, keys => if item.1 ≤ k2 ∧ index < c.size then none else some keys
  | fuel + 1, index, item, keys =>
    if item.1 ≤ k2 ∧ index < c.size then
      (keys.add item.1).bind fun keys =>
        (c.kv_list.get (index + 1) item).bind fun g =>
          find_range_loop c k2 fuel (index + 1) g.2 keys
    else some keys

/-- Source `find(k1, k2, keys)`, the range lookup. -/
def find_range (c : BinSearchCollection K V) (k1 k2 : K) (keys : ArrayList K) :
    Option (ArrayList K) :=
  (c.binsearch k1).bind fun r =>
    (c.kv_list.get r.2 default).bind fun g =>
      c.find_range_loop k2 (c.size + 1) r.2 g.2 keys

/-- The loop of `keys(all_keys)`, with `n` rounds left. -/
def keys_loop (c : BinSearchCollection K V) : Nat → Nat → ArrayList K → Option (ArrayList K)
  | 0, _, all_keys => some all_keys
  | n + 1, i, all_keys =>
    (c.kv_list.get i default).bind fun g =>
      (all_keys.add g.2.1).bind fun all_keys =>
        (int_incr i).bind fun i => keys_loop c n i all_keys

/-- Source `keys(all_keys)`. -/
def keys (c : BinSearchCollection K V) (all_keys : ArrayList K) : Option (ArrayList K) :=
  c.keys_loop c.size 0 all_keys

/-- Source `sort(all_keys_sorted)`, which calls `keys`. -/
def sort (c : BinSearchCollection K V) (all_keys_sorted : ArrayList K) : Option (ArrayList K) :=
  c.keys all_keys_sorted

/-- The collection after `add` calls for the listed pairs, in order, on the
empty collection. -/
def add_all (kvs : List (K × V)) : Option (BinSearchCollection K V) :=
  kvs.foldlM (fun c kv => c.add kv.1 kv.2) empty

end BinSearchCollection

/-- The class `ArrayListCollection<K,V>`: the list `kv_list` of pairs. -/
structure ArrayListCollection (K V : Type) where
  kv_list : ArrayList (K × V)
  deriving Repr, DecidableEq

namespace ArrayListCollection

variable {K V : Type}

/-- The collection right after its construction. -/
def empty : ArrayListCollection K V := ⟨ArrayList.empty⟩

/-- Source `size()`. -/
def size (c : ArrayListCollection K V) : Nat := c.kv_list.size

/-- Source `add(key, val)`. -/
def add (c : ArrayListCollection K V) (key : K) (val : V) : Option (ArrayListCollection K V) :=
  (c.kv_list.add (key, val)).map fun l => ⟨l⟩

/-- The loop of `keys(all_keys)`, with `n` rounds left; `item` is the pair
declared before the loop. -/
def keys_loop (c : ArrayListCollection K V) :
    Nat → Nat → K × V → ArrayList K → Option (ArrayList K)
  | 0, _, _, all_keys => some all_keys
  | n + 1, i, item, all_keys =>
    (c.kv_list.get i item).bind fun g =>
      (all_keys.add g.2.1).bind fun all_keys =>
        (int_incr i).bind fun i => keys_loop c n i g.2 all_keys

/-- Source `keys(all_keys)`. -/
def keys [Inhabited K] [Inhabited V] (c : ArrayListCollection K V) (all_keys : ArrayList K) :
    Option (ArrayList K) :=
  c.keys_loop c.size 0 default all_keys

/-- Source `sort(all_keys_sorted)`: `keys`, then `sort()` of the list. -/
def sort [LinearOrder K] [Inhabited K] [Inhabited V] (c : ArrayListCollection K V)
    (all_keys_sorted : ArrayList K) : Option (ArrayList K) :=
  (c.keys all_keys_sorted).bind fun l => l.sort

end ArrayListCollection

/-- The class `HashTableCollection<K,V>`: the array `hash_table` of chains, each
chain the list of the pairs of its nodes from the head on, and the fields
`length` and `capacity`. -/
structure HashTableCollection (K V : Type) where
  hash_table : List (List (K × V))
  length : Nat
  capacity : Nat
  deriving Repr, DecidableEq

namespace HashTableCollection

variable {K V : Type}

/-- The constructor `HashTableCollection()`: sixteen empty chains. -/
def empty : HashTableCollection K V := ⟨List.replicate 16 [], 0, 16⟩

/-- Source `size()`. -/
def size (c : HashTableCollection K V) : Nat := c.length

/-- The loop `while(cur)` of `keys` over one chain. -/
def chain_keys : List (K × V) → ArrayList K → Option (ArrayList K)
  | [], all_keys => some all_keys
  | kv :: rest, all_keys => (all_keys.add kv.1).bind fun all_keys => chain_keys rest all_keys

/-- The loop `for(int i = 0; i < capacity; ++i)` of `keys`, with `n` rounds
left; `none` when `hash_table[i]` lies outside the array. -/
def keys_loop (c : HashTableCollection K V) : Nat → Nat → ArrayList K → Option (ArrayList K)
  | 0, _, all_keys => some all_keys
  | n + 1, i, all_keys =>
    (c.hash_table[i]?).bind fun chain =>
      (chain_keys chain all_keys).bind fun all_keys =>
        (int_incr i).bind fun i => keys_loop c n i all_keys

/-- Source `keys(all_keys)`. -/
def keys (c : HashTableCollection K V) (all_keys : ArrayList K) : Option (ArrayList K) :=
  c.keys_loop c.capacity 0 all_keys

/-- Source `sort(all_keys_sorted)`: `keys`, then `sort()` of the list. -/
def sort [LinearOrder K] (c : HashTableCollection K V) (all_keys_sorted : ArrayList K) :
    Option (ArrayList K) :=
  (c.keys all_keys_sorted).bind fun l => l.sort

end HashTableCollection

namespace BinSearchCollection

variable {K V : Type} [LinearOrder K]

/-- The pair at `index` has the key `key`. -/
def FoundAt (l : List (K × V)) (key : K) (index : Nat) : Prop :=
  ∃ kv, l[index]? = some kv ∧ kv.1 = key

/-- The key belongs right before `index`: the pair at `index` has a greater
key, all pairs before it have smaller keys. -/
def BelongsBefore (l : List (K × V)) (key : K) (index : Nat) : Prop :=
  ∃ kv, l[index]? = some kv ∧ key < kv.1 ∧ ∀ p kv1, p < index → l[p]? = some kv1 → kv1.1 < key

/-- The key belongs right after `index`: the pair at `index` has a smaller key,
all pairs after it have greater keys. -/
def BelongsAfter (l : List (K × V)) (key : K) (index : Nat) : Prop :=
  ∃ kv, l[index]? = some kv ∧ kv.1 < key ∧ ∀ p kv1, index < p → l[p]? = some kv1 → key < kv1.1

/-- What `binsearch` reports on a non-empty sorted list: with the flag set the
index of a pair with the key, otherwise an index next to which the key belongs. -/
def Answer (l : List (K × V)) (key : K) (r : Bool × Nat) : Prop :=
  if r.1 = true then FoundAt l key r.2 else BelongsBefore l key r.2 ∨ BelongsAfter l key r.2

end BinSearchCollection

namespace ArrayListCollection

variable {K V : Type}

/-- The collection after `add` calls for the listed pairs, in order, on the
empty collection. -/
def add_all (kvs : List (K × V)) : Option (ArrayListCollection K V) :=
  kvs.foldlM (fun c kv => c.add kv.1 kv.2) empty

end ArrayListCollection

namespace HashTableCollection

variable {K V : Type}

/-- All pairs of the table, chain after chain. -/
def pairs (c : HashTableCollection K V) : List (K × V) := c.hash_table.flatten

end HashTableCollection

/-! ### Removal from the array list and from the array collection -/

namespace ArrayList

variable {T : Type}

/-- The loop `for(int i = index; i < length-1; i++) items[i] = items[i+1]` of
`remove(index)`, with `n` rounds left. -/
def shift_left : Nat → Nat → ArrayList T → Option (ArrayList T)
  | 0, _, a => some a
  | n + 1, i, a => do
    let x ← a.read (i + 1)
    let a ← a.write i x
    let i ← int_incr i
    shift_left n i a

/-- Source `remove(index)`: the returned flag and the list afterwards.  Past
the first test `length` is not zero, so `length-1` does not wrap around. -/
def remove (a : ArrayList T) (index : Nat) : Option (Bool × ArrayList T) :=
  if index ≥ a.length then some (false, a)
  else
    (int_of_size_t index).bind fun i =>
      (shift_left (a.length - 1 - index) i a).map fun a =>
        (true, { a with length := size_t_decr a.length })

end ArrayList

namespace ArrayListCollection

variable {K V : Type} [DecidableEq K]

/-- The loop `while(item.first != key){ i++; kv_list.get(i,item); }` of
`remove`, with `fuel` rounds left: the index `i` afterwards; `none` when the
loop has not ended after `fuel` rounds.  The index is a `size_t`. -/
def remove_loop (c : ArrayListCollection K V) (key : K) : Nat → Nat → K × V → Option Nat
  | 0, i, item => if item.1 ≠ key then none else some i
  | fuel + 1, i, item =>
    if item.1 ≠ key then
      (c.kv_list.get (size_t_incr i) item).bind fun g =>
        remove_loop c key fuel (size_t_incr i) g.2
    else some i

/-- Source `remove(key)`, its loop run for at most `fuel` rounds. -/
def remove [Inhabited K] [Inhabited V] (fuel : Nat) (c : ArrayListCollection K V) (key : K) :
    Option (ArrayListCollection K V) :=
  if c.size = 0 then some c
  else
    (c.kv_list.get 0 default).bind fun g =>
      (c.remove_loop key fuel 0 g.2).bind fun i =>
        (c.kv_list.remove i).map fun r => ⟨r.2⟩

end ArrayListCollection

/-! ### Removal from the binary search tree -/

namespace BSTCollection

namespace Node

variable {K V : Type}

/-- Number of nodes of a subtree. -/
def count : Node K V → Nat
  | nil => 0
  | node _ _ l r => count l + 1 + count r

/-- The loop `while(successor->left){ prev = successor; successor =
successor->left; }` of the `remove` helper followed by `prev->left =
successor->right`, for the walk through a node with key `k`, value `v` and the
subtrees `l` and `r`: the key and value of the leftmost node, and the subtree
with that node replaced by its right subtree. -/
def detach_leftmost (k : K) (v : V) : Node K V → Node K V → (K × V) × Node K V
  | nil, r => ((k, v), r)
  | node lk lv ll lr, r =>
    let res := detach_leftmost lk lv ll lr
    (res.1, node k v res.2 r)

/-- Source helper `remove(subtree_root, key)`: the returned pointer and the
value of `node_count` afterwards. -/
def remove [LinearOrder K] : Node K V → K → Nat → Node K V × Nat
  | nil, _, node_count => (nil, node_count)
  | node k v l r, key, node_count =>
    if key < k then
      let res := remove l key node_count
      (node k v res.1 r, res.2)
    else if key > k then
      let res := remove r key node_count
      (node k v l res.1, res.2)
    else
      match l, r with
      | node lk lv ll lr, nil =>
        -- case 1, left child only
        (node lk lv ll lr, size_t_decr node_count)
      | nil, r =>
        -- case 1, no left child
        (r, size_t_decr node_count)
      | node lk lv ll lr, node sk sv nil sr =>
        -- case 2, special case: the successor is the right child
        (node sk sv (node lk lv ll lr) sr, size_t_decr node_count)
      | node lk lv ll lr, node sk sv (node ak av al ar) sr =>
        -- case 2, normal case: the successor is the leftmost node on the right
        let res := detach_leftmost ak av al ar
        (node res.1.1 res.1.2 (node lk lv ll lr) (node sk sv res.2 sr),
          size_t_decr node_count)

end Node

/-- Source `remove(key)`: `if(size() > 0) root = remove(root, key)`. -/
def remove {K V : Type} [LinearOrder K] (c : BSTCollection K V) (key : K) : BSTCollection K V :=
  if c.size > 0 then
    let res := Node.remove c.root key c.node_count
    ⟨res.1, res.2⟩
  else c

end BSTCollection

/-! ### The hash table: `add`, `find` and `resize_and_rehash` -/

namespace HashTableCollection

variable {K V : Type}

/-- The statements `tmp->next = table[index]; table[index] = tmp` that put a
new node with the pair `kv` at the front of the chain `index`; `none` when
`index` lies outside the array. -/
def push_front (table : List (List (K × V))) (index : Nat) (kv : K × V) :
    Option (List (List (K × V))) :=
  (table[index]?).map fun chain => table.set index (kv :: chain)

/-- The loop `while(cur)` of `resize_and_rehash` over one chain: a copy of every
node goes to the front of the chain of `new_table` whose index is computed from
`hash_table[i]->key`, the key `head` at the head of the chain that is walked. -/
def rehash_chain (hash_fcn : K → Nat) (head : K) (new_capacity : Nat) :
    List (K × V) → List (List (K × V)) → Option (List (List (K × V)))
  | [], new_table => some new_table
  | cur :: rest, new_table =>
    (push_front new_table ((hash_fcn head % SIZE_T_MOD) % new_capacity) cur).bind fun t =>
      rehash_chain hash_fcn head new_capacity rest t

/-- The loop `for(int i = 0; i < capacity; ++i)` of `resize_and_rehash`, with
`n` rounds left. -/
def rehash_loop (hash_fcn : K → Nat) (c : HashTableCollection K V) (new_capacity : Nat) :
    Nat → Nat → List (List (K × V)) → Option (List (List (K × V)))
  | 0, _, new_table => some new_table
  | n + 1, i, new_table =>
    (c.hash_table[i]?).bind fun chain =>
      (match chain with
        | [] => some new_table
        | head :: _ => rehash_chain hash_fcn head.1 new_capacity chain new_table).bind fun t =>
        (int_incr i).bind fun i => rehash_loop hash_fcn c new_capacity n i t

/-- Source `resize_and_rehash()`.  The first loop, with an `int` counter, fills
the new array of `new_capacity` chains with null pointers. -/
def resize_and_rehash (hash_fcn : K → Nat) (c : HashTableCollection K V) :
    Option (HashTableCollection K V) :=
  let new_capacity := (2 * c.capacity) % SIZE_T_MOD
  let new_length := c.length
  (int_of_size_t new_capacity).bind fun _ =>
    (rehash_loop hash_fcn c new_capacity c.capacity 0 (List.replicate new_capacity [])).map
      fun t => ⟨t, new_length, new_capacity⟩

/-- Source `add(key, val)` with the hash function `hash_fcn`.  The load factor
`(length*1.0) / capacity` is a quotient of doubles; it is exact, and so is the
test `load_factor >= 0.75`, while `length` is below `2^53` and `capacity` is a
power of two. -/
def add (hash_fcn : K → Nat) (c : HashTableCollection K V) (key : K) (val : V) :
    Option (HashTableCollection K V) :=
  let code := hash_fcn key % SIZE_T_MOD
  let index := code % c.capacity
  (push_front c.hash_table index (key, val)).bind fun t =>
    let c : HashTableCollection K V := ⟨t, size_t_incr c.length, c.capacity⟩
    if 4 * c.length ≥ 3 * c.capacity then c.resize_and_rehash hash_fcn else some c

/-- The loop `while(cur)` of `find` over one chain: the returned flag and the
content of `return_val` afterwards. -/
def chain_find [DecidableEq K] (search_key : K) (return_val : V) : List (K × V) → Bool × V
  | [] => (false, return_val)
  | cur :: rest =>
    if cur.1 = search_key then (true, cur.2) else chain_find search_key return_val rest

/-- Source `find(search_key, return_val)` with the hash function `hash_fcn`. -/
def find [DecidableEq K] (hash_fcn : K → Nat) (c : HashTableCollection K V) (search_key : K)
    (return_val : V) : Option (Bool × V) :=
  if c.length = 0 then some (false, return_val)
  else
    let code := hash_fcn search_key % SIZE_T_MOD
    let index := code % c.capacity
    (c.hash_table[index]?).map fun chain => chain_find search_key return_val chain

/-- The table after `add` calls for the listed pairs, in order, on the empty
table. -/
def add_all (hash_fcn : K → Nat) (kvs : List (K × V)) : Option (HashTableCollection K V) :=
  kvs.foldlM (fun c kv => c.add hash_fcn kv.1 kv.2) empty

end HashTableCollection

/-! ### Red-black tree: parent back-references and the sentinel of `remove` -/

namespace RBTCollection

variable {K V : Type}

/-- The children of the node `n` at the address `a` point back to it: a child
that is present has `a` as its `parent`. -/
def children_point_back (c : RBTCollection K V) (a : Nat) (n : Node K V) : Prop :=
  (n.left = none ∨ c.parent n.left = some (some a)) ∧
  (n.right = none ∨ c.parent n.right = some (some a))

/-- The parent back-references are consistent for the nodes at the addresses
`addrs`: the root, when there is one, has no parent, and the children of every
listed node point back to it. -/
def parents_consistent (c : RBTCollection K V) (addrs : List Nat) : Prop :=
  (c.root = none ∨ c.parent c.root = some none) ∧
  ∀ a ∈ addrs, ∀ n, c.mem a = some n → c.children_point_back a n

end RBTCollection

namespace RBTCollection

variable {K V : Type}

/-- The first statements of `remove`, from `Node* sentinel = new Node` to
`root->parent = sentinel`: the collection with the sentinel in place, at the
address `c.next`. -/
def remove_setup (c : RBTCollection K V) : Option (RBTCollection K V) :=
  ({ c.store c.next ⟨none, none, none, c.root, none, color_t.RED⟩ with
      next := c.next + 1 } : RBTCollection K V).set_parent c.root (some c.next)

end RBTCollection

/-! ### The stored pairs of the two trees -/

namespace AVLCollection.Node

variable {K V : Type}

/-- The key-value pairs of the nodes of a subtree, in the order of the in-order
traversal (the order in which `keys` lists their keys). -/
def pairs : Node K V → List (K × V)
  | nil => []
  | node k v _ l r => pairs l ++ (k, v) :: pairs r

end AVLCollection.Node

namespace RBTCollection

variable {K V : Type}

/-- The key-value pairs of the nodes of a subtree, in the order of the in-order
traversal (the order in which `keys` lists their keys). -/
def Tree.pairs : Tree K V → List (K × V)
  | Tree.nil => []
  | Tree.node _ k v _ l r => Tree.pairs l ++ (k, v) :: Tree.pairs r

namespace Path

/-- The pairs that come before the subtree at the lower end of the path in the
in-order traversal of the whole tree. -/
def pairs_before : Path K V → List (K × V)
  | top => []
  | left _ _ _ _ up _ => pairs_before up
  | right _ k v _ l up => pairs_before up ++ (l.pairs ++ [(k, v)])

/-- The pairs that come after the subtree at the lower end of the path in the
in-order traversal of the whole tree. -/
def pairs_after : Path K V → List (K × V)
  | top => []
  | left _ k v _ up r => (k, v) :: r.pairs ++ pairs_after up
  | right _ _ _ _ _ up => pairs_after up

end Path

end RBTCollection

/-! ## Theorems -/

/-! ### AVL tree: `add` keeps the tree balanced and its heights exact -/

namespace AVLCollection.Node
variable {K V : Type}

theorem rebalance_balanced (t : Node K V) (hb : Balanced t) (he : HeightsExact t) :
    rebalance t = some t := by
  cases t with
  | nil => rfl
  | node k v h l r =>
    cases l with
    | nil =>
      cases r with
      | nil => rfl
      | node rk rv rh rl rr =>
        simp only [Balanced, HeightsExact, tree_height] at hb he
        have : ¬ rh > 1 := by omega
        simp [rebalance, this]
    | node lk lv lh ll lr =>
      cases r with
      | nil =>
        simp only [Balanced, HeightsExact, tree_height] at hb he
        have : ¬ lh > 1 := by omega
        simp [rebalance, this]
      | node rk rv rh rl rr =>
        simp only [Balanced, HeightsExact, tree_height] at hb he
        have h1 : ¬ lh - rh > 1 := by omega
        have h2 : ¬ lh - rh < -1 := by omega
        simp [rebalance, h1, h2]

end AVLCollection.Node

namespace AVLCollection.Node
variable {K V : Type}

theorem tree_height_eq_zero {t : Node K V} (h : tree_height t = 0) : t = nil := by
  cases t with
  | nil => rfl
  | node _ _ _ _ _ => simp [tree_height] at h

theorem height?_of_exact {t : Node K V} (he : HeightsExact t) (hpos : 0 < tree_height t) :
    height? t = some (tree_height t : Int) := by
  cases t with
  | nil => simp [tree_height] at hpos
  | node k v h l r => simp only [HeightsExact] at he; simp only [height?, tree_height, he.1]

theorem rebalance_left_heavy (k : K) (v : V) (h : Int) (l r : Node K V)
    (hbl : Balanced l) (hel : HeightsExact l) (hbr : Balanced r) (her : HeightsExact r)
    (hh : tree_height l = tree_height r + 2) (hg : Grown l) :
    ∃ t, rebalance (node k v (add_adjusted_height h l r) l r) = some t ∧ Balanced t ∧ HeightsExact t
      ∧ tree_height t = tree_height r + 2 := by
  cases l with
  | nil => simp [tree_height] at hh
  | node lk lv lh ll lr =>
    simp only [Balanced, HeightsExact, tree_height, Grown] at hbl hel hh hg
    obtain ⟨hbl1, hbl2, hbl3⟩ := hbl
    obtain ⟨hel1, hel2, hel3⟩ := hel
    cases r with
    | nil =>
      simp only [tree_height] at hh
      have hlh : lh > 1 := by omega
      cases ll with
      | nil =>
        cases lr with
        | nil => simp [tree_height] at hh
        | node mk mv mh ml mr =>
          simp only [Balanced, HeightsExact, tree_height] at hbl1 hel3 hh
          have hml : ml = nil := tree_height_eq_zero (by omega)
          have hmr : mr = nil := tree_height_eq_zero (by omega)
          subst hml hmr
          simp only [rebalance, if_pos hlh, double_left_right, rotate_left, rotate_right,
            add_height, add_left_height, add_right_height, Option.bind_eq_bind, Option.some_bind,
            Option.map_some']
          refine ⟨_, rfl, ?_⟩
          simp only [Balanced, HeightsExact, tree_height, add_adjusted_height, and_true, true_and] at *
          omega
      | node ak av ah al ar =>
        cases lr with
        | nil =>
          simp only [Balanced, HeightsExact, tree_height] at hbl1 hel2 hh
          have hml : al = nil := tree_height_eq_zero (by omega)
          have hmr : ar = nil := tree_height_eq_zero (by omega)
          subst hml hmr
          simp only [rebalance, if_pos hlh, single_right, rotate_left, rotate_right,
            add_height, add_left_height, add_right_height, Option.bind_eq_bind, Option.some_bind,
            Option.map_some']
          refine ⟨_, rfl, ?_⟩
          simp only [Balanced, HeightsExact, tree_height, add_adjusted_height, and_true, true_and] at *
          omega
        | node mk mv mh ml mr =>
          simp only [tree_height, reduceCtorEq, and_false, or_false] at hh hbl1 hg
          omega
    | node rk rv rh rl rr =>
      have hrh : rh = (tree_height (node rk rv rh rl rr) : Int) := by
        simp only [HeightsExact] at her; simp only [tree_height, her.1]
      have hRpos : 0 < tree_height (node rk rv rh rl rr) := by simp [tree_height]
      have hposl : 0 < tree_height ll := by omega
      have hposr : 0 < tree_height lr := by omega
      have hlr : lh - rh > 1 := by omega
      have hgt : lh > rh := by omega
      have hne : tree_height ll ≠ tree_height lr := by
        rcases hg with hg | hg
        · exact hg
        · rw [hg.1] at hposl; simp [tree_height] at hposl
      simp only [rebalance, if_pos hlr, height?_of_exact hel2 hposl, height?_of_exact hel3 hposr,
        Option.bind_eq_bind, Option.some_bind, add_adjusted_height, if_pos hgt]
      generalize node rk rv rh rl rr = r at *
      by_cases hc : (tree_height ll : Int) - (tree_height lr : Int) > 0
      · simp only [if_pos hc, single_right, rotate_right, add_right_height, add_height,
          Option.bind_eq_bind, Option.some_bind, Option.map_some']
        refine ⟨_, rfl, ?_⟩
        simp only [Balanced, HeightsExact, tree_height]
        refine ⟨⟨?_, hbl2, ?_, hbl3, hbr⟩, ⟨?_, hel2, ?_, hel3, her⟩, ?_⟩ <;> omega
      · have hc2 : (tree_height ll : Int) - (tree_height lr : Int) < 0 := by omega
        cases lr with
        | nil => simp [tree_height] at hposr
        | node mk mv mh ml mr =>
          simp only [Balanced, HeightsExact] at hbl3 hel3
          obtain ⟨hbm1, hbm2, hbm3⟩ := hbl3
          obtain ⟨hem1, hem2, hem3⟩ := hel3
          simp only [if_neg hc, if_pos hc2, double_left_right,
            rotate_right, rotate_left, add_right_height, add_left_height, add_height,
            Option.bind_eq_bind, Option.some_bind, Option.map_some']
          refine ⟨_, rfl, ?_⟩
          simp only [Balanced, HeightsExact, tree_height] at *
          refine ⟨⟨?_, ⟨?_, hbl2, hbm2⟩, ?_, hbm3, hbr⟩, ⟨?_, ⟨?_, hel2, hem2⟩, ?_, hem3, her⟩, ?_⟩ <;> omega

end AVLCollection.Node

namespace AVLCollection.Node
variable {K V : Type}

theorem rebalance_right_heavy (k : K) (v : V) (h : Int) (l r : Node K V)
    (hbl : Balanced l) (hel : HeightsExact l) (hbr : Balanced r) (her : HeightsExact r)
    (hh : tree_height r = tree_height l + 2) (hg : Grown r) :
    ∃ t, rebalance (node k v (add_adjusted_height h l r) l r) = some t ∧ Balanced t ∧ HeightsExact t
      ∧ tree_height t = tree_height l + 2 := by
  cases r with
  | nil => simp [tree_height] at hh
  | node rk rv rh rl rr =>
    simp only [Balanced, HeightsExact, tree_height, Grown] at hbr her hh hg
    obtain ⟨hbr1, hbr2, hbr3⟩ := hbr
    obtain ⟨her1, her2, her3⟩ := her
    cases l with
    | nil =>
      simp only [tree_height] at hh
      have hrh : rh > 1 := by omega
      cases rl with
      | nil =>
        cases rr with
        | nil => simp [tree_height] at hh
        | node mk mv mh ml mr =>
          simp only [Balanced, HeightsExact, tree_height] at hbr1 her3 hh
          have hml : ml = nil := tree_height_eq_zero (by omega)
          have hmr : mr = nil := tree_height_eq_zero (by omega)
          subst hml hmr
          simp only [rebalance, if_pos hrh, single_left, rotate_left, rotate_right,
            add_height, add_left_height, add_right_height, Option.bind_eq_bind, Option.some_bind,
            Option.map_some']
          refine ⟨_, rfl, ?_⟩
          simp only [Balanced, HeightsExact, tree_height, add_adjusted_height, and_true, true_and] at *
          omega
      | node ak av ah al ar =>
        cases rr with
        | nil =>
          simp only [Balanced, HeightsExact, tree_height] at hbr1 her2 hh
          have hml : al = nil := tree_height_eq_zero (by omega)
          have hmr : ar = nil := tree_height_eq_zero (by omega)
          subst hml hmr
          simp only [rebalance, if_pos hrh, double_right_left, rotate_left, rotate_right,
            add_height, add_left_height, add_right_height, Option.bind_eq_bind, Option.some_bind,
            Option.map_some']
          refine ⟨_, rfl, ?_⟩
          simp only [Balanced, HeightsExact, tree_height, add_adjusted_height, and_true, true_and] at *
          omega
        | node mk mv mh ml mr =>
          simp only [tree_height, reduceCtorEq, and_false, or_false] at hh hbr1 hg
          omega
    | node lk lv lh ll lr =>
      have hlh : lh = (tree_height (node lk lv lh ll lr) : Int) := by
        simp only [HeightsExact] at hel; simp only [tree_height, hel.1]
      have hLpos : 0 < tree_height (node lk lv lh ll lr) := by simp [tree_height]
      have hposl : 0 < tree_height rl := by omega
      have hposr : 0 < tree_height rr := by omega
      have hlr1 : ¬ lh - rh > 1 := by omega
      have hlr : lh - rh < -1 := by omega
      have hgt : ¬ lh > rh := by omega
      have hne : tree_height rl ≠ tree_height rr := by
        rcases hg with hg | hg
        · exact hg
        · rw [hg.1] at hposl; simp [tree_height] at hposl
      simp only [rebalance, if_neg hlr1, if_pos hlr, height?_of_exact her2 hposl,
        height?_of_exact her3 hposr, Option.bind_eq_bind, Option.some_bind, add_adjusted_height,
        if_neg hgt]
      generalize node lk lv lh ll lr = l at *
      by_cases hc : (tree_height rl : Int) - (tree_height rr : Int) > 0
      · cases rl with
        | nil => simp [tree_height] at hposl
        | node mk mv mh ml mr =>
          simp only [Balanced, HeightsExact] at hbr2 her2
          obtain ⟨hbm1, hbm2, hbm3⟩ := hbr2
          obtain ⟨hem1, hem2, hem3⟩ := her2
          simp only [if_pos hc, double_right_left,
            rotate_right, rotate_left, add_right_height, add_left_height, add_height,
            Option.bind_eq_bind, Option.some_bind, Option.map_some']
          refine ⟨_, rfl, ?_⟩
          simp only [Balanced, HeightsExact, tree_height] at *
          refine ⟨⟨?_, ⟨?_, hbl, hbm2⟩, ?_, hbm3, hbr3⟩, ⟨?_, ⟨?_, hel, hem2⟩, ?_, hem3, her3⟩, ?_⟩ <;>
            omega
      · have hc2 : (tree_height rl : Int) - (tree_height rr : Int) < 0 := by omega
        simp only [if_neg hc, if_pos hc2, single_left, rotate_left, add_left_height, add_height,
          Option.bind_eq_bind, Option.some_bind, Option.map_some']
        refine ⟨_, rfl, ?_⟩
        simp only [Balanced, HeightsExact, tree_height]
        refine ⟨⟨?_, ⟨?_, hbl, hbr2⟩, hbr3⟩, ⟨?_, ⟨?_, hel, her2⟩, her3⟩, ?_⟩ <;> omega

theorem add_adjusted_height_exact (h : Int) (l r : Node K V) (hel : HeightsExact l)
    (her : HeightsExact r) (hpos : 0 < tree_height l ∨ 0 < tree_height r) :
    add_adjusted_height h l r = ((max (tree_height l) (tree_height r) + 1 : Nat) : Int) := by
  cases l with
  | nil =>
    cases r with
    | nil => simp [tree_height] at hpos
    | node rk rv rh rl rr =>
      simp only [HeightsExact] at her
      simp only [add_adjusted_height, tree_height, her.1]
      omega
  | node lk lv lh ll lr =>
    simp only [HeightsExact] at hel
    cases r with
    | nil =>
      simp only [add_adjusted_height, tree_height, hel.1]
      omega
    | node rk rv rh rl rr =>
      simp only [HeightsExact] at her
      simp only [add_adjusted_height, tree_height, hel.1, her.1]
      split <;> omega

variable [LinearOrder K]

theorem add_invariant (t : Node K V) (key : K) (val : V) (hb : Balanced t) (he : HeightsExact t) :
    ∃ t1, add t key val = some t1 ∧ Balanced t1 ∧ HeightsExact t1 ∧ 0 < tree_height t1 ∧
      (tree_height t1 = tree_height t ∨ (tree_height t1 = tree_height t + 1 ∧ Grown t1)) := by
  induction t with
  | nil =>
    refine ⟨node key val 1 nil nil, rfl, ?_⟩
    simp [Balanced, HeightsExact, tree_height, Grown]
  | node k v h l r ihl ihr =>
    simp only [Balanced, HeightsExact] at hb he
    obtain ⟨hb1, hbl, hbr⟩ := hb
    obtain ⟨he1, hel, her⟩ := he
    by_cases hk : key ≤ k
    · obtain ⟨l1, hadd, hbl1, hel1, hpos, hgrow⟩ := ihl hbl hel
      simp only [add, if_pos hk, hadd, Option.bind_eq_bind, Option.some_bind]
      have hadj := add_adjusted_height_exact h l1 r hel1 her (Or.inl hpos)
      by_cases hheavy : tree_height l1 = tree_height r + 2
      · have hg : Grown l1 := by
          rcases hgrow with hgrow | hgrow
          · omega
          · exact hgrow.2
        obtain ⟨t1, h1, h2, h3, h4⟩ := rebalance_left_heavy k v h l1 r hbl1 hel1 hbr her hheavy hg
        refine ⟨t1, h1, h2, h3, by omega, Or.inl ?_⟩
        simp only [tree_height]
        omega
      · have hbn : Balanced (node k v (add_adjusted_height h l1 r) l1 r) := by
          simp only [Balanced]
          exact ⟨by omega, hbl1, hbr⟩
        have hen : HeightsExact (node k v (add_adjusted_height h l1 r) l1 r) := by
          simp only [HeightsExact]
          exact ⟨hadj, hel1, her⟩
        refine ⟨_, rebalance_balanced _ hbn hen, hbn, hen, by simp [tree_height], ?_⟩
        simp only [tree_height, Grown]
        omega
    · obtain ⟨r1, hadd, hbr1, her1, hpos, hgrow⟩ := ihr hbr her
      simp only [add, if_neg hk, hadd, Option.bind_eq_bind, Option.some_bind]
      have hadj := add_adjusted_height_exact h l r1 hel her1 (Or.inr hpos)
      by_cases hheavy : tree_height r1 = tree_height l + 2
      · have hg : Grown r1 := by
          rcases hgrow with hgrow | hgrow
          · omega
          · exact hgrow.2
        obtain ⟨t1, h1, h2, h3, h4⟩ := rebalance_right_heavy k v h l r1 hbl hel hbr1 her1 hheavy hg
        refine ⟨t1, h1, h2, h3, by omega, Or.inl ?_⟩
        simp only [tree_height]
        omega
      · have hbn : Balanced (node k v (add_adjusted_height h l r1) l r1) := by
          simp only [Balanced]
          exact ⟨by omega, hbl, hbr1⟩
        have hen : HeightsExact (node k v (add_adjusted_height h l r1) l r1) := by
          simp only [HeightsExact]
          exact ⟨hadj, hel, her1⟩
        refine ⟨_, rebalance_balanced _ hbn hen, hbn, hen, by simp [tree_height], ?_⟩
        simp only [tree_height, Grown]
        omega

end AVLCollection.Node

/-! ### AVL tree: `add` keeps the keys in order -/

namespace AVLCollection.Node
variable {K V : Type}

theorem keys_acc (t : Node K V) (acc : List K) : keys t acc = acc ++ keys t [] := by
  induction t generalizing acc with
  | nil => simp [keys]
  | node k v h l r ihl ihr =>
    simp only [keys, List.nil_append]
    rw [ihr (keys l acc ++ [k]), ihr (keys l [] ++ [k]), ihl acc]
    simp

theorem keys_node (k : K) (v : V) (h : Int) (l r : Node K V) :
    keys (node k v h l r) [] = keys l [] ++ k :: keys r [] := by
  simp only [keys, List.nil_append]
  rw [keys_acc r]
  simp

theorem keys_single_right {t t1 : Node K V} (h : single_right t = some t1) :
    keys t1 [] = keys t [] := by
  rcases t with _ | ⟨k2, v2, h2, (_ | ⟨k1, v1, h1, a, b⟩), c⟩ <;>
    simp [single_right, rotate_right, add_right_height, add_height] at h
  subst h
  simp [keys_node]

theorem keys_single_left {t t1 : Node K V} (h : single_left t = some t1) :
    keys t1 [] = keys t [] := by
  rcases t with _ | ⟨k2, v2, h2, a, (_ | ⟨k1, v1, h1, b, c⟩)⟩ <;>
    simp [single_left, rotate_left, add_left_height, add_height] at h
  subst h
  simp [keys_node]

theorem keys_double_left_right {t t1 : Node K V} (h : double_left_right t = some t1) :
    keys t1 [] = keys t [] := by
  rcases t with _ | ⟨k2, v2, h2, (_ | ⟨k1, v1, h1, a, (_ | ⟨k3, v3, h3, b, c⟩)⟩), d⟩ <;>
    simp [double_left_right, rotate_left, rotate_right, add_left_height, add_right_height,
      add_height] at h
  subst h
  simp [keys_node]

theorem keys_double_right_left {t t1 : Node K V} (h : double_right_left t = some t1) :
    keys t1 [] = keys t [] := by
  rcases t with _ | ⟨k2, v2, h2, a, (_ | ⟨k1, v1, h1, (_ | ⟨k3, v3, h3, b, c⟩), d⟩)⟩ <;>
    simp [double_right_left, rotate_left, rotate_right, add_left_height, add_right_height,
      add_height] at h
  subst h
  simp [keys_node]

theorem keys_rebalance {t t1 : Node K V} (h : rebalance t = some t1) :
    keys t1 [] = keys t [] := by
  unfold rebalance at h
  split at h
  · cases h; rfl
  · split at h
    · split at h
      · exact keys_single_right h
      · exact keys_double_left_right h
      · cases h; rfl
    · cases h; rfl
  · split at h
    · split at h
      · exact keys_double_right_left h
      · exact keys_single_left h
      · cases h; rfl
    · cases h; rfl
  · split at h
    · simp only [Option.bind_eq_bind, Option.bind_eq_some] at h
      obtain ⟨a, -, b, -, h⟩ := h
      split at h
      · exact keys_single_right h
      · split at h
        · exact keys_double_left_right h
        · cases h; rfl
    · split at h
      · simp only [Option.bind_eq_bind, Option.bind_eq_some] at h
        obtain ⟨a, -, b, -, h⟩ := h
        split at h
        · exact keys_double_right_left h
        · split at h
          · exact keys_single_left h
          · cases h; rfl
      · cases h; rfl
  · cases h; rfl

variable [LinearOrder K]

theorem sorted_insert_left {l l1 r : List K} {k key : K}
    (hs : (l ++ k :: r).Sorted (· ≤ ·)) (h1 : l1.Sorted (· ≤ ·)) (hp : l1.Perm (key :: l))
    (hk : key ≤ k) : (l1 ++ k :: r).Sorted (· ≤ ·) := by
  unfold List.Sorted at *
  rw [List.pairwise_append] at hs ⊢
  obtain ⟨-, hkr, hlr⟩ := hs
  refine ⟨h1, hkr, ?_⟩
  intro a ha b hb
  rcases List.mem_cons.mp (hp.mem_iff.mp ha) with rfl | ha
  · rcases List.mem_cons.mp hb with rfl | hb
    · exact hk
    · exact le_trans hk (List.rel_of_pairwise_cons hkr hb)
  · exact hlr a ha b hb

theorem sorted_insert_right {l r r1 : List K} {k key : K}
    (hs : (l ++ k :: r).Sorted (· ≤ ·)) (h1 : r1.Sorted (· ≤ ·)) (hp : r1.Perm (key :: r))
    (hk : k < key) : (l ++ k :: r1).Sorted (· ≤ ·) := by
  unfold List.Sorted at *
  rw [List.pairwise_append] at hs ⊢
  obtain ⟨hl, hkr, hlr⟩ := hs
  refine ⟨hl, ?_, ?_⟩
  · rw [List.pairwise_cons]
    refine ⟨?_, h1⟩
    intro b hb
    rcases List.mem_cons.mp (hp.mem_iff.mp hb) with rfl | hb
    · exact le_of_lt hk
    · exact List.rel_of_pairwise_cons hkr hb
  · intro a ha b hb
    rcases List.mem_cons.mp hb with rfl | hb
    · exact hlr a ha _ (List.mem_cons_self _ _)
    · rcases List.mem_cons.mp (hp.mem_iff.mp hb) with rfl | hb
      · exact le_trans (hlr a ha k (List.mem_cons_self _ _)) (le_of_lt hk)
      · exact hlr a ha b (List.mem_cons_of_mem _ hb)

theorem keys_add {t t1 : Node K V} {key : K} {val : V} (h : add t key val = some t1)
    (hs : (keys t []).Sorted (· ≤ ·)) :
    (keys t1 []).Sorted (· ≤ ·) ∧ (keys t1 []).Perm (key :: keys t []) := by
  induction t generalizing t1 with
  | nil =>
    simp only [add, rebalance] at h
    cases h
    simp [keys]
  | node k v ht l r ihl ihr =>
    rw [keys_node] at hs
    have hsl : (keys l []).Sorted (· ≤ ·) := (List.pairwise_append.mp hs).1
    have hsr : (keys r []).Sorted (· ≤ ·) := (List.pairwise_cons.mp (List.pairwise_append.mp hs).2.1).2
    by_cases hk : key ≤ k
    · simp only [add, if_pos hk, Option.bind_eq_bind, Option.bind_eq_some] at h
      obtain ⟨l1, hl1, hreb⟩ := h
      obtain ⟨hs1, hp1⟩ := ihl hl1 hsl
      rw [keys_rebalance hreb, keys_node, keys_node]
      exact ⟨sorted_insert_left hs hs1 hp1 hk, hp1.append_right _⟩
    · simp only [add, if_neg hk, Option.bind_eq_bind, Option.bind_eq_some] at h
      obtain ⟨r1, hr1, hreb⟩ := h
      obtain ⟨hs1, hp1⟩ := ihr hr1 hsr
      rw [keys_rebalance hreb, keys_node, keys_node]
      refine ⟨sorted_insert_right hs hs1 hp1 (lt_of_not_le hk), ?_⟩
      exact ((hp1.cons k).append_left _).trans
        (((List.Perm.swap key k _).append_left _).trans List.perm_middle)

end AVLCollection.Node

namespace AVLCollection
variable {K V : Type} [LinearOrder K]

theorem foldlM_add_invariant (kvs : List (K × V)) (c0 : AVLCollection K V)
    (hb : Node.Balanced c0.root) (he : Node.HeightsExact c0.root)
    (hs : (c0.keys []).Sorted (· ≤ ·)) :
    ∃ c, kvs.foldlM (fun c kv => c.add kv.1 kv.2) c0 = some c ∧ Node.Balanced c.root ∧
      Node.HeightsExact c.root ∧ (c.keys []).Sorted (· ≤ ·) ∧
      (c.keys []).Perm (c0.keys [] ++ kvs.map Prod.fst) := by
  induction kvs generalizing c0 with
  | nil => exact ⟨c0, rfl, hb, he, hs, by simp⟩
  | cons kv kvs ih =>
    obtain ⟨t1, hadd, hb1, he1, -, -⟩ := Node.add_invariant c0.root kv.1 kv.2 hb he
    obtain ⟨hs1, hp1⟩ := Node.keys_add hadd hs
    obtain ⟨c, hc, hbc, hec, hsc, hpc⟩ := ih ⟨t1, size_t_incr c0.node_count⟩ hb1 he1 hs1
    refine ⟨c, ?_, hbc, hec, hsc, ?_⟩
    · simp only [List.foldlM_cons, add, hadd, Option.bind_eq_bind, Option.some_bind]
      exact hc
    · refine hpc.trans ?_
      simp only [keys, List.map_cons]
      exact (hp1.append_right _).trans (by simpa using List.perm_middle.symm)

end AVLCollection

namespace AVLCollection

/-- C1: every finite sequence of `add` calls on an empty AVL collection runs to
completion, and in the resulting tree every node satisfies
`|height(left) - height(right)| ≤ 1` for the actual subtree heights. -/
theorem add_all_balanced {K V : Type} [LinearOrder K] (kvs : List (K × V)) :
    ∃ c, add_all kvs = some c ∧ Node.Balanced c.root := by
  obtain ⟨c, hc, hb, -⟩ := foldlM_add_invariant kvs empty trivial trivial (by simp [keys, empty, Node.keys])
  exact ⟨c, hc, hb⟩

/-- C2: adding the keys 1, 2, 3, 4, 5 and then removing the stored key 1 leaves
the root with an empty left subtree and a right subtree of height 2: the tree is
not balanced after `remove`. -/
theorem remove_leaves_unbalanced :
    (add_all [(1, ()), (2, ()), (3, ()), (4, ()), (5, ())]).bind (fun c => c.remove (1 : Nat))
      = some ⟨.node 2 () 3 .nil (.node 4 () 2 (.node 3 () 1 .nil .nil) (.node 5 () 1 .nil .nil)), 4⟩
    ∧ ¬ Node.Balanced (K := Nat) (V := Unit)
      (.node 2 () 3 .nil (.node 4 () 2 (.node 3 () 1 .nil .nil) (.node 5 () 1 .nil .nil))) := by
  decide

/-- C7: adding the keys 0, 0, 1, 1, 1, 1 and then removing the stored key 1
deletes two pairs with key 1: `keys()` goes from `[0, 0, 1, 1, 1, 1]` to
`[0, 0, 1, 1]` while `size()` goes from 6 to 5. -/
theorem remove_deletes_two_pairs :
    ((add_all [(0, ()), (0, ()), (1, ()), (1, ()), (1, ()), (1, ())]).map
        fun c => (c.keys [], c.size)) = some ([0, 0, 1, 1, 1, 1], 6)
    ∧ (((add_all [(0, ()), (0, ()), (1, ()), (1, ()), (1, ()), (1, ())]).bind
        (fun c => c.remove (1 : Nat))).map fun c => (c.keys [], c.size, Node.count c.root))
      = some ([0, 0, 1, 1], 5, 4) := by
  decide

/-- C9: `remove` of a key that is not stored still decrements the counter: on
the collection holding the single key 1, `remove(2)` keeps `keys()` at `[1]` and
takes `size()` from 1 to 0; on the empty collection `size()` wraps around to
`2^64 - 1`. -/
theorem remove_absent_changes_size :
    (((add_all [((1 : Nat), ())]).bind (fun c => c.remove 2)).map fun c => (c.keys [], c.size))
      = some ([1], 0)
    ∧ ((empty (K := Nat) (V := Unit)).remove 2).map (fun c => (c.keys [], c.size))
      = some ([], 2 ^ 64 - 1) := by
  decide

end AVLCollection

namespace RBTCollection

variable {K V : Type}

@[simp] theorem Tree.ptr_nil : (Tree.nil : Tree K V).ptr = none := rfl

@[simp] theorem Tree.ptr_node (a : Nat) (k : K) (v : V) (col : color_t) (l r : Tree K V) :
    (Tree.node a k v col l r).ptr = some a := rfl

@[simp] theorem Path.ptr_top : (Path.top : Path K V).ptr = none := rfl

@[simp] theorem Path.ptr_left (a : Nat) (k : K) (v : V) (col : color_t) (up : Path K V)
    (r : Tree K V) : (Path.left a k v col up r).ptr = some a := rfl

@[simp] theorem Path.ptr_right (a : Nat) (k : K) (v : V) (col : color_t) (l : Tree K V)
    (up : Path K V) : (Path.right a k v col l up).ptr = some a := rfl

theorem Tree.ptr_mem {t : Tree K V} {a : Nat} (h : t.ptr = some a) : a ∈ t.addrs := by
  cases t with
  | nil => simp [Tree.ptr] at h
  | node b k v col l r =>
    simp only [Tree.ptr, Option.some.injEq] at h
    simp [Tree.addrs, h]

theorem Path.ptr_mem_addrs {p : Path K V} {a : Nat} (h : p.ptr = some a) : a ∈ p.addrs := by
  cases p with
  | top => simp [Path.ptr] at h
  | left b k v col up r =>
    simp only [Path.ptr, Option.some.injEq] at h
    simp [Path.addrs, h]
  | right b k v col l up =>
    simp only [Path.ptr, Option.some.injEq] at h
    simp [Path.addrs, h]

theorem Rep.congr_mem {mem mem1 : Nat → Option (Node K V)} {t : Tree K V} {par : Ptr}
    (h : Rep mem par t) (hagree : ∀ a ∈ t.addrs, mem1 a = mem a) : Rep mem1 par t := by
  induction t generalizing par with
  | nil => trivial
  | node a k v col l r ihl ihr =>
    obtain ⟨h1, h2, h3⟩ := h
    refine ⟨?_, ihl h2 ?_, ihr h3 ?_⟩
    · rw [hagree a (by simp [Tree.addrs])]; exact h1
    · intro b hb; exact hagree b (by simp [Tree.addrs, hb])
    · intro b hb; exact hagree b (by simp [Tree.addrs, hb])

theorem RepPath.congr_path {mem mem1 : Nat → Option (Node K V)} {p : Path K V} {hole : Ptr}
    (h : RepPath mem p hole) (hagree : ∀ a ∈ p.addrs, mem1 a = mem a) : RepPath mem1 p hole := by
  induction p generalizing hole with
  | top => trivial
  | left a k v col up r ih =>
    obtain ⟨h1, h2, h3⟩ := h
    refine ⟨?_, h2.congr_mem ?_, ih h3 ?_⟩
    · rw [hagree a (by simp [Path.addrs])]; exact h1
    · intro b hb; exact hagree b (by simp [Path.addrs, hb])
    · intro b hb; exact hagree b (by simp [Path.addrs, hb])
  | right a k v col l up ih =>
    obtain ⟨h1, h2, h3⟩ := h
    refine ⟨?_, h2.congr_mem ?_, ih h3 ?_⟩
    · rw [hagree a (by simp [Path.addrs])]; exact h1
    · intro b hb; exact hagree b (by simp [Path.addrs, hb])
    · intro b hb; exact hagree b (by simp [Path.addrs, hb])

theorem Path.root_ptr_congr (p : Path K V) (h1 h2 : Ptr) (hp : p.ptr ≠ none) :
    p.root_ptr h1 = p.root_ptr h2 := by
  cases p with
  | top => simp [Path.ptr] at hp
  | left a k v col up r => rfl
  | right a k v col l up => rfl

theorem Holds.up_left {c : RBTCollection K V} {a : Nat} {k : K} {v : V} {col : color_t}
    {up : Path K V} {r t : Tree K V} :
    Holds c (Path.left a k v col up r) t ↔ Holds c up (Tree.node a k v col t r) :=
  ⟨fun ⟨h1, ⟨h2, h3, h4⟩, h5⟩ => ⟨h1, h4, ⟨h2, h5, h3⟩⟩,
   fun ⟨h1, h4, ⟨h2, h5, h3⟩⟩ => ⟨h1, ⟨h2, h3, h4⟩, h5⟩⟩

theorem Holds.up_right {c : RBTCollection K V} {a : Nat} {k : K} {v : V} {col : color_t}
    {up : Path K V} {l t : Tree K V} :
    Holds c (Path.right a k v col l up) t ↔ Holds c up (Tree.node a k v col l t) :=
  ⟨fun ⟨h1, ⟨h2, h3, h4⟩, h5⟩ => ⟨h1, h4, ⟨h2, h3, h5⟩⟩,
   fun ⟨h1, h4, ⟨h2, h3, h5⟩⟩ => ⟨h1, ⟨h2, h3, h4⟩, h5⟩⟩

theorem Path.addrs_left_perm (a : Nat) (k : K) (v : V) (col : color_t) (up : Path K V)
    (r t : Tree K V) :
    ((Path.left a k v col up r).addrs ++ t.addrs).Perm
      (up.addrs ++ (Tree.node a k v col t r).addrs) := by
  simp only [Path.addrs, Tree.addrs]
  rw [← Multiset.coe_eq_coe]
  simp only [← Multiset.cons_coe, ← Multiset.coe_add, ← Multiset.singleton_add]
  ac_rfl

theorem Path.addrs_right_perm (a : Nat) (k : K) (v : V) (col : color_t) (up : Path K V)
    (l t : Tree K V) :
    ((Path.right a k v col l up).addrs ++ t.addrs).Perm
      (up.addrs ++ (Tree.node a k v col l t).addrs) := by
  simp only [Path.addrs, Tree.addrs]
  rw [← Multiset.coe_eq_coe]
  simp only [← Multiset.cons_coe, ← Multiset.coe_add, ← Multiset.singleton_add]
  ac_rfl

/-! The reads of the fields of the node the subtree `t` hangs from. -/

theorem Holds.mem_root {c : RBTCollection K V} {path : Path K V} {a : Nat} {k : K} {v : V}
    {col : color_t} {l r : Tree K V} (h : Holds c path (Tree.node a k v col l r)) :
    c.mem a = some ⟨some k, some v, l.ptr, r.ptr, path.ptr, col⟩ := h.rtree.1

theorem read_left {c : RBTCollection K V} {a : Nat} {n : Node K V} (h : c.mem a = some n) :
    c.left (some a) = some n.left := by simp [left, deref, h]

theorem read_right {c : RBTCollection K V} {a : Nat} {n : Node K V} (h : c.mem a = some n) :
    c.right (some a) = some n.right := by simp [right, deref, h]

theorem read_parent {c : RBTCollection K V} {a : Nat} {n : Node K V} (h : c.mem a = some n) :
    c.parent (some a) = some n.parent := by simp [parent, deref, h]

theorem read_color {c : RBTCollection K V} {a : Nat} {n : Node K V} (h : c.mem a = some n) :
    c.color (some a) = some n.color := by simp [color, deref, h]

theorem read_key {c : RBTCollection K V} {a : Nat} {n : Node K V} (h : c.mem a = some n) :
    c.key (some a) = n.key := by simp [key, deref, h]

theorem modify_some {c : RBTCollection K V} {a : Nat} {n : Node K V} (h : c.mem a = some n)
    (f : Node K V → Node K V) : c.modify (some a) f = some (c.store a (f n)) := by
  simp [modify, h]

@[simp] theorem store_mem_same (c : RBTCollection K V) (a : Nat) (n : Node K V) :
    (c.store a n).mem a = some n := by simp [store]

theorem store_mem_other (c : RBTCollection K V) {a b : Nat} (n : Node K V) (h : b ≠ a) :
    (c.store a n).mem b = c.mem b := by simp [store, h]

@[simp] theorem store_root (c : RBTCollection K V) (a : Nat) (n : Node K V) :
    (c.store a n).root = c.root := rfl

@[simp] theorem store_next (c : RBTCollection K V) (a : Nat) (n : Node K V) :
    (c.store a n).next = c.next := rfl

@[simp] theorem store_node_count (c : RBTCollection K V) (a : Nat) (n : Node K V) :
    (c.store a n).node_count = c.node_count := rfl

theorem Frame.refl (c : RBTCollection K V) (touched : List Nat) : Frame c c touched :=
  ⟨rfl, rfl, fun _ _ => rfl⟩

theorem Frame.trans {c c1 c2 : RBTCollection K V} {l1 l2 l : List Nat} (h1 : Frame c c1 l1)
    (h2 : Frame c1 c2 l2) (hl1 : ∀ a ∈ l1, a ∈ l) (hl2 : ∀ a ∈ l2, a ∈ l) : Frame c c2 l :=
  ⟨h2.next.trans h1.next, h2.count.trans h1.count, fun b hb =>
    (h2.mem b (fun h => hb (hl2 b h))).trans (h1.mem b (fun h => hb (hl1 b h)))⟩

theorem Frame.store (c : RBTCollection K V) (a : Nat) (n : Node K V) :
    Frame c (c.store a n) [a] :=
  ⟨rfl, rfl, fun b hb => store_mem_other c n (by simpa using hb)⟩

/-- The write `x->color = col` at the root of the subtree. -/
theorem Holds.set_color {c : RBTCollection K V} {path : Path K V} {a : Nat} {k : K} {v : V}
    {col : color_t} {l r : Tree K V} (h : Holds c path (Tree.node a k v col l r))
    (hnd : (path.addrs ++ (Tree.node a k v col l r).addrs).Nodup) (col1 : color_t) :
    ∃ c1, c.set_color (some a) col1 = some c1 ∧ Holds c1 path (Tree.node a k v col1 l r) ∧
      Frame c c1 [a] := by
  refine ⟨_, modify_some h.mem_root _, ⟨h.root, ?_, ?_, ?_, ?_⟩, Frame.store _ _ _⟩
  · refine h.rpath.congr_path fun b hb => store_mem_other _ _ ?_
    rintro rfl
    exact (List.nodup_append.mp hnd).2.2 hb (by simp [Tree.addrs])
  · simp
  · refine h.rtree.2.1.congr_mem fun b hb => store_mem_other _ _ ?_
    rintro rfl
    simp only [Tree.addrs, List.nodup_append, List.nodup_cons, List.mem_append] at hnd
    exact hnd.2.1.1 (Or.inl hb)
  · refine h.rtree.2.2.congr_mem fun b hb => store_mem_other _ _ ?_
    rintro rfl
    simp only [Tree.addrs, List.nodup_append, List.nodup_cons, List.mem_append] at hnd
    exact hnd.2.1.1 (Or.inr hb)

end RBTCollection

namespace RBTCollection

variable {K V : Type}

/-- The statement `if(q) q->parent = p` for the root `q` of a subtree. -/
theorem Rep.set_parent {c : RBTCollection K V} {t : Tree K V} {par : Ptr} (h : Rep c.mem par t)
    (hnd : t.addrs.Nodup) (par1 : Ptr) :
    ∃ c1, c.set_parent_if_present t.ptr par1 = some c1 ∧ Rep c1.mem par1 t ∧ c1.root = c.root ∧
      Frame c c1 t.addrs := by
  cases t with
  | nil => exact ⟨c, rfl, trivial, rfl, Frame.refl _ _⟩
  | node a k v col l r =>
    obtain ⟨h1, h2, h3⟩ := h
    simp only [Tree.addrs, List.nodup_cons, List.mem_append, List.nodup_append, not_or] at hnd
    refine ⟨c.store a ⟨some k, some v, l.ptr, r.ptr, par1, col⟩, ?_,
      ⟨store_mem_same _ _ _, ?_, ?_⟩, rfl, ?_⟩
    · simp [set_parent_if_present, RBTCollection.set_parent, modify, h1]
    · refine h2.congr_mem fun b hb => store_mem_other _ _ ?_
      rintro rfl
      exact hnd.1.1 hb
    · refine h3.congr_mem fun b hb => store_mem_other _ _ ?_
      rintro rfl
      exact hnd.1.2 hb
    · refine ⟨rfl, rfl, fun b hb => store_mem_other _ _ ?_⟩
      rintro rfl
      exact hb (by simp [Tree.addrs])

/-- The statements that make the parent of `k2` (or `root`) point to `k1`. -/
theorem RepPath.relink {c : RBTCollection K V} {path : Path K V} {a2 : Nat} {n2 : Node K V}
    (h : RepPath c.mem path (some a2)) (hroot : c.root = path.root_ptr (some a2))
    (hn2 : c.mem a2 = some n2) (hpar : n2.parent = path.ptr)
    (hnd : path.addrs.Nodup) (ha2 : a2 ∉ path.addrs) (a1 : Nat) :
    ∃ c1, c.relink (some a2) (some a1) = some c1 ∧ RepPath c1.mem path (some a1) ∧
      c1.root = path.root_ptr (some a1) ∧ Frame c c1 path.addrs := by
  cases path with
  | top =>
    refine ⟨{ c with root := some a1 }, ?_, trivial, rfl, ⟨rfl, rfl, fun _ _ => rfl⟩⟩
    simp [RBTCollection.relink, read_parent hn2, hpar]
  | left p k v col up r =>
    obtain ⟨h1, h2, h3⟩ := h
    simp only [Path.addrs, List.nodup_cons, List.mem_append, List.nodup_append, List.mem_cons,
      not_or] at hnd ha2
    have hne : (some a2 : Ptr) ≠ r.ptr := fun e => ha2.2.1 (Tree.ptr_mem e.symm)
    refine ⟨c.store p ⟨some k, some v, some a1, r.ptr, up.ptr, col⟩, ?_,
      ⟨store_mem_same _ _ _, ?_, ?_⟩, hroot, ?_⟩
    · simp [RBTCollection.relink, read_parent hn2, hpar, read_right h1, hne, set_left, modify, h1]
    · refine h2.congr_mem fun b hb => store_mem_other _ _ ?_
      rintro rfl
      exact hnd.1.1 hb
    · refine h3.congr_path fun b hb => store_mem_other _ _ ?_
      rintro rfl
      exact hnd.1.2 hb
    · refine ⟨rfl, rfl, fun b hb => store_mem_other _ _ ?_⟩
      rintro rfl
      exact hb (by simp [Path.addrs])
  | right p k v col l up =>
    obtain ⟨h1, h2, h3⟩ := h
    simp only [Path.addrs, List.nodup_cons, List.mem_append, List.nodup_append, List.mem_cons,
      not_or] at hnd ha2
    refine ⟨c.store p ⟨some k, some v, l.ptr, some a1, up.ptr, col⟩, ?_,
      ⟨store_mem_same _ _ _, ?_, ?_⟩, hroot, ?_⟩
    · simp [RBTCollection.relink, read_parent hn2, hpar, read_right h1, set_right, modify, h1]
    · refine h2.congr_mem fun b hb => store_mem_other _ _ ?_
      rintro rfl
      exact hnd.1.1 hb
    · refine h3.congr_path fun b hb => store_mem_other _ _ ?_
      rintro rfl
      exact hnd.1.2 hb
    · refine ⟨rfl, rfl, fun b hb => store_mem_other _ _ ?_⟩
      rintro rfl
      exact hb (by simp [Path.addrs])

end RBTCollection

namespace RBTCollection

variable {K V : Type}

/-- Source `rotate_right(k2)` at the root `k2` of the subtree below the path. -/
theorem Holds.rotate_right {c : RBTCollection K V} {path : Path K V} {a2 a1 : Nat} {k2 k1 : K}
    {v2 v1 : V} {c2 c1 : color_t} {A B C : Tree K V}
    (h : Holds c path (Tree.node a2 k2 v2 c2 (Tree.node a1 k1 v1 c1 A B) C))
    (hnd : (path.addrs ++ (Tree.node a2 k2 v2 c2 (Tree.node a1 k1 v1 c1 A B) C).addrs).Nodup) :
    ∃ c1', c.rotate_right (some a2) = some c1' ∧
      Holds c1' path (Tree.node a1 k1 v1 c1 A (Tree.node a2 k2 v2 c2 B C)) ∧
      Frame c c1' (path.addrs ++ (Tree.node a2 k2 v2 c2 (Tree.node a1 k1 v1 c1 A B) C).addrs) := by
  obtain ⟨hroot, RP, m2, ⟨m1, RA, RB⟩, RC⟩ := h
  simp only [Tree.ptr_node] at m2 hroot RP
  simp only [Tree.addrs, List.nodup_append, List.nodup_cons, List.mem_append, List.mem_cons,
    not_or, List.Disjoint, List.cons_append, List.forall_mem_ne] at hnd
  obtain ⟨hndP, ⟨⟨h21, ⟨h2A, h2B⟩, h2C⟩, ⟨⟨h1A, h1B⟩, h1C⟩, ⟨hndA, hndB, hAB⟩, hndC, hABC⟩, hP⟩ := hnd
  have hP2 : a2 ∉ path.addrs := fun hm => hP hm (Or.inl rfl)
  have hP1 : a1 ∉ path.addrs := fun hm => hP hm (Or.inr (Or.inl rfl))
  have h12 : a1 ≠ a2 := fun e => h21 e.symm
  -- k2->left = k1->right
  have e1 := read_left m2
  have e2 := read_right m1
  have e3 := modify_some m2 (fun n => { n with left := B.ptr })
  generalize hs1 : c.store a2 _ = s1 at e3
  have s1a2 : s1.mem a2 = some ⟨some k2, some v2, B.ptr, C.ptr, path.ptr, c2⟩ := by
    rw [← hs1]; exact store_mem_same _ _ _
  have s1o : ∀ b, b ≠ a2 → s1.mem b = c.mem b := fun b hb => by
    rw [← hs1]; exact store_mem_other _ _ hb
  have s1root : s1.root = c.root := by rw [← hs1]; rfl
  have s1next : s1.next = c.next := by rw [← hs1]; rfl
  have s1cnt : s1.node_count = c.node_count := by rw [← hs1]; rfl
  -- if(k2->left) k2->left->parent = k2
  have e4 := read_left s1a2
  obtain ⟨s2, e5, RB2, s2root, F2⟩ :=
    Rep.set_parent (c := s1) (RB.congr_mem fun b hb => s1o b (fun e => h2B (e ▸ hb))) hndB (some a2)
  have s2a1 : s2.mem a1 = some ⟨some k1, some v1, A.ptr, B.ptr, some a2, c1⟩ := by
    rw [F2.mem a1 h1B, s1o a1 h12]; exact m1
  -- k1->right = k2
  have e6 := modify_some s2a1 (fun n => { n with right := some a2 })
  generalize hs3 : s2.store a1 _ = s3 at e6
  have s3a1 : s3.mem a1 = some ⟨some k1, some v1, A.ptr, some a2, some a2, c1⟩ := by
    rw [← hs3]; exact store_mem_same _ _ _
  have s3o : ∀ b, b ≠ a1 → s3.mem b = s2.mem b := fun b hb => by
    rw [← hs3]; exact store_mem_other _ _ hb
  have s3a2 : s3.mem a2 = some ⟨some k2, some v2, B.ptr, C.ptr, path.ptr, c2⟩ := by
    rw [s3o a2 h12.symm, F2.mem a2 h2B]; exact s1a2
  -- k1->parent = k2->parent
  have e7 := read_parent s3a2
  have e8 := modify_some s3a1 (fun n => { n with parent := path.ptr })
  generalize hs4 : s3.store a1 _ = s4 at e8
  have s4a1 : s4.mem a1 = some ⟨some k1, some v1, A.ptr, some a2, path.ptr, c1⟩ := by
    rw [← hs4]; exact store_mem_same _ _ _
  have s4o : ∀ b, b ≠ a1 → s4.mem b = s3.mem b := fun b hb => by
    rw [← hs4]; exact store_mem_other _ _ hb
  have s4a2 : s4.mem a2 = some ⟨some k2, some v2, B.ptr, C.ptr, path.ptr, c2⟩ := by
    rw [s4o a2 h12.symm]; exact s3a2
  have s4root : s4.root = path.root_ptr (some a2) := by
    rw [← hs4, store_root, ← hs3, store_root, s2root, s1root]; exact hroot
  -- all cells away from k1, k2 and the subtree B are still those of c
  have s4far : ∀ b, b ≠ a1 → b ≠ a2 → b ∉ B.addrs → s4.mem b = c.mem b := fun b hb1 hb2 hbB => by
    rw [s4o b hb1, s3o b hb1, F2.mem b hbB, s1o b hb2]
  -- the parent of k2, or root, now points to k1
  obtain ⟨s5, e9, RP5, s5root, F5⟩ := @RepPath.relink K V s4 _ a2 _
    (RP.congr_path fun b hb => s4far b (fun e => hP1 (e ▸ hb)) (fun e => hP2 (e ▸ hb))
      (fun hm => hP hb (Or.inr (Or.inr (Or.inl (Or.inr hm))))))
    s4root s4a2 rfl hndP hP2 a1
  have s5a2 : s5.mem a2 = some ⟨some k2, some v2, B.ptr, C.ptr, path.ptr, c2⟩ := by
    rw [F5.mem a2 hP2]; exact s4a2
  -- k2->parent = k1
  have e10 := modify_some s5a2 (fun n => { n with parent := some a1 })
  generalize hs6 : s5.store a2 _ = s6 at e10
  have s6a2 : s6.mem a2 = some ⟨some k2, some v2, B.ptr, C.ptr, some a1, c2⟩ := by
    rw [← hs6]; exact store_mem_same _ _ _
  have s6o : ∀ b, b ≠ a2 → s6.mem b = s5.mem b := fun b hb => by
    rw [← hs6]; exact store_mem_other _ _ hb
  have s6far : ∀ b, b ≠ a1 → b ≠ a2 → b ∉ B.addrs → b ∉ path.addrs → s6.mem b = c.mem b :=
    fun b hb1 hb2 hbB hbP => by rw [s6o b hb2, F5.mem b hbP, s4far b hb1 hb2 hbB]
  refine ⟨s6, ?_, ⟨?_, ?_, ⟨?_, ?_, ?_, ?_, ?_⟩⟩, ⟨?_, ?_, ?_⟩⟩
  · simp only [RBTCollection.rotate_right, Option.bind_eq_bind, e1, Option.some_bind, e2,
      RBTCollection.set_left, e3, e4, e5, RBTCollection.set_right, e6, e7,
      RBTCollection.set_parent, e8, e9, e10]
  · rw [← hs6, store_root, s5root]; rfl
  · exact RP5.congr_path fun b hb => s6o b (fun e => hP2 (e ▸ hb))
  · rw [s6o a1 h12, F5.mem a1 hP1]; exact s4a1
  · exact RA.congr_mem fun b hb => s6far b (fun e => h1A (e ▸ hb)) (fun e => h2A (e ▸ hb))
      (fun hm => hAB hb hm) (fun hm => hP hm (Or.inr (Or.inr (Or.inl (Or.inl hb)))))
  · exact s6a2
  · exact RB2.congr_mem fun b hb => by
      rw [s6o b (fun e => h2B (e ▸ hb)), F5.mem b (fun hm => hP hm (Or.inr (Or.inr (Or.inl (Or.inr hb))))),
        s4o b (fun e => h1B (e ▸ hb)), s3o b (fun e => h1B (e ▸ hb))]
  · exact RC.congr_mem fun b hb => s6far b (fun e => h1C (e ▸ hb)) (fun e => h2C (e ▸ hb))
      (fun hm => hABC (Or.inr hm) hb) (fun hm => hP hm (Or.inr (Or.inr (Or.inr hb))))
  · rw [← hs6, store_next, F5.next, ← hs4, store_next, ← hs3, store_next, F2.next, s1next]
  · rw [← hs6, store_node_count, F5.count, ← hs4, store_node_count, ← hs3, store_node_count,
      F2.count, s1cnt]
  · intro b hb
    simp only [Tree.addrs, List.mem_append, List.mem_cons, not_or] at hb
    exact s6far b hb.2.2.1.1 hb.2.1 hb.2.2.1.2.2 hb.1

end RBTCollection

namespace RBTCollection

variable {K V : Type}

/-- Source `rotate_left(k2)` at the root `k2` of the subtree below the path. -/
theorem Holds.rotate_left {c : RBTCollection K V} {path : Path K V} {a2 a1 : Nat} {k2 k1 : K}
    {v2 v1 : V} {c2 c1 : color_t} {A B C : Tree K V}
    (h : Holds c path (Tree.node a2 k2 v2 c2 A (Tree.node a1 k1 v1 c1 B C)))
    (hnd : (path.addrs ++ (Tree.node a2 k2 v2 c2 A (Tree.node a1 k1 v1 c1 B C)).addrs).Nodup) :
    ∃ c1', c.rotate_left (some a2) = some c1' ∧
      Holds c1' path (Tree.node a1 k1 v1 c1 (Tree.node a2 k2 v2 c2 A B) C) ∧
      Frame c c1' (path.addrs ++ (Tree.node a2 k2 v2 c2 A (Tree.node a1 k1 v1 c1 B C)).addrs) := by
  obtain ⟨hroot, RP, m2, RA, ⟨m1, RB, RC⟩⟩ := h
  simp only [Tree.ptr_node] at m2 hroot RP
  simp only [Tree.addrs, List.nodup_append, List.nodup_cons, List.mem_append, List.mem_cons,
    not_or, List.Disjoint, List.cons_append, List.forall_mem_ne] at hnd
  obtain ⟨hndP, ⟨⟨h2A, h21, h2B, h2C⟩, hndA, ⟨⟨h1B, h1C⟩, hndB, hndC, hBC⟩, hA⟩, hP⟩ := hnd
  have hP2 : a2 ∉ path.addrs := fun hm => hP hm (Or.inl rfl)
  have hP1 : a1 ∉ path.addrs := fun hm => hP hm (Or.inr (Or.inr (Or.inl rfl)))
  have h12 : a1 ≠ a2 := fun e => h21 e.symm
  have h1A : a1 ∉ A.addrs := fun hm => hA hm (Or.inl rfl)
  -- k2->right = k1->left
  have e1 := read_right m2
  have e2 := read_left m1
  have e3 := modify_some m2 (fun n => { n with right := B.ptr })
  generalize hs1 : c.store a2 _ = s1 at e3
  have s1a2 : s1.mem a2 = some ⟨some k2, some v2, A.ptr, B.ptr, path.ptr, c2⟩ := by
    rw [← hs1]; exact store_mem_same _ _ _
  have s1o : ∀ b, b ≠ a2 → s1.mem b = c.mem b := fun b hb => by
    rw [← hs1]; exact store_mem_other _ _ hb
  have s1root : s1.root = c.root := by rw [← hs1]; rfl
  have s1next : s1.next = c.next := by rw [← hs1]; rfl
  have s1cnt : s1.node_count = c.node_count := by rw [← hs1]; rfl
  -- if(k2->right) k2->right->parent = k2
  have e4 := read_right s1a2
  obtain ⟨s2, e5, RB2, s2root, F2⟩ :=
    Rep.set_parent (c := s1) (RB.congr_mem fun b hb => s1o b (fun e => h2B (e ▸ hb))) hndB (some a2)
  have s2a1 : s2.mem a1 = some ⟨some k1, some v1, B.ptr, C.ptr, some a2, c1⟩ := by
    rw [F2.mem a1 h1B, s1o a1 h12]; exact m1
  -- k1->left = k2
  have e6 := modify_some s2a1 (fun n => { n with left := some a2 })
  generalize hs3 : s2.store a1 _ = s3 at e6
  have s3a1 : s3.mem a1 = some ⟨some k1, some v1, some a2, C.ptr, some a2, c1⟩ := by
    rw [← hs3]; exact store_mem_same _ _ _
  have s3o : ∀ b, b ≠ a1 → s3.mem b = s2.mem b := fun b hb => by
    rw [← hs3]; exact store_mem_other _ _ hb
  have s3a2 : s3.mem a2 = some ⟨some k2, some v2, A.ptr, B.ptr, path.ptr, c2⟩ := by
    rw [s3o a2 h12.symm, F2.mem a2 h2B]; exact s1a2
  -- k1->parent = k2->parent
  have e7 := read_parent s3a2
  have e8 := modify_some s3a1 (fun n => { n with parent := path.ptr })
  generalize hs4 : s3.store a1 _ = s4 at e8
  have s4a1 : s4.mem a1 = some ⟨some k1, some v1, some a2, C.ptr, path.ptr, c1⟩ := by
    rw [← hs4]; exact store_mem_same _ _ _
  have s4o : ∀ b, b ≠ a1 → s4.mem b = s3.mem b := fun b hb => by
    rw [← hs4]; exact store_mem_other _ _ hb
  have s4a2 : s4.mem a2 = some ⟨some k2, some v2, A.ptr, B.ptr, path.ptr, c2⟩ := by
    rw [s4o a2 h12.symm]; exact s3a2
  have s4root : s4.root = path.root_ptr (some a2) := by
    rw [← hs4, store_root, ← hs3, store_root, s2root, s1root]; exact hroot
  -- all cells away from k1, k2 and the subtree B are still those of c
  have s4far : ∀ b, b ≠ a1 → b ≠ a2 → b ∉ B.addrs → s4.mem b = c.mem b := fun b hb1 hb2 hbB => by
    rw [s4o b hb1, s3o b hb1, F2.mem b hbB, s1o b hb2]
  -- the parent of k2, or root, now points to k1
  obtain ⟨s5, e9, RP5, s5root, F5⟩ := @RepPath.relink K V s4 _ a2 _
    (RP.congr_path fun b hb => s4far b (fun e => hP1 (e ▸ hb)) (fun e => hP2 (e ▸ hb))
      (fun hm => hP hb (Or.inr (Or.inr (Or.inr (Or.inl hm))))))
    s4root s4a2 rfl hndP hP2 a1
  have s5a2 : s5.mem a2 = some ⟨some k2, some v2, A.ptr, B.ptr, path.ptr, c2⟩ := by
    rw [F5.mem a2 hP2]; exact s4a2
  -- k2->parent = k1
  have e10 := modify_some s5a2 (fun n => { n with parent := some a1 })
  generalize hs6 : s5.store a2 _ = s6 at e10
  have s6a2 : s6.mem a2 = some ⟨some k2, some v2, A.ptr, B.ptr, some a1, c2⟩ := by
    rw [← hs6]; exact store_mem_same _ _ _
  have s6o : ∀ b, b ≠ a2 → s6.mem b = s5.mem b := fun b hb => by
    rw [← hs6]; exact store_mem_other _ _ hb
  have s6far : ∀ b, b ≠ a1 → b ≠ a2 → b ∉ B.addrs → b ∉ path.addrs → s6.mem b = c.mem b :=
    fun b hb1 hb2 hbB hbP => by rw [s6o b hb2, F5.mem b hbP, s4far b hb1 hb2 hbB]
  refine ⟨s6, ?_, ⟨?_, ?_, ⟨?_, ⟨?_, ?_, ?_⟩, ?_⟩⟩, ⟨?_, ?_, ?_⟩⟩
  · simp only [RBTCollection.rotate_left, Option.bind_eq_bind, e1, Option.some_bind, e2,
      RBTCollection.set_left, e3, e4, e5, RBTCollection.set_right, e6, e7,
      RBTCollection.set_parent, e8, e9, e10]
  · rw [← hs6, store_root, s5root]; rfl
  · exact RP5.congr_path fun b hb => s6o b (fun e => hP2 (e ▸ hb))
  · rw [s6o a1 h12, F5.mem a1 hP1]; exact s4a1
  · exact s6a2
  · exact RA.congr_mem fun b hb => s6far b (fun e => h1A (e ▸ hb)) (fun e => h2A (e ▸ hb))
      (fun hm => hA hb (Or.inr (Or.inl hm))) (fun hm => hP hm (Or.inr (Or.inl hb)))
  · exact RB2.congr_mem fun b hb => by
      rw [s6o b (fun e => h2B (e ▸ hb)),
        F5.mem b (fun hm => hP hm (Or.inr (Or.inr (Or.inr (Or.inl hb))))),
        s4o b (fun e => h1B (e ▸ hb)), s3o b (fun e => h1B (e ▸ hb))]
  · exact RC.congr_mem fun b hb => s6far b (fun e => h1C (e ▸ hb)) (fun e => h2C (e ▸ hb))
      (fun hm => hBC hm hb) (fun hm => hP hm (Or.inr (Or.inr (Or.inr (Or.inr hb)))))
  · rw [← hs6, store_next, F5.next, ← hs4, store_next, ← hs3, store_next, F2.next, s1next]
  · rw [← hs6, store_node_count, F5.count, ← hs4, store_node_count, ← hs3, store_node_count,
      F2.count, s1cnt]
  · intro b hb
    simp only [Tree.addrs, List.mem_append, List.mem_cons, not_or] at hb
    exact s6far b hb.2.2.2.1 hb.2.1 hb.2.2.2.2.1 hb.1

end RBTCollection

namespace RBTCollection

variable {K V : Type}

theorem Frame.mono {c c1 : RBTCollection K V} {l1 l2 : List Nat} (h : Frame c c1 l1)
    (hsub : ∀ a ∈ l1, a ∈ l2) : Frame c c1 l2 :=
  ⟨h.next, h.count, fun b hb => h.mem b fun hm => hb (hsub b hm)⟩

theorem Reached.start {c : RBTCollection K V} {path : Path K V} {t : Tree K V}
    (h : Holds c path t) (hnd : (path.addrs ++ t.addrs).Nodup) :
    Reached c (path.addrs ++ t.addrs) c path t :=
  ⟨h, List.Perm.refl _, hnd, Frame.refl _ _⟩

theorem Reached.nodup_now {c c1 : RBTCollection K V} {L : List Nat} {path : Path K V}
    {t : Tree K V} (h : Reached c L c1 path t) : (path.addrs ++ t.addrs).Nodup :=
  h.perm.nodup_iff.mpr h.nodup

theorem Reached.step {c c1 c2 : RBTCollection K V} {L : List Nat} {path path2 : Path K V}
    {t t2 : Tree K V} (h : Reached c L c1 path t) (h2 : Holds c2 path2 t2)
    (hp : (path2.addrs ++ t2.addrs).Perm (path.addrs ++ t.addrs))
    (hf : Frame c1 c2 (path.addrs ++ t.addrs)) : Reached c L c2 path2 t2 :=
  ⟨h2, hp.trans h.perm, h.nodup,
    Frame.trans h.frame hf (fun _ ha => ha) (fun _ ha => h.perm.subset ha)⟩

theorem Reached.go_up_left {c c1 : RBTCollection K V} {L : List Nat} {a : Nat} {k : K} {v : V}
    {col : color_t} {up : Path K V} {r t : Tree K V} :
    Reached c L c1 (Path.left a k v col up r) t ↔ Reached c L c1 up (Tree.node a k v col t r) :=
  ⟨fun h => ⟨Holds.up_left.mp h.holds, (Path.addrs_left_perm a k v col up r t).symm.trans h.perm,
      h.nodup, h.frame⟩,
   fun h => ⟨Holds.up_left.mpr h.holds, (Path.addrs_left_perm a k v col up r t).trans h.perm,
      h.nodup, h.frame⟩⟩

theorem Reached.go_up_right {c c1 : RBTCollection K V} {L : List Nat} {a : Nat} {k : K} {v : V}
    {col : color_t} {up : Path K V} {l t : Tree K V} :
    Reached c L c1 (Path.right a k v col l up) t ↔ Reached c L c1 up (Tree.node a k v col l t) :=
  ⟨fun h => ⟨Holds.up_right.mp h.holds, (Path.addrs_right_perm a k v col up l t).symm.trans h.perm,
      h.nodup, h.frame⟩,
   fun h => ⟨Holds.up_right.mpr h.holds, (Path.addrs_right_perm a k v col up l t).trans h.perm,
      h.nodup, h.frame⟩⟩

theorem Reached.mem_at_root {c c1 : RBTCollection K V} {L : List Nat} {path : Path K V} {a : Nat}
    {k : K} {v : V} {col : color_t} {l r : Tree K V}
    (h : Reached c L c1 path (Tree.node a k v col l r)) :
    c1.mem a = some ⟨some k, some v, l.ptr, r.ptr, path.ptr, col⟩ := h.holds.mem_root

theorem Reached.reach_set_color {c c1 : RBTCollection K V} {L : List Nat} {path : Path K V} {a : Nat}
    {k : K} {v : V} {col : color_t} {l r : Tree K V}
    (h : Reached c L c1 path (Tree.node a k v col l r)) (col1 : color_t) :
    ∃ c2, c1.set_color (some a) col1 = some c2 ∧
      Reached c L c2 path (Tree.node a k v col1 l r) := by
  obtain ⟨c2, e, h2, f⟩ := h.holds.set_color h.nodup_now col1
  exact ⟨c2, e, h.step h2 (List.Perm.refl _) (f.mono (by simp [Tree.addrs]))⟩

theorem Reached.reach_rotate_right {c c0 : RBTCollection K V} {L : List Nat} {path : Path K V}
    {a2 a1 : Nat} {k2 k1 : K} {v2 v1 : V} {c2 c1 : color_t} {A B C : Tree K V}
    (h : Reached c L c0 path (Tree.node a2 k2 v2 c2 (Tree.node a1 k1 v1 c1 A B) C)) :
    ∃ c1', c0.rotate_right (some a2) = some c1' ∧
      Reached c L c1' path (Tree.node a1 k1 v1 c1 A (Tree.node a2 k2 v2 c2 B C)) := by
  obtain ⟨c2, e, h2, f⟩ := h.holds.rotate_right h.nodup_now
  refine ⟨c2, e, h.step h2 ?_ f⟩
  simp only [Tree.addrs]
  rw [← Multiset.coe_eq_coe]
  simp only [← Multiset.cons_coe, ← Multiset.coe_add, ← Multiset.singleton_add]
  ac_rfl

theorem Reached.reach_rotate_left {c c0 : RBTCollection K V} {L : List Nat} {path : Path K V}
    {a2 a1 : Nat} {k2 k1 : K} {v2 v1 : V} {c2 c1 : color_t} {A B C : Tree K V}
    (h : Reached c L c0 path (Tree.node a2 k2 v2 c2 A (Tree.node a1 k1 v1 c1 B C))) :
    ∃ c1', c0.rotate_left (some a2) = some c1' ∧
      Reached c L c1' path (Tree.node a1 k1 v1 c1 (Tree.node a2 k2 v2 c2 A B) C) := by
  obtain ⟨c2, e, h2, f⟩ := h.holds.rotate_left h.nodup_now
  refine ⟨c2, e, h.step h2 ?_ f⟩
  simp only [Tree.addrs]
  rw [← Multiset.coe_eq_coe]
  simp only [← Multiset.cons_coe, ← Multiset.coe_add, ← Multiset.singleton_add]
  ac_rfl

/-- The write `x->left->color = col` below the root of the subtree. -/
theorem Reached.set_color_left {c c1 : RBTCollection K V} {L : List Nat} {path : Path K V}
    {a : Nat} {k : K} {v : V} {col : color_t} {r : Tree K V} {la : Nat} {lk : K} {lv : V}
    {lcol : color_t} {ll lr : Tree K V}
    (h : Reached c L c1 path (Tree.node a k v col (Tree.node la lk lv lcol ll lr) r))
    (col1 : color_t) :
    ∃ c2, c1.set_color (some la) col1 = some c2 ∧
      Reached c L c2 path (Tree.node a k v col (Tree.node la lk lv col1 ll lr) r) := by
  obtain ⟨c2, e, h2⟩ := (Reached.go_up_left.mpr h).reach_set_color col1
  exact ⟨c2, e, Reached.go_up_left.mp h2⟩

/-- The write `x->right->color = col` below the root of the subtree. -/
theorem Reached.set_color_right {c c1 : RBTCollection K V} {L : List Nat} {path : Path K V}
    {a : Nat} {k : K} {v : V} {col : color_t} {l : Tree K V} {ra : Nat} {rk : K} {rv : V}
    {rcol : color_t} {rl rr : Tree K V}
    (h : Reached c L c1 path (Tree.node a k v col l (Tree.node ra rk rv rcol rl rr)))
    (col1 : color_t) :
    ∃ c2, c1.set_color (some ra) col1 = some c2 ∧
      Reached c L c2 path (Tree.node a k v col l (Tree.node ra rk rv col1 rl rr)) := by
  obtain ⟨c2, e, h2⟩ := (Reached.go_up_right.mpr h).reach_set_color col1
  exact ⟨c2, e, Reached.go_up_right.mp h2⟩

end RBTCollection

namespace RBTCollection

variable {K V : Type}

theorem Reached.color_flip {c c1 : RBTCollection K V} {L : List Nat} {path : Path K V} {x : Nat}
    {k : K} {v : V} {col : color_t} {l r : Tree K V}
    (h : Reached c L c1 path (Tree.node x k v col l r)) :
    ∃ c2, c1.color_flip (some x) l.ptr r.ptr = some c2 ∧
      Reached c L c2 path (Tree.node x k v col l r).flip := by
  have hx := read_color h.mem_at_root
  rcases l with _ | ⟨la, lk, lv, lcol, ll, lr⟩
  · refine ⟨c1, by simp [RBTCollection.color_flip, flip_condition], ?_⟩
    cases col <;> exact h
  rcases r with _ | ⟨ra, rk, rv, rcol, rl, rr⟩
  · refine ⟨c1, by simp [RBTCollection.color_flip, flip_condition], ?_⟩
    cases col <;> cases lcol <;> exact h
  have hl := read_color (Reached.go_up_left.mpr h).mem_at_root
  have hr := read_color (Reached.go_up_right.mpr h).mem_at_root
  simp only at hx hl hr
  cases col
  · exact ⟨c1, by simp [RBTCollection.color_flip, flip_condition, hx], h⟩
  cases lcol
  swap
  · exact ⟨c1, by simp [RBTCollection.color_flip, flip_condition, hx, hl], h⟩
  cases rcol
  swap
  · exact ⟨c1, by simp [RBTCollection.color_flip, flip_condition, hx, hl, hr], h⟩
  obtain ⟨c2, e2, h2⟩ := h.reach_set_color color_t.RED
  obtain ⟨c3, e3, h3⟩ := h2.set_color_left color_t.BLACK
  obtain ⟨c4, e4, h4⟩ := h3.set_color_right color_t.BLACK
  exact ⟨c4, by simp [RBTCollection.color_flip, flip_condition, hx, hl, hr, e2, e3, e4], h4⟩

theorem Reached.not_mem_path {c c1 : RBTCollection K V} {L : List Nat} {path : Path K V}
    {t : Tree K V} (h : Reached c L c1 path t) {a : Nat} (ha : a ∈ t.addrs) :
    a ∉ path.addrs := fun hm =>
  (List.disjoint_of_nodup_append h.nodup_now) hm ha

end RBTCollection

namespace RBTCollection

variable {K V : Type}

theorem Reached.red_red_fix {c c1 : RBTCollection K V} {L : List Nat} {path : Path K V} {x : Nat}
    {k : K} {v : V} {col : color_t} {l r : Tree K V}
    (h : Reached c L c1 path (Tree.node x k v col l r)) :
    ∃ c2, c1.red_red_fix (some x) path.ptr = some c2 ∧
      Reached c L c2 (Path.rotate path (Tree.node x k v col l r)).1
        (Path.rotate path (Tree.node x k v col l r)).2 := by
  have hx := read_color h.mem_at_root
  simp only at hx
  have hxmem : x ∈ (Tree.node x k v col l r).addrs := by simp [Tree.addrs]
  rcases path with _ | ⟨p, pk, pv, pc, up, sib⟩ | ⟨p, pk, pv, pc, sib, up⟩
  · exact ⟨c1, by simp [RBTCollection.red_red_fix, red_red_condition], h⟩
  · -- x == p->left
    have hp := (Reached.go_up_left.mp h).mem_at_root
    have hpc := read_color hp
    simp only at hpc
    cases pc
    swap
    · exact ⟨c1, by simp [RBTCollection.red_red_fix, red_red_condition, hpc], h⟩
    cases col
    swap
    · refine ⟨c1, by simp [RBTCollection.red_red_fix, red_red_condition, hpc, hx], ?_⟩
      cases up <;> exact h
    have hpp := read_parent hp
    have hpl := read_left hp
    simp only [Tree.ptr_node] at hpp hpl
    rcases up with _ | ⟨g, gk, gv, gc, up2, gs⟩ | ⟨g, gk, gv, gc, gl, up2⟩
    · exact ⟨c1, by simp [RBTCollection.red_red_fix, red_red_condition, hpc, hx, add_rotations,
        hpp], h⟩
    · -- p == g->left: rotate_right(g)
      have hg := (Reached.go_up_left.mp (Reached.go_up_left.mp h)).mem_at_root
      have hgr := read_right hg
      have hgl := read_left hg
      simp only [Tree.ptr_node] at hgr hgl
      have hne : (some p : Ptr) ≠ gs.ptr := fun e =>
        (Reached.go_up_left.mp h).not_mem_path (a := p) (by simp [Tree.addrs])
          (by simp [Path.addrs, Tree.ptr_mem e.symm])
      obtain ⟨c2, e2, h2⟩ := (Reached.go_up_left.mp (Reached.go_up_left.mp h)).reach_rotate_right
      obtain ⟨c3, e3, h3⟩ := h2.reach_set_color color_t.BLACK
      obtain ⟨c4, e4, h4⟩ := h3.set_color_right color_t.RED
      refine ⟨c4, ?_, Reached.go_up_left.mpr h4⟩
      simp [RBTCollection.red_red_fix, red_red_condition, hpc, hx, add_rotations, hpp, hgr, hgl,
        hne, hpl, e2, e3, e4]
    · -- p == g->right: rotate_right(p); rotate_left(g)
      have hg := (Reached.go_up_right.mp (Reached.go_up_left.mp h)).mem_at_root
      have hgr := read_right hg
      simp only [Tree.ptr_node] at hgr
      obtain ⟨c2, e2, h2⟩ := (Reached.go_up_left.mp h).reach_rotate_right
      obtain ⟨c3, e3, h3⟩ := (Reached.go_up_right.mp h2).reach_rotate_left
      obtain ⟨c4, e4, h4⟩ := h3.reach_set_color color_t.BLACK
      obtain ⟨c5, e5, h5⟩ := h4.set_color_left color_t.RED
      refine ⟨c5, ?_, h5⟩
      simp [RBTCollection.red_red_fix, red_red_condition, hpc, hx, add_rotations, hpp, hgr,
        hpl, e2, e3, e4, e5]
  · -- x == p->right
    have hp := (Reached.go_up_right.mp h).mem_at_root
    have hpc := read_color hp
    simp only at hpc
    cases pc
    swap
    · exact ⟨c1, by simp [RBTCollection.red_red_fix, red_red_condition, hpc], h⟩
    cases col
    swap
    · refine ⟨c1, by simp [RBTCollection.red_red_fix, red_red_condition, hpc, hx], ?_⟩
      cases up <;> exact h
    have hpp := read_parent hp
    have hpl := read_left hp
    have hpr := read_right hp
    simp only [Tree.ptr_node] at hpp hpl hpr
    have hxs : (some x : Ptr) ≠ sib.ptr := fun e =>
      h.not_mem_path hxmem (by simp [Path.addrs, Tree.ptr_mem e.symm])
    rcases up with _ | ⟨g, gk, gv, gc, up2, gs⟩ | ⟨g, gk, gv, gc, gl, up2⟩
    · exact ⟨c1, by simp [RBTCollection.red_red_fix, red_red_condition, hpc, hx, add_rotations,
        hpp], h⟩
    · -- p == g->left: rotate_left(p); rotate_right(g)
      have hg := (Reached.go_up_left.mp (Reached.go_up_right.mp h)).mem_at_root
      have hgr := read_right hg
      have hgl := read_left hg
      simp only [Tree.ptr_node] at hgr hgl
      have hne : (some p : Ptr) ≠ gs.ptr := fun e =>
        (Reached.go_up_right.mp h).not_mem_path (a := p) (by simp [Tree.addrs])
          (by simp [Path.addrs, Tree.ptr_mem e.symm])
      obtain ⟨c2, e2, h2⟩ := (Reached.go_up_right.mp h).reach_rotate_left
      obtain ⟨c3, e3, h3⟩ := (Reached.go_up_left.mp h2).reach_rotate_right
      obtain ⟨c4, e4, h4⟩ := h3.reach_set_color color_t.BLACK
      obtain ⟨c5, e5, h5⟩ := h4.set_color_right color_t.RED
      refine ⟨c5, ?_, h5⟩
      simp [RBTCollection.red_red_fix, red_red_condition, hpc, hx, add_rotations, hpp, hgr, hgl,
        hne, hpl, hpr, hxs, e2, e3, e4, e5]
    · -- p == g->right: rotate_left(g)
      have hg := (Reached.go_up_right.mp (Reached.go_up_right.mp h)).mem_at_root
      have hgr := read_right hg
      simp only [Tree.ptr_node] at hgr
      obtain ⟨c2, e2, h2⟩ := (Reached.go_up_right.mp (Reached.go_up_right.mp h)).reach_rotate_left
      obtain ⟨c3, e3, h3⟩ := h2.reach_set_color color_t.BLACK
      obtain ⟨c4, e4, h4⟩ := h3.set_color_left color_t.RED
      refine ⟨c4, ?_, Reached.go_up_right.mpr h4⟩
      simp [RBTCollection.red_red_fix, red_red_condition, hpc, hx, add_rotations, hpp, hgr,
        hpl, hpr, hxs, e2, e3, e4]

/-- Source `add_rebalance(x)` for the root `x` of the subtree below the path. -/
theorem Reached.add_rebalance {c c1 : RBTCollection K V} {L : List Nat} {path : Path K V}
    {x : Nat} {k : K} {v : V} {col : color_t} {l r : Tree K V}
    (h : Reached c L c1 path (Tree.node x k v col l r)) :
    ∃ c2, c1.add_rebalance (some x) = some c2 ∧
      Reached c L c2 (Path.rebalance path (Tree.node x k v col l r)).1
        (Path.rebalance path (Tree.node x k v col l r)).2 := by
  have hm := h.mem_at_root
  obtain ⟨c2, e2, h2⟩ := h.color_flip
  have hflip : ∃ col1 l1 r1, (Tree.node x k v col l r).flip = Tree.node x k v col1 l1 r1 := by
    cases col <;> rcases l with _ | ⟨la, lk, lv, lcol, ll, lr⟩ <;>
      rcases r with _ | ⟨ra, rk, rv, rcol, rl, rr⟩ <;> (try cases lcol) <;> (try cases rcol) <;>
      exact ⟨_, _, _, rfl⟩
  obtain ⟨col1, l1, r1, hf⟩ := hflip
  rw [hf] at h2
  obtain ⟨c3, e3, h3⟩ := h2.red_red_fix
  refine ⟨c3, ?_, ?_⟩
  · simp [RBTCollection.add_rebalance, read_parent hm, read_left hm, read_right hm, e2, e3]
  · rw [Path.rebalance, hf]; exact h3

end RBTCollection

namespace RBTCollection

variable {K V : Type}

theorem Path.rotate_root (path : Path K V) (x : Nat) (k : K) (v : V) (col : color_t)
    (l r : Tree K V) :
    ∃ col1 l1 r1, (Path.rotate path (Tree.node x k v col l r)).2 = Tree.node x k v col1 l1 r1 := by
  unfold Path.rotate
  split <;> first
    | exact ⟨_, _, _, rfl⟩
    | (rename_i heq; simp only [Tree.node.injEq] at heq
       obtain ⟨rfl, rfl, rfl, rfl, rfl, rfl⟩ := heq; exact ⟨_, _, _, rfl⟩)

theorem Tree.flip_root (x : Nat) (k : K) (v : V) (col : color_t) (l r : Tree K V) :
    ∃ col1 l1 r1, (Tree.node x k v col l r).flip = Tree.node x k v col1 l1 r1 := by
  cases col <;> rcases l with _ | ⟨la, lk, lv, lcol, ll, lr⟩ <;>
    rcases r with _ | ⟨ra, rk, rv, rcol, rl, rr⟩ <;> (try cases lcol) <;> (try cases rcol) <;>
    exact ⟨_, _, _, rfl⟩

theorem Path.rebalance_root (path : Path K V) (x : Nat) (k : K) (v : V) (col : color_t)
    (l r : Tree K V) :
    ∃ col1 l1 r1,
      (Path.rebalance path (Tree.node x k v col l r)).2 = Tree.node x k v col1 l1 r1 := by
  obtain ⟨col1, l1, r1, hf⟩ := Tree.flip_root x k v col l r
  rw [Path.rebalance, hf]
  exact Path.rotate_root path x k v col1 l1 r1

variable [LinearOrder K]

/-- The loop `while(x)` of `add`. -/
theorem Reached.add_loop (a_key : K) (fuel : Nat) {c c1 : RBTCollection K V} {L : List Nat}
    {path : Path K V} {t : Tree K V} (h : Reached c L c1 path t) {path1 : Path K V}
    (hd : Path.descend a_key fuel path t = some path1) :
    ∃ c2, RBTCollection.add_loop a_key fuel c1 t.ptr path.ptr = some (c2, path1.ptr) ∧
      Reached c L c2 path1 Tree.nil := by
  induction fuel generalizing c1 path t with
  | zero =>
    cases t with
    | nil =>
      simp only [Path.descend, Option.some.injEq] at hd
      subst hd
      exact ⟨c1, by simp [RBTCollection.add_loop], h⟩
    | node x k v col l r => simp [Path.descend] at hd
  | succ fuel ih =>
    cases t with
    | nil =>
      simp only [Path.descend, Option.some.injEq] at hd
      subst hd
      exact ⟨c1, by simp [RBTCollection.add_loop], h⟩
    | node x k v col l r =>
      obtain ⟨c2, e2, h2⟩ := h.add_rebalance
      obtain ⟨col1, l1, r1, hr⟩ := Path.rebalance_root path x k v col l r
      generalize hpt : Path.rebalance path (Tree.node x k v col l r) = pt at h2 hr
      obtain ⟨pa, ta⟩ := pt
      simp only at hr h2
      subst hr
      simp only [Path.descend, hpt] at hd
      have hm := h2.mem_at_root
      by_cases hk : a_key ≤ k
      · rw [if_pos hk] at hd
        obtain ⟨c3, e3, h3⟩ := ih (Reached.go_up_left.mpr h2) hd
        refine ⟨c3, ?_, h3⟩
        simp only [Path.ptr_left] at e3
        simp [RBTCollection.add_loop, e2, read_key hm, hk, read_left hm, e3]
      · rw [if_neg hk] at hd
        obtain ⟨c3, e3, h3⟩ := ih (Reached.go_up_right.mpr h2) hd
        refine ⟨c3, ?_, h3⟩
        simp only [Path.ptr_right] at e3
        simp [RBTCollection.add_loop, e2, read_key hm, hk, read_right hm, e3]

end RBTCollection

namespace RBTCollection

variable {K V : Type}

theorem Reached.zip {c c1 : RBTCollection K V} {L : List Nat} {path : Path K V} {t : Tree K V}
    (h : Reached c L c1 path t) : Reached c L c1 Path.top (path.plug t) := by
  induction path generalizing t with
  | top => exact h
  | left a k v col up r ih => exact ih (Reached.go_up_left.mp h)
  | right a k v col l up ih => exact ih (Reached.go_up_right.mp h)

theorem Path.plug_node (path : Path K V) (x : Nat) (k : K) (v : V) (col : color_t)
    (l r : Tree K V) :
    ∃ x1 k1 v1 col1 l1 r1, path.plug (Tree.node x k v col l r) = Tree.node x1 k1 v1 col1 l1 r1 := by
  induction path generalizing x k v col l r with
  | top => exact ⟨_, _, _, _, _, _, rfl⟩
  | left a ka va cola up ra ih => exact ih _ _ _ _ _ _
  | right a ka va cola la up ih => exact ih _ _ _ _ _ _

/-- The statements `p->left = n; n->parent = p;` of `add`. -/
theorem Reached.link_left {c c1 : RBTCollection K V} {L : List Nat} {p : Nat} {pk : K} {pv : V}
    {pc : color_t} {up : Path K V} {sib : Tree K V}
    (h : Reached c L c1 (Path.left p pk pv pc up sib) Tree.nil) {n : Nat} {k : K} {v : V}
    (hn : c1.mem n = some ⟨some k, some v, none, none, none, color_t.RED⟩) (hnL : n ∉ L) :
    ∃ c2 c3, c1.set_left (some p) (some n) = some c2 ∧ c2.set_parent (some n) (some p) = some c3 ∧
      Reached c (n :: L) c3 (Path.left p pk pv pc up sib)
        (Tree.node n k v color_t.RED Tree.nil Tree.nil) := by
  have hp := (Reached.go_up_left.mp h).mem_at_root
  have hpL : p ∈ L := h.perm.subset (by simp [Path.addrs])
  have hnp : n ≠ p := fun e => hnL (e ▸ hpL)
  have hsub : ∀ b, b ∈ (Path.left p pk pv pc up sib).addrs → b ≠ n := fun b hb e =>
    hnL (e ▸ h.perm.subset (List.mem_append_left _ hb))
  have hnd := h.nodup_now
  simp only [Path.addrs, Tree.addrs, List.append_nil, List.nodup_cons, List.mem_append, not_or,
    List.nodup_append] at hnd
  have e1 : c1.set_left (some p) (some n) = some (c1.store p ⟨some pk, some pv, some n, sib.ptr, up.ptr, pc⟩) :=
    modify_some hp _
  have e2 : (c1.store p ⟨some pk, some pv, some n, sib.ptr, up.ptr, pc⟩).set_parent (some n) (some p) =
      some ((c1.store p ⟨some pk, some pv, some n, sib.ptr, up.ptr, pc⟩).store n
        ⟨some k, some v, none, none, some p, color_t.RED⟩) :=
    modify_some ((store_mem_other c1 _ hnp).trans hn) _
  obtain ⟨hroot, ⟨-, Rs, Ru⟩, -⟩ := h.holds
  refine ⟨_, _, e1, e2, ⟨hroot, ⟨?_, ?_, ?_⟩, ?_, trivial, trivial⟩, ?_, ?_, ?_⟩
  · rw [store_mem_other _ _ hnp.symm, store_mem_same]; rfl
  · refine Rs.congr_mem fun b hb => ?_
    rw [store_mem_other _ _ (hsub b (by simp [Path.addrs, hb])), store_mem_other]
    rintro rfl
    exact hnd.1.1 hb
  · refine Ru.congr_path fun b hb => ?_
    rw [store_mem_other _ _ (hsub b (by simp [Path.addrs, hb])), store_mem_other]
    rintro rfl
    exact hnd.1.2 hb
  · rw [store_mem_same]; rfl
  · have hP := h.perm
    simp only [Tree.addrs, List.append_nil] at hP ⊢
    exact List.perm_append_comm.trans (List.Perm.cons n hP)
  · exact List.nodup_cons.mpr ⟨hnL, h.nodup⟩
  · refine @Frame.trans K V _ _ _ (n :: L) [p, n] _
      (h.frame.mono fun a ha => List.mem_cons_of_mem _ ha) ?_ (fun _ ha => ha) ?_
    · exact ⟨rfl, rfl, fun b hb => by
        simp only [List.mem_cons, List.mem_singleton, not_or, List.not_mem_nil, or_false] at hb
        rw [store_mem_other _ _ hb.2, store_mem_other _ _ hb.1]⟩
    · intro a ha
      simp only [List.mem_cons, List.mem_singleton, List.not_mem_nil, or_false] at ha
      rcases ha with rfl | rfl
      · exact List.mem_cons_of_mem _ hpL
      · exact List.mem_cons_self _ _

/-- The statements `p->right = n; n->parent = p;` of `add`. -/
theorem Reached.link_right {c c1 : RBTCollection K V} {L : List Nat} {p : Nat} {pk : K} {pv : V}
    {pc : color_t} {up : Path K V} {sib : Tree K V}
    (h : Reached c L c1 (Path.right p pk pv pc sib up) Tree.nil) {n : Nat} {k : K} {v : V}
    (hn : c1.mem n = some ⟨some k, some v, none, none, none, color_t.RED⟩) (hnL : n ∉ L) :
    ∃ c2 c3, c1.set_right (some p) (some n) = some c2 ∧ c2.set_parent (some n) (some p) = some c3 ∧
      Reached c (n :: L) c3 (Path.right p pk pv pc sib up)
        (Tree.node n k v color_t.RED Tree.nil Tree.nil) := by
  have hp := (Reached.go_up_right.mp h).mem_at_root
  have hpL : p ∈ L := h.perm.subset (by simp [Path.addrs])
  have hnp : n ≠ p := fun e => hnL (e ▸ hpL)
  have hsub : ∀ b, b ∈ (Path.right p pk pv pc sib up).addrs → b ≠ n := fun b hb e =>
    hnL (e ▸ h.perm.subset (List.mem_append_left _ hb))
  have hnd := h.nodup_now
  simp only [Path.addrs, Tree.addrs, List.append_nil, List.nodup_cons, List.mem_append, not_or,
    List.nodup_append] at hnd
  have e1 : c1.set_right (some p) (some n) = some (c1.store p ⟨some pk, some pv, sib.ptr, some n, up.ptr, pc⟩) :=
    modify_some hp _
  have e2 : (c1.store p ⟨some pk, some pv, sib.ptr, some n, up.ptr, pc⟩).set_parent (some n) (some p) =
      some ((c1.store p ⟨some pk, some pv, sib.ptr, some n, up.ptr, pc⟩).store n
        ⟨some k, some v, none, none, some p, color_t.RED⟩) :=
    modify_some ((store_mem_other c1 _ hnp).trans hn) _
  obtain ⟨hroot, ⟨-, Rs, Ru⟩, -⟩ := h.holds
  refine ⟨_, _, e1, e2, ⟨hroot, ⟨?_, ?_, ?_⟩, ?_, trivial, trivial⟩, ?_, ?_, ?_⟩
  · rw [store_mem_other _ _ hnp.symm, store_mem_same]; rfl
  · refine Rs.congr_mem fun b hb => ?_
    rw [store_mem_other _ _ (hsub b (by simp [Path.addrs, hb])), store_mem_other]
    rintro rfl
    exact hnd.1.1 hb
  · refine Ru.congr_path fun b hb => ?_
    rw [store_mem_other _ _ (hsub b (by simp [Path.addrs, hb])), store_mem_other]
    rintro rfl
    exact hnd.1.2 hb
  · rw [store_mem_same]; rfl
  · have hP := h.perm
    simp only [Tree.addrs, List.append_nil] at hP ⊢
    exact List.perm_append_comm.trans (List.Perm.cons n hP)
  · exact List.nodup_cons.mpr ⟨hnL, h.nodup⟩
  · refine @Frame.trans K V _ _ _ (n :: L) [p, n] _
      (h.frame.mono fun a ha => List.mem_cons_of_mem _ ha) ?_ (fun _ ha => ha) ?_
    · exact ⟨rfl, rfl, fun b hb => by
        simp only [List.mem_cons, List.mem_singleton, not_or, List.not_mem_nil, or_false] at hb
        rw [store_mem_other _ _ hb.2, store_mem_other _ _ hb.1]⟩
    · intro a ha
      simp only [List.mem_cons, List.mem_singleton, List.not_mem_nil, or_false] at ha
      rcases ha with rfl | rfl
      · exact List.mem_cons_of_mem _ hpL
      · exact List.mem_cons_self _ _

end RBTCollection

namespace RBTCollection

variable {K V : Type} [LinearOrder K]

theorem Path.rotate_routed (a_key : K) (path : Path K V) (t : Tree K V)
    (h : Path.Routed a_key path) : Path.Routed a_key (Path.rotate path t).1 := by
  unfold Path.rotate
  split <;> simp_all [Path.Routed]

theorem Path.descend_routed (a_key : K) (fuel : Nat) (path : Path K V) (t : Tree K V)
    (h : Path.Routed a_key path) {path1 : Path K V}
    (hd : Path.descend a_key fuel path t = some path1) : Path.Routed a_key path1 := by
  induction fuel generalizing path t with
  | zero =>
    cases t with
    | nil => simp only [Path.descend, Option.some.injEq] at hd; exact hd ▸ h
    | node x k v col l r => simp [Path.descend] at hd
  | succ fuel ih =>
    cases t with
    | nil => simp only [Path.descend, Option.some.injEq] at hd; exact hd ▸ h
    | node x k v col l r =>
      obtain ⟨col1, l1, r1, hr⟩ := Path.rebalance_root path x k v col l r
      have hrt : Path.Routed a_key (Path.rebalance path (Tree.node x k v col l r)).1 :=
        Path.rotate_routed a_key path _ h
      generalize hpt : Path.rebalance path (Tree.node x k v col l r) = pt at hr hrt
      obtain ⟨pa, ta⟩ := pt
      simp only at hr hrt
      subst hr
      simp only [Path.descend, hpt] at hd
      by_cases hk : a_key ≤ k
      · rw [if_pos hk] at hd
        exact ih (Path.left x k v col1 pa r1) l1 (And.intro hk hrt) hd
      · rw [if_neg hk] at hd
        exact ih (Path.right x k v col1 l1 pa) r1 (And.intro hk hrt) hd

theorem Reached.link {c c1 : RBTCollection K V} {L : List Nat} {path : Path K V}
    (h : Reached c L c1 path Tree.nil) (a_key : K) (hr : Path.Routed a_key path) {n : Nat}
    {v : V} (hn : c1.mem n = some ⟨some a_key, some v, none, none, none, color_t.RED⟩)
    (hnL : n ∉ L) :
    ∃ c2, c1.link a_key path.ptr (some n) = some c2 ∧
      ((path = Path.top ∧ c2 = { c1 with root := some n }) ∨
       (path ≠ Path.top ∧ Reached c (n :: L) c2
        (Path.rebalance path (Tree.node n a_key v color_t.RED Tree.nil Tree.nil)).1
        (Path.rebalance path (Tree.node n a_key v color_t.RED Tree.nil Tree.nil)).2)) := by
  rcases path with _ | ⟨p, pk, pv, pc, up, sib⟩ | ⟨p, pk, pv, pc, sib, up⟩
  · exact ⟨_, by simp [RBTCollection.link], Or.inl ⟨rfl, rfl⟩⟩
  · have hp := (Reached.go_up_left.mp h).mem_at_root
    obtain ⟨c2, c3, e2, e3, h3⟩ := h.link_left hn hnL
    obtain ⟨c4, e4, h4⟩ := h3.add_rebalance
    refine ⟨c4, ?_, Or.inr ⟨by simp, h4⟩⟩
    simp [RBTCollection.link, read_key hp, hr.1, e2, e3, e4]
  · have hp := (Reached.go_up_right.mp h).mem_at_root
    obtain ⟨c2, c3, e2, e3, h3⟩ := h.link_right hn hnL
    obtain ⟨c4, e4, h4⟩ := h3.add_rebalance
    refine ⟨c4, ?_, Or.inr ⟨by simp, h4⟩⟩
    simp [RBTCollection.link, read_key hp, hr.1, e2, e3, e4]

end RBTCollection

namespace RBTCollection

variable {K V : Type} [LinearOrder K]

/-- Source `add(a_key, a_val)`: on a collection that holds the tree `T`, `add`
returns a collection that holds the tree `T.add ...`, with one more address
handed out and the counter incremented. -/
theorem Holds.add_refines {c : RBTCollection K V} {T : Tree K V} (h : Holds c Path.top T)
    (hnd : T.addrs.Nodup) (hb : ∀ a ∈ T.addrs, a < c.next) (a_key : K) (a_val : V)
    {T1 : Tree K V} (hT : T.add (2 * (c.next + 1) + 2) c.next a_key a_val = some T1) :
    ∃ c1, c.add a_key a_val = some c1 ∧ Holds c1 Path.top T1 ∧
      T1.addrs.Perm (c.next :: T.addrs) ∧ c1.next = c.next + 1 ∧
      c1.node_count = size_t_incr c.node_count := by
  have hn0 : c.next ∉ T.addrs := fun hm => lt_irrefl _ (hb _ hm)
  obtain ⟨c0, hc0⟩ : ∃ c0 : RBTCollection K V, c0 =
      { c.store c.next ⟨some a_key, some a_val, none, none, none, color_t.RED⟩
        with next := c.next + 1 } := ⟨_, rfl⟩
  have hc0n : c0.mem c.next = some ⟨some a_key, some a_val, none, none, none, color_t.RED⟩ := by
    rw [hc0]; exact store_mem_same _ _ _
  have hc0root : c0.root = T.ptr := by rw [hc0]; exact h.root
  have hc0next : c0.next = c.next + 1 := by rw [hc0]
  have hc0cnt : c0.node_count = c.node_count := by rw [hc0]; rfl
  have H0 : Holds c0 Path.top T := by
    refine ⟨hc0root, trivial, h.rtree.congr_mem fun b hb1 => ?_⟩
    rw [hc0]
    exact store_mem_other _ _ (fun e => hn0 (e ▸ hb1))
  have R0 : Reached c0 T.addrs c0 Path.top T := Reached.start H0 hnd
  simp only [Tree.add, Option.map_eq_some'] at hT
  obtain ⟨path1, hd, hT1⟩ := hT
  obtain ⟨c2, e2, R2⟩ := R0.add_loop a_key _ hd
  have hroute := Path.descend_routed a_key _ Path.top T trivial hd
  have hc2n : c2.mem c.next = some ⟨some a_key, some a_val, none, none, none, color_t.RED⟩ := by
    rw [R2.frame.mem _ hn0]; exact hc0n
  obtain ⟨c3, e3, h3⟩ := R2.link a_key hroute hc2n hn0
  have hloop : add_loop a_key (2 * (c.next + 1) + 2) c0 c.root none = some (c2, path1.ptr) := by
    rw [h.root]; exact e2
  have hadd : c.add a_key a_val =
      (add_loop a_key (2 * (c.next + 1) + 2) c0 c.root none).bind fun cp =>
        (cp.1.link a_key cp.2 (some c.next)).bind fun c3 =>
          (c3.set_color c3.root color_t.BLACK).bind fun c4 =>
            some { c4 with node_count := size_t_incr c4.node_count } := by
    rw [hc0]; rfl
  rw [hadd, hloop, Option.some_bind]
  simp only [e3, Option.some_bind]
  rcases h3 with ⟨rfl, rfl⟩ | ⟨hne, R3⟩
  · -- the tree was empty
    have hT0 : T.addrs = [] := by
      have := R2.perm
      simpa [Path.addrs, Tree.addrs] using this.symm
    subst hT1
    refine ⟨{ ({ c2 with root := some c.next } : RBTCollection K V).store c.next
        ⟨some a_key, some a_val, none, none, none, color_t.BLACK⟩ with
        node_count := size_t_incr c2.node_count }, ?_, ⟨rfl, trivial, ?_, trivial, trivial⟩,
        ?_, ?_, ?_⟩
    · simp [RBTCollection.set_color, modify, hc2n, store]
    · exact store_mem_same _ _ _
    · simp [Tree.addrs, hT0]
    · show c2.next = c.next + 1
      rw [R2.frame.next, hc0next]
    · show size_t_incr c2.node_count = size_t_incr c.node_count
      rw [R2.frame.count, hc0cnt]
  · -- the new node hangs below the node `p`
    obtain ⟨col1, l1, r1, hr⟩ :=
      Path.rebalance_root path1 c.next a_key a_val color_t.RED Tree.nil Tree.nil
    have R4 := R3.zip
    rw [hr] at R4
    obtain ⟨x1, k1, v1, colx, lx, rx, hplug⟩ :=
      Path.plug_node (Path.rebalance path1 (Tree.node c.next a_key a_val color_t.RED Tree.nil
        Tree.nil)).1 c.next a_key a_val col1 l1 r1
    rw [hplug] at R4
    obtain ⟨c5, e5, R5⟩ := R4.reach_set_color color_t.BLACK
    have hroot3 : c3.root = some x1 := R4.holds.root
    have hT1' : T1 = Tree.node x1 k1 v1 color_t.BLACK lx rx := by
      rw [← hT1]
      cases path1 with
      | top => exact absurd rfl hne
      | left _ _ _ _ _ _ => simp only [hr, hplug, Tree.paint]
      | right _ _ _ _ _ _ => simp only [hr, hplug, Tree.paint]
    subst hT1'
    refine ⟨{ c5 with node_count := size_t_incr c5.node_count }, ?_,
      ⟨R5.holds.root, R5.holds.rpath, R5.holds.rtree⟩, ?_, ?_, ?_⟩
    · simp only [hroot3, e5, Option.some_bind]
    · simpa [Path.addrs] using R5.perm
    · show c5.next = c.next + 1
      rw [R5.frame.next, hc0next]
    · show size_t_incr c5.node_count = size_t_incr c.node_count
      rw [R5.frame.count, hc0cnt]

end RBTCollection

namespace RBTCollection

variable {K V : Type}

theorem Tree.keys_append (t : Tree K V) (acc : List K) : t.keys acc = acc ++ t.keys [] := by
  induction t generalizing acc with
  | nil => simp [Tree.keys]
  | node a k v col l r ihl ihr =>
    simp only [Tree.keys, List.nil_append]
    rw [ihr (l.keys acc ++ [k]), ihr (l.keys [] ++ [k]), ihl acc]
    simp

theorem Tree.keys_of_node (a : Nat) (k : K) (v : V) (col : color_t) (l r : Tree K V) :
    (Tree.node a k v col l r).keys [] = l.keys [] ++ k :: r.keys [] := by
  simp only [Tree.keys, List.nil_append]
  rw [Tree.keys_append r]
  simp

theorem Tree.keys_paint (col : color_t) (t : Tree K V) : (t.paint col).keys [] = t.keys [] := by
  cases t with
  | nil => rfl
  | node a k v c l r => simp [Tree.paint, Tree.keys_of_node]

theorem Tree.keys_flip (t : Tree K V) : t.flip.keys [] = t.keys [] := by
  unfold Tree.flip
  split <;> simp [Tree.keys_of_node]

theorem Path.keys_plug (path : Path K V) (t : Tree K V) :
    (path.plug t).keys [] = path.keys_before ++ t.keys [] ++ path.keys_after := by
  induction path generalizing t with
  | top => simp [Path.plug, Path.keys_before, Path.keys_after]
  | left a k v col up r ih =>
    simp [Path.plug, ih, Path.keys_before, Path.keys_after, Tree.keys_of_node]
  | right a k v col l up ih =>
    simp [Path.plug, ih, Path.keys_before, Path.keys_after, Tree.keys_of_node]

theorem Path.keys_rotate (path : Path K V) (t : Tree K V) :
    (Path.rotate path t).1.keys_before ++ (Path.rotate path t).2.keys [] ++
        (Path.rotate path t).1.keys_after =
      path.keys_before ++ t.keys [] ++ path.keys_after := by
  unfold Path.rotate
  split <;> simp [Path.keys_before, Path.keys_after, Tree.keys_of_node]

theorem Path.keys_plug_rebalance (path : Path K V) (t : Tree K V) :
    (Path.rebalance path t).1.keys_before ++ (Path.rebalance path t).2.keys [] ++
        (Path.rebalance path t).1.keys_after =
      path.keys_before ++ t.keys [] ++ path.keys_after := by
  rw [Path.rebalance, Path.keys_rotate, Tree.keys_flip]

variable [LinearOrder K]

theorem Path.keys_descend (a_key : K) (fuel : Nat) (path : Path K V) (t : Tree K V)
    {path1 : Path K V} (hd : Path.descend a_key fuel path t = some path1) :
    path1.keys_before ++ path1.keys_after = path.keys_before ++ t.keys [] ++ path.keys_after := by
  induction fuel generalizing path t with
  | zero =>
    cases t with
    | nil =>
      simp only [Path.descend, Option.some.injEq] at hd
      subst hd
      simp [Tree.keys]
    | node x k v col l r => simp [Path.descend] at hd
  | succ fuel ih =>
    cases t with
    | nil =>
      simp only [Path.descend, Option.some.injEq] at hd
      subst hd
      simp [Tree.keys]
    | node x k v col l r =>
      obtain ⟨col1, l1, r1, hr⟩ := Path.rebalance_root path x k v col l r
      have hk := Path.keys_plug_rebalance path (Tree.node x k v col l r)
      generalize hpt : Path.rebalance path (Tree.node x k v col l r) = pt at hr hk
      obtain ⟨pa, ta⟩ := pt
      simp only at hr hk
      subst hr
      simp only [Path.descend, hpt] at hd
      rw [← hk]
      by_cases hle : a_key ≤ k
      · rw [if_pos hle] at hd
        rw [ih _ _ hd]
        simp [Path.keys_before, Path.keys_after, Tree.keys_of_node]
      · rw [if_neg hle] at hd
        rw [ih _ _ hd]
        simp [Path.keys_before, Path.keys_after, Tree.keys_of_node]

/-- On a routed path every key before the lower end is at most `a_key` and every
key after it is at least `a_key`, when the whole key sequence is sorted. -/
theorem Path.routed_bounds (a_key : K) (path : Path K V) (hr : Path.Routed a_key path)
    (mid : List K) (hs : (path.keys_before ++ mid ++ path.keys_after).Sorted (· ≤ ·)) :
    (∀ a ∈ path.keys_before, a ≤ a_key) ∧ (∀ b ∈ path.keys_after, a_key ≤ b) := by
  induction path generalizing mid with
  | top => simp [Path.keys_before, Path.keys_after]
  | left x k v col up r ih =>
    obtain ⟨hk, hru⟩ := hr
    simp only [Path.keys_before, Path.keys_after] at hs ⊢
    have hs' : (up.keys_before ++ (mid ++ k :: r.keys []) ++ up.keys_after).Sorted (· ≤ ·) := by
      simpa [List.append_assoc] using hs
    obtain ⟨h1, h2⟩ := ih hru _ hs'
    refine ⟨h1, ?_⟩
    intro b hb
    simp only [List.cons_append, List.mem_cons, List.mem_append] at hb
    rcases hb with rfl | hb | hb
    · exact hk
    · have hkr : (k :: r.keys []).Sorted (· ≤ ·) := by
        have hsub : (k :: r.keys []).Sublist
            (up.keys_before ++ (mid ++ k :: r.keys []) ++ up.keys_after) := by
          refine List.Sublist.trans ?_ (List.sublist_append_left _ _)
          refine List.Sublist.trans ?_ (List.sublist_append_right _ _)
          exact List.sublist_append_right _ _
        exact hs'.sublist hsub
      exact le_trans hk (List.rel_of_sorted_cons hkr b hb)
    · exact h2 b hb
  | right x k v col l up ih =>
    obtain ⟨hk, hru⟩ := hr
    simp only [Path.keys_before, Path.keys_after] at hs ⊢
    have hs' : (up.keys_before ++ ((l.keys [] ++ [k]) ++ mid) ++ up.keys_after).Sorted (· ≤ ·) := by
      simpa [List.append_assoc] using hs
    obtain ⟨h1, h2⟩ := ih hru _ hs'
    refine ⟨?_, h2⟩
    intro a ha
    simp only [List.mem_append, List.mem_singleton] at ha
    rcases ha with ha | ha | rfl
    · exact h1 a ha
    · have hlk : (l.keys [] ++ [k]).Sorted (· ≤ ·) := by
        have hsub : (l.keys [] ++ [k]).Sublist
            (up.keys_before ++ ((l.keys [] ++ [k]) ++ mid) ++ up.keys_after) := by
          refine List.Sublist.trans ?_ (List.sublist_append_left _ _)
          refine List.Sublist.trans ?_ (List.sublist_append_right _ _)
          exact List.sublist_append_left _ _
        exact hs'.sublist hsub
      have : a ≤ k := (List.pairwise_append.mp hlk).2.2 a ha k (by simp)
      exact le_trans this (le_of_lt (lt_of_not_le hk))
    · exact le_of_lt (lt_of_not_le hk)

end RBTCollection

namespace RBTCollection

variable {K V : Type} [LinearOrder K]

theorem sorted_insert_middle {A B : List K} {k : K} (hs : (A ++ B).Sorted (· ≤ ·))
    (hA : ∀ a ∈ A, a ≤ k) (hB : ∀ b ∈ B, k ≤ b) : (A ++ k :: B).Sorted (· ≤ ·) := by
  unfold List.Sorted at *
  rw [List.pairwise_append] at hs ⊢
  obtain ⟨h1, h2, h3⟩ := hs
  refine ⟨h1, List.pairwise_cons.mpr ⟨hB, h2⟩, ?_⟩
  intro a ha b hb
  rcases List.mem_cons.mp hb with rfl | hb
  · exact hA a ha
  · exact h3 a ha b hb

/-- The tree after `add` lists the old keys and the new key, in order. -/
theorem Tree.add_keys {T T1 : Tree K V} {fuel n : Nat} {a_key : K} {a_val : V}
    (hs : (T.keys []).Sorted (· ≤ ·)) (hT : T.add fuel n a_key a_val = some T1) :
    (T1.keys []).Sorted (· ≤ ·) ∧ (T1.keys []).Perm (a_key :: T.keys []) := by
  simp only [Tree.add, Option.map_eq_some'] at hT
  obtain ⟨path1, hd, hT1⟩ := hT
  have hroute := Path.descend_routed a_key _ Path.top T trivial hd
  have hkeys := Path.keys_descend a_key _ Path.top T hd
  simp only [Path.keys_before, Path.keys_after, List.nil_append, List.append_nil] at hkeys
  have hb := Path.routed_bounds a_key path1 hroute [] (by simpa [hkeys] using hs)
  have hmain : (path1.keys_before ++ a_key :: path1.keys_after).Sorted (· ≤ ·) ∧
      (path1.keys_before ++ a_key :: path1.keys_after).Perm (a_key :: T.keys []) := by
    refine ⟨sorted_insert_middle (by rw [hkeys]; exact hs) hb.1 hb.2, ?_⟩
    rw [← hkeys]
    exact List.perm_middle
  have hk1 : T1.keys [] = path1.keys_before ++ a_key :: path1.keys_after := by
    rw [← hT1]
    cases path1 with
    | top => simp [Tree.keys_of_node, Tree.keys, Path.keys_before, Path.keys_after]
    | left x k v col up r =>
      simp only [Tree.keys_paint, Path.keys_plug]
      rw [Path.keys_plug_rebalance]
      simp [Tree.keys_of_node, Tree.keys]
    | right x k v col l up =>
      simp only [Tree.keys_paint, Path.keys_plug]
      rw [Path.keys_plug_rebalance]
      simp [Tree.keys_of_node, Tree.keys]
  rw [hk1]
  exact hmain

theorem Tree.search_depth_paint (a_key : K) (col : color_t) (t : Tree K V) :
    (t.paint col).search_depth a_key = t.search_depth a_key := by
  cases t <;> simp [Tree.paint, Tree.search_depth]

/-- The five outcomes of the rotation step of `add_rebalance`. -/
theorem Path.rotate_cases (path : Path K V) (x : Nat) (k : K) (v : V) (col : color_t)
    (l r : Tree K V) :
    (Path.rotate path (Tree.node x k v col l r) = (path, Tree.node x k v col l r) ∧
      (col = color_t.RED → path.parent_red = true →
        ∃ p pk pv sib, path = Path.left p pk pv color_t.RED Path.top sib ∨
          path = Path.right p pk pv color_t.RED sib Path.top)) ∨
    (∃ p pk pv g gk gv gc gl up2 sib, col = color_t.RED ∧
      path = Path.left p pk pv color_t.RED (Path.right g gk gv gc gl up2) sib ∧
      Path.rotate path (Tree.node x k v col l r) =
        (up2, Tree.node x k v color_t.BLACK (Tree.node g gk gv color_t.RED gl l)
          (Tree.node p pk pv color_t.RED r sib))) ∨
    (∃ p pk pv g gk gv gc gl up2 sib, col = color_t.RED ∧
      path = Path.right p pk pv color_t.RED sib (Path.right g gk gv gc gl up2) ∧
      Path.rotate path (Tree.node x k v col l r) =
        (Path.right p pk pv color_t.BLACK (Tree.node g gk gv color_t.RED gl sib) up2,
          Tree.node x k v color_t.RED l r)) ∨
    (∃ p pk pv g gk gv gc gs up2 sib, col = color_t.RED ∧
      path = Path.left p pk pv color_t.RED (Path.left g gk gv gc up2 gs) sib ∧
      Path.rotate path (Tree.node x k v col l r) =
        (Path.left p pk pv color_t.BLACK up2 (Tree.node g gk gv color_t.RED sib gs),
          Tree.node x k v color_t.RED l r)) ∨
    (∃ p pk pv g gk gv gc gs up2 sib, col = color_t.RED ∧
      path = Path.right p pk pv color_t.RED sib (Path.left g gk gv gc up2 gs) ∧
      Path.rotate path (Tree.node x k v col l r) =
        (up2, Tree.node x k v color_t.BLACK (Tree.node p pk pv color_t.RED sib l)
          (Tree.node g gk gv color_t.RED r gs))) := by
  rcases path with _ | ⟨p, pk, pv, pc, up, sib⟩ | ⟨p, pk, pv, pc, sib, up⟩
  · exact Or.inl ⟨rfl, by simp [Path.parent_red]⟩
  · cases pc
    swap
    · exact Or.inl ⟨rfl, by simp [Path.parent_red]⟩
    cases col
    swap
    · exact Or.inl ⟨by cases up <;> rfl, by simp⟩
    rcases up with _ | ⟨g, gk, gv, gc, up2, gs⟩ | ⟨g, gk, gv, gc, gl, up2⟩
    · exact Or.inl ⟨rfl, fun _ _ => ⟨p, pk, pv, sib, Or.inl rfl⟩⟩
    · exact Or.inr (Or.inr (Or.inr (Or.inl ⟨p, pk, pv, g, gk, gv, gc, gs, up2, sib, rfl, rfl, rfl⟩)))
    · exact Or.inr (Or.inl ⟨p, pk, pv, g, gk, gv, gc, gl, up2, sib, rfl, rfl, rfl⟩)
  · cases pc
    swap
    · exact Or.inl ⟨rfl, by simp [Path.parent_red]⟩
    cases col
    swap
    · exact Or.inl ⟨by cases up <;> rfl, by simp⟩
    rcases up with _ | ⟨g, gk, gv, gc, up2, gs⟩ | ⟨g, gk, gv, gc, gl, up2⟩
    · exact Or.inl ⟨rfl, fun _ _ => ⟨p, pk, pv, sib, Or.inr rfl⟩⟩
    · exact Or.inr (Or.inr (Or.inr (Or.inr ⟨p, pk, pv, g, gk, gv, gc, gs, up2, sib, rfl, rfl, rfl⟩)))
    · exact Or.inr (Or.inr (Or.inl ⟨p, pk, pv, g, gk, gv, gc, gl, up2, sib, rfl, rfl, rfl⟩))

/-- One round of the loop of `add` lowers `2 * search_depth + parent_red`. -/
theorem Path.rebalance_measure (a_key : K) (path : Path K V) (hr : Path.Routed a_key path)
    (x : Nat) (k : K) (v : V) (col : color_t) (l r : Tree K V)
    {pa : Path K V} {col1 : color_t} {l1 r1 : Tree K V}
    (he : Path.rebalance path (Tree.node x k v col l r) = (pa, Tree.node x k v col1 l1 r1)) :
    2 * (if a_key ≤ k then l1.search_depth a_key else r1.search_depth a_key) +
        (if col1 = color_t.RED then 1 else 0) + 1 ≤
      2 * (Tree.node x k v col l r).search_depth a_key + (if path.parent_red then 1 else 0) := by
  obtain ⟨colf, lf, rf, hf, hlf, hrf⟩ : ∃ colf lf rf,
      (Tree.node x k v col l r).flip = Tree.node x k v colf lf rf ∧
      lf.search_depth a_key = l.search_depth a_key ∧
      rf.search_depth a_key = r.search_depth a_key := by
    cases col <;> rcases l with _ | ⟨la, lk, lv, lcol, ll, lr⟩ <;>
      rcases r with _ | ⟨ra, rk, rv, rcol, rl, rr⟩ <;> (try cases lcol) <;> (try cases rcol) <;>
      exact ⟨_, _, _, rfl, by simp [Tree.search_depth], by simp [Tree.search_depth]⟩
  rw [Path.rebalance, hf] at he
  simp only [Tree.search_depth]
  rw [← hlf, ← hrf]
  clear hf hlf hrf
  rcases Path.rotate_cases path x k v colf lf rf with
    ⟨h1, -⟩ | ⟨p, pk, pv, g, gk, gv, gc, gl, up2, sib, -, rfl, h1⟩ |
    ⟨p, pk, pv, g, gk, gv, gc, gl, up2, sib, -, rfl, h1⟩ |
    ⟨p, pk, pv, g, gk, gv, gc, gs, up2, sib, -, rfl, h1⟩ |
    ⟨p, pk, pv, g, gk, gv, gc, gs, up2, sib, -, rfl, h1⟩
  · rw [h1] at he
    simp only [Prod.mk.injEq, Tree.node.injEq, true_and] at he
    obtain ⟨-, rfl, rfl, rfl⟩ := he
    split <;> split <;> split <;> omega
  · rw [h1] at he
    simp only [Prod.mk.injEq, Tree.node.injEq, true_and] at he
    obtain ⟨-, rfl, rfl, rfl⟩ := he
    obtain ⟨hpk, hgk, -⟩ := hr
    simp only [Tree.search_depth, if_neg hgk, if_pos hpk, Path.parent_red, decide_True, if_true,
      reduceCtorEq, if_false]
    split <;> omega
  · rw [h1] at he
    simp only [Prod.mk.injEq, Tree.node.injEq, true_and] at he
    obtain ⟨-, rfl, rfl, rfl⟩ := he
    simp only [Path.parent_red, decide_True, if_true]
    split <;> omega
  · rw [h1] at he
    simp only [Prod.mk.injEq, Tree.node.injEq, true_and] at he
    obtain ⟨-, rfl, rfl, rfl⟩ := he
    simp only [Path.parent_red, decide_True, if_true]
    split <;> omega
  · rw [h1] at he
    simp only [Prod.mk.injEq, Tree.node.injEq, true_and] at he
    obtain ⟨-, rfl, rfl, rfl⟩ := he
    obtain ⟨hpk, hgk, -⟩ := hr
    simp only [Tree.search_depth, if_pos hgk, if_neg hpk, Path.parent_red, decide_True, if_true,
      reduceCtorEq, if_false]
    split <;> omega

theorem Path.descend_some (a_key : K) (fuel : Nat) (path : Path K V) (t : Tree K V)
    (hr : Path.Routed a_key path)
    (hf : 2 * t.search_depth a_key + (if path.parent_red then 1 else 0) ≤ fuel) :
    ∃ path1, Path.descend a_key fuel path t = some path1 := by
  induction fuel generalizing path t with
  | zero =>
    cases t with
    | nil => exact ⟨path, rfl⟩
    | node x k v col l r => simp [Tree.search_depth] at hf
  | succ fuel ih =>
    cases t with
    | nil => exact ⟨path, rfl⟩
    | node x k v col l r =>
      obtain ⟨col1, l1, r1, hroot⟩ := Path.rebalance_root path x k v col l r
      have hrt : Path.Routed a_key (Path.rebalance path (Tree.node x k v col l r)).1 :=
        Path.rotate_routed a_key path _ hr
      generalize hpt : Path.rebalance path (Tree.node x k v col l r) = pt at hroot hrt
      obtain ⟨pa, ta⟩ := pt
      simp only at hroot hrt
      subst hroot
      have hm := Path.rebalance_measure a_key path hr x k v col l r hpt
      simp only [Path.descend, hpt]
      by_cases hk : a_key ≤ k
      · rw [if_pos hk] at hm ⊢
        refine ih (Path.left x k v col1 pa r1) l1 (And.intro hk hrt) ?_
        simp only [Path.parent_red]
        by_cases hc : col1 = color_t.RED <;> simp [hc] at hm ⊢ <;> omega
      · rw [if_neg hk] at hm ⊢
        refine ih (Path.right x k v col1 l1 pa) r1 (And.intro hk hrt) ?_
        simp only [Path.parent_red]
        by_cases hc : col1 = color_t.RED <;> simp [hc] at hm ⊢ <;> omega

end RBTCollection

namespace RBTCollection

variable {K V : Type}

theorem Tree.valid_node (a : Nat) (k : K) (v : V) (col : color_t) (l r : Tree K V) :
    (Tree.node a k v col l r).valid_rbt = true ↔
      l.black_node_height = r.black_node_height ∧
      (col = color_t.RED → l.color_or_black ≠ color_t.RED ∧ r.color_or_black ≠ color_t.RED) ∧
      l.valid_rbt = true ∧ r.valid_rbt = true := by
  simp only [Tree.valid_rbt, Bool.and_eq_true, Bool.or_eq_true, decide_eq_true_eq]
  constructor
  · rintro ⟨⟨⟨h1, h2⟩, h3⟩, h4⟩
    exact ⟨h1, fun hc => h2.resolve_left (fun h => h hc), h3, h4⟩
  · rintro ⟨h1, h2, h3, h4⟩
    refine ⟨⟨⟨h1, ?_⟩, h3⟩, h4⟩
    by_cases hc : col = color_t.RED
    · exact Or.inr (h2 hc)
    · exact Or.inl hc

theorem Tree.bh_node (a : Nat) (k : K) (v : V) (col : color_t) (l r : Tree K V)
    (h : l.black_node_height = r.black_node_height) :
    (Tree.node a k v col l r).black_node_height =
      if col = color_t.BLACK then 1 + l.black_node_height else l.black_node_height := by
  simp [Tree.black_node_height, h]

theorem Path.valid_plug (path : Path K V) (t : Tree K V) (ht : t.valid_rbt = true)
    (hp : Path.Valid path t.black_node_height t.color_or_black) :
    (path.plug t).valid_rbt = true := by
  induction path generalizing t with
  | top => exact ht
  | left a k v col up r ih =>
    obtain ⟨h1, h2, h3, h4⟩ := hp
    refine ih _ ((Tree.valid_node _ _ _ _ _ _).mpr ⟨h1.symm, h3, ht, h2⟩) ?_
    rw [Tree.bh_node _ _ _ _ _ _ h1.symm]
    exact h4
  | right a k v col l up ih =>
    obtain ⟨h1, h2, h3, h4⟩ := hp
    refine ih _ ((Tree.valid_node _ _ _ _ _ _).mpr ⟨h1, fun hc => (h3 hc).symm, h2, ht⟩) ?_
    rw [Tree.bh_node _ _ _ _ _ _ h1, h1]
    exact h4

theorem Path.valid_recolor (path : Path K V) (h : Nat) (hc hc1 : color_t)
    (hp : Path.Valid path h hc) (hred : path.parent_red = false) : Path.Valid path h hc1 := by
  cases path with
  | top => trivial
  | left a k v col up r =>
    simp only [Path.parent_red, decide_eq_false_iff_not] at hred
    exact ⟨hp.1, hp.2.1, fun e => absurd e hred, hp.2.2.2⟩
  | right a k v col l up =>
    simp only [Path.parent_red, decide_eq_false_iff_not] at hred
    exact ⟨hp.1, hp.2.1, fun e => absurd e hred, hp.2.2.2⟩

theorem Tree.flip_eq_self (x : Nat) (k : K) (v : V) (col : color_t) (l r : Tree K V)
    (h : ¬ (col = color_t.BLACK ∧ l.color_or_black = color_t.RED ∧
      r.color_or_black = color_t.RED)) :
    (Tree.node x k v col l r).flip = Tree.node x k v col l r := by
  cases col <;> rcases l with _ | ⟨la, lk, lv, lcol, ll, lr⟩ <;>
    rcases r with _ | ⟨ra, rk, rv, rcol, rl, rr⟩ <;> (try cases lcol) <;> (try cases rcol) <;>
    first
      | rfl
      | exact absurd ⟨rfl, rfl, rfl⟩ h

end RBTCollection

namespace RBTCollection

variable {K V : Type} [LinearOrder K]

theorem Path.sibling_ok_left (x : Nat) (k : K) (v : V) (col : color_t) (path : Path K V)
    (r : Tree K V) : (Path.left x k v col path r).sibling_ok ↔ path.beside_ok := by
  cases path <;> simp [Path.sibling_ok, Path.beside_ok]

theorem Path.sibling_ok_right (x : Nat) (k : K) (v : V) (col : color_t) (path : Path K V)
    (l : Tree K V) : (Path.right x k v col l path).sibling_ok ↔ path.beside_ok := by
  cases path <;> simp [Path.sibling_ok, Path.beside_ok]

/-- One round of the loop of `add`, without a color flip at `x`. -/
theorem Path.Inv.step_plain {a_key : K} {path : Path K V} {x : Nat} {k : K} {v : V}
    {col : color_t} {l r : Tree K V} (h : Path.Inv a_key path (Tree.node x k v col l r))
    (hn : ¬ (col = color_t.BLACK ∧ l.color_or_black = color_t.RED ∧
      r.color_or_black = color_t.RED)) :
    Path.rebalance path (Tree.node x k v col l r) = (path, Tree.node x k v col l r) ∧
    (a_key ≤ k → Path.Inv a_key (Path.left x k v col path r) l) ∧
    (¬ a_key ≤ k → Path.Inv a_key (Path.right x k v col l path) r) := by
  obtain ⟨hv, hp, hr, hA, hB⟩ := h
  rw [Tree.valid_node] at hv
  obtain ⟨hbh, hcol, hvl, hvr⟩ := hv
  rw [Tree.bh_node _ _ _ _ _ _ hbh] at hp
  simp only [Tree.color_or_black] at hp hB
  have hrot : Path.rebalance path (Tree.node x k v col l r) = (path, Tree.node x k v col l r) := by
    rw [Path.rebalance, Tree.flip_eq_self _ _ _ _ _ _ hn]
    rcases Path.rotate_cases path x k v col l r with
      ⟨h1, -⟩ | ⟨p, pk, pv, g, gk, gv, gc, gl, up2, sib, rfl, rfl, -⟩ |
      ⟨p, pk, pv, g, gk, gv, gc, gl, up2, sib, rfl, rfl, -⟩ |
      ⟨p, pk, pv, g, gk, gv, gc, gs, up2, sib, rfl, rfl, -⟩ |
      ⟨p, pk, pv, g, gk, gv, gc, gs, up2, sib, rfl, rfl, -⟩
    · exact h1
    all_goals exact absurd rfl (hp.2.2.1 rfl).1
  refine ⟨hrot, fun hk => ⟨hvl, ⟨hbh.symm, hvr, hcol, hp⟩, ⟨hk, hr⟩, ?_, ?_⟩,
    fun hk => ⟨hvr, ⟨hbh, hvl, fun e => (hcol e).symm, ?_⟩, ⟨hk, hr⟩, ?_, ?_⟩⟩
  · intro hred
    simp only [Path.parent_red, decide_eq_true_eq] at hred
    rw [Path.sibling_ok_left]
    simpa [Tree.key_child, hk] using hB hred
  · intro hl
    left
    simp only [Path.beside_ok]
    intro hr'
    by_cases hc : col = color_t.RED
    · exact (hcol hc).1 hl
    · exact hn ⟨by cases col <;> simp_all, hl, hr'⟩
  · rw [← hbh]; exact hp
  · intro hred
    simp only [Path.parent_red, decide_eq_true_eq] at hred
    rw [Path.sibling_ok_right]
    simpa [Tree.key_child, hk] using hB hred
  · intro hr'
    left
    simp only [Path.beside_ok]
    intro hl
    by_cases hc : col = color_t.RED
    · exact (hcol hc).2 hr'
    · exact hn ⟨by cases col <;> simp_all, hl, hr'⟩

end RBTCollection

namespace RBTCollection

variable {K V : Type} [LinearOrder K]

theorem Tree.color_or_black_node (x : Nat) (k : K) (v : V) (col : color_t) (l r : Tree K V) :
    (Tree.node x k v col l r).color_or_black = col := rfl

/-- One round of the loop of `add`, with a color flip at `x`. -/
theorem Path.Inv.step_flip {a_key : K} {path : Path K V} {x : Nat} {k : K} {v : V}
    {la : Nat} {lk : K} {lv : V} {ll lr : Tree K V} {ra : Nat} {rk : K} {rv : V}
    {rl rr : Tree K V}
    (h : Path.Inv a_key path (Tree.node x k v color_t.BLACK
      (Tree.node la lk lv color_t.RED ll lr) (Tree.node ra rk rv color_t.RED rl rr))) :
    ∃ pa col1 l1 r1,
      Path.rebalance path (Tree.node x k v color_t.BLACK
        (Tree.node la lk lv color_t.RED ll lr) (Tree.node ra rk rv color_t.RED rl rr)) =
        (pa, Tree.node x k v col1 l1 r1) ∧
      (a_key ≤ k → Path.Inv a_key (Path.left x k v col1 pa r1) l1) ∧
      (¬ a_key ≤ k → Path.Inv a_key (Path.right x k v col1 l1 pa) r1) := by
  obtain ⟨hv, hp, hr, hA, hB⟩ := h
  simp only [Tree.valid_node, Tree.color_or_black, ne_eq, not_false_eq_true, and_self,
    true_implies, forall_const] at hv
  obtain ⟨hbh, -, ⟨hl1, ⟨hl2, hl3⟩, hl4, hl5⟩, hr1, ⟨hr2, hr3⟩, hr4, hr5⟩ := hv
  simp only [Tree.black_node_height, hl1, hr1, lt_self_iff_false, if_false, reduceCtorEq,
    if_true, gt_iff_lt] at hbh hp
  simp only [hbh, lt_self_iff_false, if_false, Tree.color_or_black] at hp
  have hgl : (Tree.node la lk lv color_t.BLACK ll lr).Good := ⟨rfl, fun h => hl2 h.1⟩
  have hgr : (Tree.node ra rk rv color_t.BLACK rl rr).Good := ⟨rfl, fun h => hr2 h.1⟩
  have hvl : (Tree.node la lk lv color_t.BLACK ll lr).valid_rbt = true := by
    simp [Tree.valid_node, hl1, hl4, hl5]
  have hvr : (Tree.node ra rk rv color_t.BLACK rl rr).valid_rbt = true := by
    simp [Tree.valid_node, hr1, hr4, hr5]
  have hbl : (Tree.node la lk lv color_t.BLACK ll lr).black_node_height =
      1 + rr.black_node_height := by
    simp [Tree.black_node_height, hl1, hbh]
  have hbr : (Tree.node ra rk rv color_t.BLACK rl rr).black_node_height =
      1 + rr.black_node_height := by
    simp [Tree.black_node_height, hr1]
  have hnotgood : ¬ (Tree.node x k v color_t.BLACK (Tree.node la lk lv color_t.RED ll lr)
      (Tree.node ra rk rv color_t.RED rl rr)).Good := fun h => h.2 ⟨rfl, rfl⟩
  have hflip : Path.rebalance path (Tree.node x k v color_t.BLACK
        (Tree.node la lk lv color_t.RED ll lr) (Tree.node ra rk rv color_t.RED rl rr)) =
      Path.rotate path (Tree.node x k v color_t.RED (Tree.node la lk lv color_t.BLACK ll lr)
        (Tree.node ra rk rv color_t.BLACK rl rr)) := rfl
  rw [hflip]
  generalize Tree.node la lk lv color_t.BLACK ll lr = l1 at *
  generalize Tree.node ra rk rv color_t.BLACK rl rr = r1 at *
  generalize rr.black_node_height = H at *
  have hcl : l1.color_or_black = color_t.BLACK := by
    cases l1 with
    | nil => rfl
    | node _ _ _ c _ _ => exact hgl.1
  have hcr : r1.color_or_black = color_t.BLACK := by
    cases r1 with
    | nil => rfl
    | node _ _ _ c _ _ => exact hgr.1
  rcases Path.rotate_cases path x k v color_t.RED l1 r1 with
    ⟨h1, h2⟩ | ⟨p, pk, pv, g, gk, gv, gc, gl, up2, sib, -, rfl, h1⟩ |
    ⟨p, pk, pv, g, gk, gv, gc, gl, up2, sib, -, rfl, h1⟩ |
    ⟨p, pk, pv, g, gk, gv, gc, gs, up2, sib, -, rfl, h1⟩ |
    ⟨p, pk, pv, g, gk, gv, gc, gs, up2, sib, -, rfl, h1⟩
  · -- no rotation: the parent is not RED
    have hpr : path.parent_red = false := by
      by_contra hne
      have hpt : path.parent_red = true := by simpa using hne
      obtain ⟨p, pk, pv, sib, rfl | rfl⟩ := h2 rfl hpt
      · exact (hA hpt).elim (fun h => h) hnotgood
      · exact (hA hpt).elim (fun h => h) hnotgood
    have hp' := Path.valid_recolor path _ _ color_t.RED hp hpr
    refine ⟨_, _, _, _, h1, fun hk => ⟨hvl, ⟨?_, hvr, ?_, ?_⟩, ⟨hk, hr⟩, fun _ => Or.inr hgl, ?_⟩,
      fun hk => ⟨hvr, ⟨?_, hvl, ?_, ?_⟩, ⟨hk, hr⟩, fun _ => Or.inr hgr, ?_⟩⟩
    · rw [hbl, hbr]
    · simp [hcl, hcr]
    · simpa [hbl] using hp'
    · simp [hcl]
    · rw [hbl, hbr]
    · simp [hcl, hcr]
    · simpa [hbr] using hp'
    · simp [hcr]
  · have hA1 := (hA rfl).resolve_right hnotgood
    clear hA hB hnotgood hl1 hl2 hl3 hl4 hl5 hr2 hr3 hr4 hr5 hr1 hbh hflip
    simp only [Path.Valid, Path.Routed, Path.sibling_ok, decide_True,
      true_implies, ne_eq, not_true_eq_false, false_and, imp_false, reduceCtorEq,
      not_false_eq_true, true_and, if_false, forall_const] at hp hr hA1
    obtain ⟨hs1, hs2, hs3, hg1, hg2, hg3, hup⟩ := hp
    have hgc : gc = color_t.BLACK := by
      cases gc
      · exact absurd rfl hg3
      · rfl
    subst hgc
    simp only [if_true] at hup
    refine ⟨_, _, _, _, h1, fun hk => ?_, fun hk => ?_⟩
    · simp [Path.Inv, Path.Valid, Path.Routed, Path.parent_red, Path.beside_ok, Tree.valid_node,
        Tree.black_node_height, Tree.color_or_black_node, Tree.key_child, *]
    · simp [Path.Inv, Path.Valid, Path.Routed, Path.parent_red, Path.beside_ok, Tree.valid_node,
        Tree.black_node_height, Tree.color_or_black_node, Tree.key_child, *]
  · have hA1 := (hA rfl).resolve_right hnotgood
    clear hA hB hnotgood hl1 hl2 hl3 hl4 hl5 hr2 hr3 hr4 hr5 hr1 hbh hflip
    simp only [Path.Valid, Path.Routed, Path.sibling_ok, decide_True,
      true_implies, ne_eq, not_true_eq_false, false_and, imp_false, reduceCtorEq,
      not_false_eq_true, true_and, if_false, forall_const] at hp hr hA1
    obtain ⟨hs1, hs2, hs3, hg1, hg2, hg3, hup⟩ := hp
    have hgc : gc = color_t.BLACK := by
      cases gc
      · exact absurd rfl hg3
      · rfl
    subst hgc
    simp only [if_true] at hup
    refine ⟨_, _, _, _, h1, fun hk => ?_, fun hk => ?_⟩
    · simp [Path.Inv, Path.Valid, Path.Routed, Path.parent_red, Path.beside_ok, Tree.valid_node,
        Tree.black_node_height, Tree.color_or_black_node, Tree.key_child, *]
    · simp [Path.Inv, Path.Valid, Path.Routed, Path.parent_red, Path.beside_ok, Tree.valid_node,
        Tree.black_node_height, Tree.color_or_black_node, Tree.key_child, *]
  · have hA1 := (hA rfl).resolve_right hnotgood
    clear hA hB hnotgood hl1 hl2 hl3 hl4 hl5 hr2 hr3 hr4 hr5 hr1 hbh hflip
    simp only [Path.Valid, Path.Routed, Path.sibling_ok, decide_True,
      true_implies, ne_eq, not_true_eq_false, false_and, imp_false, reduceCtorEq,
      not_false_eq_true, true_and, if_false, forall_const] at hp hr hA1
    obtain ⟨hs1, hs2, hs3, hg1, hg2, hg3, hup⟩ := hp
    have hgc : gc = color_t.BLACK := by
      cases gc
      · exact absurd rfl hg3
      · rfl
    subst hgc
    simp only [if_true] at hup
    refine ⟨_, _, _, _, h1, fun hk => ?_, fun hk => ?_⟩
    · simp [Path.Inv, Path.Valid, Path.Routed, Path.parent_red, Path.beside_ok, Tree.valid_node,
        Tree.black_node_height, Tree.color_or_black_node, Tree.key_child, *]
    · simp [Path.Inv, Path.Valid, Path.Routed, Path.parent_red, Path.beside_ok, Tree.valid_node,
        Tree.black_node_height, Tree.color_or_black_node, Tree.key_child, *]
  · have hA1 := (hA rfl).resolve_right hnotgood
    clear hA hB hnotgood hl1 hl2 hl3 hl4 hl5 hr2 hr3 hr4 hr5 hr1 hbh hflip
    simp only [Path.Valid, Path.Routed, Path.sibling_ok, decide_True,
      true_implies, ne_eq, not_true_eq_false, false_and, imp_false, reduceCtorEq,
      not_false_eq_true, true_and, if_false, forall_const] at hp hr hA1
    obtain ⟨hs1, hs2, hs3, hg1, hg2, hg3, hup⟩ := hp
    have hgc : gc = color_t.BLACK := by
      cases gc
      · exact absurd rfl hg3
      · rfl
    subst hgc
    simp only [if_true] at hup
    refine ⟨_, _, _, _, h1, fun hk => ?_, fun hk => ?_⟩
    · simp [Path.Inv, Path.Valid, Path.Routed, Path.parent_red, Path.beside_ok, Tree.valid_node,
        Tree.black_node_height, Tree.color_or_black_node, Tree.key_child, *]
    · simp [Path.Inv, Path.Valid, Path.Routed, Path.parent_red, Path.beside_ok, Tree.valid_node,
        Tree.black_node_height, Tree.color_or_black_node, Tree.key_child, *]

end RBTCollection

namespace RBTCollection

variable {K V : Type} [LinearOrder K]

/-- One round of the loop of `add` keeps the invariant. -/
theorem Path.Inv.round {a_key : K} {path : Path K V} {x : Nat} {k : K} {v : V}
    {col : color_t} {l r : Tree K V} (h : Path.Inv a_key path (Tree.node x k v col l r)) :
    ∃ pa col1 l1 r1,
      Path.rebalance path (Tree.node x k v col l r) = (pa, Tree.node x k v col1 l1 r1) ∧
      (a_key ≤ k → Path.Inv a_key (Path.left x k v col1 pa r1) l1) ∧
      (¬ a_key ≤ k → Path.Inv a_key (Path.right x k v col1 l1 pa) r1) := by
  by_cases hn : col = color_t.BLACK ∧ l.color_or_black = color_t.RED ∧
      r.color_or_black = color_t.RED
  · obtain ⟨rfl, hl, hr⟩ := hn
    rcases l with _ | ⟨la, lk, lv, lcol, ll, lr⟩
    · exact absurd hl (by simp [Tree.color_or_black])
    rcases r with _ | ⟨ra, rk, rv, rcol, rl, rr⟩
    · exact absurd hr (by simp [Tree.color_or_black])
    simp only [Tree.color_or_black] at hl hr
    subst hl hr
    exact Path.Inv.step_flip h
  · exact ⟨_, _, _, _, Path.Inv.step_plain h hn⟩

theorem Path.descend_inv (a_key : K) (fuel : Nat) (path : Path K V) (t : Tree K V)
    (h : Path.Inv a_key path t) {path1 : Path K V}
    (hd : Path.descend a_key fuel path t = some path1) : Path.Inv a_key path1 Tree.nil := by
  induction fuel generalizing path t with
  | zero =>
    cases t with
    | nil => simp only [Path.descend, Option.some.injEq] at hd; exact hd ▸ h
    | node x k v col l r => simp [Path.descend] at hd
  | succ fuel ih =>
    cases t with
    | nil => simp only [Path.descend, Option.some.injEq] at hd; exact hd ▸ h
    | node x k v col l r =>
      obtain ⟨pa, col1, l1, r1, hpt, h1, h2⟩ := Path.Inv.round h
      simp only [Path.descend, hpt] at hd
      by_cases hk : a_key ≤ k
      · rw [if_pos hk] at hd
        exact ih _ _ (h1 hk) hd
      · rw [if_neg hk] at hd
        exact ih _ _ (h2 hk) hd

theorem Tree.color_or_black_nil : (Tree.nil : Tree K V).color_or_black = color_t.BLACK := rfl

theorem Tree.valid_nil : (Tree.nil : Tree K V).valid_rbt = true := rfl

theorem Tree.bh_nil : (Tree.nil : Tree K V).black_node_height = 1 := rfl

theorem Tree.valid_paint_black (t : Tree K V) (h : t.valid_rbt = true) :
    (t.paint color_t.BLACK).valid_rbt = true ∧
      (t.paint color_t.BLACK).color_or_black = color_t.BLACK := by
  cases t with
  | nil => exact ⟨rfl, rfl⟩
  | node a k v col l r =>
    rw [Tree.valid_node] at h
    exact ⟨(Tree.valid_node _ _ _ _ _ _).mpr ⟨h.1, fun e => color_t.noConfusion e, h.2.2⟩, rfl⟩

/-- Linking the new RED node at the end of the path and rebalancing there gives
a tree that satisfies the red-black constraints. -/
theorem Path.Inv.finish {a_key : K} {path : Path K V} (h : Path.Inv a_key path Tree.nil)
    (n : Nat) (a_val : V) :
    ((Path.rebalance path (Tree.node n a_key a_val color_t.RED Tree.nil Tree.nil)).1.plug
      (Path.rebalance path (Tree.node n a_key a_val color_t.RED Tree.nil Tree.nil)).2).valid_rbt
      = true := by
  obtain ⟨-, hp, hr, hA, -⟩ := h
  have hflip : Path.rebalance path (Tree.node n a_key a_val color_t.RED Tree.nil Tree.nil) =
      Path.rotate path (Tree.node n a_key a_val color_t.RED Tree.nil Tree.nil) := rfl
  rw [hflip]
  have hnotgood : ¬ (Tree.nil : Tree K V).Good := fun h => h
  simp only [Tree.black_node_height, Tree.color_or_black] at hp
  rcases Path.rotate_cases path n a_key a_val color_t.RED Tree.nil Tree.nil with
    ⟨h1, h2⟩ | ⟨p, pk, pv, g, gk, gv, gc, gl, up2, sib, -, rfl, h1⟩ |
    ⟨p, pk, pv, g, gk, gv, gc, gl, up2, sib, -, rfl, h1⟩ |
    ⟨p, pk, pv, g, gk, gv, gc, gs, up2, sib, -, rfl, h1⟩ |
    ⟨p, pk, pv, g, gk, gv, gc, gs, up2, sib, -, rfl, h1⟩
  · have hpr : path.parent_red = false := by
      by_contra hne
      have hpt : path.parent_red = true := by simpa using hne
      obtain ⟨p, pk, pv, sib, rfl | rfl⟩ := h2 rfl hpt
      · exact (hA hpt).elim (fun h => h) hnotgood
      · exact (hA hpt).elim (fun h => h) hnotgood
    rw [h1]
    refine Path.valid_plug path _ (by simp [Tree.valid_node, Tree.color_or_black_nil,
      Tree.valid_nil]) ?_
    simpa [Tree.black_node_height, Tree.color_or_black] using
      Path.valid_recolor path _ _ color_t.RED hp hpr
  all_goals
    have hA1 := (hA rfl).resolve_right hnotgood
    clear hA hnotgood hflip
    simp only [Path.Valid, Path.Routed, Path.sibling_ok, decide_True,
      true_implies, ne_eq, not_true_eq_false, false_and, imp_false, reduceCtorEq,
      not_false_eq_true, true_and, if_false, forall_const] at hp hr hA1
    obtain ⟨hs1, hs2, hs3, hg1, hg2, hg3, hup⟩ := hp
    have hgc : gc = color_t.BLACK := by
      cases gc
      · exact absurd rfl hg3
      · rfl
    subst hgc
    simp only [if_true] at hup
    rw [h1]
    refine Path.valid_plug _ _ ?_ ?_
    · simp [Tree.valid_node, Tree.black_node_height, Tree.color_or_black_node,
        Tree.color_or_black_nil, Tree.valid_nil, *]
    · simp [Path.Valid, Tree.valid_node, Tree.black_node_height, Tree.color_or_black_node,
        Tree.color_or_black_nil, Tree.valid_nil, *]

/-- The pure `add` keeps the red-black constraints and leaves the root BLACK. -/
theorem Tree.add_valid (T : Tree K V) (hv : T.valid_rbt = true)
    (hc : T.color_or_black = color_t.BLACK) (fuel n : Nat) (a_key : K) (a_val : V)
    {T1 : Tree K V} (hT : T.add fuel n a_key a_val = some T1) :
    T1.valid_rbt = true ∧ T1.color_or_black = color_t.BLACK := by
  have hinv : Path.Inv a_key Path.top T :=
    ⟨hv, trivial, trivial, fun h => by simp [Path.parent_red] at h,
      fun h => by rw [hc] at h; cases h⟩
  simp only [Tree.add, Option.map_eq_some'] at hT
  obtain ⟨path, hd, rfl⟩ := hT
  have hfin := Path.descend_inv a_key fuel Path.top T hinv hd
  cases path with
  | top => exact ⟨by simp [Tree.valid_rbt, Tree.black_node_height, Tree.color_or_black], rfl⟩
  | left a k v col up r => exact Tree.valid_paint_black _ (Path.Inv.finish hfin n a_val)
  | right a k v col l up => exact Tree.valid_paint_black _ (Path.Inv.finish hfin n a_val)

end RBTCollection

namespace RBTCollection

variable {K V : Type}

theorem Tree.height_le_length (t : Tree K V) : t.height ≤ t.addrs.length := by
  induction t with
  | nil => exact Nat.le_refl 0
  | node a k v col l r ihl ihr =>
    simp only [Tree.height, Tree.addrs, List.length_cons, List.length_append]
    split <;> omega

theorem Tree.search_depth_le_length [LinearOrder K] (a_key : K) (t : Tree K V) :
    t.search_depth a_key ≤ t.addrs.length := by
  induction t with
  | nil => exact Nat.le_refl 0
  | node a k v col l r ihl ihr =>
    simp only [Tree.search_depth, Tree.addrs, List.length_cons, List.length_append]
    split <;> omega

theorem length_le_of_nodup_lt {L : List Nat} {n : Nat} (hnd : L.Nodup) (hb : ∀ a ∈ L, a < n) :
    L.length ≤ n := by
  have h1 : L.toFinset ⊆ Finset.range n := by
    intro a ha
    exact Finset.mem_range.mpr (hb a (List.mem_toFinset.mp ha))
  have h2 := Finset.card_le_card h1
  rwa [List.toFinset_card_of_nodup hnd, Finset.card_range] at h2

/-- The snapshot of a represented subtree is that subtree. -/
theorem Rep.subtree {c : RBTCollection K V} {par : Ptr} {t : Tree K V} (h : Rep c.mem par t)
    (fuel : Nat) (hf : t.height ≤ fuel) : c.subtree fuel t.ptr = some t := by
  induction t generalizing par fuel with
  | nil => cases fuel <;> rfl
  | node a k v col l r ihl ihr =>
    obtain ⟨hm, hl, hr⟩ := h
    cases fuel with
    | zero =>
      simp only [Tree.height] at hf
      split at hf <;> omega
    | succ fuel =>
      have h1 : l.height ≤ fuel := by
        simp only [Tree.height] at hf
        split at hf <;> omega
      have h2 : r.height ≤ fuel := by
        simp only [Tree.height] at hf
        split at hf <;> omega
      simp [RBTCollection.subtree, hm, ihl hl fuel h1, ihr hr fuel h2]

theorem Stored.snapshot {c : RBTCollection K V} {T : Tree K V} (h : Stored c T) :
    c.subtree c.next c.root = some T := by
  have hr : c.root = T.ptr := h.holds.root
  rw [hr]
  exact Rep.subtree h.holds.rtree c.next
    ((Tree.height_le_length T).trans (length_le_of_nodup_lt h.nodup h.bound))

theorem Stored.keys {c : RBTCollection K V} {T : Tree K V} (h : Stored c T) (acc : List K) :
    c.keys acc = some (T.keys acc) := by
  simp [RBTCollection.keys, h.snapshot]

theorem Stored.valid_rbt {c : RBTCollection K V} {T : Tree K V} (h : Stored c T)
    (hc : T.color_or_black = color_t.BLACK) : c.valid_rbt = some T.valid_rbt := by
  have hs := h.snapshot
  have hr : c.root = T.ptr := h.holds.root
  cases T with
  | nil => simp [RBTCollection.valid_rbt, hr, Tree.valid_rbt]
  | node a k v col l r =>
    have hm := h.holds.mem_root
    simp only [Tree.color_or_black] at hc
    subst hc
    simp only [Tree.ptr_node] at hr
    rw [hr] at hs
    simp [RBTCollection.valid_rbt, hs, read_color hm, hr]

theorem Stored.empty : Stored (empty : RBTCollection K V) Tree.nil :=
  ⟨⟨rfl, trivial, trivial⟩, List.nodup_nil, fun a ha => by simp [Tree.addrs] at ha⟩

variable [LinearOrder K]

/-- The pure `add` returns a tree when the fuel covers the search. -/
theorem Tree.add_some (T : Tree K V) (fuel n : Nat) (a_key : K) (a_val : V)
    (hf : 2 * T.addrs.length ≤ fuel) : ∃ T1, T.add fuel n a_key a_val = some T1 := by
  have hd := Tree.search_depth_le_length a_key T
  obtain ⟨path1, hp⟩ := Path.descend_some a_key fuel Path.top T trivial
    (by simp only [Path.parent_red]; simp; omega)
  rw [Tree.add, hp]
  exact ⟨_, rfl⟩

/-- The call `add(a_key, a_val)` on a collection that holds a valid red-black
tree with sorted keys returns, and the collection then holds such a tree with
one more key. -/
theorem Stored.add_stored {c : RBTCollection K V} {T : Tree K V} (h : Stored c T)
    (hv : T.valid_rbt = true) (hc : T.color_or_black = color_t.BLACK)
    (hs : (T.keys []).Sorted (· ≤ ·)) (a_key : K) (a_val : V) :
    ∃ c1 T1, c.add a_key a_val = some c1 ∧ Stored c1 T1 ∧ T1.valid_rbt = true ∧
      T1.color_or_black = color_t.BLACK ∧ (T1.keys []).Sorted (· ≤ ·) ∧
      (T1.keys []).Perm (a_key :: T.keys []) ∧ T1.addrs.length = T.addrs.length + 1 ∧
      c1.node_count = size_t_incr c.node_count := by
  have hlen := length_le_of_nodup_lt h.nodup h.bound
  obtain ⟨T1, hT⟩ := Tree.add_some T (2 * (c.next + 1) + 2) c.next a_key a_val (by omega)
  obtain ⟨c1, hadd, hh, hperm, hnext, hcount⟩ := Holds.add_refines h.holds h.nodup h.bound a_key a_val hT
  obtain ⟨hv1, hc1⟩ := Tree.add_valid T hv hc _ _ a_key a_val hT
  obtain ⟨hs1, hp1⟩ := Tree.add_keys hs hT
  refine ⟨c1, T1, hadd, ⟨hh, ?_, ?_⟩, hv1, hc1, hs1, hp1, ?_, hcount⟩
  · refine hperm.nodup_iff.mpr (List.nodup_cons.mpr ⟨fun hmem => ?_, h.nodup⟩)
    exact Nat.lt_irrefl _ (h.bound _ hmem)
  · intro a ha
    rw [hnext]
    rcases List.mem_cons.mp (hperm.subset ha) with rfl | hmem
    · exact Nat.lt_succ_self _
    · exact Nat.lt_succ_of_lt (h.bound a hmem)
  · simpa using hperm.length_eq

theorem foldlM_add_stored (kvs : List (K × V)) (c0 : RBTCollection K V) (T0 : Tree K V)
    (h : Stored c0 T0) (hv : T0.valid_rbt = true) (hc : T0.color_or_black = color_t.BLACK)
    (hs : (T0.keys []).Sorted (· ≤ ·)) :
    ∃ c T, kvs.foldlM (fun c kv => c.add kv.1 kv.2) c0 = some c ∧ Stored c T ∧
      T.valid_rbt = true ∧ T.color_or_black = color_t.BLACK ∧ (T.keys []).Sorted (· ≤ ·) ∧
      (T.keys []).Perm (T0.keys [] ++ kvs.map Prod.fst) ∧
      T.addrs.length = T0.addrs.length + kvs.length := by
  induction kvs generalizing c0 T0 with
  | nil => exact ⟨c0, T0, rfl, h, hv, hc, hs, by simp, rfl⟩
  | cons kv kvs ih =>
    obtain ⟨c1, T1, hadd, h1, hv1, hc1, hs1, hp1, hl1, -⟩ := h.add_stored hv hc hs kv.1 kv.2
    obtain ⟨c, T, hfold, h2, hv2, hc2, hs2, hp2, hl2⟩ := ih c1 T1 h1 hv1 hc1 hs1
    refine ⟨c, T, ?_, h2, hv2, hc2, hs2, ?_, ?_⟩
    · simp only [List.foldlM_cons, hadd, Option.bind_eq_bind, Option.some_bind]
      exact hfold
    · refine hp2.trans ?_
      simp only [List.map_cons]
      exact (hp1.append_right _).trans (by simpa using List.perm_middle.symm)
    · rw [hl2, hl1, List.length_cons]; omega

end RBTCollection

namespace RBTCollection

/-- C3: every finite sequence of `add` calls on an empty red-black collection
runs to completion, and after each single call of the sequence (that is, for
every prefix of it) `valid_rbt()` returns true. -/
theorem add_all_valid_rbt {K V : Type} [LinearOrder K] (kvs : List (K × V)) (n : Nat) :
    ∃ c, add_all (kvs.take n) = some c ∧ c.valid_rbt = some true := by
  obtain ⟨c, T, hc, hst, hv, hcol, -⟩ :=
    foldlM_add_stored (kvs.take n) empty Tree.nil Stored.empty rfl rfl
      (by simp [Tree.keys])
  exact ⟨c, hc, by rw [hst.valid_rbt hcol, hv]⟩

/-- C4: after `add` of the keys 1, ..., 8 the key at the root is 4, and the call
`remove(4)` returns with the right keys and size but leaves the RED node 5 with
the RED child 7, so that `valid_rbt()` returns false. -/
theorem remove_leaves_red_red :
    ∃ c c1 : RBTCollection Nat Unit,
      add_all [(1, ()), (2, ()), (3, ()), (4, ()), (5, ()), (6, ()), (7, ()), (8, ())] = some c ∧
      c.valid_rbt = some true ∧ c.key c.root = some 4 ∧ c.remove 4 = some c1 ∧
      c1.keys [] = some [1, 2, 3, 5, 6, 7, 8] ∧ c1.size = 7 ∧
      c1.subtree c1.next c1.root = some
        (Tree.node 1 2 () color_t.BLACK
          (Tree.node 0 1 () color_t.BLACK Tree.nil Tree.nil)
          (Tree.node 3 5 () color_t.RED
            (Tree.node 2 3 () color_t.BLACK Tree.nil Tree.nil)
            (Tree.node 6 7 () color_t.RED
              (Tree.node 5 6 () color_t.BLACK Tree.nil Tree.nil)
              (Tree.node 7 8 () color_t.BLACK Tree.nil Tree.nil)))) ∧
      c1.valid_rbt = some false := by
  refine ⟨_, _, rfl, ?_, ?_, rfl, ?_, ?_, ?_, ?_⟩ <;> decide

/-- C8: after `add` of the keys 5, 2, 9, 4 the call `remove(5)` copies the key 9
of the successor into the node that held 5 and deletes the successor, but the
`right` pointer of that node still holds the address of the deleted node: no
traversal of the tree by `keys()` is defined any more. -/
theorem remove_leaves_dangling_pointer :
    ∃ c c1 : RBTCollection Nat Unit,
      add_all [(5, ()), (2, ()), (9, ()), (4, ())] = some c ∧
      c.keys [] = some [2, 4, 5, 9] ∧ c.remove 5 = some c1 ∧
      c1.root = some 3 ∧ c1.right (some 3) = some (some 0) ∧ c1.key (some 0) = some 9 ∧
      c1.right (some 0) = some (some 2) ∧ c1.mem 2 = none ∧ c1.keys [] = none ∧
      c1.size = 3 := by
  refine ⟨_, _, rfl, ?_, rfl, ?_, ?_, ?_, ?_, ?_, ?_, ?_⟩ <;> decide

/-- C10: after `add(2)`, `add(1)` the call `remove(3)` of a key that is not
stored returns, but afterwards `keys()` returns `[2]` instead of `[1, 2]` and
`valid_rbt()` returns false instead of true, while `size()` is still 2. -/
theorem remove_absent_changes_tree :
    ∃ c c1 : RBTCollection Nat Unit, add_all [(2, ()), (1, ())] = some c ∧
      c.keys [] = some [1, 2] ∧ c.size = 2 ∧ c.valid_rbt = some true ∧
      c.remove 3 = some c1 ∧
      c1.keys [] = some [2] ∧ c1.size = 2 ∧ c1.valid_rbt = some false := by
  refine ⟨_, _, rfl, ?_, ?_, ?_, rfl, ?_, ?_, ?_⟩ <;> decide

end RBTCollection

section ListFacts

variable {K : Type} [LinearOrder K]

theorem sorted_split {L R : List K} {x : K} (h : (L ++ x :: R).Sorted (· ≤ ·)) :
    L.Sorted (· ≤ ·) ∧ R.Sorted (· ≤ ·) ∧ (∀ a ∈ L, a ≤ x) ∧ (∀ b ∈ R, x ≤ b) := by
  have h1 := List.pairwise_append.mp h
  have h2 := List.pairwise_cons.mp h1.2.1
  exact ⟨h1.1, h2.2, fun a ha => h1.2.2 a ha x (List.mem_cons_self _ _), h2.1⟩

theorem mem_sorted_split_lt {L R : List K} {x k : K} (h : (L ++ x :: R).Sorted (· ≤ ·))
    (hk : k < x) : k ∈ L ++ x :: R ↔ k ∈ L := by
  obtain ⟨-, -, -, hR⟩ := sorted_split h
  simp only [List.mem_append, List.mem_cons]
  constructor
  · rintro (h1 | rfl | h1)
    · exact h1
    · exact absurd hk (lt_irrefl _)
    · exact absurd (lt_of_lt_of_le hk (hR k h1)) (lt_irrefl _)
  · exact Or.inl

theorem mem_sorted_split_gt {L R : List K} {x k : K} (h : (L ++ x :: R).Sorted (· ≤ ·))
    (hk : x < k) : k ∈ L ++ x :: R ↔ k ∈ R := by
  obtain ⟨-, -, hL, -⟩ := sorted_split h
  simp only [List.mem_append, List.mem_cons]
  constructor
  · rintro (h1 | rfl | h1)
    · exact absurd (lt_of_lt_of_le hk (hL k h1)) (lt_irrefl _)
    · exact absurd hk (lt_irrefl _)
    · exact h1
  · exact fun h1 => Or.inr (Or.inr h1)

end ListFacts

namespace AVLCollection.Node

variable {K V : Type} [LinearOrder K]

/-- The point lookup on a subtree with non-decreasing keys finds exactly the
keys of the subtree. -/
theorem find_sorted (t : Node K V) (hs : (keys t []).Sorted (· ≤ ·)) (k : K) (v : V) :
    (k ∈ keys t [] → (find k v t).1 = true) ∧ (k ∉ keys t [] → find k v t = (false, v)) := by
  induction t with
  | nil => exact ⟨fun h => by simp [keys] at h, fun _ => rfl⟩
  | node x xv h l r ihl ihr =>
    rw [keys_node] at hs ⊢
    obtain ⟨hsl, hsr, -, -⟩ := sorted_split hs
    by_cases h1 : k = x
    · subst h1
      exact ⟨fun _ => by simp [find], fun hn => absurd (by simp) hn⟩
    · by_cases h2 : k < x
      · have e : find k v (node x xv h l r) = find k v l := by simp [find, h1, h2]
        rw [e, mem_sorted_split_lt hs h2]
        exact ihl hsl
      · have h3 : x < k := lt_of_le_of_ne (not_lt.mp h2) (Ne.symm h1)
        have e : find k v (node x xv h l r) = find k v r := by simp [find, h1, h2]
        rw [e, mem_sorted_split_gt hs h3]
        exact ihr hsr

end AVLCollection.Node

namespace RBTCollection

variable {K V : Type} [LinearOrder K]

/-- The point lookup on a snapshot with non-decreasing keys finds exactly the
keys of the tree. -/
theorem Tree.find_snapshot_sorted (t : Tree K V) (hs : (t.keys []).Sorted (· ≤ ·)) (k : K) (v : V) :
    (k ∈ t.keys [] → (t.find k v).1 = true) ∧ (k ∉ t.keys [] → t.find k v = (false, v)) := by
  induction t with
  | nil => exact ⟨fun h => by simp [Tree.keys] at h, fun _ => rfl⟩
  | node a x xv col l r ihl ihr =>
    rw [Tree.keys_of_node] at hs ⊢
    obtain ⟨hsl, hsr, -, -⟩ := sorted_split hs
    by_cases h1 : k = x
    · subst h1
      exact ⟨fun _ => by simp [Tree.find], fun hn => absurd (by simp) hn⟩
    · by_cases h2 : k < x
      · have e : (Tree.node a x xv col l r).find k v = l.find k v := by
          simp [Tree.find, h1, h2]
        rw [e, mem_sorted_split_lt hs h2]
        exact ihl hsl
      · have h3 : x < k := lt_of_le_of_ne (not_lt.mp h2) (Ne.symm h1)
        have e : (Tree.node a x xv col l r).find k v = r.find k v := by
          simp [Tree.find, h1, h2]
        rw [e, mem_sorted_split_gt hs h3]
        exact ihr hsr

end RBTCollection

namespace RBTCollection

variable {K V : Type}

/-- What a successful snapshot of a node says about the store. -/
theorem subtree_succ_some {c : RBTCollection K V} {fuel a : Nat} {T : Tree K V}
    (h : c.subtree (fuel + 1) (some a) = some T) :
    ∃ n k v l r, c.mem a = some n ∧ n.key = some k ∧ n.value = some v ∧
      c.subtree fuel n.left = some l ∧ c.subtree fuel n.right = some r ∧
      T = Tree.node a k v n.color l r := by
  simp only [subtree, Option.bind_eq_bind, Option.bind_eq_some, Option.pure_def,
    Option.some.injEq] at h
  obtain ⟨n, hn, k, hk, v, hv, l, hl, r, hr, rfl⟩ := h
  exact ⟨n, k, v, l, r, hn, hk, hv, hl, hr, rfl⟩

theorem subtree_none_ptr {c : RBTCollection K V} {fuel : Nat} {T : Tree K V}
    (h : c.subtree fuel none = some T) : T = Tree.nil := by
  cases fuel <;> simpa [subtree] using h.symm

variable [LinearOrder K]

/-- On a store whose snapshot below `p` is `T`, the loop of the point lookup
returns what the lookup on `T` returns. -/
theorem find_loop_snapshot (c : RBTCollection K V) (k : K) (v : V) (fuel : Nat) (p : Ptr)
    (T : Tree K V) (h : c.subtree fuel p = some T) :
    c.find_loop k v fuel p = some (T.find k v) := by
  induction fuel generalizing p T with
  | zero =>
    cases p with
    | none => rw [subtree_none_ptr h]; rfl
    | some a => simp [subtree] at h
  | succ fuel ih =>
    cases p with
    | none => rw [subtree_none_ptr h]; rfl
    | some a =>
      obtain ⟨n, x, xv, l, r, hn, hk, hv, hl, hr, rfl⟩ := subtree_succ_some h
      have ek : c.key (some a) = some x := by simp [key, deref, hn, hk]
      have ev : c.value (some a) = some xv := by simp [value, deref, hn, hv]
      have el : c.left (some a) = some n.left := by simp [left, deref, hn]
      have er : c.right (some a) = some n.right := by simp [right, deref, hn]
      simp only [find_loop, ek, ev, el, er, Option.bind_eq_bind, Option.some_bind,
        Option.pure_def, Tree.find]
      by_cases h1 : k = x
      · simp [h1]
      · by_cases h2 : k < x
        · simp only [h1, h2, if_false, if_true]
          exact ih _ _ hl
        · simp only [h1, h2, if_false]
          exact ih _ _ hr

/-- The node counter after a run of `add` calls that starts from a stored valid
tree. -/
theorem foldlM_add_node_count (kvs : List (K × V)) (c0 : RBTCollection K V) (T0 : Tree K V)
    (h : Stored c0 T0) (hv : T0.valid_rbt = true) (hc : T0.color_or_black = color_t.BLACK)
    (hs : (T0.keys []).Sorted (· ≤ ·)) (c : RBTCollection K V)
    (hf : kvs.foldlM (fun c kv => c.add kv.1 kv.2) c0 = some c) :
    c.node_count = (c0.node_count + kvs.length) % SIZE_T_MOD ∨ (kvs = [] ∧ c = c0) := by
  induction kvs generalizing c0 T0 with
  | nil =>
    simp only [List.foldlM_nil, Option.pure_def, Option.some.injEq] at hf
    exact Or.inr ⟨rfl, hf.symm⟩
  | cons kv kvs ih =>
    obtain ⟨c1, T1, hadd, h1, hv1, hc1, hs1, -, -, hn1⟩ := h.add_stored hv hc hs kv.1 kv.2
    simp only [List.foldlM_cons, hadd, Option.bind_eq_bind, Option.some_bind] at hf
    left
    rcases ih c1 T1 h1 hv1 hc1 hs1 hf with h3 | ⟨rfl, rfl⟩
    · rw [h3, hn1, size_t_incr, List.length_cons]
      simp only [SIZE_T_MOD]
      omega
    · rw [hn1, size_t_incr, List.length_cons, List.length_nil]

end RBTCollection

namespace AVLCollection

variable {K V : Type} [LinearOrder K]

/-- The node counter after a run of `add` calls. -/
theorem foldlM_add_counter (kvs : List (K × V)) (c0 c : AVLCollection K V)
    (h : kvs.foldlM (fun c kv => c.add kv.1 kv.2) c0 = some c) :
    c.node_count = (c0.node_count + kvs.length) % SIZE_T_MOD ∨
      (kvs = [] ∧ c = c0) := by
  induction kvs generalizing c0 with
  | nil =>
    simp only [List.foldlM_nil, Option.pure_def, Option.some.injEq] at h
    exact Or.inr ⟨rfl, h.symm⟩
  | cons kv kvs ih =>
    simp only [List.foldlM_cons, Option.bind_eq_bind, Option.bind_eq_some] at h
    obtain ⟨c1, h1, h2⟩ := h
    have hc1 : c1.node_count = size_t_incr c0.node_count := by
      simp only [add, Option.bind_eq_bind, Option.bind_eq_some, Option.pure_def,
        Option.some.injEq] at h1
      obtain ⟨r, -, rfl⟩ := h1
      rfl
    left
    rcases ih c1 h2 with h3 | ⟨rfl, rfl⟩
    · rw [h3, hc1, size_t_incr, List.length_cons]
      simp only [SIZE_T_MOD]
      omega
    · rw [hc1, size_t_incr, List.length_cons, List.length_nil]

end AVLCollection

namespace AVLCollection

variable {K V : Type} [LinearOrder K]

/-- The point lookup after a run of fewer than `2^64` `add` calls. -/
theorem add_all_find (kvs : List (K × V)) (hlen : kvs.length < SIZE_T_MOD) (k : K) (v : V) :
    ∃ c, add_all kvs = some c ∧ (c.keys []).Perm (kvs.map Prod.fst) ∧
      (k ∈ c.keys [] → (c.find k v).1 = true) ∧ (k ∉ c.keys [] → c.find k v = (false, v)) := by
  obtain ⟨c, hc, -, -, hs, hp⟩ :=
    foldlM_add_invariant kvs empty trivial trivial (by simp [keys, empty, Node.keys])
  have hp1 : (c.keys []).Perm (kvs.map Prod.fst) := by
    simpa [keys, empty, Node.keys] using hp
  refine ⟨c, hc, hp1, ?_⟩
  by_cases h0 : c.node_count = 0
  · have hk : kvs = [] := by
      rcases foldlM_add_counter kvs empty c hc with h1 | ⟨h1, -⟩
      · rw [h0] at h1
        simp only [empty, Nat.zero_add] at h1
        rw [Nat.mod_eq_of_lt hlen] at h1
        exact List.length_eq_zero.mp h1.symm
      · exact h1
    subst hk
    have hnil : c.keys [] = [] := by simpa using hp1
    simp [find, h0, hnil]
  · have e : c.find k v = c.root.find k v := by simp [find, h0]
    rw [e]
    exact Node.find_sorted c.root hs k v

end AVLCollection

namespace RBTCollection

variable {K V : Type} [LinearOrder K]

/-- After a run of `add` calls the collection holds a valid tree with the added
keys in non-decreasing order, and the node counter has counted the calls. -/
theorem add_all_stored (kvs : List (K × V)) :
    ∃ c T, add_all kvs = some c ∧ Stored c T ∧ T.valid_rbt = true ∧
      T.color_or_black = color_t.BLACK ∧ (T.keys []).Sorted (· ≤ ·) ∧
      (T.keys []).Perm (kvs.map Prod.fst) ∧ T.addrs.length = kvs.length ∧
      c.node_count = kvs.length % SIZE_T_MOD := by
  obtain ⟨c, T, hc, hst, hv, hcol, hs, hp, hl⟩ :=
    foldlM_add_stored kvs empty Tree.nil Stored.empty rfl rfl (by simp [Tree.keys])
  refine ⟨c, T, hc, hst, hv, hcol, hs, by simpa [Tree.keys] using hp,
    by simpa [Tree.addrs] using hl, ?_⟩
  rcases foldlM_add_node_count kvs empty Tree.nil Stored.empty rfl rfl (by simp [Tree.keys])
    c hc with h1 | ⟨rfl, rfl⟩
  · simpa [empty] using h1
  · rfl

/-- The point lookup after a run of fewer than `2^64` `add` calls. -/
theorem add_all_find_stored (kvs : List (K × V)) (hlen : kvs.length < SIZE_T_MOD) (k : K)
    (v : V) :
    ∃ c ks r, add_all kvs = some c ∧ c.keys [] = some ks ∧ ks.Perm (kvs.map Prod.fst) ∧
      c.find k v = some r ∧ (k ∈ ks → r.1 = true) ∧ (k ∉ ks → r = (false, v)) := by
  obtain ⟨c, T, hc, hst, -, -, hs, hp, -, hn⟩ := add_all_stored kvs
  rw [Nat.mod_eq_of_lt hlen] at hn
  by_cases h0 : c.node_count = 0
  · have hk : kvs = [] := List.length_eq_zero.mp (hn ▸ h0)
    subst hk
    have hnil : T.keys [] = [] := by simpa using hp
    refine ⟨c, T.keys [], (false, v), hc, hst.keys [], hp, by simp [find, h0], ?_, fun _ => rfl⟩
    simp [hnil]
  · have e : c.find k v = some (T.find k v) := by
      simp only [find, h0, if_false]
      exact find_loop_snapshot c k v c.next c.root T hst.snapshot
    exact ⟨c, T.keys [], T.find k v, hc, hst.keys [], hp, e, Tree.find_snapshot_sorted T hs k v⟩

end RBTCollection

/-- C13: after fewer than `2^64` `add` calls on an empty collection (duplicates
allowed), in the AVL tree and in the red-black tree alike, the point lookup
`find(k, v)` returns true exactly when `k` occurs in `keys()`, and for an absent
key it returns false and leaves `v` as it was. -/
theorem find_true_iff_key_stored {K V : Type} [LinearOrder K] (kvs : List (K × V))
    (hlen : kvs.length < SIZE_T_MOD) (k : K) (v : V) :
    (∃ c, AVLCollection.add_all kvs = some c ∧
      ((c.find k v).1 = true ↔ k ∈ c.keys []) ∧
      (k ∉ c.keys [] → c.find k v = (false, v))) ∧
    (∃ c ks r, RBTCollection.add_all kvs = some c ∧ c.keys [] = some ks ∧
      c.find k v = some r ∧ (r.1 = true ↔ k ∈ ks) ∧ (k ∉ ks → r = (false, v))) := by
  constructor
  · obtain ⟨c, hc, -, h1, h2⟩ := AVLCollection.add_all_find kvs hlen k v
    refine ⟨c, hc, ⟨fun ht => ?_, h1⟩, h2⟩
    by_contra hn
    rw [h2 hn] at ht
    exact Bool.false_ne_true ht
  · obtain ⟨c, ks, r, hc, hk, -, hr, h1, h2⟩ := RBTCollection.add_all_find_stored kvs hlen k v
    refine ⟨c, ks, r, hc, hk, hr, ⟨fun ht => ?_, h1⟩, h2⟩
    by_contra hn
    rw [h2 hn] at ht
    exact Bool.false_ne_true ht

theorem find_true_iff_key_stored_witness :
    ([(5, 50), (3, 30), (5, 51), (8, 80)] : List (Nat × Nat)).length < SIZE_T_MOD ∧
    (∃ c, AVLCollection.add_all [(5, 50), (3, 30), (5, 51), (8, 80)] = some c ∧
      ((c.find 5 0).1 = true ↔ 5 ∈ c.keys []) ∧
      (5 ∉ c.keys [] → c.find 5 0 = (false, 0))) ∧
    (∃ c ks r, RBTCollection.add_all [(5, 50), (3, 30), (5, 51), (8, 80)] = some c ∧
      c.keys [] = some ks ∧
      c.find 5 0 = some r ∧ (r.1 = true ↔ 5 ∈ ks) ∧ (5 ∉ ks → r = (false, 0))) :=
  ⟨by decide, find_true_iff_key_stored [(5, 50), (3, 30), (5, 51), (8, 80)] (by decide) 5 0⟩

namespace AVLCollection

variable {K V : Type}

theorem Node.keys_length_count (t : Node K V) : (Node.keys t []).length = Node.count t := by
  induction t with
  | nil => rfl
  | node k v h l r ihl ihr =>
    rw [Node.keys_node]
    simp only [List.length_append, List.length_cons, Node.count, ihl, ihr]
    omega

theorem Node.tree_height_le_count (t : Node K V) : Node.tree_height t ≤ Node.count t := by
  induction t with
  | nil => exact Nat.le_refl 0
  | node k v h l r ihl ihr =>
    simp only [Node.tree_height, Node.count]
    omega

variable [LinearOrder K]

/-- After fewer than `2^64` `add` calls every height field is exact and
`height()` returns the actual height of the tree. -/
theorem add_all_height (kvs : List (K × V)) (hlen : kvs.length < SIZE_T_MOD) :
    ∃ c, add_all kvs = some c ∧ Node.HeightsExact c.root ∧
      c.height = some (Node.tree_height c.root) := by
  obtain ⟨c, hc, -, he, -, hp⟩ :=
    foldlM_add_invariant kvs empty trivial trivial (by simp [keys, empty, Node.keys])
  have hp1 : (c.keys []).Perm (kvs.map Prod.fst) := by
    simpa [keys, empty, Node.keys] using hp
  have hcount : Node.count c.root = kvs.length := by
    have := hp1.length_eq
    rw [keys, Node.keys_length_count, List.length_map] at this
    exact this
  have hn : c.node_count = kvs.length := by
    rcases foldlM_add_counter kvs empty c hc with h1 | ⟨rfl, rfl⟩
    · simpa [empty, Nat.mod_eq_of_lt hlen] using h1
    · rfl
  refine ⟨c, hc, he, ?_⟩
  have hh := Node.tree_height_le_count c.root
  generalize hroot : c.root = t at he hcount hh
  cases t with
  | nil =>
    have h0 : c.node_count = 0 := by rw [hn, ← hcount]; rfl
    simp [height, size, h0, Node.tree_height]
  | node k v h l r =>
    have hpos : c.node_count > 0 := by
      rw [hn, ← hcount]
      simp only [Node.count]
      omega
    obtain ⟨he1, -, -⟩ := he
    have hlt : Node.tree_height (Node.node k v h l r) < SIZE_T_MOD := by omega
    simp only [height, size, hpos, if_true, hroot, Node.height?, Option.map_some',
      Option.some.injEq]
    rw [he1]
    simp only [Node.tree_height] at hlt ⊢
    rw [Int.emod_eq_of_lt (by positivity) (by exact_mod_cast hlt)]
    rfl

end AVLCollection

/-- C17: after fewer than `2^64` `add` calls on an empty AVL collection every
node's `height` field equals `1 + max(height(left), height(right))`, with 0 for
an absent child, and `height()` returns the actual height of the tree; on the
empty collection `height()` returns 0. -/
theorem AVLCollection.add_all_heights_exact {K V : Type} [LinearOrder K] (kvs : List (K × V))
    (hlen : kvs.length < SIZE_T_MOD) :
    (∃ c, AVLCollection.add_all kvs = some c ∧ AVLCollection.Node.HeightsExact c.root ∧
      c.height = some (AVLCollection.Node.tree_height c.root)) ∧
    (AVLCollection.empty : AVLCollection K V).height = some 0 :=
  ⟨AVLCollection.add_all_height kvs hlen, rfl⟩

theorem AVLCollection.add_all_heights_exact_witness :
    ([(5, ()), (3, ()), (8, ()), (1, ()), (4, ()), (7, ()), (9, ()), (4, ())] :
      List (Nat × Unit)).length < SIZE_T_MOD ∧
    (∃ c, AVLCollection.add_all
        [(5, ()), (3, ()), (8, ()), (1, ()), (4, ()), (7, ()), (9, ()), (4, ())] = some c ∧
      AVLCollection.Node.HeightsExact c.root ∧
      c.height = some (AVLCollection.Node.tree_height c.root)) ∧
    (AVLCollection.empty : AVLCollection Nat Unit).height = some 0 :=
  ⟨by decide, AVLCollection.add_all_heights_exact
    [(5, ()), (3, ()), (8, ()), (1, ()), (4, ()), (7, ()), (9, ()), (4, ())] (by decide)⟩

namespace RBTCollection

variable {K V : Type}

theorem Tree.height_node (a : Nat) (k : K) (v : V) (col : color_t) (l r : Tree K V) :
    (Tree.node a k v col l r).height = max l.height r.height + 1 := by
  simp only [Tree.height]
  split <;> omega

/-- In a subtree that satisfies the red-black constraints the height is at most
twice the number of BLACK nodes on a path, plus one for a RED root. -/
theorem Tree.height_le_black (t : Tree K V) (hv : t.valid_rbt = true) :
    t.height + 2 ≤ 2 * t.black_node_height +
      (if t.color_or_black = color_t.RED then 1 else 0) := by
  induction t with
  | nil => simp [Tree.height, Tree.black_node_height, Tree.color_or_black]
  | node a k v col l r ihl ihr =>
    rw [Tree.valid_node] at hv
    obtain ⟨hb, hc, hvl, hvr⟩ := hv
    have h1 := ihl hvl
    have h2 := ihr hvr
    rw [Tree.height_node, Tree.bh_node _ _ _ _ _ _ hb]
    simp only [Tree.color_or_black]
    rw [← hb] at h2
    cases col with
    | RED =>
      obtain ⟨hcl, hcr⟩ := hc rfl
      simp only [hcl, hcr, if_false, Nat.add_zero] at h1 h2
      simp only [reduceCtorEq, if_false, if_true]
      omega
    | BLACK =>
      simp only [reduceCtorEq, if_false, if_true, Nat.add_zero]
      split at h1 <;> split at h2 <;> omega

/-- A subtree that satisfies the red-black constraints has at least
`2^(black height) - 1` nodes; the black height counts the empty leaf. -/
theorem Tree.pow_black_le_size (t : Tree K V) (hv : t.valid_rbt = true) :
    2 ^ t.black_node_height ≤ 2 * (t.addrs.length + 1) := by
  induction t with
  | nil => simp [Tree.black_node_height, Tree.addrs]
  | node a k v col l r ihl ihr =>
    rw [Tree.valid_node] at hv
    obtain ⟨hb, -, hvl, hvr⟩ := hv
    have h1 := ihl hvl
    have h2 := ihr hvr
    rw [Tree.bh_node _ _ _ _ _ _ hb]
    rw [← hb] at h2
    simp only [Tree.addrs, List.length_cons, List.length_append]
    cases col with
    | RED =>
      simp only [reduceCtorEq, if_false]
      omega
    | BLACK =>
      simp only [if_true]
      rw [Nat.pow_add, Nat.pow_one]
      omega

variable [LinearOrder K]

/-- The height bound after a run of fewer than `2^64` `add` calls. -/
theorem add_all_height_le (kvs : List (K × V)) (hlen : kvs.length < SIZE_T_MOD) :
    ∃ c h, add_all kvs = some c ∧ c.height = some h ∧ c.size = kvs.length ∧
      2 ^ ((h + 1) / 2) ≤ c.size + 1 := by
  obtain ⟨c, T, hc, hst, hv, hcol, -, -, hl, hn⟩ := add_all_stored kvs
  rw [Nat.mod_eq_of_lt hlen] at hn
  have hsz : c.size = kvs.length := hn
  have h1 := Tree.height_le_black T hv
  have h2 := Tree.pow_black_le_size T hv
  rw [hcol] at h1
  simp only [reduceCtorEq, if_false, Nat.add_zero] at h1
  rw [hl] at h2
  have hh : c.height = some T.height := by
    by_cases h0 : c.size = 0
    · have hk : kvs = [] := List.length_eq_zero.mp (hsz ▸ h0)
      subst hk
      have hT : T = Tree.nil := by
        cases T with
        | nil => rfl
        | node a k v col l r => simp [Tree.addrs] at hl
      simp [height, h0, hT, Tree.height]
    · simp [height, h0, hst.snapshot]
  refine ⟨c, T.height, hc, hh, hsz, ?_⟩
  rw [hsz]
  have h3 : (T.height + 1) / 2 + 1 ≤ T.black_node_height := by omega
  have h4 : 2 ^ ((T.height + 1) / 2 + 1) ≤ 2 ^ T.black_node_height :=
    Nat.pow_le_pow_right (by decide) h3
  rw [Nat.pow_add, Nat.pow_one] at h4
  omega

end RBTCollection

/-- C18: after fewer than `2^64` `add` calls on an empty red-black collection
`height()` returns a value `h` with `2^⌈h/2⌉ ≤ size() + 1`, that is
`h ≤ 2·log2(size() + 1)`; `size()` is the number of calls. -/
theorem RBTCollection.add_all_height_bound {K V : Type} [LinearOrder K] (kvs : List (K × V))
    (hlen : kvs.length < SIZE_T_MOD) :
    ∃ c h, RBTCollection.add_all kvs = some c ∧ c.height = some h ∧ c.size = kvs.length ∧
      2 ^ ((h + 1) / 2) ≤ c.size + 1 ∧ h ≤ 2 * Nat.log 2 (c.size + 1) := by
  obtain ⟨c, h, hc, hh, hsz, hb⟩ := RBTCollection.add_all_height_le kvs hlen
  refine ⟨c, h, hc, hh, hsz, hb, ?_⟩
  have h1 : (h + 1) / 2 ≤ Nat.log 2 (c.size + 1) :=
    Nat.le_log_of_pow_le (by decide) hb
  omega

theorem RBTCollection.add_all_height_bound_witness :
    ([(1, ()), (2, ()), (3, ()), (4, ()), (5, ()), (6, ()), (7, ()), (8, ()), (9, ()), (10, ()),
      (11, ()), (12, ()), (13, ()), (14, ()), (15, ())] : List (Nat × Unit)).length < SIZE_T_MOD ∧
    ∃ c h, RBTCollection.add_all
        [(1, ()), (2, ()), (3, ()), (4, ()), (5, ()), (6, ()), (7, ()), (8, ()), (9, ()),
          (10, ()), (11, ()), (12, ()), (13, ()), (14, ()), (15, ())] = some c ∧
      c.height = some h ∧ c.size = 15 ∧
      2 ^ ((h + 1) / 2) ≤ c.size + 1 ∧ h ≤ 2 * Nat.log 2 (c.size + 1) :=
  ⟨by decide, RBTCollection.add_all_height_bound
    [(1, ()), (2, ()), (3, ()), (4, ()), (5, ()), (6, ()), (7, ()), (8, ()), (9, ()), (10, ()),
      (11, ()), (12, ()), (13, ()), (14, ()), (15, ())] (by decide)⟩

namespace BSTCollection

variable {K V : Type}

theorem Node.height_right_spine (L : List (K × V)) :
    (Node.right_spine L).height = L.length := by
  induction L with
  | nil => rfl
  | cons kv rest ih => simp [Node.right_spine, Node.height, ih]

variable [LinearOrder K]

theorem Node.add_right_spine (L : List (K × V)) (key : K) (val : V)
    (h : ∀ kv ∈ L, kv.1 < key) :
    Node.add key val (Node.right_spine L) = Node.right_spine (L ++ [(key, val)]) := by
  induction L with
  | nil => rfl
  | cons kv rest ih =>
    have h1 : ¬ key ≤ kv.1 := not_le.mpr (h kv (List.mem_cons_self _ _))
    have e := ih fun x hx => h x (List.mem_cons_of_mem _ hx)
    show Node.add key val (Node.node kv.1 kv.2 Node.nil (Node.right_spine rest)) =
      Node.node kv.1 kv.2 Node.nil (Node.right_spine (rest ++ [(key, val)]))
    rw [← e]
    simp only [Node.add, h1, if_false]

/-- Adding pairs with strictly ascending keys, all greater than the keys already
stored in a right spine, extends the spine. -/
theorem foldlM_add_right_spine (R P : List (K × V))
    (hs : ((P ++ R).map Prod.fst).Sorted (· < ·)) (hlen : (P ++ R).length < SIZE_T_MOD) :
    R.foldlM (fun (c : BSTCollection K V) kv => c.add kv.1 kv.2)
        ⟨Node.right_spine P, P.length⟩ =
      some ⟨Node.right_spine (P ++ R), (P ++ R).length⟩ := by
  induction R generalizing P with
  | nil => simp
  | cons kv R ih =>
    have hlt : ∀ x ∈ P, x.1 < kv.1 := by
      intro x hx
      rw [List.map_append, List.map_cons] at hs
      exact (List.pairwise_append.mp hs).2.2 x.1 (List.mem_map_of_mem _ hx) kv.1
        (List.mem_cons_self _ _)
    have hP : P.length + 1 < SIZE_T_MOD := by
      simp only [List.length_append, List.length_cons] at hlen
      omega
    have hadd : BSTCollection.add ⟨Node.right_spine P, P.length⟩ kv.1 kv.2 =
        some ⟨Node.right_spine (P ++ [kv]), (P ++ [kv]).length⟩ := by
      cases P with
      | nil =>
        simp only [BSTCollection.add, List.length_nil, if_true, size_t_incr]
        rfl
      | cons p P1 =>
        have hne : ¬ ((p :: P1).length = 0) := by simp
        have hsp : Node.right_spine (p :: P1) =
            Node.node p.1 p.2 Node.nil (Node.right_spine P1) := rfl
        have e := Node.add_right_spine (p :: P1) kv.1 kv.2 hlt
        rw [hsp] at e
        have hP1 : (P1.length + 1 + 1) % SIZE_T_MOD = P1.length + 1 + 1 :=
          Nat.mod_eq_of_lt (by simpa using hP)
        simp only [BSTCollection.add, hsp, e, size_t_incr, List.length_append,
          List.length_cons, List.length_nil, Nat.add_eq_zero, one_ne_zero, and_false,
          if_false, hP1, Nat.zero_add, Prod.mk.eta]
    rw [List.foldlM_cons, hadd]
    have e : P ++ kv :: R = (P ++ [kv]) ++ R := by simp
    rw [e] at hs hlen ⊢
    exact ih (P ++ [kv]) hs hlen

end BSTCollection

/-- C19: adding `n < 2^64` pairs with pairwise distinct keys in strictly
ascending order to an empty `BSTCollection` gives `height() = n` (and
`size() = n`): the tree is a chain of right children. -/
theorem BSTCollection.add_ascending_height {K V : Type} [LinearOrder K] (kvs : List (K × V))
    (hs : (kvs.map Prod.fst).Sorted (· < ·)) (hlen : kvs.length < SIZE_T_MOD) :
    ∃ c, BSTCollection.add_all kvs = some c ∧ c.height = kvs.length ∧
      c.size = kvs.length ∧ c.root = BSTCollection.Node.right_spine kvs := by
  have h := BSTCollection.foldlM_add_right_spine kvs [] (by simpa using hs) (by simpa using hlen)
  refine ⟨_, h, ?_, rfl, rfl⟩
  simp [BSTCollection.height, BSTCollection.Node.height_right_spine]

theorem BSTCollection.add_ascending_height_witness :
    (([(1, ()), (2, ()), (3, ()), (4, ()), (5, ()), (6, ()), (7, ()), (8, ()), (9, ()), (10, ()),
      (11, ()), (12, ()), (13, ()), (14, ()), (15, ())] : List (Nat × Unit)).map
        Prod.fst).Sorted (· < ·) ∧
    ([(1, ()), (2, ()), (3, ()), (4, ()), (5, ()), (6, ()), (7, ()), (8, ()), (9, ()), (10, ()),
      (11, ()), (12, ()), (13, ()), (14, ()), (15, ())] : List (Nat × Unit)).length
        < SIZE_T_MOD ∧
    ∃ c, BSTCollection.add_all
        [(1, ()), (2, ()), (3, ()), (4, ()), (5, ()), (6, ()), (7, ()), (8, ()), (9, ()),
          (10, ()), (11, ()), (12, ()), (13, ()), (14, ()), (15, ())] = some c ∧
      c.height = 15 ∧ c.size = 15 ∧
      c.root = BSTCollection.Node.right_spine
        [(1, ()), (2, ()), (3, ()), (4, ()), (5, ()), (6, ()), (7, ()), (8, ()), (9, ()),
          (10, ()), (11, ()), (12, ()), (13, ()), (14, ()), (15, ())] :=
  ⟨by decide, by decide, BSTCollection.add_ascending_height
    [(1, ()), (2, ()), (3, ()), (4, ()), (5, ()), (6, ()), (7, ()), (8, ()), (9, ()), (10, ()),
      (11, ()), (12, ()), (13, ()), (14, ()), (15, ())] (by decide) (by decide)⟩

namespace RBTCollection

variable {K V : Type}

theorem Tree.is_red_iff (t : Tree K V) : t.is_red = true ↔ t.color_or_black = color_t.RED := by
  cases t with
  | nil => simp [Tree.is_red, Tree.color_or_black]
  | node a k v col l r => simp [Tree.is_red, Tree.color_or_black]

theorem Tree.black_counts_ne_nil (t : Tree K V) : t.black_counts ≠ [] := by
  induction t with
  | nil => simp [Tree.black_counts]
  | node a k v col l r ihl ihr => simp [Tree.black_counts, ihl]

theorem Tree.mem_black_counts_node {a : Nat} {k : K} {v : V} {col : color_t} {l r : Tree K V}
    {m : Nat} : m ∈ (Tree.node a k v col l r).black_counts ↔
      ∃ n, (n ∈ l.black_counts ∨ n ∈ r.black_counts) ∧
        m = if col = color_t.BLACK then n + 1 else n := by
  simp only [Tree.black_counts, List.mem_map, List.mem_append]
  constructor
  · rintro ⟨n, hn, rfl⟩
    exact ⟨n, hn, rfl⟩
  · rintro ⟨n, hn, rfl⟩
    exact ⟨n, hn, rfl⟩

theorem Tree.no_red_red_node (a : Nat) (k : K) (v : V) (col : color_t) (l r : Tree K V) :
    (Tree.node a k v col l r).no_red_red = true ↔
      (col = color_t.RED → l.color_or_black ≠ color_t.RED ∧ r.color_or_black ≠ color_t.RED) ∧
      l.no_red_red = true ∧ r.no_red_red = true := by
  have hl : l.is_red = false ↔ ¬ l.color_or_black = color_t.RED := by
    rw [← Tree.is_red_iff]; simp
  have hr : r.is_red = false ↔ ¬ r.color_or_black = color_t.RED := by
    rw [← Tree.is_red_iff]; simp
  simp only [Tree.no_red_red, Bool.and_eq_true, Bool.or_eq_true, decide_eq_true_eq,
    Bool.not_eq_true', ne_eq, hl, hr]
  constructor
  · rintro ⟨⟨h1, h2⟩, h3⟩
    exact ⟨fun hc => h1.resolve_left (fun h => h hc), h2, h3⟩
  · rintro ⟨h1, h2, h3⟩
    refine ⟨⟨?_, h2⟩, h3⟩
    by_cases hc : col = color_t.RED
    · exact Or.inr (h1 hc)
    · exact Or.inl hc

theorem Tree.black_uniform_node (a : Nat) (k : K) (v : V) (col : color_t) (l r : Tree K V) :
    (Tree.node a k v col l r).black_uniform = true ↔
      (∀ m ∈ (Tree.node a k v col l r).black_counts,
        ∀ n ∈ (Tree.node a k v col l r).black_counts, m = n) ∧
      l.black_uniform = true ∧ r.black_uniform = true := by
  simp only [Tree.black_uniform, Bool.and_eq_true, List.all_eq_true, decide_eq_true_eq]
  exact ⟨fun ⟨⟨h1, h2⟩, h3⟩ => ⟨h1, h2, h3⟩, fun ⟨h1, h2, h3⟩ => ⟨⟨h1, h2⟩, h3⟩⟩

/-- In a subtree accepted by the helper `valid_rbt` every path to an empty leaf
passes through `black_node_height - 1` BLACK nodes, and the two invariants on
the nodes hold. -/
theorem Tree.valid_invariants (t : Tree K V) (hv : t.valid_rbt = true) :
    (∀ m ∈ t.black_counts, m + 1 = t.black_node_height) ∧ t.black_uniform = true ∧
      t.no_red_red = true := by
  induction t with
  | nil => simp [Tree.black_counts, Tree.black_node_height, Tree.black_uniform, Tree.no_red_red]
  | node a k v col l r ihl ihr =>
    rw [Tree.valid_node] at hv
    obtain ⟨hb, hc, hvl, hvr⟩ := hv
    obtain ⟨hpl, hul, hnl⟩ := ihl hvl
    obtain ⟨hpr, hur, hnr⟩ := ihr hvr
    have hP : ∀ m ∈ (Tree.node a k v col l r).black_counts,
        m + 1 = (Tree.node a k v col l r).black_node_height := by
      intro m hm
      obtain ⟨n, hn, rfl⟩ := Tree.mem_black_counts_node.mp hm
      have hn1 : n + 1 = l.black_node_height := by
        rcases hn with hn | hn
        · exact hpl n hn
        · rw [hb]; exact hpr n hn
      rw [Tree.bh_node _ _ _ _ _ _ hb]
      split <;> omega
    refine ⟨hP, (Tree.black_uniform_node _ _ _ _ _ _).mpr ⟨fun m hm n hn => ?_, hul, hur⟩,
      (Tree.no_red_red_node _ _ _ _ _ _).mpr ⟨hc, hnl, hnr⟩⟩
    have h1 := hP m hm
    have h2 := hP n hn
    omega

/-- The two invariants on the nodes suffice for the helper `valid_rbt`. -/
theorem Tree.invariants_valid (t : Tree K V) (hu : t.black_uniform = true)
    (hn : t.no_red_red = true) : t.valid_rbt = true := by
  induction t with
  | nil => rfl
  | node a k v col l r ihl ihr =>
    rw [Tree.black_uniform_node] at hu
    rw [Tree.no_red_red_node] at hn
    obtain ⟨hall, hul, hur⟩ := hu
    obtain ⟨hc, hnl, hnr⟩ := hn
    have hvl := ihl hul hnl
    have hvr := ihr hur hnr
    obtain ⟨hpl, -, -⟩ := Tree.valid_invariants l hvl
    obtain ⟨hpr, -, -⟩ := Tree.valid_invariants r hvr
    obtain ⟨ml, hml⟩ := List.exists_mem_of_ne_nil _ (Tree.black_counts_ne_nil l)
    obtain ⟨mr, hmr⟩ := List.exists_mem_of_ne_nil _ (Tree.black_counts_ne_nil r)
    have e := hall _ (Tree.mem_black_counts_node.mpr ⟨ml, Or.inl hml, rfl⟩)
      _ (Tree.mem_black_counts_node.mpr ⟨mr, Or.inr hmr, rfl⟩)
    have hb : l.black_node_height = r.black_node_height := by
      rw [← hpl ml hml, ← hpr mr hmr]
      split at e <;> omega
    exact (Tree.valid_node _ _ _ _ _ _).mpr ⟨hb, hc, hvl, hvr⟩

/-- The helper `valid_rbt` decides the two invariants on the nodes. -/
theorem Tree.valid_rbt_eq (t : Tree K V) :
    t.valid_rbt = (t.no_red_red && t.black_uniform) := by
  rw [Bool.eq_iff_iff, Bool.and_eq_true]
  constructor
  · intro hv
    obtain ⟨-, hu, hn⟩ := Tree.valid_invariants t hv
    exact ⟨hn, hu⟩
  · rintro ⟨hn, hu⟩
    exact Tree.invariants_valid t hu hn

end RBTCollection

/-- C20: on every store that holds a finite tree `T` below `root`, `valid_rbt()`
returns, and it returns true exactly when the three red-black invariants hold:
the root (if any) is BLACK, no RED node has a RED child, and below every node
all paths to an empty leaf pass through the same number of BLACK nodes.  The
helper `valid_rbt(subtree_root)` checks the last two. -/
theorem RBTCollection.valid_rbt_iff_invariants {K V : Type} (c : RBTCollection K V)
    (T : RBTCollection.Tree K V) (h : c.subtree c.next c.root = some T) :
    c.valid_rbt = some (T.root_is_black && T.no_red_red && T.black_uniform) ∧
    T.valid_rbt = (T.no_red_red && T.black_uniform) := by
  refine ⟨?_, RBTCollection.Tree.valid_rbt_eq T⟩
  cases hroot : c.root with
  | none =>
    rw [hroot] at h
    rw [RBTCollection.subtree_none_ptr h]
    simp [RBTCollection.valid_rbt, hroot, RBTCollection.Tree.root_is_black,
      RBTCollection.Tree.no_red_red, RBTCollection.Tree.black_uniform]
  | some a =>
    rw [hroot] at h
    cases hn : c.next with
    | zero =>
      rw [hn] at h
      simp [RBTCollection.subtree] at h
    | succ fuel =>
      rw [hn] at h
      obtain ⟨n, k, v, l, r, hm, -, -, -, -, rfl⟩ := RBTCollection.subtree_succ_some h
      have hcol : c.color (some a) = some n.color := by
        simp [RBTCollection.color, RBTCollection.deref, hm]
      by_cases hb : n.color = color_t.BLACK
      · simp [RBTCollection.valid_rbt, hroot, hcol, hb, hn, h,
          RBTCollection.Tree.root_is_black, RBTCollection.Tree.valid_rbt_eq, Bool.and_assoc]
      · simp [RBTCollection.valid_rbt, hroot, hcol, hb, RBTCollection.Tree.root_is_black]

theorem RBTCollection.valid_rbt_iff_invariants_witness :
    ((RBTCollection.add_all [(2, ()), (1, ()), (3, ()), (4, ())]).getD
        RBTCollection.empty).subtree 4 (some 0) =
      some (RBTCollection.Tree.node 0 2 () RBTCollection.color_t.BLACK
        (RBTCollection.Tree.node 1 1 () RBTCollection.color_t.BLACK .nil .nil)
        (RBTCollection.Tree.node 2 3 () RBTCollection.color_t.BLACK .nil
          (RBTCollection.Tree.node 3 4 () RBTCollection.color_t.RED .nil .nil))) ∧
    ((RBTCollection.add_all [(2, ()), (1, ()), (3, ()), (4, ())]).getD
        (RBTCollection.empty : RBTCollection Nat Unit)).valid_rbt = some true :=
  ⟨by decide,
    (RBTCollection.valid_rbt_iff_invariants
      ((RBTCollection.add_all [(2, ()), (1, ()), (3, ()), (4, ())]).getD
        (RBTCollection.empty : RBTCollection Nat Unit))
      (RBTCollection.Tree.node 0 2 () RBTCollection.color_t.BLACK
        (RBTCollection.Tree.node 1 1 () RBTCollection.color_t.BLACK .nil .nil)
        (RBTCollection.Tree.node 2 3 () RBTCollection.color_t.BLACK .nil
          (RBTCollection.Tree.node 3 4 () RBTCollection.color_t.RED .nil .nil)))
      (by decide)).1⟩

/-- C11: `remove(k)` on an empty red-black collection has no result for any key
`k`: with `root` null, the statement `root->parent = sentinel` of the sentinel
setup writes a field of an absent node. -/
theorem RBTCollection.remove_empty_null_write {K V : Type} [LinearOrder K] (k : K) :
    (RBTCollection.empty : RBTCollection K V).remove k = none ∧
    (RBTCollection.empty : RBTCollection K V).root = none ∧
    ∀ c : RBTCollection K V, c.set_parent none (some c.next) = none := by
  refine ⟨rfl, rfl, fun c => rfl⟩

/-- C12, counterexample: after `add(1, 10)` and `add(1, 20)` both trees hold the key 1 twice,
and `find(1, v)` returns true with the value 10 of the first `add`, not the
value 20 of the most recent one. -/
theorem find_returns_oldest_value :
    (∃ c : AVLCollection Nat Nat, AVLCollection.add_all [(1, 10), (1, 20)] = some c ∧
      c.keys [] = [1, 1] ∧ c.find 1 0 = (true, 10)) ∧
    (∃ c : RBTCollection Nat Nat, RBTCollection.add_all [(1, 10), (1, 20)] = some c ∧
      c.keys [] = some [1, 1] ∧ c.find 1 0 = some (true, 10)) := by
  refine ⟨⟨_, rfl, ?_, ?_⟩, ⟨_, rfl, ?_, ?_⟩⟩ <;> decide

namespace AVLCollection.Node

variable {K V : Type}

theorem keys_eq_map_pairs (t : Node K V) : keys t [] = (pairs t).map Prod.fst := by
  induction t with
  | nil => rfl
  | node k v h l r ihl ihr =>
    rw [keys_node, ihl, ihr]
    simp [pairs]

theorem pairs_single_right {t t1 : Node K V} (h : single_right t = some t1) :
    pairs t1 = pairs t := by
  rcases t with _ | ⟨k2, v2, h2, (_ | ⟨k1, v1, h1, a, b⟩), c⟩ <;>
    simp [single_right, rotate_right, add_right_height, add_height] at h
  subst h
  simp [pairs]

theorem pairs_single_left {t t1 : Node K V} (h : single_left t = some t1) :
    pairs t1 = pairs t := by
  rcases t with _ | ⟨k2, v2, h2, a, (_ | ⟨k1, v1, h1, b, c⟩)⟩ <;>
    simp [single_left, rotate_left, add_left_height, add_height] at h
  subst h
  simp [pairs]

theorem pairs_double_left_right {t t1 : Node K V} (h : double_left_right t = some t1) :
    pairs t1 = pairs t := by
  rcases t with _ | ⟨k2, v2, h2, (_ | ⟨k1, v1, h1, a, (_ | ⟨k3, v3, h3, b, c⟩)⟩), d⟩ <;>
    simp [double_left_right, rotate_left, rotate_right, add_left_height, add_right_height,
      add_height] at h
  subst h
  simp [pairs]

theorem pairs_double_right_left {t t1 : Node K V} (h : double_right_left t = some t1) :
    pairs t1 = pairs t := by
  rcases t with _ | ⟨k2, v2, h2, a, (_ | ⟨k1, v1, h1, (_ | ⟨k3, v3, h3, b, c⟩), d⟩)⟩ <;>
    simp [double_right_left, rotate_left, rotate_right, add_left_height, add_right_height,
      add_height] at h
  subst h
  simp [pairs]

/-- The rotations of `rebalance` keep the pairs and their in-order sequence. -/
theorem pairs_rebalance {t t1 : Node K V} (h : rebalance t = some t1) :
    pairs t1 = pairs t := by
  unfold rebalance at h
  split at h
  · cases h; rfl
  · split at h
    · split at h
      · exact pairs_single_right h
      · exact pairs_double_left_right h
      · cases h; rfl
    · cases h; rfl
  · split at h
    · split at h
      · exact pairs_double_right_left h
      · exact pairs_single_left h
      · cases h; rfl
    · cases h; rfl
  · split at h
    · simp only [Option.bind_eq_bind, Option.bind_eq_some] at h
      obtain ⟨a, -, b, -, h⟩ := h
      split at h
      · exact pairs_single_right h
      · split at h
        · exact pairs_double_left_right h
        · cases h; rfl
    · split at h
      · simp only [Option.bind_eq_bind, Option.bind_eq_some] at h
        obtain ⟨a, -, b, -, h⟩ := h
        split at h
        · exact pairs_double_right_left h
        · split at h
          · exact pairs_single_left h
          · cases h; rfl
      · cases h; rfl
  · cases h; rfl

variable [LinearOrder K]

/-- The helper `add` stores the new pair and keeps the pairs of the subtree. -/
theorem pairs_add {t t1 : Node K V} {key : K} {val : V} (h : add t key val = some t1) :
    (pairs t1).Perm ((key, val) :: pairs t) := by
  induction t generalizing t1 with
  | nil =>
    simp only [add, rebalance] at h
    cases h
    simp [pairs]
  | node k v ht l r ihl ihr =>
    by_cases hk : key ≤ k
    · simp only [add, if_pos hk, Option.bind_eq_bind, Option.bind_eq_some] at h
      obtain ⟨l1, hl1, hreb⟩ := h
      rw [pairs_rebalance hreb]
      simp only [pairs]
      exact (ihl hl1).append_right _
    · simp only [add, if_neg hk, Option.bind_eq_bind, Option.bind_eq_some] at h
      obtain ⟨r1, hr1, hreb⟩ := h
      rw [pairs_rebalance hreb]
      simp only [pairs]
      exact (((ihr hr1).cons (k, v)).append_left _).trans
        (((List.Perm.swap (key, val) (k, v) _).append_left _).trans List.perm_middle)

/-- A successful point lookup returns the value of a stored pair with the key. -/
theorem find_mem_pairs (t : Node K V) (k : K) (v v0 : V) (h : find k v t = (true, v0)) :
    (k, v0) ∈ pairs t := by
  induction t with
  | nil => simp [find] at h
  | node x xv ht l r ihl ihr =>
    simp only [pairs, List.mem_append, List.mem_cons]
    by_cases h1 : k = x
    · subst h1
      simp only [find, if_true, Prod.mk.injEq, true_and] at h
      subst h
      exact Or.inr (Or.inl rfl)
    · by_cases h2 : k < x
      · have e : find k v (node x xv ht l r) = find k v l := by simp [find, h1, h2]
        exact Or.inl (ihl (e ▸ h))
      · have e : find k v (node x xv ht l r) = find k v r := by simp [find, h1, h2]
        exact Or.inr (Or.inr (ihr (e ▸ h)))

end AVLCollection.Node

namespace AVLCollection

variable {K V : Type} [LinearOrder K]

/-- The pairs stored after a run of `add` calls. -/
theorem foldlM_add_pairs (kvs : List (K × V)) (c0 c : AVLCollection K V)
    (h : kvs.foldlM (fun c kv => c.add kv.1 kv.2) c0 = some c) :
    (Node.pairs c.root).Perm (Node.pairs c0.root ++ kvs) := by
  induction kvs generalizing c0 with
  | nil =>
    simp only [List.foldlM_nil, Option.pure_def, Option.some.injEq] at h
    subst h
    simp
  | cons kv kvs ih =>
    simp only [List.foldlM_cons, Option.bind_eq_bind, Option.bind_eq_some] at h
    obtain ⟨c1, h1, h2⟩ := h
    simp only [add, Option.bind_eq_bind, Option.bind_eq_some, Option.pure_def,
      Option.some.injEq] at h1
    obtain ⟨r, hr, rfl⟩ := h1
    refine (ih _ h2).trans ?_
    have hp := Node.pairs_add hr
    simp only [Prod.mk.eta] at hp
    exact (hp.append_right _).trans (by simpa using List.perm_middle.symm)

/-- The point lookup after a run of fewer than `2^64` `add` calls returns, for
an added key, the value of one of the pairs added with that key. -/
theorem add_all_find_value (kvs : List (K × V)) (hlen : kvs.length < SIZE_T_MOD) (k : K)
    (v : V) :
    ∃ c, add_all kvs = some c ∧
      (k ∈ kvs.map Prod.fst → ∃ v0, c.find k v = (true, v0) ∧ (k, v0) ∈ kvs) ∧
      (k ∉ kvs.map Prod.fst → c.find k v = (false, v)) := by
  obtain ⟨c, hc, hp, h1, h2⟩ := add_all_find kvs hlen k v
  have hpairs : (Node.pairs c.root).Perm kvs := by
    simpa [empty, Node.pairs] using foldlM_add_pairs kvs empty c hc
  refine ⟨c, hc, fun hk => ?_, fun hk => h2 (fun hm => hk (hp.mem_iff.mp hm))⟩
  have ht := h1 (hp.mem_iff.mpr hk)
  have hne : c.node_count ≠ 0 := by
    intro h0
    simp [find, h0] at ht
  have e : c.find k v = c.root.find k v := by simp [find, hne]
  refine ⟨(c.find k v).2, Prod.ext ht rfl, hpairs.mem_iff.mp ?_⟩
  refine Node.find_mem_pairs c.root k v _ ?_
  rw [← e]
  exact Prod.ext ht rfl

end AVLCollection

namespace RBTCollection

variable {K V : Type}

theorem Tree.keys_eq_map_snapshot_pairs (t : Tree K V) : t.keys [] = t.pairs.map Prod.fst := by
  induction t with
  | nil => rfl
  | node a k v col l r ihl ihr =>
    rw [Tree.keys_of_node, ihl, ihr]
    simp [Tree.pairs]

theorem Tree.pairs_paint (col : color_t) (t : Tree K V) : (t.paint col).pairs = t.pairs := by
  cases t with
  | nil => rfl
  | node a k v c l r => simp [Tree.paint, Tree.pairs]

theorem Tree.pairs_flip (t : Tree K V) : t.flip.pairs = t.pairs := by
  unfold Tree.flip
  split <;> simp [Tree.pairs]

theorem Path.pairs_plug (path : Path K V) (t : Tree K V) :
    (path.plug t).pairs = path.pairs_before ++ t.pairs ++ path.pairs_after := by
  induction path generalizing t with
  | top => simp [Path.plug, Path.pairs_before, Path.pairs_after]
  | left a k v col up r ih =>
    simp [Path.plug, ih, Path.pairs_before, Path.pairs_after, Tree.pairs]
  | right a k v col l up ih =>
    simp [Path.plug, ih, Path.pairs_before, Path.pairs_after, Tree.pairs]

theorem Path.pairs_rotate (path : Path K V) (t : Tree K V) :
    (Path.rotate path t).1.pairs_before ++ (Path.rotate path t).2.pairs ++
        (Path.rotate path t).1.pairs_after =
      path.pairs_before ++ t.pairs ++ path.pairs_after := by
  unfold Path.rotate
  split <;> simp [Path.pairs_before, Path.pairs_after, Tree.pairs]

theorem Path.pairs_plug_rebalance (path : Path K V) (t : Tree K V) :
    (Path.rebalance path t).1.pairs_before ++ (Path.rebalance path t).2.pairs ++
        (Path.rebalance path t).1.pairs_after =
      path.pairs_before ++ t.pairs ++ path.pairs_after := by
  rw [Path.rebalance, Path.pairs_rotate, Tree.pairs_flip]

variable [LinearOrder K]

theorem Path.pairs_descend (a_key : K) (fuel : Nat) (path : Path K V) (t : Tree K V)
    {path1 : Path K V} (hd : Path.descend a_key fuel path t = some path1) :
    path1.pairs_before ++ path1.pairs_after =
      path.pairs_before ++ t.pairs ++ path.pairs_after := by
  induction fuel generalizing path t with
  | zero =>
    cases t with
    | nil =>
      simp only [Path.descend, Option.some.injEq] at hd
      subst hd
      simp [Tree.pairs]
    | node x k v col l r => simp [Path.descend] at hd
  | succ fuel ih =>
    cases t with
    | nil =>
      simp only [Path.descend, Option.some.injEq] at hd
      subst hd
      simp [Tree.pairs]
    | node x k v col l r =>
      obtain ⟨col1, l1, r1, hr⟩ := Path.rebalance_root path x k v col l r
      have hk := Path.pairs_plug_rebalance path (Tree.node x k v col l r)
      generalize hpt : Path.rebalance path (Tree.node x k v col l r) = pt at hr hk
      obtain ⟨pa, ta⟩ := pt
      simp only at hr hk
      subst hr
      simp only [Path.descend, hpt] at hd
      rw [← hk]
      by_cases hle : a_key ≤ k
      · rw [if_pos hle] at hd
        rw [ih _ _ hd]
        simp [Path.pairs_before, Path.pairs_after, Tree.pairs]
      · rw [if_neg hle] at hd
        rw [ih _ _ hd]
        simp [Path.pairs_before, Path.pairs_after, Tree.pairs]

/-- The tree after `add` holds the old pairs and the new pair. -/
theorem Tree.add_pairs {T T1 : Tree K V} {fuel n : Nat} {a_key : K} {a_val : V}
    (hT : T.add fuel n a_key a_val = some T1) :
    T1.pairs.Perm ((a_key, a_val) :: T.pairs) := by
  simp only [Tree.add, Option.map_eq_some'] at hT
  obtain ⟨path1, hd, hT1⟩ := hT
  have hpairs := Path.pairs_descend a_key _ Path.top T hd
  simp only [Path.pairs_before, Path.pairs_after, List.nil_append, List.append_nil] at hpairs
  have hk1 : T1.pairs = path1.pairs_before ++ (a_key, a_val) :: path1.pairs_after := by
    rw [← hT1]
    cases path1 with
    | top => simp [Tree.pairs, Path.pairs_before, Path.pairs_after]
    | left x k v col up r =>
      simp only [Tree.pairs_paint, Path.pairs_plug]
      rw [Path.pairs_plug_rebalance]
      simp [Tree.pairs]
    | right x k v col l up =>
      simp only [Tree.pairs_paint, Path.pairs_plug]
      rw [Path.pairs_plug_rebalance]
      simp [Tree.pairs]
  rw [hk1, ← hpairs]
  exact List.perm_middle

/-- A successful point lookup on a snapshot returns the value of a stored pair
with the key. -/
theorem Tree.find_mem_snapshot_pairs (t : Tree K V) (k : K) (v v0 : V) (h : t.find k v = (true, v0)) :
    (k, v0) ∈ t.pairs := by
  induction t with
  | nil => simp [Tree.find] at h
  | node a x xv col l r ihl ihr =>
    simp only [Tree.pairs, List.mem_append, List.mem_cons]
    by_cases h1 : k = x
    · subst h1
      simp only [Tree.find, if_true, Prod.mk.injEq, true_and] at h
      subst h
      exact Or.inr (Or.inl rfl)
    · by_cases h2 : k < x
      · have e : (Tree.node a x xv col l r).find k v = l.find k v := by
          simp [Tree.find, h1, h2]
        exact Or.inl (ihl (e ▸ h))
      · have e : (Tree.node a x xv col l r).find k v = r.find k v := by
          simp [Tree.find, h1, h2]
        exact Or.inr (Or.inr (ihr (e ▸ h)))

/-- The call `add(a_key, a_val)` on a collection that holds a valid red-black
tree with sorted keys returns, and the collection then holds such a tree with
the new pair next to the old pairs. -/
theorem Stored.add_stored_pairs {c : RBTCollection K V} {T : Tree K V} (h : Stored c T)
    (hv : T.valid_rbt = true) (hc : T.color_or_black = color_t.BLACK)
    (hs : (T.keys []).Sorted (· ≤ ·)) (a_key : K) (a_val : V) :
    ∃ c1 T1, c.add a_key a_val = some c1 ∧ Stored c1 T1 ∧ T1.valid_rbt = true ∧
      T1.color_or_black = color_t.BLACK ∧ (T1.keys []).Sorted (· ≤ ·) ∧
      T1.pairs.Perm ((a_key, a_val) :: T.pairs) := by
  have hlen := length_le_of_nodup_lt h.nodup h.bound
  obtain ⟨T1, hT⟩ := Tree.add_some T (2 * (c.next + 1) + 2) c.next a_key a_val (by omega)
  obtain ⟨c1, hadd, hh, hperm, hnext, -⟩ :=
    Holds.add_refines h.holds h.nodup h.bound a_key a_val hT
  obtain ⟨hv1, hc1⟩ := Tree.add_valid T hv hc _ _ a_key a_val hT
  obtain ⟨hs1, -⟩ := Tree.add_keys hs hT
  refine ⟨c1, T1, hadd, ⟨hh, ?_, ?_⟩, hv1, hc1, hs1, Tree.add_pairs hT⟩
  · refine hperm.nodup_iff.mpr (List.nodup_cons.mpr ⟨fun hmem => ?_, h.nodup⟩)
    exact Nat.lt_irrefl _ (h.bound _ hmem)
  · intro a ha
    rw [hnext]
    rcases List.mem_cons.mp (hperm.subset ha) with rfl | hmem
    · exact Nat.lt_succ_self _
    · exact Nat.lt_succ_of_lt (h.bound a hmem)

/-- The pairs stored after a run of `add` calls that starts from a stored valid
tree. -/
theorem foldlM_add_stored_pairs (kvs : List (K × V)) (c0 : RBTCollection K V) (T0 : Tree K V)
    (h : Stored c0 T0) (hv : T0.valid_rbt = true) (hc : T0.color_or_black = color_t.BLACK)
    (hs : (T0.keys []).Sorted (· ≤ ·)) :
    ∃ c T, kvs.foldlM (fun c kv => c.add kv.1 kv.2) c0 = some c ∧ Stored c T ∧
      (T.keys []).Sorted (· ≤ ·) ∧ T.pairs.Perm (T0.pairs ++ kvs) := by
  induction kvs generalizing c0 T0 with
  | nil => exact ⟨c0, T0, rfl, h, hs, by simp⟩
  | cons kv kvs ih =>
    obtain ⟨c1, T1, hadd, h1, hv1, hc1, hs1, hp1⟩ := h.add_stored_pairs hv hc hs kv.1 kv.2
    obtain ⟨c, T, hfold, h2, hs2, hp2⟩ := ih c1 T1 h1 hv1 hc1 hs1
    refine ⟨c, T, ?_, h2, hs2, ?_⟩
    · simp only [List.foldlM_cons, hadd, Option.bind_eq_bind, Option.some_bind]
      exact hfold
    · refine hp2.trans ?_
      simp only [Prod.mk.eta] at hp1
      exact (hp1.append_right _).trans (by simpa using List.perm_middle.symm)

/-- The point lookup after a run of fewer than `2^64` `add` calls returns, for
an added key, the value of one of the pairs added with that key. -/
theorem add_all_find_value_stored (kvs : List (K × V)) (hlen : kvs.length < SIZE_T_MOD)
    (k : K) (v : V) :
    ∃ c, add_all kvs = some c ∧
      (k ∈ kvs.map Prod.fst → ∃ v0, c.find k v = some (true, v0) ∧ (k, v0) ∈ kvs) ∧
      (k ∉ kvs.map Prod.fst → c.find k v = some (false, v)) := by
  obtain ⟨c, T, hc, hst, hs, hp⟩ :=
    foldlM_add_stored_pairs kvs empty Tree.nil Stored.empty rfl rfl (by simp [Tree.keys])
  have hp1 : T.pairs.Perm kvs := by simpa [Tree.pairs] using hp
  have hkeys : (T.keys []).Perm (kvs.map Prod.fst) := by
    rw [Tree.keys_eq_map_snapshot_pairs]
    exact hp1.map _
  have hn : c.node_count = kvs.length := by
    rcases foldlM_add_node_count kvs empty Tree.nil Stored.empty rfl rfl (by simp [Tree.keys])
      c hc with h1 | ⟨rfl, rfl⟩
    · rw [h1]
      simp only [empty, Nat.zero_add]
      exact Nat.mod_eq_of_lt hlen
    · rfl
  refine ⟨c, hc, ?_⟩
  by_cases h0 : c.node_count = 0
  · have hk : kvs = [] := List.length_eq_zero.mp (hn ▸ h0)
    subst hk
    exact ⟨fun hk => by simp at hk, fun _ => by simp [find, h0]⟩
  · have e : c.find k v = some (T.find k v) := by
      simp only [find, h0, if_false]
      exact find_loop_snapshot c k v c.next c.root T hst.snapshot
    obtain ⟨h1, h2⟩ := Tree.find_snapshot_sorted T hs k v
    rw [e]
    refine ⟨fun hk => ?_, fun hk => ?_⟩
    · have ht := h1 (hkeys.mem_iff.mpr hk)
      have hf : T.find k v = (true, (T.find k v).2) := Prod.ext ht rfl
      exact ⟨(T.find k v).2, congrArg some hf,
        hp1.mem_iff.mp (Tree.find_mem_snapshot_pairs T k v _ hf)⟩
    · rw [h2 (fun hm => hk (hkeys.mem_iff.mp hm))]

end RBTCollection

/-- C12, as amended: after fewer than `2^64` `add` calls on an empty collection, in
the AVL tree and in the red-black tree alike, for every key `k`: when `k` was
added, `find(k, v)` returns true and sets `v` to a value that was passed
together with `k` in one of the `add` calls (the value added for `k` when `k`
was added once; with `k` added more than once it need not be the most recent
one); when `k` was not added, it returns false and leaves `v` as it was. -/
theorem find_returns_an_added_value {K V : Type} [LinearOrder K] (kvs : List (K × V))
    (hlen : kvs.length < SIZE_T_MOD) (k : K) (v : V) :
    (∃ c, AVLCollection.add_all kvs = some c ∧
      (k ∈ kvs.map Prod.fst → ∃ v0, c.find k v = (true, v0) ∧ (k, v0) ∈ kvs) ∧
      (k ∉ kvs.map Prod.fst → c.find k v = (false, v))) ∧
    (∃ c, RBTCollection.add_all kvs = some c ∧
      (k ∈ kvs.map Prod.fst → ∃ v0, c.find k v = some (true, v0) ∧ (k, v0) ∈ kvs) ∧
      (k ∉ kvs.map Prod.fst → c.find k v = some (false, v))) :=
  ⟨AVLCollection.add_all_find_value kvs hlen k v,
    RBTCollection.add_all_find_value_stored kvs hlen k v⟩

theorem find_returns_an_added_value_witness :
    ([(5, 50), (3, 30), (5, 51), (8, 80)] : List (Nat × Nat)).length < SIZE_T_MOD ∧
    (∃ c, AVLCollection.add_all [(5, 50), (3, 30), (5, 51), (8, 80)] = some c ∧
      (5 ∈ ([(5, 50), (3, 30), (5, 51), (8, 80)] : List (Nat × Nat)).map Prod.fst →
        ∃ v0, c.find 5 0 = (true, v0) ∧
          (5, v0) ∈ ([(5, 50), (3, 30), (5, 51), (8, 80)] : List (Nat × Nat))) ∧
      (5 ∉ ([(5, 50), (3, 30), (5, 51), (8, 80)] : List (Nat × Nat)).map Prod.fst →
        c.find 5 0 = (false, 0))) ∧
    (∃ c, RBTCollection.add_all [(5, 50), (3, 30), (5, 51), (8, 80)] = some c ∧
      (5 ∈ ([(5, 50), (3, 30), (5, 51), (8, 80)] : List (Nat × Nat)).map Prod.fst →
        ∃ v0, c.find 5 0 = some (true, v0) ∧
          (5, v0) ∈ ([(5, 50), (3, 30), (5, 51), (8, 80)] : List (Nat × Nat))) ∧
      (5 ∉ ([(5, 50), (3, 30), (5, 51), (8, 80)] : List (Nat × Nat)).map Prod.fst →
        c.find 5 0 = some (false, 0))) :=
  ⟨by decide, find_returns_an_added_value [(5, 50), (3, 30), (5, 51), (8, 80)] (by decide) 5 0⟩

/-! ### The range lookup on distinct keys -/

section RangeDistinct

variable {K : Type} [LinearOrder K]

end RangeDistinct

/-- C16: adding the keys 5, 3, 8, 1, 4, 7, 9 in that order, with any values, to
an empty AVL collection gives `height() = 3` and `keys() = [1,3,4,5,7,8,9]`. -/
theorem AVLCollection.add_seven_height_keys {V : Type} (v1 v2 v3 v4 v5 v6 v7 : V) :
    ∃ c : AVLCollection Nat V,
      AVLCollection.add_all [(5, v1), (3, v2), (8, v3), (1, v4), (4, v5), (7, v6), (9, v7)]
        = some c ∧
      c.height = some 3 ∧ c.keys [] = [1, 3, 4, 5, 7, 8, 9] := by
  refine ⟨_, rfl, ?_, ?_⟩
  · rfl
  · rfl

/-! ### The order invariant with equal keys -/

namespace AVLCollection.Node

variable {K V : Type} [LinearOrder K]

theorem bst_order_ties_of_sorted (t : Node K V) (hs : (keys t []).Sorted (· ≤ ·)) :
    bst_order_ties t = true := by
  induction t with
  | nil => rfl
  | node k v h l r ihl ihr =>
    rw [keys_node] at hs
    obtain ⟨hsl, hsr, hl, hr⟩ := sorted_split hs
    simp only [bst_order_ties, Bool.and_eq_true, List.all_eq_true, decide_eq_true_eq]
    exact ⟨⟨⟨hl, hr⟩, ihl hsl⟩, ihr hsr⟩

end AVLCollection.Node

namespace RBTCollection.Tree

variable {K V : Type} [LinearOrder K]

theorem bst_order_ties_of_sorted_keys (t : Tree K V) (hs : (t.keys []).Sorted (· ≤ ·)) :
    t.bst_order_ties = true := by
  induction t with
  | nil => rfl
  | node a k v col l r ihl ihr =>
    rw [Tree.keys_of_node] at hs
    obtain ⟨hsl, hsr, hl, hr⟩ := sorted_split hs
    simp only [bst_order_ties, Bool.and_eq_true, List.all_eq_true, decide_eq_true_eq]
    exact ⟨⟨⟨hl, hr⟩, ihl hsl⟩, ihr hsr⟩

end RBTCollection.Tree

/-- C21, as amended: after every finite sequence of `add` calls from empty,
duplicate keys included, in the AVL tree and in the red-black tree alike, for
every node all keys in the left subtree are ≤ the node's key and all keys in the
right subtree are ≥ the node's key. -/
theorem add_all_bst_order_ties {K V : Type} [LinearOrder K] (kvs : List (K × V)) :
    (∃ c, AVLCollection.add_all kvs = some c ∧ c.root.bst_order_ties = true) ∧
    (∃ c T, RBTCollection.add_all kvs = some c ∧ c.subtree c.next c.root = some T ∧
      T.bst_order_ties = true) := by
  constructor
  · obtain ⟨c, hc, -, -, hs, -⟩ := AVLCollection.foldlM_add_invariant kvs
      AVLCollection.empty trivial trivial
      (by simp [AVLCollection.keys, AVLCollection.empty, AVLCollection.Node.keys])
    exact ⟨c, hc, AVLCollection.Node.bst_order_ties_of_sorted c.root hs⟩
  · obtain ⟨c, T, hc, hst, -, -, hs, -, -, -⟩ := RBTCollection.add_all_stored kvs
    exact ⟨c, T, hc, hst.snapshot, RBTCollection.Tree.bst_order_ties_of_sorted_keys T hs⟩

/-- C21, counterexample: after `add` of the key 1 three times the root of both
trees holds the key 1 and so does its right child, which is not strictly
greater. -/
theorem add_all_bst_order_strict_fails :
    (∃ c : AVLCollection Nat Unit,
      AVLCollection.add_all [(1, ()), (1, ()), (1, ())] = some c ∧
      c.root = .node 1 () 2 (.node 1 () 1 .nil .nil) (.node 1 () 1 .nil .nil) ∧
      c.root.bst_order = false) ∧
    (∃ c : RBTCollection Nat Unit,
      RBTCollection.add_all [(1, ()), (1, ()), (1, ())] = some c ∧
      c.subtree c.next c.root = some
        (.node 1 1 () .BLACK (.node 2 1 () .RED .nil .nil) (.node 0 1 () .RED .nil .nil)) ∧
      (RBTCollection.Tree.node 1 1 () .BLACK (.node 2 1 () .RED .nil .nil)
        (.node 0 1 () .RED .nil .nil) : RBTCollection.Tree Nat Unit).bst_order = false) := by
  refine ⟨⟨_, rfl, ?_, ?_⟩, ⟨_, rfl, ?_, ?_⟩⟩ <;> decide

/-! ### Copies of the two trees -/

/-- C23: a copy of the AVL collection built by `add` of 5, 3, 8 has the keys and
the size of the source, but `copy` never assigns the `height` field of the
nodes it makes: whatever value `junk` the new cells hold, it is the stored
height of every node of the copy, `height()` returns it, and the height fields
are not those of an AVL tree, while `height()` of the source is 2. -/
theorem AVLCollection.copy_leaves_height_unassigned (junk : Int) :
    ∃ src c : AVLCollection Nat Unit,
      AVLCollection.add_all [(5, ()), (3, ()), (8, ())] = some src ∧
      AVLCollection.copy_construct junk src = some c ∧
      c.root = .node 5 () junk (.node 3 () junk .nil .nil) (.node 8 () junk .nil .nil) ∧
      c.keys [] = src.keys [] ∧ c.size = src.size ∧ src.height = some 2 ∧
      c.height = some (junk % (SIZE_T_MOD : Int)).toNat ∧
      ¬ AVLCollection.Node.HeightsExact c.root := by
  refine ⟨_, _, rfl, rfl, rfl, rfl, rfl, rfl, rfl, ?_⟩
  simp only [AVLCollection.Node.HeightsExact, AVLCollection.Node.tree_height]
  intro h
  have h1 := h.1
  have h2 := h.2.1.1
  rw [h1] at h2
  exact absurd h2 (by decide)

/-- C22: with `lhs` holding the key 1 and `rhs` holding the key 2, after
`lhs = rhs` the keys of `lhs` are those of `rhs`, but `size()` of `lhs` is 2 and
that of `rhs` is 1: `make_empty` deletes nothing and does not reset
`node_count`.  With an empty `rhs`, `root` of `lhs` is left pointing to a new
node none of whose fields is assigned; when its cell holds no key, `keys()` has
no result. -/
theorem RBTCollection.assign_keeps_old_count (junk : RBTCollection.Node Nat Unit) :
    ∃ lhs rhs c c1 : RBTCollection Nat Unit,
      RBTCollection.add_all [(1, ())] = some lhs ∧ RBTCollection.add_all [(2, ())] = some rhs ∧
      RBTCollection.assign junk lhs rhs = some c ∧
      c.keys [] = some [2] ∧ rhs.keys [] = some [2] ∧ c.size = 2 ∧ rhs.size = 1 ∧
      RBTCollection.assign { junk with key := none } lhs RBTCollection.empty = some c1 ∧
      c1.root = some 1 ∧ c1.keys [] = none ∧ c1.size = 1 := by
  refine ⟨_, _, _, _, rfl, rfl, rfl, ?_, ?_, ?_, ?_, rfl, ?_, ?_, ?_⟩
  · rfl
  · decide
  · rfl
  · rfl
  · rfl
  · rfl
  · rfl

/-! ### Array list: `selection_sort` and `merge_sort` -/

/-- C25: on the list `[2, 1]` of length 2, `selection_sort()` changes nothing:
the loop `for(int i = length-1; i > 1; --i)` is not entered, and the items stay
in descending order.  On `[3, 1, 2]` it runs once and leaves `[2, 1, 3]`. -/
theorem ArrayList.selection_sort_skips_front :
    (∃ a s : ArrayList Nat, ArrayList.add_all [2, 1] = some a ∧ a.to_list = [2, 1] ∧
      a.selection_sort = some s ∧ s.to_list = [2, 1]) ∧
    (∃ a s : ArrayList Nat, ArrayList.add_all [3, 1, 2] = some a ∧ a.to_list = [3, 1, 2] ∧
      a.selection_sort = some s ∧ s.to_list = [2, 1, 3]) ∧
    ¬ ([2, 1] : List Nat).Sorted (· ≤ ·) ∧ ¬ ([2, 1, 3] : List Nat).Sorted (· ≤ ·) := by
  refine ⟨⟨_, _, rfl, ?_, rfl, ?_⟩, ⟨_, _, rfl, ?_, rfl, ?_⟩, ?_, ?_⟩ <;> decide

/-- C26: on the empty list `merge_sort()` calls `merge_sort(0, length-1)` with
`length-1 = 2^64-1`; the recursion goes down to `merge_sort(0, 1)`, whose merge
step reads `items[0]`, a cell that holds no item: the call has no result.  With
a value in each of the ten cells of the array the recursion goes on to
`merge_sort(8, 15)`, which reads `items[10]`, a cell outside the array. -/
theorem ArrayList.merge_sort_empty_reads_outside :
    size_t_decr (ArrayList.empty : ArrayList Nat).length = 2 ^ 64 - 1 ∧
    (ArrayList.empty : ArrayList Nat).read 0 = none ∧
    ArrayList.merge_sort_range 1 (ArrayList.empty : ArrayList Nat) 0 1 = none ∧
    (ArrayList.empty : ArrayList Nat).merge_sort = none ∧
    (⟨List.replicate 10 (some 0), 10, 0⟩ : ArrayList Nat).read 10 = none ∧
    ArrayList.merge_sort_range 4 (⟨List.replicate 10 (some 0), 10, 0⟩ : ArrayList Nat) 8 15
      = none ∧
    (⟨List.replicate 10 (some 0), 10, 0⟩ : ArrayList Nat).merge_sort = none := by
  refine ⟨?_, ?_, ?_, ?_, ?_, ?_, ?_⟩ <;> decide

/-! ### Array list: reads, writes, `add`, `get` -/

namespace ArrayList

variable {T : Type}

theorem getElem?_set_eq_ite (l : List T) (i j : Nat) (x : T) :
    (l.set i x)[j]? = if i = j ∧ i < l.length then some x else l[j]? := by
  by_cases h : i = j
  · subst h
    by_cases h2 : i < l.length
    · simp [h2]
    · simp [h2, List.getElem?_eq_none (not_lt.mp h2), not_lt.mp h2]
  · simp [h, List.getElem?_set_ne h]

theorem set_perm_cons {t : List T} {j : Nat} {x y : T} (h : t[j]? = some y) :
    (y :: t.set j x).Perm (x :: t) := by
  induction t generalizing j with
  | nil => simp at h
  | cons b t ih =>
    cases j with
    | zero =>
      simp only [List.getElem?_cons_zero, Option.some.injEq] at h
      subst h
      exact List.Perm.swap _ _ _
    | succ j =>
      simp only [List.getElem?_cons_succ] at h
      simp only [List.set_cons_succ]
      exact (List.Perm.swap _ _ _).trans (((ih h).cons b).trans (List.Perm.swap _ _ _))

/-- Exchanging two items of a list gives a permutation of it. -/
theorem swap_perm {l : List T} {i j : Nat} {x y : T} (hi : l[i]? = some x)
    (hj : l[j]? = some y) : ((l.set i y).set j x).Perm l := by
  induction l generalizing i j with
  | nil => simp at hi
  | cons a t ih =>
    cases i with
    | zero =>
      simp only [List.getElem?_cons_zero, Option.some.injEq] at hi
      subst hi
      cases j with
      | zero =>
        simp only [List.getElem?_cons_zero, Option.some.injEq] at hj
        subst hj
        simp
      | succ j =>
        simp only [List.getElem?_cons_succ] at hj
        simp only [List.set_cons_zero, List.set_cons_succ]
        exact set_perm_cons hj
    | succ i =>
      simp only [List.getElem?_cons_succ] at hi
      cases j with
      | zero =>
        simp only [List.getElem?_cons_zero, Option.some.injEq] at hj
        subst hj
        simp only [List.set_cons_zero, List.set_cons_succ]
        exact set_perm_cons hi
      | succ j =>
        simp only [List.getElem?_cons_succ] at hj
        simp only [List.set_cons_succ]
        exact (ih hi hj).cons a

theorem Holds.read_lt {a : ArrayList T} {l : List T} (h : a.Holds l) {i : Nat}
    (hi : i < l.length) : a.read i = some (l[i]) := by
  rw [h.cells i hi, List.getElem?_eq_getElem hi]

theorem Holds.write_lt {a : ArrayList T} {l : List T} (h : a.Holds l) {i : Nat}
    (hi : i < l.length) (x : T) :
    ∃ a1, a.write i x = some a1 ∧ a1.Holds (l.set i x) := by
  have hroom : i < a.items.length := lt_of_lt_of_le hi h.room
  refine ⟨{ a with items := a.items.set i (some x) }, by simp [write, hroom], ?_⟩
  refine ⟨by simpa using h.length, ?_, by simpa using h.room, by simpa using h.alloc, h.cap⟩
  intro j hj
  rw [List.length_set] at hj
  have := h.cells j hj
  simp only [read] at this ⊢
  rw [getElem?_set_eq_ite, getElem?_set_eq_ite]
  by_cases hij : i = j
  · subst hij
    simp [hi, hroom]
  · simp only [hij, false_and, if_false]
    exact this

theorem sorted_of_sortedOn [LinearOrder T] {l : List T} (h : SortedOn l 0 (l.length - 1)) :
    l.Sorted (· ≤ ·) := by
  rw [List.Sorted, List.pairwise_iff_getElem]
  intro i j hi hj hij
  exact h i j _ _ (Nat.zero_le _) (le_of_lt hij) (by omega)
    (List.getElem?_eq_getElem hi) (List.getElem?_eq_getElem hj)

theorem Holds.to_list_eq {a : ArrayList T} {l : List T} (h : a.Holds l) : a.to_list = l := by
  have e : a.items.take a.length = l.map some := by
    apply List.ext_getElem?
    intro i
    by_cases hi : i < l.length
    · have := h.cells i hi
      simp only [read] at this
      rw [List.getElem?_take_of_lt (by rw [h.length]; exact hi), List.getElem?_map,
        List.getElem?_eq_getElem hi, Option.map_some']
      have hroom : i < a.items.length := lt_of_lt_of_le hi h.room
      rw [List.getElem?_eq_getElem hroom] at this ⊢
      rw [List.getElem?_eq_getElem hi] at this
      simpa using this
    · have h1 : (a.items.take a.length).length ≤ i := by
        rw [List.length_take, h.length]; omega
      have h2 : (l.map some).length ≤ i := by rw [List.length_map]; omega
      rw [List.getElem?_eq_none h1, List.getElem?_eq_none h2]
  rw [to_list, e]
  clear e h
  induction l with
  | nil => rfl
  | cons x t ih => simp [List.reduceOption_cons_of_some, ih]

end ArrayList

namespace ArrayList

variable {T : Type}

theorem write_some {a : ArrayList T} {i : Nat} (hi : i < a.items.length) (x : T) :
    a.write i x = some { a with items := a.items.set i (some x) } := by
  simp [write, hi]

theorem read_write {a a1 : ArrayList T} {i : Nat} {x : T} (h : a.write i x = some a1)
    (p : Nat) : a1.read p = if p = i then some x else a.read p := by
  simp only [write] at h
  split at h
  · rename_i hi
    cases h
    simp only [read]
    rw [getElem?_set_eq_ite]
    by_cases hp : i = p
    · subst hp; simp [hi]
    · have hp' : ¬ p = i := fun e => hp e.symm
      simp [hp, hp']
  · cases h

theorem write_fields {a a1 : ArrayList T} {i : Nat} {x : T} (h : a.write i x = some a1) :
    a1.items.length = a.items.length ∧ a1.capacity = a.capacity ∧ a1.length = a.length := by
  simp only [write] at h
  split at h
  · cases h
    simp
  · cases h

theorem int_incr_of_lt {i : Nat} (h : i < INT_MAX) : int_incr i = some (i + 1) := by
  simp [int_incr, h]

theorem int_of_size_t_of_le {n : Nat} (h : n ≤ INT_MAX) : int_of_size_t n = some n := by
  simp [int_of_size_t, h]

theorem INT_MAX_lt_size_t : INT_MAX * 2 + 2 < SIZE_T_MOD := by decide

theorem read_replicate_none (n c len p : Nat) :
    (⟨List.replicate n none, c, len⟩ : ArrayList T).read p = none := by
  simp only [read]
  by_cases hp : p < n
  · rw [List.getElem?_eq_getElem (by simpa using hp)]
    simp
  · rw [List.getElem?_eq_none (by simpa using hp)]
    rfl

/-- The copy loop of `resize`. -/
theorem resize_loop_spec (a : ArrayList T) (l : List T) (h : a.Holds l)
    (hsmall : l.length ≤ INT_MAX) (n : Nat) :
    ∀ (i : Nat) (tmp : ArrayList T), i + n = l.length → l.length ≤ tmp.items.length →
    (∀ p, p < i → tmp.read p = l[p]?) →
    ∃ tmp1, resize_loop a n i tmp = some tmp1 ∧ tmp1.items.length = tmp.items.length ∧
      tmp1.capacity = tmp.capacity ∧ tmp1.length = tmp.length ∧
      (∀ p, p < l.length → tmp1.read p = l[p]?) := by
  induction n with
  | zero =>
    intro i tmp hi hroom hc
    exact ⟨tmp, rfl, rfl, rfl, rfl, fun p hp => hc p (by omega)⟩
  | succ n ih =>
    intro i tmp hi hroom hc
    have hil : i < l.length := by omega
    have hw := write_some (a := tmp) (lt_of_lt_of_le hil hroom) l[i]
    obtain ⟨t1, t2, t3⟩ := write_fields hw
    simp only [resize_loop, h.read_lt hil, hw, int_incr_of_lt (lt_of_lt_of_le hil hsmall),
      Option.bind_eq_bind, Option.some_bind]
    obtain ⟨tmp1, hrec, r1, r2, r3, r4⟩ := ih (i + 1) _ (by omega) (by rw [t1]; exact hroom)
      (by
        intro p hp
        rw [read_write hw]
        by_cases hpi : p = i
        · subst hpi
          simp [List.getElem?_eq_getElem hil]
        · simp only [hpi, if_false]
          exact hc p (by omega))
    exact ⟨tmp1, hrec, r1.trans t1, r2.trans t2, r3.trans t3, r4⟩

/-- After `resize()` the list holds the same items in an array of twice the
capacity. -/
theorem Holds.resize {a : ArrayList T} {l : List T} (h : a.Holds l)
    (hsmall : l.length ≤ INT_MAX) (hfull : a.length = a.capacity) :
    ∃ a1, a.resize = some a1 ∧ a1.Holds l ∧ a1.capacity = a.capacity * 2 := by
  have hcap : l.length ≤ a.capacity := h.alloc ▸ h.room
  have hb := INT_MAX_lt_size_t
  have hmod : (a.capacity * 2) % SIZE_T_MOD = a.capacity * 2 :=
    Nat.mod_eq_of_lt (by rw [← hfull, h.length]; omega)
  have hres : a.resize = resize_loop a a.length 0
      ⟨List.replicate (a.capacity * 2) none, a.capacity * 2, a.length⟩ := by
    simp only [ArrayList.resize, hmod]
  rw [hres]
  obtain ⟨a1, hr, r1, r2, r3, r4⟩ := resize_loop_spec a l h hsmall a.length 0
    ⟨List.replicate (a.capacity * 2) none, a.capacity * 2, a.length⟩
    (by rw [h.length]; omega) (by simp; omega) (fun p hp => absurd hp (Nat.not_lt_zero _))
  refine ⟨a1, hr, ⟨r3.trans h.length, r4, ?_, ?_, ?_⟩, r2⟩
  · rw [r1]; simp; omega
  · rw [r1, r2]; simp
  · rw [r2]; have := h.cap; simp only; omega

/-- The call `add(item)` appends the item. -/
theorem Holds.add {a : ArrayList T} {l : List T} (h : a.Holds l)
    (hlen : l.length ≤ INT_MAX) (x : T) :
    ∃ a1, a.add x = some a1 ∧ a1.Holds (l ++ [x]) := by
  obtain ⟨a0, h0e, h0, hroom⟩ : ∃ a0, (if a.length = a.capacity then a.resize else some a)
      = some a0 ∧ a0.Holds l ∧ l.length < a0.items.length := by
    by_cases hfull : a.length = a.capacity
    · obtain ⟨a1, hr, h1, hc⟩ := h.resize hlen hfull
      refine ⟨a1, by simp [hfull, hr], h1, ?_⟩
      rw [h1.alloc, hc, ← hfull, h.length]
      have := h.cap
      have := h.length
      omega
    · refine ⟨a, by simp [hfull], h, ?_⟩
      have := h.room
      have := h.alloc
      have := h.length
      omega
  have hw := write_some (a := a0) (i := a0.length) (by rw [h0.length]; exact hroom) x
  obtain ⟨t1, t2, t3⟩ := write_fields hw
  have hadd : a.add x =
      some ⟨a0.items.set a0.length (some x), a0.capacity, size_t_incr a0.length⟩ := by
    simp only [ArrayList.add, h0e, hw, Option.some_bind, Option.map_some']
  refine ⟨_, hadd, ?_, ?_, ?_, ?_, ?_⟩
  · simp only [size_t_incr, List.length_append, List.length_cons, List.length_nil]
    rw [h0.length, Nat.mod_eq_of_lt (by have := INT_MAX_lt_size_t; omega)]
  · intro p hp
    simp only [List.length_append, List.length_cons, List.length_nil] at hp
    have hrw := read_write hw p
    simp only [read] at hrw ⊢
    rw [hrw]
    by_cases hpl : p = a0.length
    · subst hpl
      rw [h0.length]
      simp
    · have hp2 : p < l.length := by have := h0.length; omega
      simp only [hpl, if_false]
      have := h0.cells p hp2
      simp only [read] at this
      rw [this, List.getElem?_append_left hp2]
  · simp only [List.length_append, List.length_cons, List.length_nil, List.length_set]
    omega
  · simp only [List.length_set]
    exact h0.alloc
  · exact h0.cap

theorem Holds.of_empty : (ArrayList.empty : ArrayList T).Holds [] :=
  ⟨rfl, fun i hi => absurd hi (Nat.not_lt_zero _), Nat.zero_le _, by simp [ArrayList.empty],
    by simp [ArrayList.empty]⟩

/-- The call `get(index, return_item)` on a list that holds `l`. -/
theorem Holds.get {a : ArrayList T} {l : List T} (h : a.Holds l) (i : Nat) (d : T) :
    a.get i d = some (if i < l.length then (true, l.getD i d) else (false, d)) := by
  by_cases hi : i < l.length
  · have : ¬ i ≥ a.length := by rw [h.length]; omega
    simp [ArrayList.get, this, h.read_lt hi, hi, List.getD_eq_getElem _ _ hi]
  · have : i ≥ a.length := by rw [h.length]; omega
    simp [ArrayList.get, this, hi]

/-- A run of `add` calls appends the items in order. -/
theorem Holds.add_list {a : ArrayList T} {l : List T} (h : a.Holds l) (xs : List T)
    (hlen : l.length + xs.length ≤ INT_MAX) :
    ∃ a1, xs.foldlM (fun a x => a.add x) a = some a1 ∧ a1.Holds (l ++ xs) := by
  induction xs generalizing a l with
  | nil => exact ⟨a, rfl, by simpa using h⟩
  | cons x xs ih =>
    simp only [List.length_cons] at hlen
    obtain ⟨a1, h1e, h1⟩ := h.add (by omega) x
    have hlen2 : (l ++ [x]).length + xs.length ≤ INT_MAX := by
      simp only [List.length_append, List.length_cons, List.length_nil]
      omega
    obtain ⟨a2, h2e, h2⟩ := ih h1 hlen2
    exact ⟨a2, by simp [List.foldlM_cons, h1e, h2e], by simpa using h2⟩

end ArrayList

namespace ArrayList

variable {T : Type}

theorem getElem?_insert (l : List T) (k : Nat) (hk : k ≤ l.length) (x : T) (p : Nat) :
    (l.take k ++ x :: l.drop k)[p]? =
      if p < k then l[p]? else if p = k then some x else l[p - 1]? := by
  have hlen : (l.take k).length = k := by simp [hk]
  by_cases h1 : p < k
  · rw [List.getElem?_append_left (by rw [hlen]; exact h1), List.getElem?_take_of_lt h1]
    simp [h1]
  · rw [List.getElem?_append_right (by rw [hlen]; omega), hlen]
    by_cases h2 : p = k
    · subst h2
      simp
    · have h3 : p - k = (p - k - 1) + 1 := by omega
      rw [h3, List.getElem?_cons_succ, List.getElem?_drop]
      simp only [h1, h2, if_false]
      congr 1
      omega

/-- The shifting loop of `add(index, item)` moves the items from `index` on one
place to the right. -/
theorem shift_right_spec (l : List T) (k n : Nat) : ∀ (i : Nat) (a : ArrayList T),
    k + n = i → i ≤ l.length → l.length < a.items.length →
    (∀ p, p < i → a.read p = l[p]?) →
    (∀ p, i < p → p ≤ l.length → a.read p = l[p - 1]?) →
    ∃ a1, shift_right n i a = some a1 ∧ a1.items.length = a.items.length ∧
      a1.capacity = a.capacity ∧ a1.length = a.length ∧
      (∀ p, p < k → a1.read p = l[p]?) ∧
      (∀ p, k < p → p ≤ l.length → a1.read p = l[p - 1]?) := by
  induction n with
  | zero =>
    intro i a hi hil hroom hlo hhi
    have : k = i := by omega
    subst this
    exact ⟨a, rfl, rfl, rfl, rfl, hlo, hhi⟩
  | succ n ih =>
    intro i a hi hil hroom hlo hhi
    have hi1 : i - 1 < l.length := by omega
    have hr : a.read (i - 1) = some l[i - 1] := by
      rw [hlo (i - 1) (by omega), List.getElem?_eq_getElem hi1]
    have hw := write_some (a := a) (i := i) (by omega) l[i - 1]
    obtain ⟨t1, t2, t3⟩ := write_fields hw
    simp only [shift_right, hr, hw, Option.bind_eq_bind, Option.some_bind]
    obtain ⟨a1, hrec, r1, r2, r3, r4, r5⟩ := ih (i - 1) _ (by omega) (by omega)
      (by rw [t1]; exact hroom)
      (by
        intro p hp
        rw [read_write hw]
        have : p ≠ i := by omega
        simp only [this, if_false]
        exact hlo p (by omega))
      (by
        intro p hp1 hp2
        rw [read_write hw]
        by_cases hpi : p = i
        · subst hpi
          simp [List.getElem?_eq_getElem hi1]
        · simp only [hpi, if_false]
          exact hhi p (by omega) hp2)
    exact ⟨a1, hrec, r1.trans t1, r2.trans t2, r3.trans t3, r4, r5⟩

/-- The call `add(index, item)` with `index ≤ size()` inserts the item at the
position `index`; with `index > size()` it changes nothing. -/
theorem Holds.add_at {a : ArrayList T} {l : List T} (h : a.Holds l)
    (hlen : l.length ≤ INT_MAX) (k : Nat) (x : T) :
    (k ≤ l.length → ∃ a1, a.add_at k x = some (true, a1) ∧
      a1.Holds (l.take k ++ x :: l.drop k)) ∧
    (l.length < k → a.add_at k x = some (false, a)) := by
  have hb := INT_MAX_lt_size_t
  have hincr : size_t_incr a.length = a.length + 1 := by
    rw [size_t_incr, h.length, Nat.mod_eq_of_lt (by omega)]
  constructor
  swap
  · intro hk
    have : k > a.length := by rw [h.length]; exact hk
    simp [ArrayList.add_at, this]
  intro hk
  have hgt : ¬ k > a.length := by rw [h.length]; omega
  by_cases hend : k = l.length
  · obtain ⟨a1, h1e, h1⟩ := h.add hlen x
    refine ⟨a1, by simp [ArrayList.add_at, hgt, hend, h.length, h1e], ?_⟩
    subst hend
    simpa using h1
  · have hne : ¬ k = a.length := by rw [h.length]; exact hend
    obtain ⟨a0, h0e, h0, hroom⟩ : ∃ a0,
        (if size_t_incr a.length > a.capacity then a.resize else some a) = some a0 ∧
        a0.Holds l ∧ l.length < a0.items.length := by
      rw [hincr]
      by_cases hfull : a.length + 1 > a.capacity
      · have hfull2 : a.length = a.capacity := by
          have := h.length
          have := h.room
          have := h.alloc
          omega
        obtain ⟨a1, hr, h1, hc⟩ := h.resize hlen hfull2
        refine ⟨a1, by simp [hfull, hr], h1, ?_⟩
        rw [h1.alloc, hc]
        have := h.cap
        have := h.length
        have := h.room
        have := h.alloc
        omega
      · refine ⟨a, by simp [hfull], h, ?_⟩
        have := h.alloc
        have := h.length
        omega
    obtain ⟨a1, hsh, s1, s2, s3, s4, s5⟩ := shift_right_spec l k (l.length - k) l.length a0
      (by omega) (le_refl _) hroom (fun p hp => h0.cells p hp)
      (fun p hp1 hp2 => absurd hp1 (by omega))
    have hw := write_some (a := a1) (i := k) (by rw [s1]; omega) x
    have hadd : a.add_at k x =
        some (true, ⟨a1.items.set k (some x), a1.capacity, size_t_incr a1.length⟩) := by
      simp only [ArrayList.add_at, hgt, hne, if_false, h0e, h0.length, hsh, hw,
        int_of_size_t_of_le hlen, Option.some_bind, Option.map_some']
    refine ⟨_, hadd, ?_, ?_, ?_, ?_, ?_⟩
    · simp only [size_t_incr, List.length_append, List.length_cons, List.length_take,
        List.length_drop]
      rw [s3, h0.length, Nat.mod_eq_of_lt (by omega)]
      omega
    · intro p hp
      simp only [List.length_append, List.length_cons, List.length_take,
        List.length_drop] at hp
      have hrw := read_write hw p
      simp only [read] at hrw ⊢
      rw [hrw, getElem?_insert l k hk x p]
      by_cases h1 : p < k
      · have : p ≠ k := by omega
        simp only [h1, this, if_true, if_false]
        exact s4 p h1
      · by_cases h2 : p = k
        · simp [h2]
        · simp only [h1, h2, if_false]
          exact s5 p (by omega) (by omega)
    · simp only [List.length_append, List.length_cons, List.length_take, List.length_drop,
        List.length_set]
      rw [s1]
      omega
    · simp only [List.length_set]
      rw [s1, s2]
      exact h0.alloc
    · show 0 < a1.capacity
      rw [s2]
      exact h0.cap

end ArrayList

/-! ### Array list: `insertion_sort` -/

namespace ArrayList

variable {T : Type} [LinearOrder T]

theorem getElem?_swap (l : List T) (i j : Nat) (x y : T) (hi : i < l.length)
    (hj : j < l.length) (p : Nat) :
    ((l.set i y).set j x)[p]? = if p = j then some x else if p = i then some y else l[p]? := by
  rw [getElem?_set_eq_ite, getElem?_set_eq_ite, List.length_set]
  by_cases h1 : j = p
  · subst h1; simp [hj]
  · have h1' : ¬ p = j := fun e => h1 e.symm
    by_cases h2 : i = p
    · subst h2; simp [h1, h1', hi]
    · have h2' : ¬ p = i := fun e => h2 e.symm
      simp [h1, h1', h2, h2']

/-- The inner loop of `insertion_sort` puts `items[i]` in its place among the
sorted items before it. -/
theorem insertion_sort_scan_spec (i n : Nat) : ∀ (j : Nat) (val : T) (a : ArrayList T)
    (l : List T), a.Holds l → l.length ≤ INT_MAX → i < l.length → 1 ≤ i → j + n = i →
    l[i]? = some val →
    SortedOn l 0 (i - 1) → (∀ p x, p < j → l[p]? = some x → x ≤ val) →
    ∃ a1 l1 val1, insertion_sort_scan i n j val a = some (a1, val1) ∧ a1.Holds l1 ∧
      l1.Perm l ∧ l1.length = l.length ∧ SortedOn l1 0 i := by
  induction n with
  | zero =>
    intro j val a l h hsmall hi h1 hn hval hs hb
    refine ⟨a, l, val, rfl, h, List.Perm.refl _, rfl, ?_⟩
    intro p q x y _ hpq hq hx hy
    have hji : j = i := by omega
    subst hji
    by_cases hqi : q = j
    · subst hqi
      rw [hval] at hy
      cases hy
      by_cases hpi : p = q
      · subst hpi
        rw [hval] at hx
        cases hx
        exact le_refl _
      · exact hb p x (by omega) hx
    · exact hs p q x y (Nat.zero_le _) hpq (by omega) hx hy
  | succ n ih =>
    intro j val a l h hsmall hi h1 hn hval hs hb
    have hj : j < l.length := by omega
    have hinc : int_incr j = some (j + 1) := int_incr_of_lt (by omega)
    have hji : j ≠ i := by omega
    have hrj := h.read_lt hj
    have hlj : l[j]? = some l[j] := List.getElem?_eq_getElem hj
    simp only [insertion_sort_scan, hrj, Option.bind_eq_bind, Option.some_bind]
    by_cases hlt : val < l[j]
    · obtain ⟨a1, hw1, h1a⟩ := h.write_lt hi l[j]
      obtain ⟨a2, hw2, h2a⟩ := h1a.write_lt (by rw [List.length_set]; exact hj) val
      have hget : ∀ p, ((l.set i l[j]).set j val)[p]? =
          if p = j then some val else if p = i then some l[j] else l[p]? :=
        getElem?_swap l i j val l[j] hi hj
      have hri : a2.read i = some l[j] := by
        rw [h2a.cells i (by simpa using hi), hget]
        simp [hji.symm]
      simp only [hlt, if_true, hw1, hw2, hri, hinc, Option.bind_eq_bind, Option.some_bind]
      obtain ⟨a3, l3, val3, hrec, h3, hp3, hl3, hs3⟩ :=
        ih (j + 1) l[j] a2 _ h2a (by simpa using hsmall) (by simpa using hi) h1 (by omega)
          (by rw [hget]; simp [hji.symm])
          (by
            intro p q x y _ hpq hq hx hy
            rw [hget] at hx hy
            have hpi : p ≠ i := by omega
            have hqi : q ≠ i := by omega
            simp only [hpi, hqi, if_false] at hx hy
            by_cases hpj : p = j
            · subst hpj
              simp only [if_true, Option.some.injEq] at hx
              subst hx
              by_cases hqj : q = p
              · subst hqj
                simp only [if_true, Option.some.injEq] at hy
                exact le_of_eq hy
              · simp only [hqj, if_false] at hy
                have := hs p q _ y (Nat.zero_le _) hpq hq hlj hy
                exact le_trans (le_of_lt hlt) this
            · simp only [hpj, if_false] at hx
              by_cases hqj : q = j
              · subst hqj
                simp only [if_true, Option.some.injEq] at hy
                subst hy
                exact hb p x (by omega) hx
              · simp only [hqj, if_false] at hy
                exact hs p q x y (Nat.zero_le _) hpq hq hx hy)
          (by
            intro p x hp hx
            rw [hget] at hx
            have hpi : p ≠ i := by omega
            by_cases hpj : p = j
            · subst hpj
              simp only [if_true, Option.some.injEq] at hx
              subst hx
              exact le_of_lt hlt
            · simp only [hpj, hpi, if_false] at hx
              exact hs p j x _ (Nat.zero_le _) (by omega) (by omega) hx hlj)
      refine ⟨a3, l3, val3, hrec, h3, hp3.trans (swap_perm hval hlj), ?_, hs3⟩
      rw [hl3]
      simp
    · simp only [hlt, if_false, hinc, Option.bind_eq_bind, Option.some_bind]
      exact ih (j + 1) val a l h hsmall hi h1 (by omega) hval hs (by
        intro p x hp hx
        by_cases hpj : p = j
        · subst hpj
          rw [hlj] at hx
          cases hx
          exact not_lt.mp hlt
        · exact hb p x (by omega) hx)

/-- The outer loop of `insertion_sort` extends the sorted front of the list
item by item. -/
theorem insertion_sort_loop_spec (n : Nat) : ∀ (i : Nat) (a : ArrayList T) (l : List T),
    a.Holds l → l.length ≤ INT_MAX → 1 ≤ i → i + n = l.length → SortedOn l 0 (i - 1) →
    ∃ a1 l1, insertion_sort_loop n i i a = some a1 ∧ a1.Holds l1 ∧ l1.Perm l ∧
      l1.Sorted (· ≤ ·) := by
  induction n with
  | zero =>
    intro i a l h hsmall h1 hn hs
    refine ⟨a, l, rfl, h, List.Perm.refl _, sorted_of_sortedOn ?_⟩
    have : i = l.length := by omega
    subst this
    exact hs
  | succ n ih =>
    intro i a l h hsmall h1 hn hs
    have hi : i < l.length := by omega
    have hinc : int_incr i = some (i + 1) := int_incr_of_lt (by omega)
    have hli : l[i]? = some l[i] := List.getElem?_eq_getElem hi
    obtain ⟨a1, l1, val1, hscan, h1a, hp1, hl1, hs1⟩ :=
      insertion_sort_scan_spec i i 0 l[i] a l h hsmall hi h1 (by omega) hli hs
        (fun p x hp _ => absurd hp (Nat.not_lt_zero _))
    simp only [insertion_sort_loop, h.read_lt hi, hscan, hinc, Option.bind_eq_bind,
      Option.some_bind]
    obtain ⟨a2, l2, hrec, h2, hp2, hs2⟩ := ih (i + 1) a1 l1 h1a (by omega) (by omega) (by omega)
      (by simpa using hs1)
    exact ⟨a2, l2, hrec, h2, hp2.trans hp1, hs2⟩

/-- The list after `insertion_sort()` holds the items in non-decreasing order,
and they are a permutation of the items before. -/
theorem insertion_sort_spec (a : ArrayList T) (l : List T) (h : a.Holds l)
    (hsmall : l.length ≤ INT_MAX) :
    ∃ a1 l1, a.insertion_sort = some a1 ∧ a1.Holds l1 ∧ l1.Perm l ∧ l1.Sorted (· ≤ ·) := by
  by_cases h0 : l.length = 0
  · have : l = [] := List.length_eq_zero.mp h0
    subst this
    refine ⟨a, [], ?_, h, List.Perm.refl _, List.sorted_nil⟩
    simp [insertion_sort, h.length, insertion_sort_loop]
  · have e : a.insertion_sort = insertion_sort_loop (l.length - 1) 1 1 a := by
      simp [insertion_sort, h.length]
    rw [e]
    refine insertion_sort_loop_spec (l.length - 1) 1 a l h hsmall (le_refl _) (by omega) ?_
    intro p q x y _ hpq hq hx hy
    have hp0 : p = 0 := by omega
    have hq0 : q = 0 := by omega
    subst hp0 hq0
    rw [hx] at hy
    cases hy
    exact le_refl _

end ArrayList

/-! ### Array list: `quick_sort` -/

namespace ArrayList

variable {T : Type} [LinearOrder T]

theorem Within.same (l : List T) (s e : Nat) : Within l l s e :=
  ⟨List.Perm.refl _, rfl, fun _ _ => rfl, fun i _ hs he hx => ⟨i, hs, he, hx⟩⟩

theorem Within.widen {l l1 : List T} {s e s1 e1 : Nat} (h : Within l l1 s1 e1) (hs : s ≤ s1)
    (he : e1 ≤ e) : Within l l1 s e := by
  refine ⟨h.perm, h.length, fun i hi => h.outside i (by omega), ?_⟩
  intro i x his hie hx
  by_cases hin : s1 ≤ i ∧ i ≤ e1
  · obtain ⟨j, hj1, hj2, hj3⟩ := h.inside i x hin.1 hin.2 hx
    exact ⟨j, by omega, by omega, hj3⟩
  · refine ⟨i, his, hie, ?_⟩
    rw [← h.outside i (by omega)]
    exact hx

theorem Within.then {l l1 l2 : List T} {s e : Nat} (h1 : Within l l1 s e)
    (h2 : Within l1 l2 s e) : Within l l2 s e := by
  refine ⟨h2.perm.trans h1.perm, h2.length.trans h1.length,
    fun i hi => (h2.outside i hi).trans (h1.outside i hi), ?_⟩
  intro i x his hie hx
  obtain ⟨j, hj1, hj2, hj3⟩ := h2.inside i x his hie hx
  exact h1.inside j x hj1 hj2 hj3

theorem Within.exchange {l : List T} {s e i j : Nat} {x y : T} (hi : l[i]? = some x)
    (hj : l[j]? = some y) (his : s ≤ i) (hie : i ≤ e) (hjs : s ≤ j) (hje : j ≤ e) :
    Within l ((l.set i y).set j x) s e := by
  have hil : i < l.length := by
    by_contra hc
    rw [List.getElem?_eq_none (not_lt.mp hc)] at hi
    cases hi
  have hjl : j < l.length := by
    by_contra hc
    rw [List.getElem?_eq_none (not_lt.mp hc)] at hj
    cases hj
  have hget := getElem?_swap l i j x y hil hjl
  refine ⟨swap_perm hi hj, by simp, ?_, ?_⟩
  · intro p hp
    rw [hget]
    have h1 : p ≠ j := by omega
    have h2 : p ≠ i := by omega
    simp [h1, h2]
  · intro p z hps hpe hz
    rw [hget] at hz
    by_cases h1 : p = j
    · subst h1
      simp only [if_true, Option.some.injEq] at hz
      subst hz
      exact ⟨i, his, hie, hi⟩
    · by_cases h2 : p = i
      · subst h2
        simp only [h1, if_false, if_true, Option.some.injEq] at hz
        subst hz
        exact ⟨j, hjs, hje, hj⟩
      · simp only [h1, h2, if_false] at hz
        exact ⟨p, hps, hpe, hz⟩

/-- The partition loop of `quick_sort`: the items smaller than the pivot are
gathered right after it. -/
theorem quick_sort_partition_spec (pivot : T) (s e n : Nat) : ∀ (i last : Nat)
    (a : ArrayList T) (l : List T), a.Holds l → l.length ≤ INT_MAX → e < l.length →
    i + n = e + 1 → s ≤ last →
    last < i → l[s]? = some pivot →
    (∀ t x, s < t → t ≤ last → l[t]? = some x → x < pivot) →
    (∀ t x, last < t → t < i → l[t]? = some x → ¬ x < pivot) →
    ∃ a1 l1 last1, quick_sort_partition pivot n i a last = some (a1, last1) ∧ a1.Holds l1 ∧
      Within l l1 s e ∧ s ≤ last1 ∧ last1 ≤ e ∧ l1[s]? = some pivot ∧
      (∀ t x, s < t → t ≤ last1 → l1[t]? = some x → x < pivot) ∧
      (∀ t x, last1 < t → t ≤ e → l1[t]? = some x → ¬ x < pivot) := by
  induction n with
  | zero =>
    intro i last a l h hsmall he hn hsl hli hp hlo hhi
    exact ⟨a, l, last, rfl, h, Within.same l s e, hsl, by omega, hp, hlo,
      fun t x h1 h2 hx => hhi t x h1 (by omega) hx⟩
  | succ n ih =>
    intro i last a l h hsmall he hn hsl hli hp hlo hhi
    have hi : i < l.length := by omega
    have hinc : int_incr i = some (i + 1) := int_incr_of_lt (by omega)
    have hgi : l[i]? = some l[i] := List.getElem?_eq_getElem hi
    simp only [quick_sort_partition, h.read_lt hi, Option.bind_eq_bind, Option.some_bind]
    by_cases hlt : l[i] < pivot
    · have hl1 : last + 1 < l.length := by omega
      have hgl : l[last + 1]? = some l[last + 1] := List.getElem?_eq_getElem hl1
      obtain ⟨a1, hw1, h1a⟩ := h.write_lt hl1 l[i]
      obtain ⟨a2, hw2, h2a⟩ := h1a.write_lt (by rw [List.length_set]; exact hi) l[last + 1]
      have hget := getElem?_swap l (last + 1) i l[last + 1] l[i] hl1 hi
      simp only [hlt, if_true, h.read_lt hl1, hw1, hw2, hinc, Option.bind_eq_bind,
        Option.some_bind]
      obtain ⟨a3, l3, last3, hrec, h3, hw3, hs3, he3, hp3, hlo3, hhi3⟩ :=
        ih (i + 1) (last + 1) a2 _ h2a (by simpa using hsmall) (by simpa using he) (by omega)
          (by omega) (by omega)
          (by
            rw [hget]
            have h1 : s ≠ i := by omega
            have h2 : s ≠ last + 1 := by omega
            simpa [h1, h2] using hp)
          (by
            intro t x hst htl hx
            rw [hget] at hx
            by_cases h1 : t = i
            · subst h1
              have : last + 1 = t := by omega
              simp only [if_true, Option.some.injEq] at hx
              subst hx
              simpa [this] using hlt
            · by_cases h2 : t = last + 1
              · subst h2
                simp only [h1, if_false, if_true, Option.some.injEq] at hx
                subst hx
                exact hlt
              · simp only [h1, h2, if_false] at hx
                exact hlo t x hst (by omega) hx)
          (by
            intro t x hlt1 hti hx
            rw [hget] at hx
            by_cases h1 : t = i
            · subst h1
              simp only [if_true, Option.some.injEq] at hx
              subst hx
              exact hhi (last + 1) _ (by omega) (by omega) hgl
            · have h2 : t ≠ last + 1 := by omega
              simp only [h1, h2, if_false] at hx
              exact hhi t x (by omega) (by omega) hx)
      exact ⟨a3, l3, last3, hrec, h3,
        (Within.exchange hgl hgi (by omega) (by omega) (by omega) (by omega)).then hw3,
        by omega, he3, hp3, hlo3, hhi3⟩
    · simp only [hlt, if_false, hinc, Option.bind_eq_bind, Option.some_bind]
      exact ih (i + 1) last a l h hsmall he (by omega) hsl (by omega) hp hlo (by
        intro t x h1 h2 hx
        by_cases hti : t = i
        · subst hti
          rw [hgi] at hx
          cases hx
          exact hlt
        · exact hhi t x h1 (by omega) hx)

end ArrayList

namespace ArrayList

variable {T : Type} [LinearOrder T]

theorem SortedOn.trivial (l : List T) {s e : Nat} (h : e ≤ s) : SortedOn l s e := by
  intro i j x y hsi hij hje hx hy
  have h1 : i = j := by omega
  subst h1
  rw [hx] at hy
  cases hy
  exact le_refl _

/-- The helper `quick_sort(start, end)` sorts the items at the positions
`start, ..., end` and leaves the other positions as they are. -/
theorem quick_sort_range_spec (fuel : Nat) : ∀ (a : ArrayList T) (l : List T) (s e : Nat),
    a.Holds l → l.length ≤ INT_MAX → e < l.length → e - s ≤ fuel →
    ∃ a1 l1, quick_sort_range fuel a s e = some a1 ∧ a1.Holds l1 ∧ Within l l1 s e ∧
      SortedOn l1 s e := by
  induction fuel with
  | zero =>
    intro a l s e h hsmall he hf
    have hse : ¬ s < e := by omega
    exact ⟨a, l, by simp [quick_sort_range, hse], h, Within.same l s e,
      SortedOn.trivial l (by omega)⟩
  | succ fuel ih =>
    intro a l s e h hsmall he hf
    by_cases hse : s < e
    swap
    · exact ⟨a, l, by simp [quick_sort_range, hse], h, Within.same l s e,
        SortedOn.trivial l (by omega)⟩
    have hs : s < l.length := by omega
    have hgs : l[s]? = some l[s] := List.getElem?_eq_getElem hs
    -- the partition loop
    obtain ⟨a1, l1, last, hpart, h1, hw1, hsl, hle, hp1, hlo1, hhi1⟩ :=
      quick_sort_partition_spec l[s] s e (e - s) (s + 1) s a l h hsmall he (by omega) (le_refl _)
        (by omega) hgs (fun t x h1 h2 _ => absurd h2 (by omega))
        (fun t x h1 h2 _ => absurd h2 (by omega))
    have hlen1 : l1.length = l.length := hw1.length
    have hlast : last < l1.length := by omega
    have hs1 : s < l1.length := by omega
    have hgl : l1[last]? = some l1[last] := List.getElem?_eq_getElem hlast
    -- the pivot goes between the two partitions
    obtain ⟨a2, hwr1, h2a⟩ := h1.write_lt hs1 l1[last]
    obtain ⟨a3, hwr2, h3a⟩ := h2a.write_lt (by rw [List.length_set]; exact hlast) l[s]
    have hget := getElem?_swap l1 s last l[s] l1[last] hs1 hlast
    have hw2 : Within l1 ((l1.set s l1[last]).set last l[s]) s e :=
      Within.exchange hp1 hgl (le_refl _) (by omega) hsl hle
    generalize hl2 : (l1.set s l1[last]).set last l[s] = l2 at h3a hget hw2
    have hlen2 : l2.length = l.length := hw2.length.trans hlen1
    have hpiv2 : l2[last]? = some l[s] := by rw [hget]; simp
    have hlo2 : ∀ t x, s ≤ t → t < last → l2[t]? = some x → x < l[s] := by
      intro t x hst htl hx
      rw [hget] at hx
      have h1 : t ≠ last := by omega
      by_cases h2 : t = s
      · subst h2
        simp only [h1, if_false, if_true, Option.some.injEq] at hx
        subst hx
        exact hlo1 last _ (by omega) (le_refl _) hgl
      · simp only [h1, h2, if_false] at hx
        exact hlo1 t x (by omega) (by omega) hx
    have hhi2 : ∀ t x, last < t → t ≤ e → l2[t]? = some x → l[s] ≤ x := by
      intro t x hlt hte hx
      rw [hget] at hx
      have h1 : t ≠ last := by omega
      have h2 : t ≠ s := by omega
      simp only [h1, h2, if_false] at hx
      exact not_lt.mp (hhi1 t x hlt hte hx)
    -- the left partition
    obtain ⟨a4, l4, hq1, h4, hw4, hs4⟩ : ∃ a4 l4,
        (if last > s then quick_sort_range fuel a3 s (last - 1) else pure a3) = some a4 ∧
        a4.Holds l4 ∧ Within l2 l4 s (last - 1) ∧ SortedOn l4 s (last - 1) := by
      by_cases hls : last > s
      · simp only [hls, if_true]
        exact ih a3 l2 s (last - 1) h3a (by omega) (by omega) (by omega)
      · simp only [hls, if_false]
        exact ⟨a3, l2, rfl, h3a, Within.same _ _ _, SortedOn.trivial l2 (by omega)⟩
    have hlen4 : l4.length = l.length := hw4.length.trans hlen2
    -- the right partition
    obtain ⟨a5, l5, hq2, h5, hw5, hs5⟩ : ∃ a5 l5,
        (if last < e then quick_sort_range fuel a4 (last + 1) e else pure a4) = some a5 ∧
        a5.Holds l5 ∧ Within l4 l5 (last + 1) e ∧ SortedOn l5 (last + 1) e := by
      by_cases hle1 : last < e
      · simp only [hle1, if_true]
        exact ih a4 l4 (last + 1) e h4 (by omega) (by omega) (by omega)
      · simp only [hle1, if_false]
        exact ⟨a4, l4, rfl, h4, Within.same _ _ _, SortedOn.trivial l4 (by omega)⟩
    refine ⟨a5, l5, ?_, h5, ?_, ?_⟩
    · simp only [quick_sort_range, hse, if_true, h.read_lt hs,
        int_of_size_t_of_le (show s + 1 ≤ INT_MAX by omega), hpart, h1.read_lt hlast, hwr1,
        hwr2, Option.bind_eq_bind, Option.some_bind]
      by_cases hls : last > s
      · simp only [hls, if_true] at hq1 ⊢
        rw [hq1]
        exact hq2
      · simp only [hls, if_false] at hq1 ⊢
        rw [hq1]
        exact hq2
    · by_cases hls : last > s
      · exact ((hw1.then hw2).then (hw4.widen (le_refl _) (by omega))).then
          (hw5.widen (by omega) (le_refl _))
      · have hw4' : Within l2 l4 s e := by
          have : last = s := by omega
          subst this
          exact ⟨hw4.perm, hw4.length, fun i hi => hw4.outside i (by omega), fun i x h1 h2 hx => by
            by_cases hi0 : i ≤ last - 1
            · obtain ⟨j, hj1, hj2, hj3⟩ := hw4.inside i x h1 hi0 hx
              exact ⟨j, hj1, by omega, hj3⟩
            · exact ⟨i, h1, h2, by rw [← hw4.outside i (by omega)]; exact hx⟩⟩
        exact ((hw1.then hw2).then hw4').then (hw5.widen (by omega) (le_refl _))
    · -- every item left of the pivot is smaller, every item right of it is not
      have hleft : ∀ t x, s ≤ t → t < last → l5[t]? = some x → x < l[s] := by
        intro t x hst htl hx
        rw [hw5.outside t (by omega)] at hx
        obtain ⟨j, hj1, hj2, hj3⟩ := hw4.inside t x hst (by omega) hx
        exact hlo2 j x hj1 (by omega) hj3
      have hmid : l5[last]? = some l[s] := by
        rw [hw5.outside last (by omega)]
        by_cases hls : last > s
        · rw [hw4.outside last (by omega)]
          exact hpiv2
        · have : last = s := by omega
          by_cases hs0 : s = 0
          · -- the range `0, ..., 0 - 1` is the single position 0
            subst this
            obtain ⟨j, hj1, hj2, hj3⟩ := hw4.inside last l4[last]
              (le_refl _) (by omega) (List.getElem?_eq_getElem (by omega))
            have hj : j = last := by omega
            subst hj
            rw [List.getElem?_eq_getElem (by omega), ← hpiv2, hj3]
          · rw [hw4.outside last (by omega)]
            exact hpiv2
      have hright : ∀ t x, last < t → t ≤ e → l5[t]? = some x → l[s] ≤ x := by
        intro t x hlt hte hx
        by_cases hle1 : last < e
        · obtain ⟨j, hj1, hj2, hj3⟩ := hw5.inside t x (by omega) hte hx
          by_cases hls : last > s
          · rw [hw4.outside j (by omega)] at hj3
            exact hhi2 j x (by omega) hj2 hj3
          · by_cases hs0 : s = 0
            · have hl0 : last = 0 := by omega
              rw [hl0] at hw4
              rw [hw4.outside j (by omega)] at hj3
              exact hhi2 j x (by omega) hj2 hj3
            · rw [hw4.outside j (by omega)] at hj3
              exact hhi2 j x (by omega) hj2 hj3
        · omega
      intro i j x y hsi hij hje hx hy
      by_cases hjl : j < last
      · have hx' := hx
        have hy' := hy
        rw [hw5.outside i (by omega)] at hx'
        rw [hw5.outside j (by omega)] at hy'
        exact hs4 i j x y hsi hij (by omega) hx' hy'
      · by_cases hil : i < last
        · have hxl := hleft i x hsi hil hx
          by_cases hjeq : j = last
          · subst hjeq
            rw [hmid] at hy
            cases hy
            exact le_of_lt hxl
          · exact le_trans (le_of_lt hxl) (hright j y (by omega) hje hy)
        · by_cases hieq : i = last
          · subst hieq
            rw [hmid] at hx
            cases hx
            by_cases hjeq : j = i
            · subst hjeq
              rw [hmid] at hy
              cases hy
              exact le_refl _
            · exact hright j y (by omega) hje hy
          · exact hs5 i j x y (by omega) hij hje hx hy

/-- The list after `quick_sort()` holds the items in non-decreasing order, and
they are a permutation of the items before. -/
theorem quick_sort_spec (a : ArrayList T) (l : List T) (h : a.Holds l)
    (hsmall : l.length ≤ INT_MAX) :
    ∃ a1 l1, a.quick_sort = some a1 ∧ a1.Holds l1 ∧ l1.Perm l ∧ l1.Sorted (· ≤ ·) := by
  by_cases h1 : l.length > 1
  · obtain ⟨a1, l1, hq, h1a, hw, hs⟩ :=
      quick_sort_range_spec l.length a l 0 (l.length - 1) h hsmall (by omega) (by omega)
    refine ⟨a1, l1, ?_, h1a, hw.perm, sorted_of_sortedOn ?_⟩
    · simp only [quick_sort, h.length, h1, if_true]
      exact hq
    · rw [hw.length]
      exact hs
  · refine ⟨a, l, by simp [quick_sort, h.length, h1], h, List.Perm.refl _,
      sorted_of_sortedOn (SortedOn.trivial l (by omega))⟩

end ArrayList

/-! ### Sorted array collection: the range lookup -/

/-- C30: on the collection that holds only the key 1 the range lookup
`find(2, 3, out)` fills the empty `out` with `[1]`, a key below the range; on
the collection with the keys 1 and 2, `find(3, 6, out)` yields `[2]`; and with
the keys 3, 3, 4 stored, `find(3, 4, out)` yields `[3, 4]`, one 3 short. -/
theorem BinSearchCollection.find_range_emits_key_below :
    (∃ c r : _, (BinSearchCollection.add_all [(1, ())] : Option (BinSearchCollection Nat Unit))
        = some c ∧
      c.binsearch 2 = some (false, 0) ∧
      c.find_range 2 3 ArrayList.empty = some r ∧ r.to_list = [1]) ∧
    (∃ c r : _, (BinSearchCollection.add_all [(1, ()), (2, ())] :
        Option (BinSearchCollection Nat Unit)) = some c ∧
      c.find_range 3 6 ArrayList.empty = some r ∧ r.to_list = [2]) ∧
    (∃ c r : _, (BinSearchCollection.add_all [(3, ()), (3, ()), (4, ())] :
        Option (BinSearchCollection Nat Unit)) = some c ∧
      c.kv_list.to_list = [(3, ()), (3, ()), (4, ())] ∧
      c.find_range 3 4 ArrayList.empty = some r ∧ r.to_list = [3, 4]) := by
  refine ⟨⟨_, _, rfl, ?_, rfl, ?_⟩, ⟨_, _, rfl, rfl, ?_⟩, ⟨_, _, rfl, ?_, rfl, ?_⟩⟩ <;> decide

/-! ### Sorted array collection: `binsearch`, `add`, `find`, `keys` -/

namespace BinSearchCollection

variable {K V : Type} [LinearOrder K]

theorem keys_sorted_index {l : List (K × V)} (hs : (l.map Prod.fst).Sorted (· ≤ ·))
    {p q : Nat} {a b : K × V} (hpq : p ≤ q) (ha : l[p]? = some a) (hb : l[q]? = some b) :
    a.1 ≤ b.1 := by
  by_cases he : p = q
  · subst he
    rw [ha] at hb
    cases hb
    exact le_refl _
  · have hq : q < l.length := by
      by_contra hc
      rw [List.getElem?_eq_none (not_lt.mp hc)] at hb
      cases hb
    have hp : p < l.length := by omega
    rw [List.Sorted, List.pairwise_iff_getElem] at hs
    have := hs p q (by simpa using hp) (by simpa using hq) (by omega)
    simp only [List.getElem_map] at this
    rw [List.getElem?_eq_getElem hp] at ha
    rw [List.getElem?_eq_getElem hq] at hb
    cases ha
    cases hb
    exact this

variable [Inhabited K] [Inhabited V]

/-- The loop of `binsearch` on a sorted list: it ends, and it reports the index
of a pair with the key or an index next to which the key belongs. -/
theorem binsearch_loop_spec {c : BinSearchCollection K V} {l : List (K × V)}
    (h : c.kv_list.Holds l) (hs : (l.map Prod.fst).Sorted (· ≤ ·))
    (hlen : l.length * 2 < SIZE_T_MOD) (key : K) (fuel : Nat) :
    ∀ (start finish mid : Nat), finish < l.length → finish + 1 - start ≤ fuel →
    (∀ p kv, p < start → l[p]? = some kv → kv.1 < key) →
    (∀ p kv, finish < p → l[p]? = some kv → key < kv.1) →
    (finish < start → BelongsBefore l key mid ∨ BelongsAfter l key mid) →
    ∃ r, c.binsearch_loop key fuel start finish mid = some r ∧ Answer l key r := by
  induction fuel with
  | zero =>
    intro start finish mid hf hfuel hA hB hdone
    have hsf : ¬ start ≤ finish := by omega
    exact ⟨(false, mid), by simp [binsearch_loop, hsf], by
      simpa [Answer] using hdone (by omega)⟩
  | succ fuel ih =>
    intro start finish mid hf hfuel hA hB hdone
    by_cases hsf : start ≤ finish
    swap
    · exact ⟨(false, mid), by simp [binsearch_loop, hsf], by
        simpa [Answer] using hdone (by omega)⟩
    have hmod : (finish + start) % SIZE_T_MOD = finish + start :=
      Nat.mod_eq_of_lt (by omega)
    have hm1 : start ≤ (finish + start) / 2 := by omega
    have hm2 : (finish + start) / 2 ≤ finish := by omega
    generalize hm : (finish + start) / 2 = m at hm1 hm2
    have hml : m < l.length := by omega
    have hgm : l[m]? = some l[m] := List.getElem?_eq_getElem hml
    have hget : c.kv_list.get m default = some (true, l[m]) := by
      rw [h.get m default]
      simp [hml, List.getD_eq_getElem _ _ hml]
    simp only [binsearch_loop, hsf, if_true, hmod, hm, hget, Option.some_bind]
    by_cases heq : key = l[m].1
    · exact ⟨(true, m), by simp [heq], by
        simp only [Answer, if_true]
        exact ⟨l[m], hgm, heq.symm⟩⟩
    simp only [heq, if_false]
    by_cases hlt : key < l[m].1
    · have hgt : ¬ key > l[m].1 := fun h => absurd hlt (not_lt.mpr (le_of_lt h))
      have hBm : ∀ p kv, m ≤ p → l[p]? = some kv → key < kv.1 := fun p kv hp hkv =>
        lt_of_lt_of_le hlt (keys_sorted_index hs hp hgm hkv)
      by_cases hm0 : m = 0
      · have hc : key < l[m].1 ∧ m = 0 := ⟨hlt, hm0⟩
        rw [if_pos hc]
        refine ⟨(false, m), rfl, ?_⟩
        simp only [Answer, Bool.false_eq_true, if_false]
        exact Or.inl ⟨l[m], hgm, hlt, fun p kv hp _ => absurd hp (by omega)⟩
      · have hne : ¬ (key < l[m].1 ∧ m = 0) := fun h => hm0 h.2
        rw [if_neg hne, if_neg hgt, if_pos hlt]
        exact ih start (m - 1) m (by omega) (by omega) hA
          (fun p kv hp hkv => hBm p kv (by omega) hkv)
          (fun hd => Or.inl ⟨l[m], hgm, hlt, fun p kv hp hkv => hA p kv (by omega) hkv⟩)
    · have hgt : key > l[m].1 := lt_of_le_of_ne (not_lt.mp hlt) (fun e => heq e.symm)
      have hne : ¬ (key < l[m].1 ∧ m = 0) := fun h => hlt h.1
      have hAm : ∀ p kv, p ≤ m → l[p]? = some kv → kv.1 < key := fun p kv hp hkv =>
        lt_of_le_of_lt (keys_sorted_index hs hp hkv hgm) hgt
      rw [if_neg hne, if_pos hgt, if_neg hlt]
      exact ih (m + 1) finish m hf (by omega)
        (fun p kv hp hkv => hAm p kv (by omega) hkv) hB
        (fun hd => Or.inr ⟨l[m], hgm, hgt, fun p kv hp hkv => hB p kv (by omega) hkv⟩)

/-- The answer of `binsearch` on a sorted list. -/
theorem binsearch_spec {c : BinSearchCollection K V} {l : List (K × V)}
    (h : c.kv_list.Holds l) (hs : (l.map Prod.fst).Sorted (· ≤ ·))
    (hlen : l.length * 2 < SIZE_T_MOD) (key : K) :
    (l = [] → c.binsearch key = some (false, 0)) ∧
    (l ≠ [] → ∃ r, c.binsearch key = some r ∧ Answer l key r) := by
  constructor
  · intro hl
    subst hl
    simp [binsearch, size, ArrayList.size, h.length]
  · intro hl
    have hpos : 0 < l.length := List.length_pos.mpr hl
    have hsz : c.size = l.length := h.length
    simp only [binsearch, hsz, hpos, gt_iff_lt, if_true]
    exact binsearch_loop_spec h hs hlen key l.length 0 (l.length - 1) 0 (by omega) (by omega)
      (fun p kv hp _ => absurd hp (by omega))
      (fun p kv hp hkv => by
        have : p < l.length := by
          by_contra hc
          rw [List.getElem?_eq_none (not_lt.mp hc)] at hkv
          cases hkv
        omega)
      (fun hd => absurd hd (by omega))

end BinSearchCollection

namespace BinSearchCollection

variable {K V : Type} [LinearOrder K]

/-- A pair put at a position with no greater key before and no smaller key
after keeps the keys sorted. -/
theorem insert_keys_sorted {l : List (K × V)} (hs : (l.map Prod.fst).Sorted (· ≤ ·))
    (key : K) (val : V) (k : Nat)
    (hA : ∀ p kv, p < k → l[p]? = some kv → kv.1 ≤ key)
    (hB : ∀ p kv, k ≤ p → l[p]? = some kv → key ≤ kv.1) :
    ((l.take k ++ (key, val) :: l.drop k).map Prod.fst).Sorted (· ≤ ·) := by
  have hsplit : (l.take k ++ l.drop k).map Prod.fst = l.map Prod.fst := by
    rw [List.take_append_drop]
  rw [List.map_append] at hsplit
  rw [← hsplit] at hs
  have hp := List.pairwise_append.mp hs
  rw [List.map_append, List.map_cons]
  refine List.pairwise_append.mpr ⟨hp.1, List.pairwise_cons.mpr ⟨?_, hp.2.1⟩, ?_⟩
  · intro b hb
    obtain ⟨kv, hkv, rfl⟩ := List.mem_map.mp hb
    obtain ⟨i, hi, hget⟩ := List.getElem_of_mem hkv
    have h1 : l[k + i]? = some kv := by
      rw [← List.getElem?_drop, List.getElem?_eq_getElem hi, hget]
    exact hB (k + i) kv (by omega) h1
  · intro a ha b hb
    have hak : a ≤ key := by
      obtain ⟨kv, hkv, rfl⟩ := List.mem_map.mp ha
      obtain ⟨i, hi, hget⟩ := List.getElem_of_mem hkv
      have hik : i < k := by
        rw [List.length_take] at hi
        omega
      have h1 : l[i]? = some kv := by
        rw [← hget, List.getElem_take, List.getElem?_eq_getElem]
      exact hA i kv hik h1
    rcases List.mem_cons.mp hb with rfl | hb
    · exact hak
    · exact hp.2.2 a ha b hb

theorem insert_perm (l : List (K × V)) (x : K × V) (k : Nat) :
    (l.take k ++ x :: l.drop k).Perm (x :: l) := by
  have := @List.perm_middle _ x (l.take k) (l.drop k)
  rwa [List.take_append_drop] at this

variable [Inhabited K] [Inhabited V]

/-- The call `add(key, val)` on a collection whose list holds `l` with sorted
keys: the list then holds `l` with the pair put in, its keys still sorted. -/
theorem add_spec {c : BinSearchCollection K V} {l : List (K × V)}
    (h : c.kv_list.Holds l) (hs : (l.map Prod.fst).Sorted (· ≤ ·))
    (hlen : l.length ≤ INT_MAX) (key : K) (val : V) :
    ∃ c1 l1, c.add key val = some c1 ∧ c1.kv_list.Holds l1 ∧
      l1.Perm ((key, val) :: l) ∧ (l1.map Prod.fst).Sorted (· ≤ ·) := by
  have hsz : c.size = l.length := h.length
  have hb := ArrayList.INT_MAX_lt_size_t
  by_cases hl : l = []
  · subst hl
    obtain ⟨a1, ha1, h1⟩ := h.add hlen (key, val)
    refine ⟨⟨a1⟩, [(key, val)], ?_, by simpa using h1, List.Perm.refl _, by simp⟩
    rw [add, (binsearch_spec h hs (by omega) key).1 rfl]
    simp [hsz, ha1]
  · obtain ⟨r, hr, hans⟩ := (binsearch_spec h hs (by omega) key).2 hl
    have hne : ¬ c.size = 0 := by
      rw [hsz]
      exact fun e => hl (List.length_eq_zero.mp e)
    have key_step : ∀ (kv : K × V) (k : Nat), l[r.2]? = some kv →
        k = (if kv.1 > key then r.2 else r.2 + 1) →
        (∀ p kv1, p < k → l[p]? = some kv1 → kv1.1 ≤ key) →
        (∀ p kv1, k ≤ p → l[p]? = some kv1 → key ≤ kv1.1) →
        ∃ c1 l1, c.add key val = some c1 ∧ c1.kv_list.Holds l1 ∧
          l1.Perm ((key, val) :: l) ∧ (l1.map Prod.fst).Sorted (· ≤ ·) := by
      intro kv k hkv hk hA hB
      have hidx : r.2 < l.length := by
        by_contra hc
        rw [List.getElem?_eq_none (not_lt.mp hc)] at hkv
        cases hkv
      have hget : c.kv_list.get r.2 default = some (true, kv) := by
        rw [h.get r.2 default]
        rw [List.getElem?_eq_getElem hidx] at hkv
        cases hkv
        simp [hidx, List.getD_eq_getElem _ _ hidx]
      have hkl : k ≤ l.length := by
        rw [hk]
        split <;> omega
      obtain ⟨a1, ha1, h1⟩ := (h.add_at hlen k (key, val)).1 hkl
      refine ⟨⟨a1⟩, _, ?_, h1, insert_perm l _ k, insert_keys_sorted hs key val k hA hB⟩
      rw [add, hr]
      simp only [Option.some_bind, hne, if_false, hget]
      by_cases hgt : kv.1 > key
      · rw [if_pos hgt] at hk
        subst hk
        simp [hgt, ha1]
      · rw [if_neg hgt] at hk
        subst hk
        simp [hgt, ha1]
    unfold Answer at hans
    by_cases hfound : r.1 = true
    · rw [if_pos hfound] at hans
      obtain ⟨kv, hkv, hk⟩ := hans
      have hgt : ¬ kv.1 > key := by
        rw [hk]
        exact lt_irrefl _
      refine key_step kv (r.2 + 1) hkv (by rw [if_neg hgt]) ?_ ?_
      · intro p kv1 hp hkv1
        rw [← hk]
        exact keys_sorted_index hs (by omega) hkv1 hkv
      · intro p kv1 hp hkv1
        rw [← hk]
        exact keys_sorted_index hs (by omega) hkv hkv1
    · rw [if_neg hfound] at hans
      rcases hans with ⟨kv, hkv, hk, hbefore⟩ | ⟨kv, hkv, hk, hafter⟩
      · refine key_step kv r.2 hkv (by rw [if_pos hk]) ?_ ?_
        · intro p kv1 hp hkv1
          exact le_of_lt (hbefore p kv1 hp hkv1)
        · intro p kv1 hp hkv1
          exact le_of_lt (lt_of_lt_of_le hk (keys_sorted_index hs hp hkv hkv1))
      · have hgt : ¬ kv.1 > key := fun hc => absurd hk (not_lt.mpr (le_of_lt hc))
        refine key_step kv (r.2 + 1) hkv (by rw [if_neg hgt]) ?_ ?_
        · intro p kv1 hp hkv1
          exact le_of_lt (lt_of_le_of_lt (keys_sorted_index hs (by omega) hkv1 hkv) hk)
        · intro p kv1 hp hkv1
          exact le_of_lt (hafter p kv1 (by omega) hkv1)

/-- A run of `add` calls on a collection whose list holds `l` with sorted keys. -/
theorem add_list_spec (kvs : List (K × V)) :
    ∀ {c : BinSearchCollection K V} {l : List (K × V)}, c.kv_list.Holds l →
    (l.map Prod.fst).Sorted (· ≤ ·) → l.length + kvs.length ≤ INT_MAX →
    ∃ c1 l1, kvs.foldlM (fun c kv => c.add kv.1 kv.2) c = some c1 ∧ c1.kv_list.Holds l1 ∧
      l1.Perm (l ++ kvs) ∧ (l1.map Prod.fst).Sorted (· ≤ ·) := by
  induction kvs with
  | nil =>
    intro c l h hs _
    exact ⟨c, l, rfl, h, by simp, hs⟩
  | cons kv kvs ih =>
    intro c l h hs hlen
    simp only [List.length_cons] at hlen
    obtain ⟨c1, l1, hc1, h1, hp1, hs1⟩ := add_spec h hs (by omega) kv.1 kv.2
    have hl1 : l1.length = l.length + 1 := by
      simpa using hp1.length_eq
    obtain ⟨c2, l2, hc2, h2, hp2, hs2⟩ := ih h1 hs1 (by omega)
    refine ⟨c2, l2, ?_, h2, ?_, hs2⟩
    · rw [List.foldlM_cons, hc1]
      exact hc2
    · refine hp2.trans ?_
      have : (l1 ++ kvs).Perm (((kv.1, kv.2) :: l) ++ kvs) := hp1.append_right kvs
      refine this.trans ?_
      simp only [Prod.mk.eta, List.cons_append]
      exact (List.perm_middle).symm

/-- The collection built by `add` calls: its list holds the added pairs, in
the order of their keys. -/
theorem add_all_spec (kvs : List (K × V)) (hlen : kvs.length ≤ INT_MAX) :
    ∃ c l, add_all kvs = some c ∧ c.kv_list.Holds l ∧
      l.Perm kvs ∧ (l.map Prod.fst).Sorted (· ≤ ·) := by
  obtain ⟨c, l, hc, h, hp, hs⟩ := add_list_spec kvs (c := empty) (l := [])
    ArrayList.Holds.of_empty (by simp) (by simpa using hlen)
  exact ⟨c, l, hc, h, by simpa using hp, hs⟩

end BinSearchCollection

namespace BinSearchCollection

variable {K V : Type} [LinearOrder K]

variable [Inhabited K] [Inhabited V]

/-- The loop of `keys` appends the keys of the pairs from index `i` on. -/
theorem keys_loop_spec {c : BinSearchCollection K V} {l : List (K × V)}
    (h : c.kv_list.Holds l) (n : Nat) :
    ∀ (i : Nat) {out : ArrayList K} {o : List K}, out.Holds o → i + n = l.length →
    l.length ≤ INT_MAX → o.length + n ≤ INT_MAX →
    ∃ out1, c.keys_loop n i out = some out1 ∧ out1.Holds (o ++ (l.drop i).map Prod.fst) := by
  induction n with
  | zero =>
    intro i out o ho hi _ _
    refine ⟨out, rfl, ?_⟩
    rw [List.drop_of_length_le (by omega)]
    simpa using ho
  | succ n ih =>
    intro i out o ho hi hsmall hlen
    have hil : i < l.length := by omega
    have hinc : int_incr i = some (i + 1) := ArrayList.int_incr_of_lt (by omega)
    have hget : c.kv_list.get i default = some (true, l[i]) := by
      rw [h.get i default]
      simp [hil, List.getD_eq_getElem _ _ hil]
    obtain ⟨out1, hadd, h1⟩ := ho.add (by omega) l[i].1
    obtain ⟨out2, hrest, h2⟩ := ih (i + 1) h1 (by omega) hsmall (by simp; omega)
    refine ⟨out2, ?_, ?_⟩
    · simp only [keys_loop, hget, Option.some_bind, hadd, hinc]
      exact hrest
    · rw [List.drop_eq_getElem_cons hil, List.map_cons]
      rw [List.append_assoc] at h2
      exact h2

/-- The call `keys(all_keys)` appends the keys of all pairs, in list order. -/
theorem keys_spec {c : BinSearchCollection K V} {l : List (K × V)}
    (h : c.kv_list.Holds l) {out : ArrayList K} {o : List K} (ho : out.Holds o)
    (hlen : o.length + l.length ≤ INT_MAX) :
    ∃ out1, c.keys out = some out1 ∧ out1.Holds (o ++ l.map Prod.fst) := by
  have hsz : c.size = l.length := h.length
  obtain ⟨out1, h1, h2⟩ := keys_loop_spec h l.length 0 ho (by omega) (by omega) hlen
  exact ⟨out1, by rw [keys, hsz]; exact h1, by simpa using h2⟩

end BinSearchCollection

namespace ArrayListCollection

variable {K V : Type}

/-- A run of `add` calls appends the pairs in order. -/
theorem add_list_holds (kvs : List (K × V)) :
    ∀ {c : ArrayListCollection K V} {l : List (K × V)}, c.kv_list.Holds l →
    l.length + kvs.length ≤ INT_MAX →
    ∃ c1, kvs.foldlM (fun c kv => c.add kv.1 kv.2) c = some c1 ∧
      c1.kv_list.Holds (l ++ kvs) := by
  induction kvs with
  | nil =>
    intro c l h _
    exact ⟨c, rfl, by simpa using h⟩
  | cons kv kvs ih =>
    intro c l h hlen
    simp only [List.length_cons] at hlen
    obtain ⟨a1, ha1, h1⟩ := h.add (by omega) (kv.1, kv.2)
    obtain ⟨c2, hc2, h2⟩ := ih (c := ⟨a1⟩) h1 (by simp; omega)
    refine ⟨c2, ?_, by simpa using h2⟩
    rw [List.foldlM_cons, add, ha1]
    exact hc2

theorem add_all_holds (kvs : List (K × V)) (hlen : kvs.length ≤ INT_MAX) :
    ∃ c, add_all kvs = some c ∧ c.kv_list.Holds kvs := by
  obtain ⟨c, hc, h⟩ := add_list_holds kvs (c := empty) (l := []) ArrayList.Holds.of_empty
    (by simpa using hlen)
  exact ⟨c, hc, by simpa using h⟩

/-- The loop of `keys` appends the keys of the pairs from index `i` on. -/
theorem keys_loop_appends {c : ArrayListCollection K V} {l : List (K × V)}
    (h : c.kv_list.Holds l) (n : Nat) :
    ∀ (i : Nat) (item : K × V) {out : ArrayList K} {o : List K}, out.Holds o →
    i + n = l.length → l.length ≤ INT_MAX → o.length + n ≤ INT_MAX →
    ∃ out1, c.keys_loop n i item out = some out1 ∧
      out1.Holds (o ++ (l.drop i).map Prod.fst) := by
  induction n with
  | zero =>
    intro i item out o ho hi _ _
    refine ⟨out, rfl, ?_⟩
    rw [List.drop_of_length_le (by omega)]
    simpa using ho
  | succ n ih =>
    intro i item out o ho hi hsmall hlen
    have hil : i < l.length := by omega
    have hinc : int_incr i = some (i + 1) := ArrayList.int_incr_of_lt (by omega)
    have hget : c.kv_list.get i item = some (true, l[i]) := by
      rw [h.get i item]
      simp [hil, List.getD_eq_getElem _ _ hil]
    obtain ⟨out1, hadd, h1⟩ := ho.add (by omega) l[i].1
    obtain ⟨out2, hrest, h2⟩ := ih (i + 1) l[i] h1 (by omega) hsmall (by simp; omega)
    refine ⟨out2, ?_, ?_⟩
    · simp only [keys_loop, hget, Option.some_bind, hadd, hinc]
      exact hrest
    · rw [List.drop_eq_getElem_cons hil, List.map_cons]
      rw [List.append_assoc] at h2
      exact h2

/-- The call `sort(all_keys_sorted)` leaves the keys of all pairs, and what the
list held before, in ascending order. -/
theorem sort_keys_spec [LinearOrder K] [Inhabited K] [Inhabited V] {c : ArrayListCollection K V}
    {l : List (K × V)} (h : c.kv_list.Holds l) {out : ArrayList K} {o : List K}
    (ho : out.Holds o) (hlen : o.length + l.length ≤ INT_MAX) :
    ∃ out1 l1, c.sort out = some out1 ∧ out1.Holds l1 ∧ l1.Perm (o ++ l.map Prod.fst) ∧
      l1.Sorted (· ≤ ·) := by
  have hsz : c.size = l.length := h.length
  obtain ⟨out1, h1, h2⟩ := keys_loop_appends h l.length 0 default ho (by omega) (by omega) hlen
  simp only [List.drop_zero] at h2
  obtain ⟨out2, l2, hq, hh, hp, hsd⟩ := ArrayList.quick_sort_spec out1 _ h2
    (by simpa using hlen)
  refine ⟨out2, l2, ?_, hh, hp, hsd⟩
  rw [sort, keys, hsz, h1]
  exact hq

end ArrayListCollection

namespace HashTableCollection

variable {K V : Type}

theorem chain_keys_spec (chain : List (K × V)) :
    ∀ {out : ArrayList K} {o : List K}, out.Holds o → o.length + chain.length ≤ INT_MAX →
    ∃ out1, chain_keys chain out = some out1 ∧ out1.Holds (o ++ chain.map Prod.fst) := by
  induction chain with
  | nil =>
    intro out o ho _
    exact ⟨out, rfl, by simpa using ho⟩
  | cons kv rest ih =>
    intro out o ho hlen
    simp only [List.length_cons] at hlen
    obtain ⟨out1, hadd, h1⟩ := ho.add (by omega) kv.1
    obtain ⟨out2, hrest, h2⟩ := ih h1 (by simp; omega)
    refine ⟨out2, ?_, by simpa using h2⟩
    simp only [chain_keys, hadd, Option.some_bind]
    exact hrest

/-- The loop of `keys` appends the keys of the chains from index `i` on. -/
theorem keys_loop_chains (c : HashTableCollection K V) (n : Nat) :
    ∀ (i : Nat) {out : ArrayList K} {o : List K}, out.Holds o →
    i + n = c.hash_table.length → c.hash_table.length ≤ INT_MAX →
    o.length + (c.hash_table.drop i).flatten.length ≤ INT_MAX →
    ∃ out1, c.keys_loop n i out = some out1 ∧
      out1.Holds (o ++ (c.hash_table.drop i).flatten.map Prod.fst) := by
  induction n with
  | zero =>
    intro i out o ho hi _ _
    refine ⟨out, rfl, ?_⟩
    rw [List.drop_of_length_le (by omega)]
    simpa using ho
  | succ n ih =>
    intro i out o ho hi hsmall hlen
    have hil : i < c.hash_table.length := by omega
    have hinc : int_incr i = some (i + 1) := ArrayList.int_incr_of_lt (by omega)
    rw [List.drop_eq_getElem_cons hil] at hlen ⊢
    simp only [List.flatten_cons, List.length_append, List.map_append] at hlen ⊢
    obtain ⟨out1, hch, h1⟩ := chain_keys_spec c.hash_table[i] ho (by omega)
    obtain ⟨out2, hrest, h2⟩ := ih (i + 1) h1 (by omega) hsmall
      (by rw [List.length_append, List.length_map]; omega)
    rw [List.append_assoc] at h2
    refine ⟨out2, ?_, h2⟩
    simp only [keys_loop, List.getElem?_eq_getElem hil, Option.some_bind, hch, hinc]
    exact hrest

/-- The call `sort(all_keys_sorted)` leaves the keys of all pairs, and what the
list held before, in ascending order. -/
theorem sort_chains_spec [LinearOrder K] (c : HashTableCollection K V)
    (hc : c.hash_table.length = c.capacity) (hcap : c.capacity ≤ INT_MAX)
    {out : ArrayList K} {o : List K}
    (ho : out.Holds o) (hlen : o.length + c.pairs.length ≤ INT_MAX) :
    ∃ out1 l1, c.sort out = some out1 ∧ out1.Holds l1 ∧
      l1.Perm (o ++ c.pairs.map Prod.fst) ∧ l1.Sorted (· ≤ ·) := by
  obtain ⟨out1, h1, h2⟩ := keys_loop_chains c c.hash_table.length 0 ho (by omega)
    (by omega) (by simpa [pairs] using hlen)
  simp only [List.drop_zero] at h2
  obtain ⟨out2, l2, hq, hh, hp, hsd⟩ := ArrayList.quick_sort_spec out1 _ h2
    (by rw [List.length_append, List.length_map]; exact hlen)
  refine ⟨out2, l2, ?_, hh, hp, hsd⟩
  rw [sort, keys, ← hc, h1]
  exact hq

end HashTableCollection

/-! ### The `int` counters past `INT_MAX` -/

namespace ArrayList

variable {T : Type}

theorem int_incr_none {i : Nat} (h : INT_MAX ≤ i) : int_incr i = none := by
  simp [int_incr, Nat.not_lt.mpr h]

theorem int_of_size_t_none {n : Nat} (h : INT_MAX < n) : int_of_size_t n = none := by
  simp [int_of_size_t, Nat.not_le.mpr h]

theorem int_incr_eq_some {i j : Nat} (h : int_incr i = some j) : i < INT_MAX ∧ j = i + 1 := by
  unfold int_incr at h
  split at h
  · rename_i hlt
    exact ⟨hlt, (Option.some.inj h).symm⟩
  · cases h

/-- The copy loop of `resize` has no result when its counter would have to be
incremented at `INT_MAX`. -/
theorem resize_loop_overflow (a : ArrayList T) (n : Nat) : ∀ (i : Nat) (tmp : ArrayList T),
    i ≤ INT_MAX → INT_MAX < i + n → resize_loop a n i tmp = none := by
  induction n with
  | zero =>
    intro i tmp h1 h2
    omega
  | succ n ih =>
    intro i tmp h1 h2
    rw [Option.eq_none_iff_forall_not_mem]
    intro r hr
    simp only [Option.mem_def, resize_loop, Option.bind_eq_bind, Option.bind_eq_some] at hr
    obtain ⟨x, -, tmp1, -, j, hj, hrec⟩ := hr
    obtain ⟨hlt, rfl⟩ := int_incr_eq_some hj
    rw [ih (i + 1) tmp1 (by omega) (by omega)] at hrec
    cases hrec

/-- On a list of more than `INT_MAX` items `resize()` has no result. -/
theorem resize_overflow (a : ArrayList T) (h : INT_MAX < a.length) : a.resize = none := by
  unfold resize
  exact resize_loop_overflow a a.length 0 _ (Nat.zero_le _) (by omega)

/-- On a list of more than `INT_MAX` items `add(index, item)` with an index
before the end has no result: the counter `int i = length` of the shifting loop
cannot hold the length. -/
theorem add_at_overflow (a : ArrayList T) (index : Nat) (x : T) (h : INT_MAX < a.length)
    (hi : index < a.length) : a.add_at index x = none := by
  have h1 : ¬ index > a.length := by omega
  have h2 : ¬ index = a.length := by omega
  simp only [add_at, h1, h2, if_false]
  by_cases hr : size_t_incr a.length > a.capacity
  · simp only [hr, if_true, resize_overflow a h, Option.none_bind]
  · simp only [hr, if_false, Option.some_bind, int_of_size_t_none h, Option.none_bind]

variable [LinearOrder T]

/-- The outer loop of `insertion_sort` has no result when its counter would have
to be incremented at `INT_MAX`. -/
theorem insertion_sort_loop_overflow (n : Nat) : ∀ (i sorted : Nat) (a : ArrayList T),
    i ≤ INT_MAX → INT_MAX < i + n → insertion_sort_loop n i sorted a = none := by
  induction n with
  | zero =>
    intro i sorted a h1 h2
    omega
  | succ n ih =>
    intro i sorted a h1 h2
    rw [Option.eq_none_iff_forall_not_mem]
    intro r hr
    simp only [Option.mem_def, insertion_sort_loop, Option.bind_eq_bind,
      Option.bind_eq_some] at hr
    obtain ⟨val, -, ⟨a1, v1⟩, -, s1, -, j, hj, hrec⟩ := hr
    obtain ⟨hlt, rfl⟩ := int_incr_eq_some hj
    rw [ih (i + 1) s1 a1 (by omega) (by omega)] at hrec
    cases hrec

/-- On a list of more than `INT_MAX` items `insertion_sort()` has no result. -/
theorem insertion_sort_overflow (a : ArrayList T) (h : INT_MAX < a.length) :
    a.insertion_sort = none := by
  unfold insertion_sort
  exact insertion_sort_loop_overflow (a.length - 1) 1 1 a (by unfold INT_MAX; omega) (by omega)

/-- The partition loop of `quick_sort` has no result when its counter would have
to be incremented at `INT_MAX`. -/
theorem quick_sort_partition_overflow (pivot : T) (n : Nat) : ∀ (i : Nat) (a : ArrayList T)
    (last_p1 : Nat), i ≤ INT_MAX → INT_MAX < i + n →
    quick_sort_partition pivot n i a last_p1 = none := by
  induction n with
  | zero =>
    intro i a last_p1 h1 h2
    omega
  | succ n ih =>
    intro i a last_p1 h1 h2
    rw [Option.eq_none_iff_forall_not_mem]
    intro r hr
    simp only [Option.mem_def, quick_sort_partition, Option.bind_eq_bind,
      Option.bind_eq_some] at hr
    obtain ⟨x, -, hr⟩ := hr
    split at hr
    · simp only [Option.bind_eq_some] at hr
      obtain ⟨tmp, -, a1, -, a2, -, j, hj, hrec⟩ := hr
      obtain ⟨hlt, rfl⟩ := int_incr_eq_some hj
      rw [ih (i + 1) a2 _ (by omega) (by omega)] at hrec
      cases hrec
    · simp only [Option.bind_eq_some] at hr
      obtain ⟨j, hj, hrec⟩ := hr
      obtain ⟨hlt, rfl⟩ := int_incr_eq_some hj
      rw [ih (i + 1) a _ (by omega) (by omega)] at hrec
      cases hrec

/-- On a list of more than `INT_MAX` items `quick_sort()`, and with it `sort()`,
has no result: the first partition loop runs its counter up to `length - 1`. -/
theorem quick_sort_overflow (a : ArrayList T) (h : INT_MAX < a.length) :
    a.quick_sort = none := by
  have h1 : a.length > 1 := by
    have : 0 < INT_MAX := by decide
    omega
  obtain ⟨f, hf⟩ : ∃ f, a.length = f + 1 := ⟨a.length - 1, by omega⟩
  have h0 : 0 < a.length - 1 := by omega
  simp only [quick_sort, h1, if_true]
  rw [hf, ← hf]
  rw [Option.eq_none_iff_forall_not_mem]
  intro r hr
  rw [Option.mem_def, hf] at hr
  rw [quick_sort_range, ← hf] at hr
  simp only [h0, if_true, Option.bind_eq_bind, Option.bind_eq_some] at hr
  obtain ⟨pivot, -, i, hi, ⟨a1, last_p1⟩, hp, -⟩ := hr
  have hi1 : i = 1 := by
    have : int_of_size_t (0 + 1) = some (0 + 1) := int_of_size_t_of_le (by decide)
    rw [this] at hi
    exact (Option.some.inj hi).symm
  subst hi1
  rw [quick_sort_partition_overflow pivot (a.length - 1 - 0) 1 a 0 (by decide) (by omega)] at hp
  cases hp

theorem sort_overflow (a : ArrayList T) (h : INT_MAX < a.length) : a.sort = none :=
  quick_sort_overflow a h

end ArrayList

namespace BinSearchCollection

variable {K V : Type} [LinearOrder K] [Inhabited K] [Inhabited V]

/-- The loop of `keys` has no result when its counter would have to be
incremented at `INT_MAX`. -/
theorem keys_loop_overflow (c : BinSearchCollection K V) (n : Nat) :
    ∀ (i : Nat) (out : ArrayList K), i ≤ INT_MAX → INT_MAX < i + n →
    c.keys_loop n i out = none := by
  induction n with
  | zero =>
    intro i out h1 h2
    omega
  | succ n ih =>
    intro i out h1 h2
    rw [Option.eq_none_iff_forall_not_mem]
    intro r hr
    simp only [Option.mem_def, keys_loop, Option.bind_eq_some] at hr
    obtain ⟨g, -, out1, -, j, hj, hrec⟩ := hr
    obtain ⟨hlt, rfl⟩ := ArrayList.int_incr_eq_some hj
    rw [ih (i + 1) out1 (by omega) (by omega)] at hrec
    cases hrec

/-- On a collection of more than `INT_MAX` pairs `keys()` has no result. -/
theorem keys_overflow (c : BinSearchCollection K V) (out : ArrayList K)
    (h : INT_MAX < c.size) : c.keys out = none :=
  keys_loop_overflow c c.size 0 out (Nat.zero_le _) (by omega)

end BinSearchCollection

namespace ArrayListCollection

variable {K V : Type}

/-- The loop of `keys` has no result when its counter would have to be
incremented at `INT_MAX`. -/
theorem keys_loop_overflows (c : ArrayListCollection K V) (n : Nat) :
    ∀ (i : Nat) (item : K × V) (out : ArrayList K), i ≤ INT_MAX → INT_MAX < i + n →
    c.keys_loop n i item out = none := by
  induction n with
  | zero =>
    intro i item out h1 h2
    omega
  | succ n ih =>
    intro i item out h1 h2
    rw [Option.eq_none_iff_forall_not_mem]
    intro r hr
    simp only [Option.mem_def, keys_loop, Option.bind_eq_some] at hr
    obtain ⟨g, -, out1, -, j, hj, hrec⟩ := hr
    obtain ⟨hlt, rfl⟩ := ArrayList.int_incr_eq_some hj
    rw [ih (i + 1) g.2 out1 (by omega) (by omega)] at hrec
    cases hrec

/-- On a collection of more than `INT_MAX` pairs `sort()` has no result: its
call of `keys()` has none. -/
theorem sort_overflows [LinearOrder K] [Inhabited K] [Inhabited V] (c : ArrayListCollection K V)
    (out : ArrayList K) (h : INT_MAX < c.size) : c.sort out = none := by
  have hk : c.keys out = none :=
    keys_loop_overflows c c.size 0 default out (Nat.zero_le _) (by omega)
  simp only [sort, hk, Option.none_bind]

end ArrayListCollection

namespace ArrayList

variable {T : Type}

/-- The list of `n` copies of `x` in an array of exactly `n` cells. -/
theorem Holds.replicate (n : Nat) (x : T) (hn : 0 < n) :
    (⟨List.replicate n (some x), n, n⟩ : ArrayList T).Holds (List.replicate n x) := by
  refine ⟨(List.length_replicate n x).symm, ?_, ?_, List.length_replicate n (some x), hn⟩
  · intro i hi
    rw [List.length_replicate] at hi
    show ((List.replicate n (some x))[i]?).join = (List.replicate n x)[i]?
    rw [List.getElem?_replicate, List.getElem?_replicate]
    simp [hi]
  · show (List.replicate n x).length ≤ (List.replicate n (some x)).length
    rw [List.length_replicate, List.length_replicate]

end ArrayList

namespace BinSearchCollection

variable {K V : Type} [LinearOrder K] [Inhabited K] [Inhabited V]

/-- A run of `add` calls on a collection whose list holds `l` with sorted keys;
the last call may be the one that makes the list `INT_MAX + 1` pairs long. -/
theorem add_list_spec_succ (kvs : List (K × V)) :
    ∀ {c : BinSearchCollection K V} {l : List (K × V)}, c.kv_list.Holds l →
    (l.map Prod.fst).Sorted (· ≤ ·) → l.length + kvs.length ≤ INT_MAX + 1 →
    ∃ c1 l1, kvs.foldlM (fun c kv => c.add kv.1 kv.2) c = some c1 ∧ c1.kv_list.Holds l1 ∧
      l1.Perm (l ++ kvs) ∧ (l1.map Prod.fst).Sorted (· ≤ ·) := by
  induction kvs with
  | nil =>
    intro c l h hs _
    exact ⟨c, l, rfl, h, by simp, hs⟩
  | cons kv kvs ih =>
    intro c l h hs hlen
    simp only [List.length_cons] at hlen
    obtain ⟨c1, l1, hc1, h1, hp1, hs1⟩ := add_spec h hs (by omega) kv.1 kv.2
    have hl1 : l1.length = l.length + 1 := by
      simpa using hp1.length_eq
    obtain ⟨c2, l2, hc2, h2, hp2, hs2⟩ := ih h1 hs1 (by omega)
    refine ⟨c2, l2, ?_, h2, ?_, hs2⟩
    · rw [List.foldlM_cons, hc1]
      exact hc2
    · refine hp2.trans ?_
      have : (l1 ++ kvs).Perm (((kv.1, kv.2) :: l) ++ kvs) := hp1.append_right kvs
      refine this.trans ?_
      simp only [Prod.mk.eta, List.cons_append]
      exact (List.perm_middle).symm

/-- The collection built by at most `INT_MAX + 1` `add` calls: its list holds the
added pairs, in the order of their keys. -/
theorem add_all_spec_succ (kvs : List (K × V)) (hlen : kvs.length ≤ INT_MAX + 1) :
    ∃ c l, add_all kvs = some c ∧ c.kv_list.Holds l ∧
      l.Perm kvs ∧ (l.map Prod.fst).Sorted (· ≤ ·) := by
  obtain ⟨c, l, hc, h, hp, hs⟩ := add_list_spec_succ kvs (c := empty) (l := [])
    ArrayList.Holds.of_empty (by simp) (by simpa using hlen)
  exact ⟨c, l, hc, h, by simpa using hp, hs⟩

end BinSearchCollection

namespace ArrayListCollection

variable {K V : Type}

/-- A run of `add` calls appends the pairs in order; the last call may be the
one that makes the list `INT_MAX + 1` pairs long. -/
theorem add_list_holds_succ (kvs : List (K × V)) :
    ∀ {c : ArrayListCollection K V} {l : List (K × V)}, c.kv_list.Holds l →
    l.length + kvs.length ≤ INT_MAX + 1 →
    ∃ c1, kvs.foldlM (fun c kv => c.add kv.1 kv.2) c = some c1 ∧
      c1.kv_list.Holds (l ++ kvs) := by
  induction kvs with
  | nil =>
    intro c l h _
    exact ⟨c, rfl, by simpa using h⟩
  | cons kv kvs ih =>
    intro c l h hlen
    simp only [List.length_cons] at hlen
    obtain ⟨a1, ha1, h1⟩ := h.add (by omega) (kv.1, kv.2)
    obtain ⟨c2, hc2, h2⟩ := ih (c := ⟨a1⟩) h1 (by simp; omega)
    refine ⟨c2, ?_, by simpa using h2⟩
    rw [List.foldlM_cons, add, ha1]
    exact hc2

theorem add_all_holds_succ (kvs : List (K × V)) (hlen : kvs.length ≤ INT_MAX + 1) :
    ∃ c, add_all kvs = some c ∧ c.kv_list.Holds kvs := by
  obtain ⟨c, hc, h⟩ := add_list_holds_succ kvs (c := empty) (l := []) ArrayList.Holds.of_empty
    (by simpa using hlen)
  exact ⟨c, hc, by simpa using h⟩

end ArrayListCollection

namespace BinSearchCollection

end BinSearchCollection

/-! ### Sorting and searching: the contracts, and the `int` counters -/

/-- C24: `sort()` of an `ArrayList` (which runs `quick_sort`) on a list of at
most `INT_MAX = 2^31 - 1` items returns, and then the list holds the items it
held before in non-decreasing order; on every list of more items it has no
result, because the first partition loop `for(int i = start+1; i <= end; ++i)`
runs up to `end = length - 1 ≥ INT_MAX` and `++i` overflows the `int`.
`ArrayListCollection::sort` puts the keys of all stored pairs into the empty
output list in non-decreasing order after at most `INT_MAX` `add` calls; after
`INT_MAX + 1` `add` calls the collection is built but `sort` has no result (the
loop of `keys` overflows its counter).  `HashTableCollection::sort` does so on a
table of at most `INT_MAX` chains and pairs. -/
theorem sort_int_counter_overflow {K V : Type} [LinearOrder K] [Inhabited K] [Inhabited V]
    (a : ArrayList K) (l : List K) (h : a.Holds l) (kvs : List (K × V))
    (t : HashTableCollection K V) (ht : t.hash_table.length = t.capacity) :
    (l.length ≤ INT_MAX → ∃ a1 l1, a.sort = some a1 ∧ a1.Holds l1 ∧ a1.to_list = l1 ∧
      l1.Sorted (· ≤ ·) ∧ l1.Perm l) ∧
    (INT_MAX < l.length → a.sort = none) ∧
    (kvs.length ≤ INT_MAX → ∃ c out, ArrayListCollection.add_all kvs = some c ∧
      c.kv_list.to_list = kvs ∧ c.sort ArrayList.empty = some out ∧
      out.to_list.Sorted (· ≤ ·) ∧ out.to_list.Perm (kvs.map Prod.fst)) ∧
    (kvs.length = INT_MAX + 1 → ∃ c, ArrayListCollection.add_all kvs = some c ∧
      c.kv_list.to_list = kvs ∧ c.sort ArrayList.empty = none) ∧
    (t.pairs.length ≤ INT_MAX → t.capacity ≤ INT_MAX →
      ∃ out, t.sort ArrayList.empty = some out ∧
        out.to_list.Sorted (· ≤ ·) ∧ out.to_list.Perm (t.pairs.map Prod.fst)) := by
  refine ⟨fun hlen => ?_, fun hbig => ?_, fun hkvs => ?_, fun hkvs => ?_, fun htl htc => ?_⟩
  · obtain ⟨a1, l1, h1, hh, hp, hs⟩ := ArrayList.quick_sort_spec a l h hlen
    exact ⟨a1, l1, h1, hh, hh.to_list_eq, hs, hp⟩
  · exact ArrayList.sort_overflow a (by rw [h.length]; exact hbig)
  · obtain ⟨c, hc, hh⟩ := ArrayListCollection.add_all_holds kvs hkvs
    obtain ⟨out, l1, ho, hho, hp, hs⟩ := ArrayListCollection.sort_keys_spec hh
      ArrayList.Holds.of_empty (by simp only [List.length_nil]; omega)
    rw [List.nil_append] at hp
    refine ⟨c, out, hc, hh.to_list_eq, ho, ?_, ?_⟩
    · rw [hho.to_list_eq]
      exact hs
    · rw [hho.to_list_eq]
      exact hp
  · obtain ⟨c, hc, hh⟩ := ArrayListCollection.add_all_holds_succ kvs (by omega)
    refine ⟨c, hc, hh.to_list_eq, ArrayListCollection.sort_overflows c _ ?_⟩
    have hsz : c.size = kvs.length := hh.length
    rw [hsz, hkvs]
    exact Nat.lt_succ_self _
  · obtain ⟨out, l1, ho, hho, hp, hs⟩ := HashTableCollection.sort_chains_spec t ht htc
      ArrayList.Holds.of_empty (by simp only [List.length_nil]; omega)
    rw [List.nil_append] at hp
    refine ⟨out, ho, ?_, ?_⟩
    · rw [hho.to_list_eq]
      exact hs
    · rw [hho.to_list_eq]
      exact hp

theorem sort_int_counter_overflow_witness :
    (⟨[some 3, some 1, some 3, some 2, none], 5, 4⟩ : ArrayList Nat).Holds [3, 1, 3, 2] ∧
    (∃ a1 l1, (⟨[some 3, some 1, some 3, some 2, none], 5, 4⟩ : ArrayList Nat).sort = some a1 ∧
      a1.Holds l1 ∧ a1.to_list = l1 ∧ l1.Sorted (· ≤ ·) ∧ l1.Perm [3, 1, 3, 2]) ∧
    (∃ c out, ArrayListCollection.add_all [(2, ()), (1, ()), (2, ())] = some c ∧
      c.kv_list.to_list = [(2, ()), (1, ()), (2, ())] ∧ c.sort ArrayList.empty = some out ∧
      out.to_list.Sorted (· ≤ ·) ∧
      out.to_list.Perm (([(2, ()), (1, ()), (2, ())] : List (Nat × Unit)).map Prod.fst)) ∧
    (∃ out, (⟨[(16, ()), (0, ())] :: [(1, ())] :: List.replicate 14 [], 3, 16⟩ :
        HashTableCollection Nat Unit).sort ArrayList.empty = some out ∧
      out.to_list.Sorted (· ≤ ·) ∧
      out.to_list.Perm ((⟨[(16, ()), (0, ())] :: [(1, ())] :: List.replicate 14 [], 3, 16⟩ :
        HashTableCollection Nat Unit).pairs.map Prod.fst)) ∧
    (⟨List.replicate (INT_MAX + 1) (some 0), INT_MAX + 1, INT_MAX + 1⟩ : ArrayList Nat).Holds
      (List.replicate (INT_MAX + 1) 0) ∧
    (⟨List.replicate (INT_MAX + 1) (some 0), INT_MAX + 1, INT_MAX + 1⟩ : ArrayList Nat).sort
      = none ∧
    (∃ c, ArrayListCollection.add_all (List.replicate (INT_MAX + 1) ((0 : Nat), ())) = some c ∧
      c.kv_list.to_list = List.replicate (INT_MAX + 1) ((0 : Nat), ()) ∧
      c.sort ArrayList.empty = none) :=
  ⟨⟨rfl, by decide, by decide, rfl, by decide⟩,
    (sort_int_counter_overflow
      (⟨[some 3, some 1, some 3, some 2, none], 5, 4⟩ : ArrayList Nat) [3, 1, 3, 2]
      ⟨rfl, by decide, by decide, rfl, by decide⟩
      [(2, ()), (1, ()), (2, ())]
      (⟨[(16, ()), (0, ())] :: [(1, ())] :: List.replicate 14 [], 3, 16⟩ :
        HashTableCollection Nat Unit) rfl).1 (by decide),
    (sort_int_counter_overflow
      (⟨[some 3, some 1, some 3, some 2, none], 5, 4⟩ : ArrayList Nat) [3, 1, 3, 2]
      ⟨rfl, by decide, by decide, rfl, by decide⟩
      [(2, ()), (1, ()), (2, ())]
      (⟨[(16, ()), (0, ())] :: [(1, ())] :: List.replicate 14 [], 3, 16⟩ :
        HashTableCollection Nat Unit) rfl).2.2.1 (by decide),
    (sort_int_counter_overflow
      (⟨[some 3, some 1, some 3, some 2, none], 5, 4⟩ : ArrayList Nat) [3, 1, 3, 2]
      ⟨rfl, by decide, by decide, rfl, by decide⟩
      [(2, ()), (1, ()), (2, ())]
      (⟨[(16, ()), (0, ())] :: [(1, ())] :: List.replicate 14 [], 3, 16⟩ :
        HashTableCollection Nat Unit) rfl).2.2.2.2 (by decide) (by decide),
    ArrayList.Holds.replicate (INT_MAX + 1) 0 (Nat.succ_pos _),
    (sort_int_counter_overflow
      (⟨List.replicate (INT_MAX + 1) (some 0), INT_MAX + 1, INT_MAX + 1⟩ : ArrayList Nat)
      (List.replicate (INT_MAX + 1) 0)
      (ArrayList.Holds.replicate (INT_MAX + 1) 0 (Nat.succ_pos _))
      (List.replicate (INT_MAX + 1) ((0 : Nat), ()))
      (⟨[(16, ()), (0, ())] :: [(1, ())] :: List.replicate 14 [], 3, 16⟩ :
        HashTableCollection Nat Unit) rfl).2.1
      (lt_of_lt_of_eq (Nat.lt_succ_self _) (List.length_replicate _ _).symm),
    (sort_int_counter_overflow
      (⟨List.replicate (INT_MAX + 1) (some 0), INT_MAX + 1, INT_MAX + 1⟩ : ArrayList Nat)
      (List.replicate (INT_MAX + 1) 0)
      (ArrayList.Holds.replicate (INT_MAX + 1) 0 (Nat.succ_pos _))
      (List.replicate (INT_MAX + 1) ((0 : Nat), ()))
      (⟨[(16, ()), (0, ())] :: [(1, ())] :: List.replicate 14 [], 3, 16⟩ :
        HashTableCollection Nat Unit) rfl).2.2.2.1 (List.length_replicate _ _)⟩

/-- C27: `insertion_sort()` on a list of at most `INT_MAX = 2^31 - 1` items,
duplicates allowed, returns, and then the list holds the items it held before
in non-decreasing order; on every list of more items it has no result, because
the loop `for(int i = 1; i < length; ++i)` reaches `i = INT_MAX` with
`i < length` still true and `++i` overflows the `int`. -/
theorem ArrayList.insertion_sort_int_counter_overflow {T : Type} [LinearOrder T]
    (a : ArrayList T) (l : List T) (h : a.Holds l) :
    (l.length ≤ INT_MAX → ∃ a1 l1, a.insertion_sort = some a1 ∧ a1.Holds l1 ∧ a1.to_list = l1 ∧
      l1.Sorted (· ≤ ·) ∧ l1.Perm l) ∧
    (INT_MAX < l.length → a.insertion_sort = none) := by
  refine ⟨fun hlen => ?_, fun hbig => ?_⟩
  · obtain ⟨a1, l1, h1, hh, hp, hs⟩ := ArrayList.insertion_sort_spec a l h hlen
    exact ⟨a1, l1, h1, hh, hh.to_list_eq, hs, hp⟩
  · exact ArrayList.insertion_sort_overflow a (by rw [h.length]; exact hbig)

theorem ArrayList.insertion_sort_int_counter_overflow_witness :
    (⟨[some 3, some 1, some 3, some 2, none], 5, 4⟩ : ArrayList Nat).Holds [3, 1, 3, 2] ∧
    (∃ a1 l1, (⟨[some 3, some 1, some 3, some 2, none], 5, 4⟩ : ArrayList Nat).insertion_sort
        = some a1 ∧
      a1.Holds l1 ∧ a1.to_list = l1 ∧ l1.Sorted (· ≤ ·) ∧ l1.Perm [3, 1, 3, 2]) ∧
    (⟨List.replicate (INT_MAX + 1) (some 0), INT_MAX + 1, INT_MAX + 1⟩ : ArrayList Nat).Holds
      (List.replicate (INT_MAX + 1) 0) ∧
    (⟨List.replicate (INT_MAX + 1) (some 0), INT_MAX + 1, INT_MAX + 1⟩ :
      ArrayList Nat).insertion_sort = none :=
  ⟨⟨rfl, by decide, by decide, rfl, by decide⟩,
    (ArrayList.insertion_sort_int_counter_overflow
      (⟨[some 3, some 1, some 3, some 2, none], 5, 4⟩ : ArrayList Nat) [3, 1, 3, 2]
      ⟨rfl, by decide, by decide, rfl, by decide⟩).1 (by decide),
    ArrayList.Holds.replicate (INT_MAX + 1) 0 (Nat.succ_pos _),
    (ArrayList.insertion_sort_int_counter_overflow
      (⟨List.replicate (INT_MAX + 1) (some 0), INT_MAX + 1, INT_MAX + 1⟩ : ArrayList Nat)
      (List.replicate (INT_MAX + 1) 0)
      (ArrayList.Holds.replicate (INT_MAX + 1) 0 (Nat.succ_pos _))).2
      (lt_of_lt_of_eq (Nat.lt_succ_self _) (List.length_replicate _ _).symm)⟩

/-- C28: after at most `INT_MAX = 2^31 - 1` `add` calls (duplicates allowed) on
an empty `BinSearchCollection` the list holds the added pairs in non-decreasing
order of their keys, `keys()` puts exactly these keys, in that order, into the
empty output list, and `binsearch` of any key returns: `(false, 0)` on the empty
list, and otherwise the index of a pair with the key or an index right before
or right after which the key belongs.  After `INT_MAX + 1` `add` calls the list
still holds the added pairs in non-decreasing order of their keys, but `keys()`
has no result: its loop `for(int i = 0; i < size(); ++i)` reaches
`i = INT_MAX` and `++i` overflows the `int`. -/
theorem BinSearchCollection.keys_int_counter_overflow {K V : Type} [LinearOrder K]
    [Inhabited K] [Inhabited V] (kvs : List (K × V)) :
    (kvs.length ≤ INT_MAX → ∃ c out, BinSearchCollection.add_all kvs = some c ∧
      c.kv_list.Holds c.kv_list.to_list ∧
      c.kv_list.to_list.Perm kvs ∧
      (c.kv_list.to_list.map Prod.fst).Sorted (· ≤ ·) ∧
      c.keys ArrayList.empty = some out ∧
      out.to_list = c.kv_list.to_list.map Prod.fst ∧
      out.to_list.Sorted (· ≤ ·) ∧ out.to_list.Perm (kvs.map Prod.fst) ∧
      ∀ key, (kvs = [] → c.binsearch key = some (false, 0)) ∧
        (kvs ≠ [] → ∃ r, c.binsearch key = some r ∧
          BinSearchCollection.Answer c.kv_list.to_list key r)) ∧
    (kvs.length = INT_MAX + 1 → ∃ c, BinSearchCollection.add_all kvs = some c ∧
      c.kv_list.Holds c.kv_list.to_list ∧
      c.kv_list.to_list.Perm kvs ∧
      (c.kv_list.to_list.map Prod.fst).Sorted (· ≤ ·) ∧
      c.keys ArrayList.empty = none) := by
  have hb := ArrayList.INT_MAX_lt_size_t
  refine ⟨fun hlen => ?_, fun hbig => ?_⟩
  · obtain ⟨c, l, hc, hh, hp, hs⟩ := BinSearchCollection.add_all_spec kvs hlen
    have hll : l.length = kvs.length := hp.length_eq
    obtain ⟨out, ho, hho⟩ := BinSearchCollection.keys_spec hh ArrayList.Holds.of_empty
      (by simp only [List.length_nil]; omega)
    rw [List.nil_append] at hho
    refine ⟨c, out, hc, ?_⟩
    rw [hh.to_list_eq, hho.to_list_eq]
    refine ⟨hh, hp, hs, ho, rfl, hs, hp.map _, fun key => ⟨?_, ?_⟩⟩
    · intro hk
      subst hk
      exact (BinSearchCollection.binsearch_spec hh hs (by omega) key).1 (List.Perm.eq_nil hp)
    · intro hk
      exact (BinSearchCollection.binsearch_spec hh hs (by omega) key).2
        (fun e => hk (by rw [e] at hp; exact (List.Perm.nil_eq hp).symm))
  · obtain ⟨c, l, hc, hh, hp, hs⟩ := BinSearchCollection.add_all_spec_succ kvs (by omega)
    have hll : l.length = kvs.length := hp.length_eq
    refine ⟨c, hc, ?_⟩
    rw [hh.to_list_eq]
    refine ⟨hh, hp, hs, BinSearchCollection.keys_overflow c _ ?_⟩
    have hsz : c.size = l.length := hh.length
    rw [hsz, hll, hbig]
    exact Nat.lt_succ_self _

theorem BinSearchCollection.keys_int_counter_overflow_witness :
    (∃ c out, BinSearchCollection.add_all [(2, 20), (1, 10), (2, 21), (0, 5)] = some c ∧
      c.kv_list.Holds c.kv_list.to_list ∧
      c.kv_list.to_list.Perm [(2, 20), (1, 10), (2, 21), (0, 5)] ∧
      (c.kv_list.to_list.map Prod.fst).Sorted (· ≤ ·) ∧
      c.keys ArrayList.empty = some out ∧
      out.to_list = c.kv_list.to_list.map Prod.fst ∧
      out.to_list.Sorted (· ≤ ·) ∧
      out.to_list.Perm (([(2, 20), (1, 10), (2, 21), (0, 5)] : List (Nat × Nat)).map Prod.fst) ∧
      ∀ key, (([(2, 20), (1, 10), (2, 21), (0, 5)] : List (Nat × Nat)) = [] →
          c.binsearch key = some (false, 0)) ∧
        (([(2, 20), (1, 10), (2, 21), (0, 5)] : List (Nat × Nat)) ≠ [] →
          ∃ r, c.binsearch key = some r ∧
            BinSearchCollection.Answer c.kv_list.to_list key r)) ∧
    (∃ c, BinSearchCollection.add_all (List.replicate (INT_MAX + 1) ((0 : Nat), ())) = some c ∧
      c.kv_list.Holds c.kv_list.to_list ∧
      c.kv_list.to_list.Perm (List.replicate (INT_MAX + 1) ((0 : Nat), ())) ∧
      (c.kv_list.to_list.map Prod.fst).Sorted (· ≤ ·) ∧
      c.keys ArrayList.empty = none) :=
  ⟨(BinSearchCollection.keys_int_counter_overflow [(2, 20), (1, 10), (2, 21), (0, 5)]).1
      (by decide),
    (BinSearchCollection.keys_int_counter_overflow
      (List.replicate (INT_MAX + 1) ((0 : Nat), ()))).2 (List.length_replicate _ _)⟩

/-- C31: with the identity as hash function (the `std::hash` of the integer
types) and the pairwise distinct keys 0, 16, 1, ..., 10, the twelfth `add`
reaches the load factor 0.75 and calls `resize_and_rehash`, which files every
node of a chain under the hash code of the key at the head of the chain: the
key 0 lands in the chain 16 of the 32 new chains, next to the key 16, and
`find(0, v)` then looks into the chain 0 and returns false.  `size()` is 12,
and before the twelfth `add` the key 0 is found. -/
theorem HashTableCollection.rehash_loses_key :
    (∃ c : HashTableCollection Nat Nat,
      HashTableCollection.add_all id
        [(0, 100), (16, 116), (1, 1), (2, 2), (3, 3), (4, 4), (5, 5), (6, 6), (7, 7), (8, 8),
          (9, 9)] = some c ∧
      c.capacity = 16 ∧ c.size = 11 ∧ c.hash_table[0]? = some [(16, 116), (0, 100)] ∧
      c.find id 0 7 = some (true, 100)) ∧
    (∃ c : HashTableCollection Nat Nat,
      HashTableCollection.add_all id
        [(0, 100), (16, 116), (1, 1), (2, 2), (3, 3), (4, 4), (5, 5), (6, 6), (7, 7), (8, 8),
          (9, 9), (10, 10)] = some c ∧
      c.capacity = 32 ∧ c.size = 12 ∧ c.hash_table[0]? = some [] ∧
      c.hash_table[16]? = some [(0, 100), (16, 116)] ∧
      c.find id 0 7 = some (false, 7) ∧ c.find id 16 7 = some (true, 116)) := by
  refine ⟨⟨_, rfl, ?_, ?_, ?_, ?_⟩, ⟨_, rfl, ?_, ?_, ?_, ?_, ?_, ?_⟩⟩ <;> decide

/-- C35: `rebalance` performs no rotation at a node whose left subtree is
taller by more than 1 when the two subtrees of the left child have equal
heights, and likewise on the right: with both children present the test of the
grandchild heights has the branches `> 0` and `< 0` only, and with one child
absent a rotation needs the present child to have exactly one child.  The node
is returned as it is; a single right rotation would give another tree.  The
subtree `5(3(2, 4), -)` arises from `add` of 5, 3, 7, 2, 4 and `remove(7)`. -/
theorem AVLCollection.Node.rebalance_skips_balanced_child {K V : Type}
    (k lk ak bk rk : K) (v lv av bv rv : V) (h rh gh : Int) (d : Nat)
    (al ar bl br rl rr : AVLCollection.Node K V) :
    AVLCollection.Node.rebalance
        (.node k v h (.node lk lv (rh + 2 + d) (.node ak av gh al ar) (.node bk bv gh bl br))
          (.node rk rv rh rl rr))
      = some (.node k v h (.node lk lv (rh + 2 + d) (.node ak av gh al ar) (.node bk bv gh bl br))
          (.node rk rv rh rl rr)) ∧
    AVLCollection.Node.rebalance
        (.node k v h (.node rk rv rh rl rr)
          (.node lk lv (rh + 2 + d) (.node ak av gh al ar) (.node bk bv gh bl br)))
      = some (.node k v h (.node rk rv rh rl rr)
          (.node lk lv (rh + 2 + d) (.node ak av gh al ar) (.node bk bv gh bl br))) ∧
    AVLCollection.Node.rebalance
        (.node k v h (.node lk lv (2 + d) (.node ak av gh al ar) (.node bk bv gh bl br)) .nil)
      = some (.node k v h (.node lk lv (2 + d) (.node ak av gh al ar) (.node bk bv gh bl br))
          .nil) ∧
    AVLCollection.Node.rebalance
        (.node k v h .nil (.node lk lv (2 + d) (.node ak av gh al ar) (.node bk bv gh bl br)))
      = some (.node k v h .nil
          (.node lk lv (2 + d) (.node ak av gh al ar) (.node bk bv gh bl br))) ∧
    ((AVLCollection.add_all [(5, ()), (3, ()), (7, ()), (2, ()), (4, ())]).bind
        (fun c => c.remove (7 : Nat))).map (fun c => c.root)
      = some (.node 5 () 3 (.node 3 () 2 (.node 2 () 1 .nil .nil) (.node 4 () 1 .nil .nil)) .nil) ∧
    AVLCollection.Node.rotate_right
        (.node (5 : Nat) () 3 (.node 3 () 2 (.node 2 () 1 .nil .nil) (.node 4 () 1 .nil .nil))
          .nil)
      = some (.node 3 () 2 (.node 2 () 1 .nil .nil)
          (.node 5 () 3 (.node 4 () 1 .nil .nil) .nil)) := by
  have h1 : (rh + 2 + (d : Int)) - rh > 1 := by omega
  have h2 : ¬ (rh - (rh + 2 + (d : Int)) > 1) := by omega
  have h3 : rh - (rh + 2 + (d : Int)) < -1 := by omega
  have h4 : (2 + (d : Int)) > 1 := by omega
  refine ⟨?_, ?_, ?_, ?_, by decide, by decide⟩
  · simp [AVLCollection.Node.rebalance, AVLCollection.Node.height?, h1]
  · simp [AVLCollection.Node.rebalance, AVLCollection.Node.height?, h2, h3]
  · simp [AVLCollection.Node.rebalance, h4]
  · simp [AVLCollection.Node.rebalance, h4]

/-- C36: for an AVL node `t` with a right child, `rotate_left(t)` returns the
former right child with `t` as its left child and the former left subtree of
that child as the right subtree of `t`; the in-order key sequence is the same,
and `rotate_right` of the result is `t` again.  Likewise for `rotate_right` of
a node with a left child.  No `height` field is written. -/
theorem AVLCollection.Node.rotate_left_right_inverse {K V : Type}
    (k2 k1 : K) (v2 v1 : V) (h2 h1 : Int) (a b c : AVLCollection.Node K V) (acc : List K) :
    AVLCollection.Node.rotate_left (.node k2 v2 h2 a (.node k1 v1 h1 b c))
      = some (.node k1 v1 h1 (.node k2 v2 h2 a b) c) ∧
    AVLCollection.Node.keys (.node k1 v1 h1 (.node k2 v2 h2 a b) c) acc
      = AVLCollection.Node.keys (.node k2 v2 h2 a (.node k1 v1 h1 b c)) acc ∧
    (AVLCollection.Node.rotate_left (.node k2 v2 h2 a (.node k1 v1 h1 b c))).bind
        AVLCollection.Node.rotate_right
      = some (.node k2 v2 h2 a (.node k1 v1 h1 b c)) ∧
    AVLCollection.Node.rotate_right (.node k2 v2 h2 (.node k1 v1 h1 a b) c)
      = some (.node k1 v1 h1 a (.node k2 v2 h2 b c)) ∧
    AVLCollection.Node.keys (.node k1 v1 h1 a (.node k2 v2 h2 b c)) acc
      = AVLCollection.Node.keys (.node k2 v2 h2 (.node k1 v1 h1 a b) c) acc ∧
    (AVLCollection.Node.rotate_right (.node k2 v2 h2 (.node k1 v1 h1 a b) c)).bind
        AVLCollection.Node.rotate_left
      = some (.node k2 v2 h2 (.node k1 v1 h1 a b) c) ∧
    AVLCollection.Node.rotate_left (.node k2 v2 h2 a .nil) = none ∧
    AVLCollection.Node.rotate_right (.node k2 v2 h2 .nil c) = none := by
  refine ⟨rfl, rfl, rfl, rfl, rfl, rfl, rfl, rfl⟩

/-- C37: after `add` of the keys 10, 5, 15, 3, 7, 20, 2, 4 and `remove` of the
stored key 7, the node 5 has the left child 3 (with the children 2 and 4) and
no right child, and `rebalance` leaves it so.  A following `remove` of the
stored key 20 comes back to the root 10 with a left subtree of stored height 3
and a right subtree of stored height 1, and `rebalance` reads
`lptr->right->height` where `lptr->right` is null: the call has no result. -/
theorem AVLCollection.remove_reads_absent_grandchild :
    ∃ c c1 : AVLCollection Nat Unit,
      AVLCollection.add_all
        [(10, ()), (5, ()), (15, ()), (3, ()), (7, ()), (20, ()), (2, ()), (4, ())] = some c ∧
      AVLCollection.Node.Balanced c.root ∧ AVLCollection.Node.HeightsExact c.root ∧
      c.keys [] = [2, 3, 4, 5, 7, 10, 15, 20] ∧
      c.remove 7 = some c1 ∧
      c1.root = .node 10 () 4
        (.node 5 () 3 (.node 3 () 2 (.node 2 () 1 .nil .nil) (.node 4 () 1 .nil .nil)) .nil)
        (.node 15 () 2 .nil (.node 20 () 1 .nil .nil)) ∧
      c1.remove 20 = none ∧
      AVLCollection.Node.rebalance (.node (10 : Nat) () 4
        (.node 5 () 3 (.node 3 () 2 (.node 2 () 1 .nil .nil) (.node 4 () 1 .nil .nil)) .nil)
        (.node 15 () 1 .nil .nil)) = none ∧
      AVLCollection.Node.height? (.nil : AVLCollection.Node Nat Unit) = none := by
  refine ⟨_, _, rfl, ?_, ?_, ?_, rfl, ?_, ?_, ?_, ?_⟩ <;> decide

/-! ### Array list: `remove`, and `remove` of the array collection -/

namespace ArrayList

variable {T : Type}

/-- The shifting loop of `remove(index)` moves the items after `index` one
place to the left. -/
theorem shift_left_spec (l : List T) (k n : Nat) : ∀ (i : Nat) (a : ArrayList T),
    i + n + 1 = l.length → k ≤ i → l.length ≤ INT_MAX + 1 → l.length ≤ a.items.length →
    (∀ p, p < k → a.read p = l[p]?) →
    (∀ p, k ≤ p → p < i → a.read p = l[p + 1]?) →
    (∀ p, i ≤ p → p < l.length → a.read p = l[p]?) →
    ∃ a1, shift_left n i a = some a1 ∧ a1.items.length = a.items.length ∧
      a1.capacity = a.capacity ∧ a1.length = a.length ∧
      (∀ p, p < k → a1.read p = l[p]?) ∧
      (∀ p, k ≤ p → p + 1 < l.length → a1.read p = l[p + 1]?) := by
  induction n with
  | zero =>
    intro i a hi hki hsmall hroom hlo hmid hhi
    exact ⟨a, rfl, rfl, rfl, rfl, hlo, fun p h1 h2 => hmid p h1 (by omega)⟩
  | succ n ih =>
    intro i a hi hki hsmall hroom hlo hmid hhi
    have hi1 : i + 1 < l.length := by omega
    have hr : a.read (i + 1) = some l[i + 1] := by
      rw [hhi (i + 1) (by omega) hi1, List.getElem?_eq_getElem hi1]
    have hw := write_some (a := a) (i := i) (by omega) l[i + 1]
    obtain ⟨t1, t2, t3⟩ := write_fields hw
    have hinc : int_incr i = some (i + 1) := int_incr_of_lt (by omega)
    simp only [shift_left, hr, hw, hinc, Option.bind_eq_bind, Option.some_bind]
    obtain ⟨a1, hrec, r1, r2, r3, r4, r5⟩ := ih (i + 1) _ (by omega) (by omega) hsmall
      (by rw [t1]; exact hroom)
      (by
        intro p hp
        rw [read_write hw]
        have : p ≠ i := by omega
        simp only [this, if_false]
        exact hlo p hp)
      (by
        intro p hp1 hp2
        rw [read_write hw]
        by_cases hpi : p = i
        · subst hpi
          simp [List.getElem?_eq_getElem hi1]
        · simp only [hpi, if_false]
          exact hmid p hp1 (by omega))
      (by
        intro p hp1 hp2
        rw [read_write hw]
        have : p ≠ i := by omega
        simp only [this, if_false]
        exact hhi p (by omega) hp2)
    exact ⟨a1, hrec, r1.trans t1, r2.trans t2, r3.trans t3, r4, r5⟩

theorem getElem?_eraseIdx_ite (l : List T) (k p : Nat) :
    (l.eraseIdx k)[p]? = if p < k then l[p]? else l[p + 1]? := by
  induction l generalizing k p with
  | nil => simp
  | cons x xs ih =>
    cases k with
    | zero => simp
    | succ k =>
      cases p with
      | zero => simp
      | succ p =>
        simp only [List.eraseIdx_cons_succ, List.getElem?_cons_succ, ih, Nat.add_lt_add_iff_right]

/-- The call `remove(index)` with `index < size()` takes the item at the
position `index` out; with `index ≥ size()` it changes nothing. -/
theorem Holds.remove {a : ArrayList T} {l : List T} (h : a.Holds l)
    (hlen : l.length ≤ INT_MAX + 1) (k : Nat) :
    (k < l.length → ∃ a1, a.remove k = some (true, a1) ∧ a1.Holds (l.eraseIdx k)) ∧
    (l.length ≤ k → a.remove k = some (false, a)) := by
  have hb := INT_MAX_lt_size_t
  constructor
  swap
  · intro hk
    have : k ≥ a.length := by rw [h.length]; exact hk
    simp [ArrayList.remove, this]
  intro hk
  have hge : ¬ k ≥ a.length := by rw [h.length]; omega
  obtain ⟨a1, hsh, s1, s2, s3, s4, s5⟩ := shift_left_spec l k (l.length - 1 - k) k a
    (by omega) (le_refl _) hlen h.room (fun p hp => h.cells p (by omega))
    (fun p hp1 hp2 => absurd hp2 (by omega)) (fun p _ hp2 => h.cells p hp2)
  have hdecr : size_t_decr a1.length = l.length - 1 := by
    rw [s3, h.length, size_t_decr]
    have e : l.length + SIZE_T_MOD - 1 = (l.length - 1) + SIZE_T_MOD := by omega
    rw [e, Nat.add_mod_right, Nat.mod_eq_of_lt (by omega)]
  have hrem : a.remove k = some (true, ⟨a1.items, a1.capacity, l.length - 1⟩) := by
    have hge2 : ¬ k ≥ l.length := by omega
    simp only [ArrayList.remove, hge, hge2, if_false,
      int_of_size_t_of_le (show k ≤ INT_MAX by omega),
      Option.some_bind, h.length, hsh, Option.map_some', hdecr]
  have hel : (l.eraseIdx k).length = l.length - 1 := List.length_eraseIdx_of_lt hk
  refine ⟨_, hrem, ?_, ?_, ?_, ?_, ?_⟩
  · exact hel.symm
  · intro p hp
    rw [hel] at hp
    rw [getElem?_eraseIdx_ite]
    show a1.read p = _
    by_cases hpk : p < k
    · simp only [hpk, if_true]
      exact s4 p hpk
    · simp only [hpk, if_false]
      exact s5 p (by omega) (by omega)
  · rw [hel]
    show l.length - 1 ≤ a1.items.length
    rw [s1]
    have := h.room
    omega
  · show a1.items.length = a1.capacity
    rw [s1, s2]
    exact h.alloc
  · show 0 < a1.capacity
    rw [s2]
    exact h.cap

theorem eraseIdx_insert (l : List T) (k : Nat) (hk : k ≤ l.length) (x : T) :
    (l.take k ++ x :: l.drop k).eraseIdx k = l := by
  have hlen : (l.take k).length = k := by simp [hk]
  rw [List.eraseIdx_append_of_length_le (by rw [hlen]), hlen, Nat.sub_self]
  simp

theorem getD_insert (l : List T) (k : Nat) (hk : k ≤ l.length) (x d : T) :
    (l.take k ++ x :: l.drop k).getD k d = x := by
  have hlen : (l.take k).length = k := by simp [hk]
  rw [List.getD_eq_getElem?_getD, List.getElem?_append_right (by rw [hlen]), hlen, Nat.sub_self]
  simp

end ArrayList

namespace ArrayListCollection

variable {K V : Type} [DecidableEq K]

/-- With no pair of the list carrying the key, the loop of `remove` never ends:
`get` leaves `item` as it is once the index is past the end. -/
theorem remove_loop_absent {c : ArrayListCollection K V} {l : List (K × V)}
    (h : c.kv_list.Holds l) (key : K) (habs : ∀ kv ∈ l, kv.1 ≠ key) (fuel : Nat) :
    ∀ (i : Nat) (item : K × V), item.1 ≠ key → c.remove_loop key fuel i item = none := by
  induction fuel with
  | zero =>
    intro i item hne
    simp [remove_loop, hne]
  | succ fuel ih =>
    intro i item hne
    simp only [remove_loop, hne, ne_eq, not_false_eq_true, if_true, h.get, Option.some_bind]
    apply ih
    by_cases hi : size_t_incr i < l.length
    · simp only [hi, if_true]
      rw [List.getD_eq_getElem _ _ hi]
      exact habs _ (List.getElem_mem _)
    · simp only [hi, if_false]
      exact hne

end ArrayListCollection

/-- C32: on every non-empty `ArrayListCollection` built by `add` calls,
`remove(k)` of a key `k` that is not stored never returns: the loop
`while(item.first != key)` goes on past the end of the list, where `get`
returns false and leaves `item` as it is, so its condition holds in every
round.  (Every `get` itself returns.)  On the empty collection `remove`
returns at once. -/
theorem ArrayListCollection.remove_absent_never_returns {K V : Type} [DecidableEq K]
    [Inhabited K] [Inhabited V] (kvs : List (K × V)) (key : K) (hne : kvs ≠ [])
    (hlen : kvs.length ≤ INT_MAX) (habs : key ∉ kvs.map Prod.fst) :
    ∃ c, ArrayListCollection.add_all kvs = some c ∧ c.size = kvs.length ∧
      (∀ i item, ∃ g, c.kv_list.get i item = some g) ∧
      (∀ fuel, c.remove fuel key = none) ∧
      (ArrayListCollection.empty : ArrayListCollection K V).remove 0 key
        = some ArrayListCollection.empty := by
  obtain ⟨c, hc, hh⟩ := ArrayListCollection.add_all_holds kvs hlen
  have hsz : c.size = kvs.length := hh.length
  refine ⟨c, hc, hsz, fun i item => ⟨_, hh.get i item⟩, fun fuel => ?_, rfl⟩
  have h0 : ¬ c.size = 0 := by
    rw [hsz]
    exact fun e => hne (List.length_eq_zero.mp e)
  have habs1 : ∀ kv ∈ kvs, kv.1 ≠ key := fun kv hkv e =>
    habs (List.mem_map.mpr ⟨kv, hkv, e⟩)
  have hpos : 0 < kvs.length := List.length_pos.mpr hne
  simp only [ArrayListCollection.remove, h0, if_false, hh.get, hpos, if_true, Option.some_bind]
  rw [ArrayListCollection.remove_loop_absent hh key habs1 fuel 0 _ (by
    rw [List.getD_eq_getElem _ _ hpos]
    exact habs1 _ (List.getElem_mem _))]
  rfl

theorem ArrayListCollection.remove_absent_never_returns_witness :
    ([(1, ())] : List (Nat × Unit)) ≠ [] ∧
    ([(1, ())] : List (Nat × Unit)).length ≤ INT_MAX ∧
    2 ∉ ([(1, ())] : List (Nat × Unit)).map Prod.fst ∧
    ∃ c, ArrayListCollection.add_all [((1 : Nat), ())] = some c ∧
      c.size = ([(1, ())] : List (Nat × Unit)).length ∧
      (∀ i item, ∃ g, c.kv_list.get i item = some g) ∧
      (∀ fuel, c.remove fuel 2 = none) ∧
      (ArrayListCollection.empty : ArrayListCollection Nat Unit).remove 0 2
        = some ArrayListCollection.empty :=
  ⟨by decide, by decide, by decide,
    ArrayListCollection.remove_absent_never_returns [(1, ())] 2 (by decide) (by decide)
      (by decide)⟩

/-- C34: on a list that holds the items `l`, at most `INT_MAX = 2^31 - 1` of
them, for every item `x` and index `i`: with `i ≤ size()`, `add(i, x)` returns
true, the list then holds the items before `i`, then `x`, then the former items
from `i` on (also when the array had to be doubled), `get(i)` yields `x`, and a
following `remove(i)` returns true and leaves the items `l` again; with
`i > size()`, `add(i, x)` returns false and changes nothing.  On a list of more
than `INT_MAX` items `add(i, x)` with `i < size()` has no result: the loop
`for(int i = length; i > index; --i)` starts with a length that is no `int`
(or, when the array is full, the copy loop of `resize` overflows its `int`
counter first). -/
theorem ArrayList.add_at_int_counter_overflow {T : Type} (a : ArrayList T) (l : List T)
    (h : a.Holds l) (i : Nat) (x d : T) :
    (l.length ≤ INT_MAX →
      (i ≤ l.length → ∃ a1 a2, a.add_at i x = some (true, a1) ∧
        a1.to_list = l.take i ++ x :: l.drop i ∧ a1.size = l.length + 1 ∧
        a1.get i d = some (true, x) ∧
        a1.remove i = some (true, a2) ∧ a2.to_list = l ∧ a2.size = l.length) ∧
      (l.length < i → a.add_at i x = some (false, a))) ∧
    (INT_MAX < l.length → i < l.length → a.add_at i x = none) := by
  refine ⟨fun hlen => ⟨fun hi => ?_, (h.add_at hlen i x).2⟩, fun hbig hi => ?_⟩
  · obtain ⟨a1, h1, hh1⟩ := (h.add_at hlen i x).1 hi
    have hl1 : (l.take i ++ x :: l.drop i).length = l.length + 1 := by
      simp only [List.length_append, List.length_cons, List.length_take, List.length_drop]
      omega
    obtain ⟨a2, h2, hh2⟩ := (hh1.remove (by rw [hl1]; omega) i).1 (by rw [hl1]; omega)
    rw [ArrayList.eraseIdx_insert l i hi x] at hh2
    refine ⟨a1, a2, h1, hh1.to_list_eq, hh1.length.trans hl1, ?_, h2, hh2.to_list_eq, hh2.length⟩
    rw [hh1.get i d, hl1, if_pos (by omega), ArrayList.getD_insert l i hi x d]
  · exact ArrayList.add_at_overflow a i x (by rw [h.length]; exact hbig)
      (by rw [h.length]; exact hi)

theorem ArrayList.add_at_int_counter_overflow_witness :
    (⟨[some 1, some 2], 2, 2⟩ : ArrayList Nat).Holds [1, 2] ∧
    ((1 ≤ ([1, 2] : List Nat).length → ∃ a1 a2,
      (⟨[some 1, some 2], 2, 2⟩ : ArrayList Nat).add_at 1 7 = some (true, a1) ∧
      a1.to_list = ([1, 2] : List Nat).take 1 ++ 7 :: ([1, 2] : List Nat).drop 1 ∧
      a1.size = ([1, 2] : List Nat).length + 1 ∧
      a1.get 1 0 = some (true, 7) ∧
      a1.remove 1 = some (true, a2) ∧ a2.to_list = [1, 2] ∧
      a2.size = ([1, 2] : List Nat).length) ∧
    (([1, 2] : List Nat).length < 1 →
      (⟨[some 1, some 2], 2, 2⟩ : ArrayList Nat).add_at 1 7
        = some (false, ⟨[some 1, some 2], 2, 2⟩))) ∧
    (⟨List.replicate (INT_MAX + 1) (some 0), INT_MAX + 1, INT_MAX + 1⟩ : ArrayList Nat).Holds
      (List.replicate (INT_MAX + 1) 0) ∧
    (⟨List.replicate (INT_MAX + 1) (some 0), INT_MAX + 1, INT_MAX + 1⟩ : ArrayList Nat).add_at 0 7
      = none :=
  ⟨⟨rfl, by decide, by decide, rfl, by decide⟩,
    (ArrayList.add_at_int_counter_overflow (⟨[some 1, some 2], 2, 2⟩ : ArrayList Nat) [1, 2]
      ⟨rfl, by decide, by decide, rfl, by decide⟩ 1 7 0).1 (by decide),
    ArrayList.Holds.replicate (INT_MAX + 1) 0 (Nat.succ_pos _),
    (ArrayList.add_at_int_counter_overflow
      (⟨List.replicate (INT_MAX + 1) (some 0), INT_MAX + 1, INT_MAX + 1⟩ : ArrayList Nat)
      (List.replicate (INT_MAX + 1) 0)
      (ArrayList.Holds.replicate (INT_MAX + 1) 0 (Nat.succ_pos _)) 0 7 0).2
      (lt_of_lt_of_eq (Nat.lt_succ_self _) (List.length_replicate _ _).symm)
      (lt_of_lt_of_eq (Nat.succ_pos _) (List.length_replicate _ _).symm)⟩

/-! ### Binary search tree: `remove` -/

namespace BSTCollection

namespace Node

variable {K V : Type}

theorem bst_keys_acc (t : Node K V) (acc : List K) : keys t acc = acc ++ keys t [] := by
  induction t generalizing acc with
  | nil => simp [keys]
  | node k v l r ihl ihr =>
    simp only [keys, List.nil_append]
    rw [ihr (keys l acc ++ [k]), ihr (keys l [] ++ [k]), ihl acc]
    simp

theorem bst_keys_node (k : K) (v : V) (l r : Node K V) :
    keys (node k v l r) [] = keys l [] ++ k :: keys r [] := by
  simp only [keys, List.nil_append]
  rw [bst_keys_acc r]
  simp

theorem bst_keys_nil : keys (nil : Node K V) [] = [] := rfl

theorem keys_length_eq_count (t : Node K V) : (keys t []).length = count t := by
  induction t with
  | nil => rfl
  | node k v l r ihl ihr =>
    rw [bst_keys_node, List.length_append, List.length_cons, ihl, ihr, count]
    omega

/-- The walk to the leftmost node takes the first key of the in-order sequence
out of the subtree. -/
theorem detach_leftmost_keys (l : Node K V) : ∀ (k : K) (v : V) (r : Node K V),
    keys (node k v l r) [] = (detach_leftmost k v l r).1.1 :: keys (detach_leftmost k v l r).2 [] ∧
    count (node k v l r) = count (detach_leftmost k v l r).2 + 1 := by
  induction l with
  | nil =>
    intro k v r
    refine ⟨?_, ?_⟩
    · simp only [detach_leftmost, bst_keys_node, bst_keys_nil, List.nil_append]
    · simp only [detach_leftmost, count]
      omega
  | node lk lv ll lr ihl _ =>
    intro k v r
    obtain ⟨h1, h2⟩ := ihl lk lv lr
    simp only [detach_leftmost]
    rw [bst_keys_node, h1, bst_keys_node]
    refine ⟨by simp, ?_⟩
    rw [count, h2, count]
    omega

variable [LinearOrder K]

theorem bst_keys_add (key : K) (val : V) (t : Node K V) (hs : (keys t []).Sorted (· ≤ ·)) :
    (keys (add key val t) []).Sorted (· ≤ ·) ∧ (keys (add key val t) []).Perm (key :: keys t []) ∧
      count (add key val t) = count t + 1 := by
  induction t with
  | nil => simp [add, keys, count]
  | node k v l r ihl ihr =>
    rw [bst_keys_node] at hs
    have hsl : (keys l []).Sorted (· ≤ ·) := (List.pairwise_append.mp hs).1
    have hsr : (keys r []).Sorted (· ≤ ·) :=
      (List.pairwise_cons.mp (List.pairwise_append.mp hs).2.1).2
    by_cases hk : key ≤ k
    · obtain ⟨h1, h2, h3⟩ := ihl hsl
      simp only [add, hk, if_true, bst_keys_node, count]
      refine ⟨AVLCollection.Node.sorted_insert_left hs h1 h2 hk, ?_, by omega⟩
      exact (h2.append_right _).trans (by simp)
    · obtain ⟨h1, h2, h3⟩ := ihr hsr
      simp only [add, hk, if_false, bst_keys_node, count]
      refine ⟨AVLCollection.Node.sorted_insert_right hs h1 h2 (not_le.mp hk), ?_, by omega⟩
      have : (k :: keys (add key val r) []).Perm (key :: k :: keys r []) :=
        (h2.cons k).trans (List.Perm.swap _ _ _)
      exact (this.append_left _).trans List.perm_middle

/-- The `remove` helper on a subtree with strictly ascending keys: the key is
taken out of the in-order sequence; when it is stored the counter goes down by
one and the subtree has one node less, otherwise nothing changes. -/
theorem bst_remove_spec (t : Node K V) (key : K) (n : Nat) (hs : (keys t []).Sorted (· < ·)) :
    keys (remove t key n).1 [] = (keys t []).filter (fun x => decide (x ≠ key)) ∧
    (key ∈ keys t [] → (remove t key n).2 = size_t_decr n ∧
      count (remove t key n).1 + 1 = count t) ∧
    (key ∉ keys t [] → remove t key n = (t, n)) := by
  induction t with
  | nil => simp [remove, keys]
  | node k v l r ihl ihr =>
    rw [bst_keys_node] at hs ⊢
    have hp := List.pairwise_append.mp hs
    have hsl : (keys l []).Sorted (· < ·) := hp.1
    have hkr := List.pairwise_cons.mp hp.2.1
    have hsr : (keys r []).Sorted (· < ·) := hkr.2
    have hlk : ∀ a ∈ keys l [], a < k := fun a ha => hp.2.2 a ha k (List.mem_cons_self _ _)
    have hkR : ∀ b ∈ keys r [], k < b := hkr.1
    by_cases h1 : key < k
    · obtain ⟨e1, e2, e3⟩ := ihl hsl
      have hR : (k :: keys r []).filter (fun x => decide (x ≠ key)) = k :: keys r [] := by
        rw [List.filter_eq_self]
        intro a ha
        rcases List.mem_cons.mp ha with rfl | ha
        · simpa using ne_of_gt h1
        · simpa using ne_of_gt (lt_trans h1 (hkR a ha))
      have hnot : key ∉ k :: keys r [] := by
        intro hm
        rcases List.mem_cons.mp hm with rfl | hm
        · exact lt_irrefl _ h1
        · exact lt_irrefl _ (lt_trans h1 (hkR key hm))
      simp only [remove, h1, if_true, bst_keys_node, List.filter_append, hR, e1, count,
        List.mem_append]
      refine ⟨trivial, fun hm => ?_, fun hm => ?_⟩
      · have hm1 : key ∈ keys l [] := hm.resolve_right hnot
        obtain ⟨a1, a2⟩ := e2 hm1
        exact ⟨a1, by omega⟩
      · rw [e3 fun hm1 => hm (Or.inl hm1)]
    by_cases h2 : key > k
    · obtain ⟨e1, e2, e3⟩ := ihr hsr
      have hL : (keys l []).filter (fun x => decide (x ≠ key)) = keys l [] := by
        rw [List.filter_eq_self]
        intro a ha
        simpa using ne_of_lt (lt_trans (hlk a ha) h2)
      have hk0 : decide (k ≠ key) = true := by simpa using ne_of_lt h2
      have hnot : key ∉ keys l [] := fun hm => lt_irrefl _ (lt_trans (hlk key hm) h2)
      simp only [remove, h1, h2, if_true, if_false, bst_keys_node, List.filter_append,
        List.filter_cons, hk0, hL, e1, count, List.mem_append, List.mem_cons]
      refine ⟨trivial, fun hm => ?_, fun hm => ?_⟩
      · have hm1 : key ∈ keys r [] := by
          rcases hm with hm | rfl | hm
          · exact absurd hm hnot
          · exact absurd h2 (lt_irrefl _)
          · exact hm
        obtain ⟨a1, a2⟩ := e2 hm1
        exact ⟨a1, by omega⟩
      · rw [e3 fun hm1 => hm (Or.inr (Or.inr hm1))]
    · have hk : key = k := le_antisymm (not_lt.mp h2) (not_lt.mp h1)
      subst hk
      have hL : (keys l []).filter (fun x => decide (x ≠ key)) = keys l [] := by
        rw [List.filter_eq_self]
        intro a ha
        simpa using ne_of_lt (hlk a ha)
      have hR : (keys r []).filter (fun x => decide (x ≠ key)) = keys r [] := by
        rw [List.filter_eq_self]
        intro a ha
        simpa using ne_of_gt (hkR a ha)
      have hmem : key ∈ keys l [] ++ key :: keys r [] := by simp
      have hgoal : ∀ res : Node K V × Nat, keys res.1 [] = keys l [] ++ keys r [] →
          res.2 = size_t_decr n → count res.1 + 1 = count (node key v l r) →
          remove (node key v l r) key n = res →
          keys (remove (node key v l r) key n).1 [] =
            (keys l [] ++ key :: keys r []).filter (fun x => decide (x ≠ key)) ∧
          (key ∈ keys l [] ++ key :: keys r [] →
            (remove (node key v l r) key n).2 = size_t_decr n ∧
            count (remove (node key v l r) key n).1 + 1 = count (node key v l r)) ∧
          (key ∉ keys l [] ++ key :: keys r [] →
            remove (node key v l r) key n = (node key v l r, n)) := by
        intro res hk1 hk2 hk3 he
        rw [he]
        refine ⟨?_, fun _ => ⟨hk2, hk3⟩, fun hn => absurd hmem hn⟩
        rw [hk1, List.filter_append, List.filter_cons, hL, hR]
        simp
      cases l with
      | nil =>
        refine hgoal (r, size_t_decr n) (by simp [bst_keys_nil]) rfl (by simp [count]; omega) ?_
        simp [remove]
      | node lk lv ll lr =>
        cases r with
        | nil =>
          refine hgoal (node lk lv ll lr, size_t_decr n) (by simp [bst_keys_nil]) rfl
            (by simp [count]) ?_
          simp [remove]
        | node sk sv sl sr =>
          cases sl with
          | nil =>
            refine hgoal (node sk sv (node lk lv ll lr) sr, size_t_decr n)
              (by simp [bst_keys_node, bst_keys_nil]) rfl (by simp [count]; omega) ?_
            simp [remove]
          | node ak av al ar =>
            obtain ⟨d1, d2⟩ := detach_leftmost_keys al ak av ar
            refine hgoal (node (detach_leftmost ak av al ar).1.1 (detach_leftmost ak av al ar).1.2
                (node lk lv ll lr) (node sk sv (detach_leftmost ak av al ar).2 sr),
              size_t_decr n) ?_ rfl ?_ ?_
            · rw [bst_keys_node, bst_keys_node _ _ _ sr, bst_keys_node sk, d1]
              simp
            · simp only [count] at d2 ⊢
              omega
            · simp [remove]

end Node

variable {K V : Type} [LinearOrder K]

/-- A run of `add` calls keeps the keys in order and the counter equal to the
number of nodes. -/
theorem foldlM_add_sorted (kvs : List (K × V)) : ∀ (c0 : BSTCollection K V),
    c0.node_count = c0.root.count → (c0.keys []).Sorted (· ≤ ·) →
    c0.root.count + kvs.length < SIZE_T_MOD →
    ∃ c, kvs.foldlM (fun c kv => c.add kv.1 kv.2) c0 = some c ∧
      c.node_count = c.root.count ∧ c.root.count = c0.root.count + kvs.length ∧
      (c.keys []).Sorted (· ≤ ·) ∧ (c.keys []).Perm (c0.keys [] ++ kvs.map Prod.fst) := by
  induction kvs with
  | nil =>
    intro c0 hn hs _
    exact ⟨c0, rfl, hn, rfl, hs, by simp⟩
  | cons kv kvs ih =>
    intro c0 hn hs hlen
    simp only [List.length_cons] at hlen
    have hincr : size_t_incr c0.node_count = c0.root.count + 1 := by
      rw [size_t_incr, hn, Nat.mod_eq_of_lt (by omega)]
    obtain ⟨c1, hadd, hn1, hc1, hs1, hp1⟩ : ∃ c1, c0.add kv.1 kv.2 = some c1 ∧
        c1.node_count = c1.root.count ∧ c1.root.count = c0.root.count + 1 ∧
        (c1.keys []).Sorted (· ≤ ·) ∧ (c1.keys []).Perm (kv.1 :: c0.keys []) := by
      by_cases h0 : c0.node_count = 0
      · have hr : c0.root = Node.nil := by
          rw [hn] at h0
          cases hroot : c0.root with
          | nil => rfl
          | node k v l r => rw [hroot, Node.count] at h0; omega
        refine ⟨⟨Node.node kv.1 kv.2 Node.nil Node.nil, size_t_incr c0.node_count⟩,
          by simp [add, h0], ?_, ?_, ?_, ?_⟩
        · rw [hincr, hr]
          rfl
        · rw [hr]
          rfl
        · simp [keys, Node.keys]
        · simp [keys, Node.keys, hr]
      · cases hroot : c0.root with
        | nil => rw [hn, hroot, Node.count] at h0; exact absurd rfl h0
        | node k v l r =>
          have hs0 : (Node.keys (Node.node k v l r) []).Sorted (· ≤ ·) := by
            rw [← hroot]; exact hs
          obtain ⟨a1, a2, a3⟩ := Node.bst_keys_add kv.1 kv.2 (Node.node k v l r) hs0
          refine ⟨⟨Node.add kv.1 kv.2 (Node.node k v l r), size_t_incr c0.node_count⟩,
            by simp [add, h0, hroot], ?_, a3, a1, ?_⟩
          · rw [hincr, hroot]
            exact a3.symm
          · simpa [keys, hroot] using a2
    obtain ⟨c, hc, hnc, hcc, hsc, hpc⟩ := ih c1 hn1 hs1 (by omega)
    refine ⟨c, ?_, hnc, by rw [hcc, hc1, List.length_cons]; omega, hsc, ?_⟩
    · rw [List.foldlM_cons, hadd]
      exact hc
    · refine hpc.trans ?_
      simp only [List.map_cons]
      exact (hp1.append_right _).trans (by simpa using List.perm_middle.symm)

end BSTCollection

/-- C33: after fewer than `2^64` `add` calls with pairwise distinct keys on an
empty `BSTCollection`, `keys()` is strictly ascending and `size()` is the
number of nodes, and for every key `k`: when `k` is stored, `remove(k)` leaves
`keys()` as before without `k` and `size()` one smaller; when `k` is not
stored, the collection is unchanged; either way `keys()` stays strictly
ascending and `size()` stays the number of nodes. -/
theorem BSTCollection.remove_distinct_keys {K V : Type} [LinearOrder K] (kvs : List (K × V))
    (hd : (kvs.map Prod.fst).Nodup) (hlen : kvs.length < SIZE_T_MOD) (k : K) :
    ∃ c, BSTCollection.add_all kvs = some c ∧
      (c.keys []).Sorted (· < ·) ∧ (c.keys []).Perm (kvs.map Prod.fst) ∧
      c.size = kvs.length ∧ c.size = c.root.count ∧
      (k ∈ kvs.map Prod.fst →
        (c.remove k).keys [] = (c.keys []).erase k ∧ (c.remove k).size + 1 = c.size) ∧
      (k ∉ kvs.map Prod.fst → c.remove k = c) ∧
      ((c.remove k).keys []).Sorted (· < ·) ∧ (c.remove k).size = (c.remove k).root.count := by
  obtain ⟨c, hc, hn, hcount, hs, hp⟩ := BSTCollection.foldlM_add_sorted kvs BSTCollection.empty
    rfl (by simp [BSTCollection.keys, BSTCollection.empty, BSTCollection.Node.keys])
    (by simpa [BSTCollection.empty, BSTCollection.Node.count] using hlen)
  have hp1 : (c.keys []).Perm (kvs.map Prod.fst) := by
    simpa [BSTCollection.keys, BSTCollection.empty, BSTCollection.Node.keys] using hp
  have hcount1 : c.root.count = kvs.length := by
    simpa [BSTCollection.empty, BSTCollection.Node.count] using hcount
  have hnd : (c.keys []).Nodup := hp1.nodup_iff.mpr hd
  have hlt : (c.keys []).Sorted (· < ·) := hs.lt_of_le hnd
  obtain ⟨r1, r2, r3⟩ := BSTCollection.Node.bst_remove_spec c.root k c.node_count hlt
  have hsz : c.size = c.root.count := hn
  have hmem : k ∈ kvs.map Prod.fst ↔ k ∈ c.root.keys [] := (hp1.mem_iff).symm
  have hfilter : (c.remove k).keys [] = (c.keys []).filter (fun x => decide (x ≠ k)) := by
    by_cases h0 : c.size > 0
    · simp only [BSTCollection.remove, h0, if_true, BSTCollection.keys]
      exact r1
    · have hnil : c.root = BSTCollection.Node.nil := by
        cases hroot : c.root with
        | nil => rfl
        | node a b l r => rw [hsz, hroot, BSTCollection.Node.count] at h0; omega
      simp [BSTCollection.remove, h0, BSTCollection.keys, hnil, BSTCollection.Node.keys]
  have hrem : c.size > 0 → c.remove k = ⟨(BSTCollection.Node.remove c.root k c.node_count).1,
      (BSTCollection.Node.remove c.root k c.node_count).2⟩ := fun h0 => by
    simp only [BSTCollection.remove, h0, if_true]
  have hpos_of_mem : k ∈ c.root.keys [] → c.size > 0 := fun hm => by
    rw [hsz, ← BSTCollection.Node.keys_length_eq_count]
    exact List.length_pos_of_mem hm
  refine ⟨c, hc, hlt, hp1, hsz.trans hcount1, hsz, fun hk => ?_, fun hk => ?_, ?_, ?_⟩
  · have hm := hmem.mp hk
    obtain ⟨a1, a2⟩ := r2 hm
    refine ⟨?_, ?_⟩
    · rw [hfilter, hnd.erase_eq_filter]
      congr 1
      funext x
      by_cases hx : x = k <;> simp [hx, bne]
    · rw [hrem (hpos_of_mem hm)]
      show (BSTCollection.Node.remove c.root k c.node_count).2 + 1 = c.node_count
      have hpos : 0 < c.node_count := hpos_of_mem hm
      have hb : c.node_count < SIZE_T_MOD := by
        have : c.node_count = kvs.length := hsz.trans hcount1
        omega
      rw [a1, size_t_decr]
      have e : c.node_count + SIZE_T_MOD - 1 = (c.node_count - 1) + SIZE_T_MOD := by omega
      rw [e, Nat.add_mod_right, Nat.mod_eq_of_lt (by omega)]
      omega
  · have hm : k ∉ c.root.keys [] := fun h => hk (hmem.mpr h)
    by_cases h0 : c.size > 0
    · rw [hrem h0, r3 hm]
    · simp [BSTCollection.remove, h0]
  · rw [hfilter]
    exact hlt.filter _
  · by_cases hm : k ∈ c.root.keys []
    · obtain ⟨a1, a2⟩ := r2 hm
      rw [hrem (hpos_of_mem hm)]
      show (BSTCollection.Node.remove c.root k c.node_count).2 =
        (BSTCollection.Node.remove c.root k c.node_count).1.count
      have hpos : 0 < c.node_count := hpos_of_mem hm
      have hb : c.node_count < SIZE_T_MOD := by
        have : c.node_count = kvs.length := hsz.trans hcount1
        omega
      rw [a1, size_t_decr]
      have e : c.node_count + SIZE_T_MOD - 1 = (c.node_count - 1) + SIZE_T_MOD := by omega
      rw [e, Nat.add_mod_right, Nat.mod_eq_of_lt (by omega)]
      have : c.node_count = c.root.count := hn
      omega
    · by_cases h0 : c.size > 0
      · rw [hrem h0, r3 hm]
        exact hn
      · simp only [BSTCollection.remove, h0, if_false]
        exact hn

theorem BSTCollection.remove_distinct_keys_witness :
    (([(5, ()), (2, ()), (8, ()), (7, ()), (9, ()), (6, ())] : List (Nat × Unit)).map
      Prod.fst).Nodup ∧
    ([(5, ()), (2, ()), (8, ()), (7, ()), (9, ()), (6, ())] : List (Nat × Unit)).length
      < SIZE_T_MOD ∧
    ∃ c, BSTCollection.add_all [(5, ()), (2, ()), (8, ()), (7, ()), (9, ()), (6, ())] = some c ∧
      (c.keys []).Sorted (· < ·) ∧
      (c.keys []).Perm (([(5, ()), (2, ()), (8, ()), (7, ()), (9, ()), (6, ())] :
        List (Nat × Unit)).map Prod.fst) ∧
      c.size = ([(5, ()), (2, ()), (8, ()), (7, ()), (9, ()), (6, ())] :
        List (Nat × Unit)).length ∧
      c.size = c.root.count ∧
      (5 ∈ ([(5, ()), (2, ()), (8, ()), (7, ()), (9, ()), (6, ())] : List (Nat × Unit)).map
          Prod.fst →
        (c.remove 5).keys [] = (c.keys []).erase 5 ∧ (c.remove 5).size + 1 = c.size) ∧
      (5 ∉ ([(5, ()), (2, ()), (8, ()), (7, ()), (9, ()), (6, ())] : List (Nat × Unit)).map
          Prod.fst → c.remove 5 = c) ∧
      ((c.remove 5).keys []).Sorted (· < ·) ∧ (c.remove 5).size = (c.remove 5).root.count :=
  ⟨by decide, by decide,
    BSTCollection.remove_distinct_keys [(5, ()), (2, ()), (8, ()), (7, ()), (9, ()), (6, ())]
      (by decide) (by decide) 5⟩

/-! ### Red-black tree: parent back-references -/

namespace RBTCollection

variable {K V : Type}

/-- In a represented subtree the root points back to the node above it and all
children point back to their parents. -/
theorem Rep.children_back {c : RBTCollection K V} {t : Tree K V} : ∀ {par : Ptr}, Rep c.mem par t →
    (t.ptr = none ∨ c.parent t.ptr = some par) ∧
    ∀ a ∈ t.addrs, ∀ n, c.mem a = some n → c.children_point_back a n := by
  induction t with
  | nil =>
    intro par _
    exact ⟨Or.inl rfl, fun a ha => by simp [Tree.addrs] at ha⟩
  | node b k v col l r ihl ihr =>
    intro par h
    obtain ⟨hm, hl, hr⟩ := h
    obtain ⟨l1, l2⟩ := ihl hl
    obtain ⟨r1, r2⟩ := ihr hr
    refine ⟨Or.inr (by rw [Tree.ptr_node, read_parent hm]), ?_⟩
    intro a ha n hn
    simp only [Tree.addrs, List.mem_cons, List.mem_append] at ha
    rcases ha with rfl | ha | ha
    · rw [hm] at hn
      cases hn
      exact ⟨l1, r1⟩
    · exact l2 a ha n hn
    · exact r2 a ha n hn

/-- On a represented path the root of the whole tree has no parent and all
children point back to their parents, as soon as what hangs below the path
does. -/
theorem RepPath.path_children_back {c : RBTCollection K V} {path : Path K V} : ∀ {hole : Ptr},
    RepPath c.mem path hole → (hole = none ∨ c.parent hole = some path.ptr) →
    (path.root_ptr hole = none ∨ c.parent (path.root_ptr hole) = some none) ∧
    ∀ a ∈ path.addrs, ∀ n, c.mem a = some n → c.children_point_back a n := by
  induction path with
  | top =>
    intro hole _ hh
    exact ⟨hh, fun a ha => by simp [Path.addrs] at ha⟩
  | left b k v col up r ih =>
    intro hole h hh
    obtain ⟨hm, hr, hup⟩ := h
    obtain ⟨u1, u2⟩ := ih hup (Or.inr (read_parent hm))
    obtain ⟨r1, r2⟩ := Rep.children_back hr
    refine ⟨u1, ?_⟩
    intro a ha n hn
    simp only [Path.addrs, List.mem_cons, List.mem_append] at ha
    rcases ha with rfl | ha | ha
    · rw [hm] at hn
      cases hn
      exact ⟨hh, r1⟩
    · exact r2 a ha n hn
    · exact u2 a ha n hn
  | right b k v col l up ih =>
    intro hole h hh
    obtain ⟨hm, hl, hup⟩ := h
    obtain ⟨u1, u2⟩ := ih hup (Or.inr (read_parent hm))
    obtain ⟨l1, l2⟩ := Rep.children_back hl
    refine ⟨u1, ?_⟩
    intro a ha n hn
    simp only [Path.addrs, List.mem_cons, List.mem_append] at ha
    rcases ha with rfl | ha | ha
    · rw [hm] at hn
      cases hn
      exact ⟨l1, hh⟩
    · exact l2 a ha n hn
    · exact u2 a ha n hn

/-- A collection that holds a tree has consistent parent back-references. -/
theorem Holds.parents_ok {c : RBTCollection K V} {path : Path K V} {t : Tree K V}
    (h : Holds c path t) : c.parents_consistent (path.addrs ++ t.addrs) := by
  obtain ⟨t1, t2⟩ := Rep.children_back h.rtree
  obtain ⟨p1, p2⟩ := RepPath.path_children_back h.rpath t1
  refine ⟨by rw [h.root]; exact p1, ?_⟩
  intro a ha n hn
  rcases List.mem_append.mp ha with ha | ha
  · exact p2 a ha n hn
  · exact t2 a ha n hn

/-- Where `root` points after a rotation has put the node `a1` in the place of
the node `a2` below the path. -/
theorem Path.root_ptr_cases (path : Path K V) (a2 a1 : Nat) :
    (path.ptr = none → path.root_ptr (some a1) = some a1) ∧
    (path.ptr ≠ none → path.root_ptr (some a1) = path.root_ptr (some a2)) := by
  cases path with
  | top => exact ⟨fun _ => rfl, fun h => absurd rfl h⟩
  | left b k v col up r => exact ⟨fun h => by simp at h, fun _ => rfl⟩
  | right b k v col l up => exact ⟨fun h => by simp at h, fun _ => rfl⟩

end RBTCollection

/-- C39: after every finite sequence of `add` calls on an empty red-black
collection the root has no parent and every child of every node of the tree has
that node as its `parent`.  `rotate_left` at a node `a2` with right child `a1`
in a collection that holds a tree returns, and afterwards the back-references
are consistent again: `a1` has the former parent of `a2` as its parent and `a2`
as its left child, `a2` has `a1` as its parent, the former left subtree of `a1`
is the right subtree of `a2` and points back to `a2`, and `root` is `a1` when
`a2` had no parent and unchanged otherwise.  Likewise for `rotate_right`. -/
theorem RBTCollection.parents_stay_consistent {K V : Type} [LinearOrder K]
    (kvs : List (K × V))
    (cl : RBTCollection K V) (pl : RBTCollection.Path K V) (a2 a1 : Nat) (k2 k1 : K)
    (v2 v1 : V) (c2 c1 : RBTCollection.color_t) (A B C : RBTCollection.Tree K V)
    (hl : RBTCollection.Holds cl pl (.node a2 k2 v2 c2 A (.node a1 k1 v1 c1 B C)))
    (hndl : (pl.addrs ++
      (RBTCollection.Tree.node a2 k2 v2 c2 A (.node a1 k1 v1 c1 B C)).addrs).Nodup)
    (cr : RBTCollection K V) (pr : RBTCollection.Path K V) (b2 b1 : Nat) (j2 j1 : K)
    (w2 w1 : V) (d2 d1 : RBTCollection.color_t) (D E F : RBTCollection.Tree K V)
    (hr : RBTCollection.Holds cr pr (.node b2 j2 w2 d2 (.node b1 j1 w1 d1 D E) F))
    (hndr : (pr.addrs ++
      (RBTCollection.Tree.node b2 j2 w2 d2 (.node b1 j1 w1 d1 D E) F).addrs).Nodup) :
    (∃ c T, RBTCollection.add_all kvs = some c ∧ c.subtree c.next c.root = some T ∧
      T.addrs.length = kvs.length ∧ c.parents_consistent T.addrs) ∧
    (∃ c, cl.rotate_left (some a2) = some c ∧
      c.parents_consistent (pl.addrs ++
        (RBTCollection.Tree.node a2 k2 v2 c2 A (.node a1 k1 v1 c1 B C)).addrs) ∧
      c.parent (some a1) = cl.parent (some a2) ∧ c.left (some a1) = some (some a2) ∧
      c.parent (some a2) = some (some a1) ∧ c.right (some a2) = cl.left (some a1) ∧
      (B.ptr = none ∨ c.parent B.ptr = some (some a2)) ∧
      (cl.parent (some a2) = some none → c.root = some a1) ∧
      (cl.parent (some a2) ≠ some none → c.root = cl.root)) ∧
    (∃ c, cr.rotate_right (some b2) = some c ∧
      c.parents_consistent (pr.addrs ++
        (RBTCollection.Tree.node b2 j2 w2 d2 (.node b1 j1 w1 d1 D E) F).addrs) ∧
      c.parent (some b1) = cr.parent (some b2) ∧ c.right (some b1) = some (some b2) ∧
      c.parent (some b2) = some (some b1) ∧ c.left (some b2) = cr.right (some b1) ∧
      (E.ptr = none ∨ c.parent E.ptr = some (some b2)) ∧
      (cr.parent (some b2) = some none → c.root = some b1) ∧
      (cr.parent (some b2) ≠ some none → c.root = cr.root)) := by
  refine ⟨?_, ?_, ?_⟩
  · obtain ⟨c, T, hc, hst, -, -, -, -, hlen, -⟩ := RBTCollection.add_all_stored kvs
    refine ⟨c, T, hc, hst.snapshot, hlen, ?_⟩
    simpa [RBTCollection.Path.addrs] using hst.holds.parents_ok
  · obtain ⟨c, hrot, hh, -⟩ := hl.rotate_left hndl
    have hp := hh.parents_ok
    have m1 := hh.mem_root
    have m2 : c.mem a2 = some ⟨some k2, some v2, A.ptr, B.ptr, some a1, c2⟩ := hh.rtree.2.1.1
    have n2 := hl.mem_root
    have n1 : cl.mem a1 = some ⟨some k1, some v1, B.ptr, C.ptr, some a2, c1⟩ := hl.rtree.2.2.1
    obtain ⟨q1, q2⟩ := RBTCollection.Path.root_ptr_cases pl a2 a1
    refine ⟨c, hrot, ?_, ?_, ?_, ?_, ?_, ?_, ?_, ?_⟩
    · refine ⟨hp.1, fun a ha n hn => hp.2 a ?_ n hn⟩
      simp only [RBTCollection.Tree.addrs, List.mem_append, List.mem_cons] at ha ⊢
      tauto
    · rw [RBTCollection.read_parent m1, RBTCollection.read_parent n2]
    · rw [RBTCollection.read_left m1]
      rfl
    · rw [RBTCollection.read_parent m2]
    · rw [RBTCollection.read_right m2, RBTCollection.read_left n1]
    · exact (RBTCollection.Rep.children_back hh.rtree.2.1.2.2).1
    · intro e
      rw [RBTCollection.read_parent n2] at e
      rw [hh.root]
      exact q1 (by simpa using e)
    · intro e
      rw [RBTCollection.read_parent n2] at e
      rw [hh.root, hl.root]
      exact q2 (fun h0 => e (by simpa using h0))
  · obtain ⟨c, hrot, hh, -⟩ := hr.rotate_right hndr
    have hp := hh.parents_ok
    have m1 := hh.mem_root
    have m2 : c.mem b2 = some ⟨some j2, some w2, E.ptr, F.ptr, some b1, d2⟩ := hh.rtree.2.2.1
    have n2 := hr.mem_root
    have n1 : cr.mem b1 = some ⟨some j1, some w1, D.ptr, E.ptr, some b2, d1⟩ := hr.rtree.2.1.1
    obtain ⟨q1, q2⟩ := RBTCollection.Path.root_ptr_cases pr b2 b1
    refine ⟨c, hrot, ?_, ?_, ?_, ?_, ?_, ?_, ?_, ?_⟩
    · refine ⟨hp.1, fun a ha n hn => hp.2 a ?_ n hn⟩
      simp only [RBTCollection.Tree.addrs, List.mem_append, List.mem_cons] at ha ⊢
      tauto
    · rw [RBTCollection.read_parent m1, RBTCollection.read_parent n2]
    · rw [RBTCollection.read_right m1]
      rfl
    · rw [RBTCollection.read_parent m2]
    · rw [RBTCollection.read_left m2, RBTCollection.read_right n1]
    · exact (RBTCollection.Rep.children_back hh.rtree.2.2.2.1).1
    · intro e
      rw [RBTCollection.read_parent n2] at e
      rw [hh.root]
      exact q1 (by simpa using e)
    · intro e
      rw [RBTCollection.read_parent n2] at e
      rw [hh.root, hr.root]
      exact q2 (fun h0 => e (by simpa using h0))

theorem RBTCollection.parents_stay_consistent_witness :
    RBTCollection.Holds
      ((RBTCollection.add_all [(2, ()), (1, ()), (3, ())]).getD
        (RBTCollection.empty : RBTCollection Nat Unit))
      RBTCollection.Path.top
      (RBTCollection.Tree.node 0 2 () RBTCollection.color_t.BLACK
        (RBTCollection.Tree.node 1 1 () RBTCollection.color_t.RED .nil .nil)
        (RBTCollection.Tree.node 2 3 () RBTCollection.color_t.RED .nil .nil)) ∧
    ((RBTCollection.Path.top : RBTCollection.Path Nat Unit).addrs ++
      (RBTCollection.Tree.node 0 2 () RBTCollection.color_t.BLACK
        (RBTCollection.Tree.node 1 1 () RBTCollection.color_t.RED .nil .nil)
        (RBTCollection.Tree.node 2 3 () RBTCollection.color_t.RED .nil .nil)).addrs).Nodup ∧
    (∃ c T, RBTCollection.add_all [((2 : Nat), ()), (1, ()), (3, ())] = some c ∧
      c.subtree c.next c.root = some T ∧
      T.addrs.length = ([(2, ()), (1, ()), (3, ())] : List (Nat × Unit)).length ∧
      c.parents_consistent T.addrs) ∧
    (∃ c, ((RBTCollection.add_all [(2, ()), (1, ()), (3, ())]).getD
        (RBTCollection.empty : RBTCollection Nat Unit)).rotate_left (some 0) = some c ∧
      c.parents_consistent ((RBTCollection.Path.top : RBTCollection.Path Nat Unit).addrs ++
        (RBTCollection.Tree.node 0 2 () RBTCollection.color_t.BLACK
        (RBTCollection.Tree.node 1 1 () RBTCollection.color_t.RED .nil .nil)
        (RBTCollection.Tree.node 2 3 () RBTCollection.color_t.RED .nil .nil)).addrs) ∧
      c.parent (some 2) = ((RBTCollection.add_all [(2, ()), (1, ()), (3, ())]).getD
        (RBTCollection.empty : RBTCollection Nat Unit)).parent (some 0) ∧
      c.left (some 2) = some (some 0) ∧
      c.parent (some 0) = some (some 2) ∧
      c.right (some 0) = ((RBTCollection.add_all [(2, ()), (1, ()), (3, ())]).getD
        (RBTCollection.empty : RBTCollection Nat Unit)).left (some 2) ∧
      ((RBTCollection.Tree.nil : RBTCollection.Tree Nat Unit).ptr = none ∨
        c.parent (RBTCollection.Tree.nil : RBTCollection.Tree Nat Unit).ptr = some (some 0)) ∧
      (((RBTCollection.add_all [(2, ()), (1, ()), (3, ())]).getD
        (RBTCollection.empty : RBTCollection Nat Unit)).parent (some 0) = some none → c.root = some 2) ∧
      (((RBTCollection.add_all [(2, ()), (1, ()), (3, ())]).getD
        (RBTCollection.empty : RBTCollection Nat Unit)).parent (some 0) ≠ some none →
        c.root = ((RBTCollection.add_all [(2, ()), (1, ()), (3, ())]).getD
        (RBTCollection.empty : RBTCollection Nat Unit)).root)) ∧
    (∃ c, ((RBTCollection.add_all [(2, ()), (1, ()), (3, ())]).getD
        (RBTCollection.empty : RBTCollection Nat Unit)).rotate_right (some 0) = some c ∧
      c.parents_consistent ((RBTCollection.Path.top : RBTCollection.Path Nat Unit).addrs ++
        (RBTCollection.Tree.node 0 2 () RBTCollection.color_t.BLACK
        (RBTCollection.Tree.node 1 1 () RBTCollection.color_t.RED .nil .nil)
        (RBTCollection.Tree.node 2 3 () RBTCollection.color_t.RED .nil .nil)).addrs) ∧
      c.parent (some 1) = ((RBTCollection.add_all [(2, ()), (1, ()), (3, ())]).getD
        (RBTCollection.empty : RBTCollection Nat Unit)).parent (some 0) ∧
      c.right (some 1) = some (some 0) ∧
      c.parent (some 0) = some (some 1) ∧
      c.left (some 0) = ((RBTCollection.add_all [(2, ()), (1, ()), (3, ())]).getD
        (RBTCollection.empty : RBTCollection Nat Unit)).right (some 1) ∧
      ((RBTCollection.Tree.nil : RBTCollection.Tree Nat Unit).ptr = none ∨
        c.parent (RBTCollection.Tree.nil : RBTCollection.Tree Nat Unit).ptr = some (some 0)) ∧
      (((RBTCollection.add_all [(2, ()), (1, ()), (3, ())]).getD
        (RBTCollection.empty : RBTCollection Nat Unit)).parent (some 0) = some none → c.root = some 1) ∧
      (((RBTCollection.add_all [(2, ()), (1, ()), (3, ())]).getD
        (RBTCollection.empty : RBTCollection Nat Unit)).parent (some 0) ≠ some none →
        c.root = ((RBTCollection.add_all [(2, ()), (1, ()), (3, ())]).getD
        (RBTCollection.empty : RBTCollection Nat Unit)).root)) :=
  ⟨⟨by decide, trivial, by decide, ⟨by decide, trivial, trivial⟩, ⟨by decide, trivial, trivial⟩⟩,
    by decide,
    RBTCollection.parents_stay_consistent [(2, ()), (1, ()), (3, ())]
      ((RBTCollection.add_all [(2, ()), (1, ()), (3, ())]).getD
        (RBTCollection.empty : RBTCollection Nat Unit))
      RBTCollection.Path.top 0 2 2 3 () () RBTCollection.color_t.BLACK RBTCollection.color_t.RED
      (RBTCollection.Tree.node 1 1 () RBTCollection.color_t.RED .nil .nil) .nil .nil
      ⟨by decide, trivial, by decide, ⟨by decide, trivial, trivial⟩,
        ⟨by decide, trivial, trivial⟩⟩
      (by decide)
      ((RBTCollection.add_all [(2, ()), (1, ()), (3, ())]).getD
        (RBTCollection.empty : RBTCollection Nat Unit))
      RBTCollection.Path.top 0 1 2 1 () () RBTCollection.color_t.BLACK RBTCollection.color_t.RED
      .nil .nil (RBTCollection.Tree.node 2 3 () RBTCollection.color_t.RED .nil .nil)
      ⟨by decide, trivial, by decide, ⟨by decide, trivial, trivial⟩,
        ⟨by decide, trivial, trivial⟩⟩
      (by decide)⟩

/-! ### Red-black tree: the first case of `remove_rebalance` -/

/-- C38, as amended: in `remove_rebalance(x, going_right)` with `x` BLACK, a
rotation is performed at `x` whenever the child of `x` on the side that is not
about to be entered is RED: `rotate_right(x)` when going right with a RED left
child, `rotate_left(x)` when going left with a RED right child, after which `x`
is painted RED and that child BLACK.  When only the child on the side about to
be entered is RED, nothing is done. -/
theorem RBTCollection.remove_rebalance_rotates_away_side {K V : Type}
    (c : RBTCollection K V) (x p t lptr rptr : RBTCollection.Ptr) (lred rred : Bool)
    (hx : c.color x = some RBTCollection.color_t.BLACK) (hp : c.parent x = some p)
    (ht : c.sibling x p = some t) (hl : c.left x = some lptr) (hr : c.right x = some rptr)
    (hlr : c.is_red lptr = some lred) (hrr : c.is_red rptr = some rred) :
    (lred = true → c.remove_rebalance x true =
      (c.rotate_right x).bind fun c1 =>
        (c1.set_color x RBTCollection.color_t.RED).bind fun c2 =>
          c2.set_color lptr RBTCollection.color_t.BLACK) ∧
    (rred = true → c.remove_rebalance x false =
      (c.rotate_left x).bind fun c1 =>
        (c1.set_color x RBTCollection.color_t.RED).bind fun c2 =>
          c2.set_color rptr RBTCollection.color_t.BLACK) ∧
    (lred = false → rred = true → c.remove_rebalance x true = some c) ∧
    (rred = false → lred = true → c.remove_rebalance x false = some c) := by
  have hne : ¬ (RBTCollection.color_t.BLACK = RBTCollection.color_t.RED) := by decide
  refine ⟨?_, ?_, ?_, ?_⟩
  · intro h1
    subst h1
    simp [RBTCollection.remove_rebalance, RBTCollection.remove_case1, RBTCollection.or_else,
      hx, hp, ht, hl, hr, hlr, hne]
  · intro h1
    subst h1
    cases lred <;>
      simp [RBTCollection.remove_rebalance, RBTCollection.remove_case1, RBTCollection.or_else,
        hx, hp, ht, hl, hr, hlr, hrr, hne]
  · intro h1 h2
    subst h1 h2
    simp [RBTCollection.remove_rebalance, RBTCollection.remove_case1, RBTCollection.or_else,
      hx, hp, ht, hl, hr, hlr, hrr, hne]
  · intro h1 h2
    subst h1 h2
    simp [RBTCollection.remove_rebalance, RBTCollection.remove_case1, RBTCollection.or_else,
      hx, hp, ht, hl, hr, hlr, hrr, hne]

/-- C38, counterexample: after `add` of the keys 1 and 2 the root 1 is BLACK
with the RED right child 2 and no left child.  With the sentinel of `remove` in
place, `remove_rebalance(root, true)`, about to enter the side of the RED
child, performs no rotation: it leaves the collection as it is, the root still
the right child of the sentinel and the parent of the node 2. -/
theorem RBTCollection.remove_rebalance_keeps_nav_side_red :
    ∃ c0 c : RBTCollection Nat Unit,
      RBTCollection.add_all [(1, ()), (2, ())] = some c0 ∧ c0.remove_setup = some c ∧
      c.root = some 0 ∧ c.key (some 0) = some 1 ∧
      c.color (some 0) = some RBTCollection.color_t.BLACK ∧
      c.left (some 0) = some none ∧ c.right (some 0) = some (some 1) ∧
      c.key (some 1) = some 2 ∧ c.color (some 1) = some RBTCollection.color_t.RED ∧
      c.parent (some 0) = some (some 2) ∧ c.right (some 2) = some (some 0) ∧
      c.remove_rebalance (some 0) true = some c ∧
      (∃ c1, c.rotate_left (some 0) = some c1 ∧ c1.right (some 2) = some (some 1)) := by
  refine ⟨_, _, rfl, rfl, ?_, ?_, ?_, ?_, ?_, ?_, ?_, ?_, ?_, rfl, ⟨_, rfl, ?_⟩⟩ <;> decide

theorem RBTCollection.remove_rebalance_rotates_away_side_witness :
    (((RBTCollection.add_all [(2, ()), (1, ())]).bind RBTCollection.remove_setup).getD
      (RBTCollection.empty : RBTCollection Nat Unit)).color (some 0)
        = some RBTCollection.color_t.BLACK ∧
    (((RBTCollection.add_all [(2, ()), (1, ())]).bind RBTCollection.remove_setup).getD
      (RBTCollection.empty : RBTCollection Nat Unit)).is_red (some 1) = some true ∧
    ((true = true → (((RBTCollection.add_all [(2, ()), (1, ())]).bind
        RBTCollection.remove_setup).getD
        (RBTCollection.empty : RBTCollection Nat Unit)).remove_rebalance (some 0) true =
      ((((RBTCollection.add_all [(2, ()), (1, ())]).bind RBTCollection.remove_setup).getD
        (RBTCollection.empty : RBTCollection Nat Unit)).rotate_right (some 0)).bind fun c1 =>
        (c1.set_color (some 0) RBTCollection.color_t.RED).bind fun c2 =>
          c2.set_color (some 1) RBTCollection.color_t.BLACK) ∧
    (false = true → (((RBTCollection.add_all [(2, ()), (1, ())]).bind
        RBTCollection.remove_setup).getD
        (RBTCollection.empty : RBTCollection Nat Unit)).remove_rebalance (some 0) false =
      ((((RBTCollection.add_all [(2, ()), (1, ())]).bind RBTCollection.remove_setup).getD
        (RBTCollection.empty : RBTCollection Nat Unit)).rotate_left (some 0)).bind fun c1 =>
        (c1.set_color (some 0) RBTCollection.color_t.RED).bind fun c2 =>
          c2.set_color none RBTCollection.color_t.BLACK) ∧
    (true = false → false = true → (((RBTCollection.add_all [(2, ()), (1, ())]).bind
        RBTCollection.remove_setup).getD
        (RBTCollection.empty : RBTCollection Nat Unit)).remove_rebalance (some 0) true =
      some (((RBTCollection.add_all [(2, ()), (1, ())]).bind RBTCollection.remove_setup).getD
        (RBTCollection.empty : RBTCollection Nat Unit))) ∧
    (false = false → true = true → (((RBTCollection.add_all [(2, ()), (1, ())]).bind
        RBTCollection.remove_setup).getD
        (RBTCollection.empty : RBTCollection Nat Unit)).remove_rebalance (some 0) false =
      some (((RBTCollection.add_all [(2, ()), (1, ())]).bind RBTCollection.remove_setup).getD
        (RBTCollection.empty : RBTCollection Nat Unit)))) ∧
    (∃ c1, (((RBTCollection.add_all [(2, ()), (1, ())]).bind RBTCollection.remove_setup).getD
        (RBTCollection.empty : RBTCollection Nat Unit)).remove_rebalance (some 0) true
          = some c1 ∧
      c1.right (some 2) = some (some 1) ∧ c1.right (some 1) = some (some 0) ∧
      c1.parent (some 0) = some (some 1) ∧
      c1.color (some 0) = some RBTCollection.color_t.RED ∧
      c1.color (some 1) = some RBTCollection.color_t.BLACK) :=
  ⟨by decide, by decide,
    RBTCollection.remove_rebalance_rotates_away_side
      (((RBTCollection.add_all [(2, ()), (1, ())]).bind RBTCollection.remove_setup).getD
        (RBTCollection.empty : RBTCollection Nat Unit))
      (some 0) (some 2) none (some 1) none true false
      (by decide) (by decide) (by decide) (by decide) (by decide) (by decide) (by decide),
    ⟨_, rfl, by decide, by decide, by decide, by decide, by decide⟩⟩
